import Mathlib

/-!
# FSCK: an ext2 consistency checker, embedded in Lean

The C sources (`fsck.c`, `traverse.c`, `directory.c`, `block.c`, `utility.c`,
`myfsck.c`) are translated function by function.  Conventions:

* The disk image is a map from byte offsets to bytes (`Disk`); a cell is read
  modulo 256.  `read_bytes` copies a window of the disk into a local buffer,
  `write_bytes` copies a buffer back.  Executions in which a positioned read or
  write fails end the process and are outside the model.
* Local buffers are maps from indices to bytes.  Bytes past the end of a block
  buffer are modelled as the bytes that follow the block on disk.
* C `int`/`unsigned int` values are naturals or integers; wrap-around modulo
  `2^32` is written out where the code computes an address in `unsigned int`.
* The process-wide variables `pt_info`, `sb` and `bg_desc_table` form the
  read-only context `Ctx`; the image, `my_inode_map` and the consistency
  reports printed so far form the mutable `State`.
* Loops that need not terminate (`while` over `rec_len`, the recursion of
  `traverse_dir`) take a fuel argument and return `none` when it runs out.
-/

namespace FSCK

/-! ## Bytes, buffers and the image -/

/-- The image (or a local buffer): the byte stored at each offset. -/
abbrev Disk := Nat → Nat

/-- Reduction of an `unsigned int` to 32 bits. -/
def u32 (x : Nat) : Nat := x % 4294967296

/-- Conversion of a C `int` (two's complement) to the offset it denotes modulo `2^32`. -/
def wrap32 (x : Int) : Nat := (x % 4294967296).toNat

/-- Reinterpretation of an `unsigned int` as `int`. -/
def toInt32 (x : Nat) : Int :=
  if x % 4294967296 < 2147483648 then ((x % 4294967296 : Nat) : Int)
  else ((x % 4294967296 : Nat) : Int) - 4294967296

/-- Load of a `__u8` from a buffer: `*(__u8*)(buf + a)`. -/
def rd8 (m : Disk) (a : Nat) : Nat := m a % 256

/-- Load of a little-endian `__u16`: `*(__u16*)(buf + a)`. -/
def rd16 (m : Disk) (a : Nat) : Nat := rd8 m a + 256 * rd8 m (a + 1)

/-- Load of a little-endian `__u32`: `*(__u32*)(buf + a)`. -/
def rd32 (m : Disk) (a : Nat) : Nat :=
  rd8 m a + 256 * rd8 m (a + 1) + 65536 * rd8 m (a + 2) + 16777216 * rd8 m (a + 3)

/-- Byte `i` of the little-endian layout of an `unsigned int`. -/
def le_byte (v i : Nat) : Nat := v / 256 ^ i % 256

/-- Store of a little-endian `__u32` into a buffer: `*(__u32*)(buf + a) = v`. -/
def wr32 (m : Disk) (a v : Nat) : Disk :=
  fun x => if a ≤ x ∧ x < a + 4 then le_byte v (x - a) else m x

/-- Store of a little-endian `__u16` into a buffer. -/
def wr16 (m : Disk) (a v : Nat) : Disk :=
  fun x => if a ≤ x ∧ x < a + 2 then le_byte v (x - a) else m x

/-- Store of one byte into a buffer. -/
def wr8 (m : Disk) (a v : Nat) : Disk :=
  fun x => if x = a then v % 256 else m x

/-- The buffer filled by `read_bytes(base, buf, len)` (readwrite.c). -/
def read_bytes (d : Disk) (base : Nat) : Disk := fun i => d (base + i)

/-- The image after `write_bytes(base, buf, len)` (readwrite.c). -/
def write_bytes (d : Disk) (base : Nat) (buf : Disk) (len : Nat) : Disk :=
  fun x => if base ≤ x ∧ x < base + len then buf (x - base) else d x

/-! ## Constants of the on-disk layout -/

/-- Sector size, `SECTOR_SIZE` of readwrite.h. -/
def SECTOR_SIZE : Nat := 512

/-- Modelled from the spec: `sizeof(struct ext2_inode)` of the absent header
ext2_fs.h, the 128-byte inode record of the second-extended layout. -/
def INODE_REC_SIZE : Nat := 128

/-- Modelled from the spec: offset of `i_mode` (16 bits) in `struct ext2_inode`
of the absent header ext2_fs.h. -/
def OFF_I_MODE : Nat := 0

/-- Modelled from the spec: offset of `i_size` (32 bits) in `struct ext2_inode`
of the absent header ext2_fs.h. -/
def OFF_I_SIZE : Nat := 4

/-- Modelled from the spec: offset of `i_links_count` (16 bits) in
`struct ext2_inode` of the absent header ext2_fs.h. -/
def OFF_I_LINKS : Nat := 26

/-- Modelled from the spec: offset of `i_block[0]` in `struct ext2_inode` of the
absent header ext2_fs.h; the fifteen 32-bit pointers follow one another. -/
def OFF_I_BLOCK : Nat := 40

/-- Modelled from the spec: `sizeof(struct ext2_group_desc)` of the absent
header ext2_fs.h. -/
def GROUP_DESC_SIZE : Nat := 32

/-- Modelled from the spec: `EXT2_NDIR_BLOCKS` of the absent header ext2_fs.h,
the number of direct pointers; `EXT2_IND_BLOCK`, `EXT2_DIND_BLOCK` and
`EXT2_TIND_BLOCK` are 12, 13 and 14. -/
def EXT2_NDIR_BLOCKS : Nat := 12

/-- Modelled from the spec: `EXT2_ROOT_INO` of the absent header ext2_fs.h
(inode 2 is root). -/
def EXT2_ROOT_INO : Nat := 2

/-- Modelled from the spec: the directory-entry file-type code `EXT2_FT_DIR` of
the absent header ext2_fs.h. -/
def EXT2_FT_DIR : Nat := 2

/-- Modelled from the spec: the `i_mode` type nibble `EXT2_S_IFDIR` of the
absent header ext2_fs.h. -/
def EXT2_S_IFDIR : Nat := 0x4000

/-- Macro `EXT2_S_ISDIR(m)` of utility.h: `((m) & 0xf000) == EXT2_S_IFDIR`. -/
def EXT2_S_ISDIR (m : Nat) : Bool := m / 4096 % 16 * 4096 == EXT2_S_IFDIR

/-! ## Context and state -/

/-- One entry of `bg_desc_table`: the block numbers kept of a group descriptor. -/
structure GroupDesc where
  bg_block_bitmap : Nat
  bg_inode_bitmap : Nat
  bg_inode_table : Nat

/-- The globals `pt_info`, `sb` and `bg_desc_table` of fsck.c.  The table is
indexed by a C `int`; cells outside `0 .. num_groups - 1` stand for whatever
memory surrounds the allocation. -/
structure Ctx where
  start_sec : Nat
  base : Nat
  block_size : Nat
  inode_size : Nat
  num_blocks : Nat
  blocks_per_group : Nat
  num_inodes : Nat
  inodes_per_group : Nat
  num_groups : Nat
  bg_desc_table : Int → GroupDesc

/-- A consistency report printed by the repair passes, with the numbers it
prints.  The two reports of the directory walk carry in addition, first, the
image offset written by the repair that follows the `printf`. -/
inductive Report where
  | self_err (offset stored expected : Nat)
  | parent_err (offset dir expected : Nat)
  | adopt (ino : Nat)
  | link_err (ino actual stored : Nat)
  | bitmap_err (bit group got : Nat)
  deriving DecidableEq, Repr

/-- The mutable state: the image, `my_inode_map` (cells above `num_inodes`
stand for the memory behind the allocation) and the reports printed so far. -/
structure State where
  disk : Disk
  inode_map : Nat → Nat
  log : List Report

/-- Function `get_inode_addr` (utility.c).  `/` and `%` of C truncate toward
zero; the `int` result is kept as an offset modulo `2^32`. -/
def get_inode_addr (c : Ctx) (inode_num : Int) : Nat :=
  let group_index := Int.tdiv (inode_num - 1) c.inodes_per_group
  let inode_index := Int.tmod (inode_num - 1) c.inodes_per_group
  let pt_base : Int := c.start_sec * SECTOR_SIZE
  let table_offset : Int := (c.bg_desc_table group_index).bg_inode_table * c.block_size
  let inode_offset : Int := inode_index * c.inode_size
  wrap32 (pt_base + table_offset + inode_offset)

/-- Byte address of a block: `pt_info.base + blk * sb.block_size`, computed in
`unsigned int`. -/
def blk_addr (c : Ctx) (blk : Nat) : Nat := u32 (c.base + blk * c.block_size)

/-- Field `i_mode` of an inode record held in a buffer. -/
def i_mode (inode : Disk) : Nat := rd16 inode OFF_I_MODE

/-- Field `i_size` of an inode record held in a buffer. -/
def i_size (inode : Disk) : Nat := rd32 inode OFF_I_SIZE

/-- Field `i_links_count` of an inode record held in a buffer. -/
def i_links_count (inode : Disk) : Nat := rd16 inode OFF_I_LINKS

/-- Field `i_block[k]` of an inode record held in a buffer. -/
def i_block (inode : Disk) (k : Nat) : Nat := rd32 inode (OFF_I_BLOCK + 4 * k)

/-! ## The directory walk (traverse.c) -/

/-- Function `set_inode_num` (fsck.c): four bytes written at `offset`, the
current directory's number for `FIX_SELF` (0), the parent's for `FIX_PARENT` (1). -/
def set_inode_num (d : Disk) (inode_num parent offset fix_flag : Nat) : Disk :=
  if fix_flag = 0 then write_bytes d offset (wr32 (fun _ => 0) 0 inode_num) 4
  else if fix_flag = 1 then write_bytes d offset (wr32 (fun _ => 0) 0 parent) 4
  else d

/-- What the uninitialised local `dir_entry.name` of `traverse_direct_block`
holds when a block walk starts.  It is whatever the stack holds at that moment,
so it may differ from call to call: the model lets it depend on the state
reached and on the byte address of the block that is walked. -/
abbrev Stale := State → Nat → Disk

/-- The local `dir_entry.name` after `memcpy(name, buf + base + 8, name_len)`
and `name[name_len + 1] = 0`; cell `name_len` keeps what it held.  The cells
`0 .. 255` are the 255 bytes of `name` and the byte that pads `struct
ext2_dir_entry_2` to 264 bytes; for `name_len = 255` the store goes to cell
256, which is not part of the structure (see `cnt_after_name`). -/
def load_name (name buf : Disk) (base name_len : Nat) : Disk :=
  fun i =>
    if i = name_len + 1 ∧ name_len < 255 then 0
    else if i < name_len then rd8 buf (base + 8 + i) else name i

/-- The counter `cnt` of `traverse_direct_block` after the store
`dir_entry.name[dir_entry.name_len + 1] = 0` (traverse.c line 122).  For
`name_len = 255` the store goes to byte 264 of `dir_entry`, one byte behind the
structure.  The locals are declared in the order `dir_entry`, `dir_entry_base`,
`cnt` (traverse.c lines 108-112), and in the frame of the built program that
byte is the low byte of `cnt`: it is set to 0 while the higher bytes of `cnt`
stay. -/
def cnt_after_name (name_len cnt : Nat) : Nat :=
  if name_len = 255 then cnt / 256 * 256 else cnt

/-- Test `strcmp(name, ".") == 0`. -/
def is_dot (name : Disk) : Bool := name 0 % 256 == 46 && name 1 % 256 == 0

/-- Test `strcmp(name, "..") == 0`. -/
def is_dotdot (name : Disk) : Bool :=
  name 0 % 256 == 46 && name 1 % 256 == 46 && name 2 % 256 == 0

/-- Lines 115-165 of `traverse_direct_block`: the entry at `dir_entry_base` is
read, the `.` (first) and `..` (second) slot of block 0 are checked and patched
on disk and in the buffer, and the reference count of the entry's inode is
incremented.  `cnt` is the counter as the two checks read it, that is after
the store of line 122 (`cnt_after_name`).  Returns the buffer, the name buffer
and the state. -/
def check_entry (c : Ctx) (block_offset block_num current_dir parent_dir : Nat)
    (dir_entry_base cnt : Nat) (buf name : Disk) (s : State) : Disk × Disk × State :=
  let inode0 := rd32 buf dir_entry_base
  let name_len := rd8 buf (dir_entry_base + 6)
  let name1 := load_name name buf dir_entry_base name_len
  let fix_self := cnt == 1 && block_num == 0 && (!is_dot name1 || inode0 != current_dir)
  let s1 : State :=
    if fix_self then
      { s with disk := set_inode_num s.disk current_dir parent_dir (block_offset + dir_entry_base) 0,
               log := s.log ++ [Report.self_err (block_offset + dir_entry_base) inode0 current_dir] }
    else s
  let buf1 := if fix_self then wr32 buf dir_entry_base current_dir else buf
  let fix_parent := cnt == 2 && block_num == 0 && (!is_dotdot name1 || inode0 != parent_dir)
  let s2 : State :=
    if fix_parent then
      { s1 with disk := set_inode_num s1.disk current_dir parent_dir (block_offset + dir_entry_base) 1,
                log := s1.log ++ [Report.parent_err (block_offset + dir_entry_base) current_dir parent_dir] }
    else s1
  let buf2 := if fix_parent then wr32 buf1 dir_entry_base parent_dir else buf1
  let inode := rd32 buf2 dir_entry_base
  let s3 : State :=
    if inode ≤ c.num_inodes then
      { s2 with inode_map := fun k => if k = inode then s2.inode_map k + 1 else s2.inode_map k }
    else s2
  (buf2, name1, s3)

/-- Function `traverse_direct_block` (traverse.c): the `while` loop over the
entries of one directory block, from `dir_entry_base` with counter `cnt`.
`walk` is `traverse_dir`, called on sub-directories.  `cnt1` is the counter
after the store of line 122, which the checks, the recursion guard and `cnt++`
read. -/
def traverse_direct_block (walk : Nat → Nat → State → Option State) (c : Ctx)
    (block_offset block_num current_dir parent_dir : Nat) :
    Nat → Nat → Nat → Disk → Disk → State → Option State
  | 0, _, _, _, _, _ => none
  | fuel + 1, dir_entry_base, cnt, buf, name, s =>
    if dir_entry_base < c.block_size then
      let file_type := rd8 buf (dir_entry_base + 7)
      let rec_len := rd16 buf (dir_entry_base + 4)
      let cnt1 := cnt_after_name (rd8 buf (dir_entry_base + 6)) cnt
      let r := check_entry c block_offset block_num current_dir parent_dir dir_entry_base cnt1
        buf name s
      let inode := rd32 r.1 dir_entry_base
      if file_type == EXT2_FT_DIR && decide (r.2.2.inode_map inode ≤ 1)
          && (decide (cnt1 > 2) || decide (block_num > 0)) then
        match walk inode current_dir r.2.2 with
        | none => none
        | some s4 =>
          traverse_direct_block walk c block_offset block_num current_dir parent_dir
            fuel (dir_entry_base + rec_len) (cnt1 + 1) r.1 r.2.1 s4
      else
        traverse_direct_block walk c block_offset block_num current_dir parent_dir
          fuel (dir_entry_base + rec_len) (cnt1 + 1) r.1 r.2.1 r.2.2
    else some s

/-- A `for` loop over the indices `is`, threading the state; `none` propagates. -/
def for_each (f : Nat → State → Option State) : List Nat → State → Option State
  | [], s => some s
  | i :: rest, s =>
    match f i s with
    | none => none
    | some s1 => for_each f rest s1

/-- The loop `for (i = 0; i < block_size / 4; i++) { if (buf[i] == 0) break; ... }`
shared by the walkers of indirect blocks: `n` iterations remain, `i` is the index. -/
def indirect_loop (f : Nat → State → Option State) (buf : Disk) :
    Nat → Nat → State → Option State
  | 0, _, s => some s
  | n + 1, i, s =>
    if rd32 buf (4 * i) = 0 then some s
    else
      match f (rd32 buf (4 * i)) s with
      | none => none
      | some s1 => indirect_loop f buf n (i + 1) s1

/-- Function `traverse_singly` (traverse.c): every block listed before the first
zero entry is read and walked as a directory block with `block_num = 1`. -/
def traverse_singly (walk : Nat → Nat → State → Option State) (c : Ctx) (stk : Stale)
    (fuel : Nat) (singly_buf : Disk) (current_dir parent_dir : Nat) (s : State) : Option State :=
  indirect_loop
    (fun blk s1 =>
      traverse_direct_block walk c (blk_addr c blk) 1 current_dir parent_dir
        fuel 0 1 (read_bytes s1.disk (blk_addr c blk)) (stk s1 (blk_addr c blk)) s1)
    singly_buf (c.block_size / 4) 0 s

/-- Function `traverse_doubly` (traverse.c). -/
def traverse_doubly (walk : Nat → Nat → State → Option State) (c : Ctx) (stk : Stale)
    (fuel : Nat) (doubly_buf : Disk) (current_dir parent_dir : Nat) (s : State) : Option State :=
  indirect_loop
    (fun blk s1 =>
      traverse_singly walk c stk fuel (read_bytes s1.disk (blk_addr c blk))
        current_dir parent_dir s1)
    doubly_buf (c.block_size / 4) 0 s

/-- Function `traverse_triply` (traverse.c); as in the source, each block listed
is handed to `traverse_singly`. -/
def traverse_triply (walk : Nat → Nat → State → Option State) (c : Ctx) (stk : Stale)
    (fuel : Nat) (triply_buf : Disk) (current_dir parent_dir : Nat) (s : State) : Option State :=
  indirect_loop
    (fun blk s1 =>
      traverse_singly walk c stk fuel (read_bytes s1.disk (blk_addr c blk))
        current_dir parent_dir s1)
    triply_buf (c.block_size / 4) 0 s

/-- Function `traverse_dir` (traverse.c).  `stk` is the content of the
uninitialised local `dir_entry.name` at the start of each block walk. -/
def traverse_dir (c : Ctx) (stk : Stale) : Nat → Nat → Nat → State → Option State
  | 0, _, _, _ => none
  | fuel + 1, inode_num, parent, s =>
    let inode := read_bytes s.disk (get_inode_addr c (toInt32 inode_num))
    if !EXT2_S_ISDIR (i_mode inode) then some s
    else
      match for_each
          (fun i s1 =>
            if i_block inode i = 0 then some s1
            else
              traverse_direct_block (traverse_dir c stk fuel) c (blk_addr c (i_block inode i)) i
                inode_num parent fuel 0 1 (read_bytes s1.disk (blk_addr c (i_block inode i)))
                (stk s1 (blk_addr c (i_block inode i))) s1)
          (List.range EXT2_NDIR_BLOCKS) s with
      | none => none
      | some s1 =>
        match traverse_singly (traverse_dir c stk fuel) c stk fuel
            (read_bytes s1.disk (blk_addr c (i_block inode 12))) inode_num parent s1 with
        | none => none
        | some s2 =>
          match traverse_doubly (traverse_dir c stk fuel) c stk fuel
              (read_bytes s2.disk (blk_addr c (i_block inode 13))) inode_num parent s2 with
          | none => none
          | some s3 =>
            traverse_triply (traverse_dir c stk fuel) c stk fuel
              (read_bytes s3.disk (blk_addr c (i_block inode 14))) inode_num parent s3

/-! ## File types and name lookup (utility.c, fsck.c) -/

/-- Function `imode_to_filetype` (utility.c).  The `EXT2_S_IS*` macros of
utility.h compare `m & 0xf000` with the type constants `EXT2_S_IF*`, and the
results are the codes `EXT2_FT_*`; both families are modelled from the spec:
they are the values of the absent header ext2_fs.h. -/
def imode_to_filetype (i_mode : Nat) : Nat :=
  let t := i_mode / 4096 % 16 * 4096
  if t = 0xC000 then 6
  else if t = 0xA000 then 7
  else if t = 0x8000 then 1
  else if t = 0x6000 then 4
  else if t = 0x4000 then 2
  else if t = 0x2000 then 3
  else if t = 0x1000 then 5
  else 0

/-- The C string held in a buffer of bytes followed by a terminator. -/
def cstr (bytes : List Nat) : List Nat := bytes.takeWhile (fun b => b != 0)

/-- The `name_len` name bytes of the entry at `base`. -/
def entry_name (buf : Disk) (base name_len : Nat) : List Nat :=
  (List.range name_len).map (fun i => rd8 buf (base + 8 + i))

/-- Function `search_filename_in_dir_block` (utility.c), from entry offset
`dir_entry_base` on; the result is the C `int`. -/
def search_filename_in_dir_block (c : Ctx) (block : Disk) (filename : List Nat) :
    Nat → Nat → Option Int
  | 0, _ => none
  | fuel + 1, dir_entry_base =>
    if dir_entry_base < c.block_size then
      if rd8 block (dir_entry_base + 7) = 0 then some (-1)
      else if filename = cstr (entry_name block dir_entry_base (rd8 block (dir_entry_base + 6))) then
        some (toInt32 (rd32 block dir_entry_base))
      else
        search_filename_in_dir_block c block filename fuel
          (dir_entry_base + rd16 block (dir_entry_base + 4))
    else some (-1)

/-- The loop shared by `search_filename_in_singly`, `_doubly` and `_triply`:
the blocks listed before the first zero entry are searched with `f` until one
returns a positive number. -/
def search_indirect (f : Nat → Option Int) (block : Disk) : Nat → Nat → Option Int
  | 0, _ => some (-1)
  | n + 1, i =>
    if rd32 block (4 * i) = 0 then some (-1)
    else
      match f (rd32 block (4 * i)) with
      | none => none
      | some r => if r > 0 then some r else search_indirect f block n (i + 1)

/-- Function `search_filename_in_singly` (utility.c). -/
def search_filename_in_singly (c : Ctx) (fuel : Nat) (d : Disk) (block : Disk)
    (filename : List Nat) : Option Int :=
  search_indirect
    (fun blk => search_filename_in_dir_block c (read_bytes d (blk_addr c blk)) filename fuel 0)
    block (c.block_size / 4) 0

/-- Function `search_filename_in_doubly` (utility.c). -/
def search_filename_in_doubly (c : Ctx) (fuel : Nat) (d : Disk) (block : Disk)
    (filename : List Nat) : Option Int :=
  search_indirect
    (fun blk => search_filename_in_singly c fuel d (read_bytes d (blk_addr c blk)) filename)
    block (c.block_size / 4) 0

/-- Function `search_filename_in_triply` (utility.c). -/
def search_filename_in_triply (c : Ctx) (fuel : Nat) (d : Disk) (block : Disk)
    (filename : List Nat) : Option Int :=
  search_indirect
    (fun blk => search_filename_in_doubly c fuel d (read_bytes d (blk_addr c blk)) filename)
    block (c.block_size / 4) 0

/-- The tokens `strtok(path, "/")` yields: the maximal runs of bytes other than
`/` (47); `cur` is the run being read, reversed. -/
def path_tokens : List Nat → List Nat → List (List Nat)
  | [], cur => if cur = [] then [] else [cur.reverse]
  | x :: xs, cur =>
    if x = 47 then (if cur = [] then path_tokens xs [] else cur.reverse :: path_tokens xs [])
    else path_tokens xs (x :: cur)

/-- The `for` loop over the direct blocks in `get_inode_by_filepath`: the pair
`(found, ret)` it leaves. -/
def search_direct (c : Ctx) (fuel : Nat) (d : Disk) (inode : Disk) (filename : List Nat) :
    List Nat → Int → Option (Bool × Int)
  | [], ret => some (false, ret)
  | i :: rest, ret =>
    if i_block inode i = 0 then search_direct c fuel d inode filename rest ret
    else
      match search_filename_in_dir_block c (read_bytes d (blk_addr c (i_block inode i)))
          filename fuel 0 with
      | none => none
      | some r => if r > 0 then some (true, r) else search_direct c fuel d inode filename rest r

/-- How one round of the `while` loop of `get_inode_by_filepath` ends: the
function returns `v`, or the loop goes on with `inode_num = v`. -/
inductive Lookup where
  | ret (v : Int)
  | next (v : Int)

/-- One round of the `while` loop of `get_inode_by_filepath` (fsck.c lines
590-668) for the component `filename`.  A `break` in the blocks that search the
indirect pointers leaves the `while` loop, so the function returns `inode_num`. -/
def lookup_component (c : Ctx) (fuel : Nat) (d : Disk) (inode_num : Int)
    (filename : List Nat) : Option Lookup :=
  let inode := read_bytes d (get_inode_addr c inode_num)
  if !EXT2_S_ISDIR (i_mode inode) then some (Lookup.ret (-1))
  else
    match search_direct c fuel d inode filename (List.range EXT2_NDIR_BLOCKS) (-1) with
    | none => none
    | some (true, r) => some (Lookup.next r)
    | some (false, _) =>
      let after13 : Option Lookup :=
        if i_block inode 14 ≠ 0 then
          match search_filename_in_triply c fuel d (read_bytes d (blk_addr c (i_block inode 14)))
              filename with
          | none => none
          | some r3 => if r3 > 0 then some (Lookup.ret inode_num) else some (Lookup.ret (-1))
        else some (Lookup.ret (-1))
      let after12 : Option Lookup :=
        if i_block inode 13 ≠ 0 then
          match search_filename_in_doubly c fuel d (read_bytes d (blk_addr c (i_block inode 13)))
              filename with
          | none => none
          | some r2 => if r2 > 0 then some (Lookup.ret inode_num) else after13
        else after13
      if i_block inode 12 ≠ 0 then
        match search_filename_in_singly c fuel d (read_bytes d (blk_addr c (i_block inode 12)))
            filename with
        | none => none
        | some r1 => if r1 > 0 then some (Lookup.ret inode_num) else after12
      else after12

/-- The `while` loop of `get_inode_by_filepath` over the remaining components. -/
def lookup_path (c : Ctx) (fuel : Nat) (d : Disk) : Int → List (List Nat) → Option Int
  | inode_num, [] => some inode_num
  | inode_num, filename :: rest =>
    match lookup_component c fuel d inode_num filename with
    | none => none
    | some (Lookup.ret v) => some v
    | some (Lookup.next v) => lookup_path c fuel d v rest

/-- Function `get_inode_by_filepath` (fsck.c); the path is its list of bytes. -/
def get_inode_by_filepath (c : Ctx) (fuel : Nat) (d : Disk) (filepath : List Nat) : Option Int :=
  if filepath = [47] then some (EXT2_ROOT_INO : Int)
  else lookup_path c fuel d (EXT2_ROOT_INO : Int) (path_tokens filepath [])

/-- The bytes of the string `/lost+found`. -/
def LOST_FOUND_PATH : List Nat := [47, 108, 111, 115, 116, 43, 102, 111, 117, 110, 100]

/-! ## The end of a directory's entry chain (directory.c) -/

/-- The local `dir_entry.name` after `memcpy(name, buf + base + 8, name_len)`
and `name[name_len] = 0` (directory.c). -/
def copy_name (name buf : Disk) (base name_len : Nat) : Disk :=
  fun i => if i = name_len then 0 else if i < name_len then rd8 buf (base + 8 + i) else name i

/-- The `while (1)` loop of `find_dir_end_in_direct`: the offset of the entry
whose `rec_len` reaches the end of the block, and `dir_entry.name` at that point. -/
def find_last_entry (c : Ctx) (buf : Disk) : Nat → Nat → Disk → Option (Nat × Disk)
  | 0, _, _ => none
  | fuel + 1, dir_entry_base, name =>
    let name1 := copy_name name buf dir_entry_base (rd8 buf (dir_entry_base + 6))
    if dir_entry_base + rd16 buf (dir_entry_base + 4) ≥ c.block_size then
      some (dir_entry_base, name1)
    else find_last_entry c buf fuel (dir_entry_base + rd16 buf (dir_entry_base + 4)) name1

/-- The value of `(name_len - 1) / 4 * 4 + 4` in C `int` arithmetic. -/
def name_size (name_len : Nat) : Nat := (Int.tdiv ((name_len : Int) - 1) 4 * 4 + 4).toNat

/-- The `rec_len` bytes of the local `dir_entry` that `find_dir_end_in_direct`
writes back over the final entry at `base`. -/
def shrunk_entry (buf name : Disk) (base : Nat) : Disk :=
  fun i =>
    if i < 4 then le_byte (rd32 buf base) i
    else if i < 6 then le_byte (8 + name_size (rd8 buf (base + 6))) (i - 4)
    else if i = 6 then rd8 buf (base + 6)
    else if i = 7 then rd8 buf (base + 7)
    else name (i - 8)

/-- Function `find_dir_end_in_direct` (directory.c): the `unsigned int` result
(`-1` is `4294967295`) and the image. -/
def find_dir_end_in_direct (c : Ctx) (fuel : Nat) (stk : Disk) (d : Disk)
    (disk_offset : Nat) (buf : Disk) (newentry_size : Nat) : Option (Nat × Disk) :=
  match find_last_entry c buf fuel 0 stk with
  | none => none
  | some (dir_entry_base, name) =>
    let nsize := name_size (rd8 buf (dir_entry_base + 6))
    if dir_entry_base + 8 + nsize + newentry_size < c.block_size then
      some (u32 (disk_offset + dir_entry_base + 8 + nsize),
        write_bytes d (u32 (disk_offset + dir_entry_base))
          (shrunk_entry buf (copy_name name buf dir_entry_base (rd8 buf (dir_entry_base + 6)))
            dir_entry_base)
          (8 + nsize))
    else some (4294967295, d)

/-- The loop shared by `find_dir_end_singly`, `_doubly` and `_triply`.  The
result of the call `f` is kept in a variable local to the loop body; the loop
is left when that result is non-zero.  Only the image is passed on. -/
def dir_end_indirect (f : Nat → Disk → Option (Nat × Disk)) (buf : Disk) :
    Nat → Nat → Disk → Option Disk
  | 0, _, d => some d
  | n + 1, i, d =>
    if rd32 buf (4 * i) = 0 then some d
    else
      match f (rd32 buf (4 * i)) d with
      | none => none
      | some (r, d1) => if r > 0 then some d1 else dir_end_indirect f buf n (i + 1) d1

/-- Function `find_dir_end_singly` (directory.c): it returns its own `ret`,
which stays `-1`. -/
def find_dir_end_singly (c : Ctx) (fuel : Nat) (stk : Disk) (d : Disk) (singly_buf : Disk)
    (newentry_size : Nat) : Option (Nat × Disk) :=
  match dir_end_indirect
      (fun blk d1 =>
        find_dir_end_in_direct c fuel stk d1 (blk_addr c blk) (read_bytes d1 (blk_addr c blk))
          newentry_size)
      singly_buf (c.block_size / 4) 0 d with
  | none => none
  | some d1 => some (4294967295, d1)

/-- Function `find_dir_end_doubly` (directory.c). -/
def find_dir_end_doubly (c : Ctx) (fuel : Nat) (stk : Disk) (d : Disk) (doubly_buf : Disk)
    (newentry_size : Nat) : Option (Nat × Disk) :=
  match dir_end_indirect
      (fun blk d1 =>
        find_dir_end_singly c fuel stk d1 (read_bytes d1 (blk_addr c blk)) newentry_size)
      doubly_buf (c.block_size / 4) 0 d with
  | none => none
  | some d1 => some (4294967295, d1)

/-- Function `find_dir_end_triply` (directory.c). -/
def find_dir_end_triply (c : Ctx) (fuel : Nat) (stk : Disk) (d : Disk) (triply_buf : Disk)
    (newentry_size : Nat) : Option (Nat × Disk) :=
  match dir_end_indirect
      (fun blk d1 =>
        find_dir_end_doubly c fuel stk d1 (read_bytes d1 (blk_addr c blk)) newentry_size)
      triply_buf (c.block_size / 4) 0 d with
  | none => none
  | some d1 => some (4294967295, d1)

/-- The `for` loop over the direct blocks in `get_dir_entry_end`: `found`, the
`unsigned` value last assigned to the `int ret`, and the image. -/
def dir_end_direct (c : Ctx) (fuel : Nat) (stk : Disk) (inode : Disk) (newentry_size : Nat) :
    List Nat → Nat → Disk → Option (Bool × Nat × Disk)
  | [], ret, d => some (false, ret, d)
  | i :: rest, ret, d =>
    if i_block inode i = 0 then dir_end_direct c fuel stk inode newentry_size rest ret d
    else
      match find_dir_end_in_direct c fuel stk d (blk_addr c (i_block inode i))
          (read_bytes d (blk_addr c (i_block inode i))) newentry_size with
      | none => none
      | some (r, d1) =>
        if toInt32 r > 0 then some (true, r, d1)
        else dir_end_direct c fuel stk inode newentry_size rest r d1

/-- Function `get_dir_entry_end` (directory.c): the `unsigned int` result and
the image. -/
def get_dir_entry_end (c : Ctx) (fuel : Nat) (stk : Disk) (d : Disk) (inode_num : Int)
    (newentry_size : Nat) : Option (Nat × Disk) :=
  let inode := read_bytes d (get_inode_addr c inode_num)
  if !EXT2_S_ISDIR (i_mode inode) then some (4294967295, d)
  else
    match dir_end_direct c fuel stk inode newentry_size (List.range EXT2_NDIR_BLOCKS)
        4294967295 d with
    | none => none
    | some (true, ret, d1) => some (ret, d1)
    | some (false, ret, d1) =>
      match (if i_block inode 12 ≠ 0 then
              find_dir_end_singly c fuel stk d1 (read_bytes d1 (blk_addr c (i_block inode 12)))
                newentry_size
             else some (ret, d1)) with
      | none => none
      | some (ret2, d2) =>
        match (if i_block inode 13 ≠ 0 then
                find_dir_end_doubly c fuel stk d2 (read_bytes d2 (blk_addr c (i_block inode 13)))
                  newentry_size
               else some (ret2, d2)) with
        | none => none
        | some (ret3, d3) =>
          if i_block inode 14 ≠ 0 then
            find_dir_end_triply c fuel stk d3 (read_bytes d3 (blk_addr c (i_block inode 14)))
              newentry_size
          else some (ret3, d3)

/-! ## Pass 2: orphan adoption (fsck.c) -/

/-- The bytes `sprintf(name, "%d", n)` writes for a positive `n`. -/
def decimal (n : Nat) : List Nat := (Nat.toDigits 10 n).map (fun ch => ch.toNat)

/-- The value of `a - b` in `unsigned int` arithmetic. -/
def sub32 (a b : Nat) : Nat := (a % 4294967296 + 4294967296 - b % 4294967296) % 4294967296

/-- The `rec_len` that `put_into_lostfound` gives the new entry:
`(base - pt_base - 1) / block_size * block_size + block_size - (base - pt_base)`
in `unsigned int` arithmetic, stored in 16 bits. -/
def new_rec_len (c : Ctx) (base : Nat) : Nat :=
  (sub32 (sub32 base c.base) 1 / c.block_size * c.block_size + c.block_size
      + 4294967296 - sub32 base c.base) % 4294967296 % 65536

/-- The local `dir_entry` of `put_into_lostfound` as the bytes written. -/
def new_entry (inode_num rec_len name_len file_type : Nat) : Disk :=
  fun i =>
    if i < 4 then le_byte inode_num i
    else if i < 6 then le_byte rec_len (i - 4)
    else if i = 6 then name_len % 256
    else if i = 7 then file_type % 256
    else ((decimal inode_num) ++ [0, 0]).getD (i - 8) 0

/-- Function `put_into_lostfound` (fsck.c): the value returned and the image.
`base` is an `unsigned int`, so the test `base < 0` never holds. -/
def put_into_lostfound (c : Ctx) (fuel : Nat) (stk : Disk) (d : Disk) (inode_num : Nat) :
    Option (Int × Disk) :=
  let inode := read_bytes d (get_inode_addr c inode_num)
  let name_len := ((decimal inode_num).length - 1) % 256
  let file_type := imode_to_filetype (i_mode inode)
  match get_inode_by_filepath c fuel d LOST_FOUND_PATH with
  | none => none
  | some lf_inodenum =>
    match get_dir_entry_end c fuel stk d lf_inodenum (8 + name_len) with
    | none => none
    | some (base, d1) =>
      some (0, write_bytes d1 base (new_entry inode_num (new_rec_len c base) name_len file_type)
        (8 + name_len))

/-- Function `get_parent_id` (fsck.c): the inode number stored in the second
entry of the block `i_block[0]`. -/
def get_parent_id (c : Ctx) (d : Disk) (inode : Disk) : Nat :=
  let buf := read_bytes d (blk_addr c (i_block inode 0))
  rd32 buf (rd16 buf 4)

/-- The array `uref_inodes` of `fix_unreferenced_inode`: the inodes `i` of
`1 .. num_inodes` with `my_inode_map[i] == 0` and `i_links_count > 0`, ascending. -/
def uref_inodes (c : Ctx) (s : State) : List Nat :=
  (List.range' 1 c.num_inodes).filter
    (fun i => s.inode_map i == 0 &&
      decide (i_links_count (read_bytes s.disk (get_inode_addr c i)) > 0))

/-- The loop "begin fixings" of `fix_unreferenced_inode` over the orphans not
yet handled; `earlier` holds `uref_inodes[1 .. i-1]`, the cells the inner loop
`for (j = 1; j <= num && j != i; j++)` compares the parent with. -/
def adopt_loop (c : Ctx) (fuel : Nat) (stk : Disk) : List Nat → List Nat → State → Option State
  | [], _, s => some s
  | uref_i :: rest, earlier, s =>
    let inode := read_bytes s.disk (get_inode_addr c uref_i)
    if !EXT2_S_ISDIR (i_mode inode) || !(earlier.contains (get_parent_id c s.disk inode)) then
      match put_into_lostfound c fuel stk s.disk uref_i with
      | none => none
      | some (_, d1) =>
        adopt_loop c fuel stk rest (earlier ++ [uref_i])
          { s with disk := d1, log := s.log ++ [Report.adopt uref_i] }
    else adopt_loop c fuel stk rest (earlier ++ [uref_i]) s

/-- Function `fix_unreferenced_inode` (fsck.c). -/
def fix_unreferenced_inode (c : Ctx) (fuel : Nat) (stk : Disk) (s : State) : Option State :=
  adopt_loop c fuel stk (uref_inodes c s) [] s

/-! ## Pass 3: link counts (fsck.c) -/

/-- One round of the loop of `fix_link_counts`, for inode `i`. -/
def fix_link_count (c : Ctx) (i : Nat) (s : State) : State :=
  let inode_addr := get_inode_addr c i
  let inode := read_bytes s.disk inode_addr
  if s.inode_map i ≠ i_links_count inode then
    { s with disk := write_bytes s.disk inode_addr (wr16 inode OFF_I_LINKS (s.inode_map i))
               INODE_REC_SIZE,
             log := s.log ++ [Report.link_err i (s.inode_map i) (i_links_count inode)] }
  else s

/-- Function `fix_link_counts` (fsck.c): the loop over `i = 1 .. num_inodes`. -/
def fix_link_counts (c : Ctx) (s : State) : State :=
  (List.range' 1 c.num_inodes).foldl (fun s1 i => fix_link_count c i s1) s

/-! ## Pass 4: the block bitmap (block.c, utility.c, fsck.c) -/

/-- The `while (1)` loop of `ispowerof` (utility.c): `s` when the loop is left. -/
def ispowerof_loop (a : Int) : Nat → Int → Option Int
  | 0, _ => none
  | fuel + 1, s => if s ≤ a then some s else ispowerof_loop a fuel (Int.tdiv s a)

/-- Function `ispowerof` (utility.c). -/
def ispowerof (fuel : Nat) (s a : Int) : Option Bool :=
  if s ≤ 0 ∨ a ≤ 0 then some false
  else
    match ispowerof_loop a fuel s with
    | none => none
    | some s1 => some (Int.tmod s1 a == 0)

/-- The assignment `my_block_map[blk] = 1`. -/
def mark (bm : Nat → Nat) (blk : Nat) : Nat → Nat := fun i => if i = blk then 1 else bm i

/-- The loop `for (i = 0; i < block_size / 4; i++) { if (buf[i] == 0) break; ... }`
of the `mark_block_*` functions; `f` handles one listed block. -/
def mark_loop (f : Nat → (Nat → Nat) → (Nat → Nat)) (buf : Disk) :
    Nat → Nat → (Nat → Nat) → (Nat → Nat)
  | 0, _, bm => bm
  | n + 1, i, bm =>
    if rd32 buf (4 * i) = 0 then bm
    else mark_loop f buf n (i + 1) (f (rd32 buf (4 * i)) bm)

/-- Function `mark_block_singly` (block.c). -/
def mark_block_singly (c : Ctx) (singly_buf : Disk) (bm : Nat → Nat) : Nat → Nat :=
  mark_loop (fun blk bm1 => mark bm1 blk) singly_buf (c.block_size / 4) 0 bm

/-- Function `mark_block_doubly` (block.c). -/
def mark_block_doubly (c : Ctx) (d : Disk) (doubly_buf : Disk) (bm : Nat → Nat) : Nat → Nat :=
  mark_loop
    (fun blk bm1 => mark_block_singly c (read_bytes d (blk_addr c blk)) (mark bm1 blk))
    doubly_buf (c.block_size / 4) 0 bm

/-- Function `mark_block_triply` (block.c). -/
def mark_block_triply (c : Ctx) (d : Disk) (triply_buf : Disk) (bm : Nat → Nat) : Nat → Nat :=
  mark_loop
    (fun blk bm1 => mark_block_doubly c d (read_bytes d (blk_addr c blk)) (mark bm1 blk))
    triply_buf (c.block_size / 4) 0 bm

/-- Macro `EXT2_S_ISLNK(m)` of utility.h, with `EXT2_S_IFLNK = 0xA000` modelled
from the spec (a value of the absent header ext2_fs.h). -/
def EXT2_S_ISLNK (m : Nat) : Bool := m / 4096 % 16 * 4096 == 0xA000

/-- Function `mark_block` (block.c). -/
def mark_block (c : Ctx) (d : Disk) (inode_num : Nat) (bm : Nat → Nat) : Nat → Nat :=
  let inode := read_bytes d (get_inode_addr c inode_num)
  if EXT2_S_ISLNK (i_mode inode) && decide (i_size inode < 60) then bm
  else
    let bm1 := (List.range EXT2_NDIR_BLOCKS).foldl
      (fun b i => if i_block inode i = 0 then b else mark b (i_block inode i)) bm
    let bm2 :=
      if i_block inode 12 > 0 then
        mark_block_singly c (read_bytes d (blk_addr c (i_block inode 12)))
          (mark bm1 (i_block inode 12))
      else bm1
    let bm3 :=
      if i_block inode 13 > 0 then
        mark_block_doubly c d (read_bytes d (blk_addr c (i_block inode 13)))
          (mark bm2 (i_block inode 13))
      else bm2
    if i_block inode 14 > 0 then
      mark_block_triply c d (read_bytes d (blk_addr c (i_block inode 14)))
        (mark bm3 (i_block inode 14))
    else bm3

/-- The value `s_fst_db = 1024 / sb.block_size` of `fix_block_map`. -/
def s_fst_db (c : Ctx) : Nat := 1024 / c.block_size

/-- The value of `(size - 1) / blk_size + 1` in C `int` arithmetic. -/
def blocks_for (size blk_size : Nat) : Nat :=
  (Int.tdiv ((size : Int) - 1) blk_size + 1).toNat

/-- One round of the loop over the groups in `fix_block_map` (fsck.c lines
407-430): backup blocks, the two bitmaps and the inode table of group `i`. -/
def mark_group (c : Ctx) (fuel : Nat) (i : Nat) (bm : Nat → Nat) : Option (Nat → Nat) :=
  match ispowerof fuel i 3, ispowerof fuel i 5, ispowerof fuel i 7 with
  | some p3, some p5, some p7 =>
    let bm1 :=
      if i == 1 || p3 || p5 || p7 then
        mark (mark bm (s_fst_db c + i * c.blocks_per_group))
          (s_fst_db c + i * c.blocks_per_group + 1)
      else bm
    let bm2 := mark bm1 (c.bg_desc_table i).bg_block_bitmap
    let bm3 := mark bm2 (c.bg_desc_table i).bg_inode_bitmap
    let addr := (c.bg_desc_table i).bg_inode_table
    some ((List.range' addr (blocks_for (c.inodes_per_group * c.inode_size) c.block_size)).foldl
      mark bm3)
  | _, _, _ => none

/-- The loop over the groups in `fix_block_map`. -/
def mark_groups (c : Ctx) (fuel : Nat) : List Nat → (Nat → Nat) → Option (Nat → Nat)
  | [], bm => some bm
  | i :: rest, bm =>
    match mark_group c fuel i bm with
    | none => none
    | some bm1 => mark_groups c fuel rest bm1

/-- The map `my_block_map` as `fix_block_map` builds it (fsck.c lines 380-437);
`heap` is the memory behind the allocation. -/
def build_block_map (c : Ctx) (fuel : Nat) (heap : Nat → Nat) (s : State) : Option (Nat → Nat) :=
  let bm0 : Nat → Nat := fun i => if i < c.num_groups * c.blocks_per_group then 0 else heap i
  let k := blocks_for (2048 + GROUP_DESC_SIZE * c.num_groups) c.block_size
  let bm1 : Nat → Nat := fun i => if i < k then 1 else bm0 i
  match mark_groups c fuel (List.range c.num_groups) bm1 with
  | none => none
  | some bm2 =>
    some ((List.range' 1 c.num_inodes).foldl
      (fun b i => if s.inode_map i = 0 then b else mark_block c s.disk i b) bm2)

/-- The `for` loop over the bits `i < end` of one group (fsck.c lines 454-463):
the buffer `bitmap` and the reports. -/
def compare_bits (c : Ctx) (bm : Nat → Nat) (group_num : Nat) :
    List Nat → Disk × List Report → Disk × List Report
  | [], r => r
  | i :: rest, (bitmap, log) =>
    let b := rd8 bitmap (i / 8)
    let v := bm (group_num * c.blocks_per_group + i + s_fst_db c)
    if (b &&& (1 <<< (i % 8)) = 0 ∧ v ≠ 0) ∨ (b &&& (1 <<< (i % 8)) ≠ 0 ∧ v = 0) then
      compare_bits c bm group_num rest
        (wr8 bitmap (i / 8) ((b &&& (255 ^^^ (1 <<< (i % 8)))) ||| (v <<< (i % 8))),
         log ++ [Report.bitmap_err i group_num (bm (group_num * c.blocks_per_group + i))])
    else compare_bits c bm group_num rest (bitmap, log)

/-- The `while (num > 0)` loop of `fix_block_map` (fsck.c lines 443-471). -/
def compare_groups (c : Ctx) (bm : Nat → Nat) : Nat → Nat → Nat → State → Option State
  | 0, _, _, _ => none
  | fuel + 1, num, group_num, s =>
    if num > 0 then
      let end_ := if num ≥ c.blocks_per_group then c.blocks_per_group else num - s_fst_db c
      let addr := blk_addr c (c.bg_desc_table group_num).bg_block_bitmap
      let r := compare_bits c bm group_num (List.range end_) (read_bytes s.disk addr, s.log)
      compare_groups c bm fuel (num - c.blocks_per_group) (group_num + 1)
        { s with disk := write_bytes s.disk addr r.1 c.block_size, log := r.2 }
    else some s

/-- Function `fix_block_map` (fsck.c). -/
def fix_block_map (c : Ctx) (fuel : Nat) (heap : Nat → Nat) (s : State) : Option State :=
  match build_block_map c fuel heap s with
  | none => none
  | some bm => compare_groups c bm fuel c.num_blocks 0 s

/-! ## Partitions, superblock and the driver (fsck.c) -/

/-- The record `partition_t` of fsck.h. -/
structure Partition where
  partition_num : Int
  type : Nat
  start_sec : Nat
  base : Nat
  length : Nat
  deriving DecidableEq, Repr

/-- Offset of the partition table in a boot record, `BOOTSTRAP_SIZE` of fsck.h. -/
def BOOTSTRAP_SIZE : Nat := 0x1be

/-- Size of a partition entry, `PARTITION_ENTRY_SIZE` of fsck.h. -/
def PARTITION_ENTRY_SIZE : Nat := 16

/-- Modelled from the spec: `DOS_EXTENDED_PARTITION` of the absent header
genhd.h, the type byte of an extended primary partition. -/
def DOS_EXTENDED_PARTITION : Nat := 5

/-- The buffer filled by `read_sector(sector, buf, SECTOR_SIZE)` (readwrite.c). -/
def read_sector (d : Disk) (sector : Nat) : Disk := read_bytes d (sector * SECTOR_SIZE)

/-- The loop `for (i = 1; i <= 4; i++)` of `read_partition_info` that looks for
the extended primary: the index at which it stops (5 when none is found). -/
def find_extended (buf : Disk) : List Nat → Nat
  | [] => 5
  | i :: rest =>
    if rd8 buf (BOOTSTRAP_SIZE + PARTITION_ENTRY_SIZE * (i - 1) + 4) = DOS_EXTENDED_PARTITION then i
    else find_extended buf rest

/-- The loop `for (i = 5; i < partition_num; i++)` of `read_partition_info` over
the chain of extended boot records: `hops` rounds remain; the result is
`partition_first_sec`, or `none` when the loop is left early. -/
def ebr_walk (d : Disk) (first_ebr : Nat) : Nat → Nat → Option Nat
  | 0, partition_first_sec => some partition_first_sec
  | hops + 1, partition_first_sec =>
    let buf := read_sector d partition_first_sec
    if rd32 buf (BOOTSTRAP_SIZE + 16) = 0 ∧ rd32 buf (BOOTSTRAP_SIZE + 20) = 0
        ∧ rd32 buf (BOOTSTRAP_SIZE + 24) = 0 ∧ rd32 buf (BOOTSTRAP_SIZE + 28) = 0 then none
    else ebr_walk d first_ebr hops (u32 (first_ebr + rd32 buf (BOOTSTRAP_SIZE + 24)))

/-- Function `read_partition_info` (fsck.c); `none` is the return value `-1`. -/
def read_partition_info (d : Disk) (partition_num : Int) : Option Partition :=
  if partition_num ≤ 0 then none
  else
    let buf := read_sector d 0
    if partition_num ≤ 4 then
      let pe_offset := BOOTSTRAP_SIZE + PARTITION_ENTRY_SIZE * (partition_num.toNat - 1)
      some { partition_num := partition_num,
             type := rd8 buf (pe_offset + 4),
             start_sec := rd32 buf (pe_offset + 8),
             base := u32 (rd32 buf (pe_offset + 8) * SECTOR_SIZE),
             length := rd32 buf (pe_offset + 12) }
    else
      let i := find_extended buf [1, 2, 3, 4]
      if i > 4 then none
      else
        let first_ebr := rd32 buf (BOOTSTRAP_SIZE + 16 * (i - 1) + 8)
        match ebr_walk d first_ebr (partition_num.toNat - 5) first_ebr with
        | none => none
        | some partition_first_sec =>
          let ebr := read_sector d partition_first_sec
          some { partition_num := partition_num,
                 type := rd8 ebr (BOOTSTRAP_SIZE + 4),
                 start_sec := u32 (partition_first_sec + rd32 ebr (BOOTSTRAP_SIZE + 8)),
                 base := u32 (u32 (partition_first_sec + rd32 ebr (BOOTSTRAP_SIZE + 8)) * SECTOR_SIZE),
                 length := rd32 ebr (BOOTSTRAP_SIZE + 12) }

/-- The record `superblock_t` of fsck.h. -/
structure Superblock where
  block_size : Nat
  inode_size : Nat
  num_blocks : Nat
  blocks_per_group : Nat
  num_inodes : Nat
  inodes_per_group : Nat
  num_groups : Nat
  deriving DecidableEq, Repr

/-- Function `read_superblock_info` (fsck.c) for an already resolved partition.
Modelled from the spec: the field offsets of `struct ext2_super_block`
(`s_inodes_count` 0, `s_blocks_count` 4, `s_log_block_size` 24,
`s_blocks_per_group` 32, `s_inodes_per_group` 40, `s_rev_level` 76,
`s_inode_size` 88) and the macros `EXT2_BLOCK_SIZE` (`1024 << s_log_block_size`)
and `EXT2_INODE_SIZE` (128 for revision 0, `s_inode_size` otherwise) belong to
the absent header ext2_fs.h.  The group count is `(num_blocks - 1) /
blocks_per_group + 1` in C `int` arithmetic.  The counts are kept as the
unsigned values read: the embedding follows the code where they fit the `int`
fields that hold them (below `2^31`), the shift count is below 32 and
`blocks_per_group` is not 0 (there the division of the C code traps, while
`Int.tdiv` gives 0). -/
def read_superblock_info (d : Disk) (pt : Partition) : Superblock :=
  let sb_t := read_sector d (pt.start_sec + 1024 / SECTOR_SIZE)
  let num_blocks := rd32 sb_t 4
  let blocks_per_group := rd32 sb_t 32
  { block_size := u32 (1024 <<< rd32 sb_t 24),
    inode_size := if rd32 sb_t 76 = 0 then 128 else rd16 sb_t 88,
    num_blocks := num_blocks,
    blocks_per_group := blocks_per_group,
    num_inodes := rd32 sb_t 0,
    inodes_per_group := rd32 sb_t 40,
    num_groups := (Int.tdiv ((num_blocks : Int) - 1) blocks_per_group + 1).toNat }

/-- Function `read_bg_desc_table` (fsck.c): descriptor `g` is read at
`(start_sec + 4) * 512 + 32 * g`.  Modelled from the spec: the offsets 0, 4 and
8 of `bg_block_bitmap`, `bg_inode_bitmap` and `bg_inode_table` belong to the
absent header ext2_fs.h.  `mem` is the memory around the allocation. -/
def read_bg_desc_table (d : Disk) (pt : Partition) (sb : Superblock) (mem : Int → GroupDesc) :
    Int → GroupDesc :=
  fun g =>
    if 0 ≤ g ∧ g < sb.num_groups then
      let a := (pt.start_sec + 2048 / SECTOR_SIZE) * SECTOR_SIZE + GROUP_DESC_SIZE * g.toNat
      { bg_block_bitmap := rd32 d a, bg_inode_bitmap := rd32 d (a + 4),
        bg_inode_table := rd32 d (a + 8) }
    else mem g

/-- Function `fsck_partition_init` (fsck.c): the globals it sets, or `none`
for the return value `-1`. -/
def fsck_partition_init (d : Disk) (mem : Int → GroupDesc) (partition_num : Int) : Option Ctx :=
  match read_partition_info d partition_num with
  | none => none
  | some pt =>
    let sb := read_superblock_info d pt
    some { start_sec := pt.start_sec, base := pt.base,
           block_size := sb.block_size, inode_size := sb.inode_size,
           num_blocks := sb.num_blocks, blocks_per_group := sb.blocks_per_group,
           num_inodes := sb.num_inodes, inodes_per_group := sb.inodes_per_group,
           num_groups := sb.num_groups,
           bg_desc_table := read_bg_desc_table d pt sb mem }

/-- What the process memory holds where the program reads it without having
written it: the local `dir_entry` of `find_dir_end_in_direct` (`stk`), the
cells around the allocations of `my_inode_map`, `my_block_map` and
`bg_desc_table`, and the local `dir_entry.name` of the block walks
(`walk_stk`). -/
structure Junk where
  stk : Disk
  inode_heap : Nat → Nat
  block_heap : Nat → Nat
  desc_heap : Int → GroupDesc
  walk_stk : Stale

/-- The loop `for (i = 0; i <= sb.num_inodes; i++) my_inode_map[i] = 0`. -/
def zero_map (c : Ctx) (m : Nat → Nat) : Nat → Nat := fun i => if i ≤ c.num_inodes then 0 else m i

/-- The passes of `fix_fs` (fsck.c lines 238-260) once the context is set. -/
def run_passes (c : Ctx) (fuel : Nat) (j : Junk) (d : Disk) : Option State :=
  match traverse_dir c j.walk_stk fuel EXT2_ROOT_INO EXT2_ROOT_INO
      { disk := d, inode_map := zero_map c j.inode_heap, log := [] } with
  | none => none
  | some s1 =>
    match fix_unreferenced_inode c fuel j.stk s1 with
    | none => none
    | some s2 =>
      match traverse_dir c j.walk_stk fuel EXT2_ROOT_INO EXT2_ROOT_INO
          { s2 with inode_map := zero_map c s2.inode_map } with
      | none => none
      | some s3 => fix_block_map c fuel j.block_heap (fix_link_counts c s3)

/-- Function `fix_fs` (fsck.c): the state when it returns; when
`fsck_partition_init` fails nothing is done. -/
def fix_fs (fuel : Nat) (j : Junk) (d : Disk) (partition_num : Int) : Option State :=
  match fsck_partition_init d j.desc_heap partition_num with
  | none => some { disk := d, inode_map := j.inode_heap, log := [] }
  | some c => run_passes c fuel j d

/-! ## The driver (myfsck.c) -/

/-- The conversion `%d` of `printf` for a C `int`: the decimal digits, with a
minus sign for a negative value. -/
def fmt_d (x : Int) : List Nat := if x < 0 then 45 :: decimal x.natAbs else decimal x.toNat

/-- The conversion `%02X` of `printf`: the hexadecimal digits in upper case,
padded with zeros to a width of two. -/
def fmt_02X (x : Nat) : List Nat :=
  List.replicate (2 - (Nat.toDigits 16 x).length) 48
    ++ (Nat.toDigits 16 x).map (fun ch => if 97 ≤ ch.toNat then ch.toNat - 32 else ch.toNat)

/-- The text of `printf("0x%02X %d %d\n", pt_info.type, pt_info.start_sec,
pt_info.length)` in `main`; the fields are C `int`s. -/
def partition_line (pt : Partition) : List Nat :=
  [48, 120] ++ fmt_02X pt.type ++ [32] ++ fmt_d (toInt32 pt.start_sec) ++ [32]
    ++ fmt_d (toInt32 pt.length) ++ [10]

/-- The block `if (prt_partition_num > 0) { ... }` of `main` (myfsck.c lines
67-79): the text it prints, and the exit status when it ends the program
(`exit(-1)` is status 255). -/
def print_partition (d : Disk) (prt_partition_num : Int) : List Nat × Option Nat :=
  if prt_partition_num > 0 then
    match read_partition_info d prt_partition_num with
    | none => ([45, 49, 10], some 255)
    | some pt => (partition_line pt, none)
  else ([], none)

/-- The loop `i = 1; while (1) { ... i++; }` of `main` (myfsck.c lines 87-96)
from index `i` on: the indices on which `fix_fs` is called, in the order of the
calls, and the image when the loop is left.  `j i` is the process memory at the
call for index `i`; `rounds` bounds the rounds of the loop. -/
def fix_all (fuel : Nat) (j : Int → Junk) : Nat → Int → Disk → Option (List Int × Disk)
  | 0, _, _ => none
  | rounds + 1, i, d =>
    match read_partition_info d i with
    | none => some ([], d)
    | some pt =>
      if pt.type = 0x83 then
        match fix_fs fuel (j i) d i with
        | none => none
        | some s =>
          match fix_all fuel j rounds (i + 1) s.disk with
          | none => none
          | some r => some (i :: r.1, r.2)
      else fix_all fuel j rounds (i + 1) d

/-- What a run of `main` leaves: the text `main` itself printed, the exit
status, the indices on which `fix_fs` was called, in order, and the image. -/
structure Run where
  out : List Nat
  status : Nat
  fixed : List Int
  disk : Disk

/-- Function `main` (myfsck.c) once the options are read and the image is open:
`prt_partition_num` and `fix_partition_num` are the values of `-p` and `-f`
(`-1` when the option is not given). -/
def main (fuel rounds : Nat) (j : Int → Junk) (d : Disk)
    (prt_partition_num fix_partition_num : Int) : Option Run :=
  match print_partition d prt_partition_num with
  | (out, some status) => some { out := out, status := status, fixed := [], disk := d }
  | (out, none) =>
    if fix_partition_num ≥ 0 then
      if fix_partition_num > 0 then
        match fix_fs fuel (j fix_partition_num) d fix_partition_num with
        | none => none
        | some s => some { out := out, status := 0, fixed := [fix_partition_num], disk := s.disk }
      else
        match fix_all fuel j rounds 1 d with
        | none => none
        | some r => some { out := out, status := 0, fixed := r.1, disk := r.2 }
    else some { out := out, status := 0, fixed := [], disk := d }

/-! ## Vocabulary for statements about the walk -/

/-- The image after the repair that a report of the walk stands for: the four
bytes `set_inode_num` writes at the report's offset.  Other reports write
nothing here. -/
def apply_repair (d : Disk) : Report → Disk
  | Report.self_err offset _ expected => set_inode_num d expected 0 offset 0
  | Report.parent_err offset _ expected => set_inode_num d 0 expected offset 1
  | _ => d

/-- The image after the repairs of a list of reports, in order. -/
def replay (d : Disk) (rs : List Report) : Disk := rs.foldl apply_repair d

/-- The bytes a report's repair writes: the four bytes from its offset on. -/
def touches (r : Report) (a : Nat) : Prop :=
  match r with
  | Report.self_err offset _ _ => offset ≤ a ∧ a < offset + 4
  | Report.parent_err offset _ _ => offset ≤ a ∧ a < offset + 4
  | _ => False

/-- In the image `d`, the report `r` concerns an entry of block `i_block[0]` of
a directory: the inode `dir` the report names is a directory with a non-zero
`i_block[0]`, and the report's offset lies inside that block. -/
def slot_of (c : Ctx) (d : Disk) (r : Report) : Prop :=
  match r with
  | Report.self_err offset _ dir =>
    EXT2_S_ISDIR (i_mode (read_bytes d (get_inode_addr c (toInt32 dir)))) = true
    ∧ i_block (read_bytes d (get_inode_addr c (toInt32 dir))) 0 ≠ 0
    ∧ blk_addr c (i_block (read_bytes d (get_inode_addr c (toInt32 dir))) 0) ≤ offset
    ∧ offset < blk_addr c (i_block (read_bytes d (get_inode_addr c (toInt32 dir))) 0)
        + c.block_size
  | Report.parent_err offset dir _ =>
    EXT2_S_ISDIR (i_mode (read_bytes d (get_inode_addr c (toInt32 dir)))) = true
    ∧ i_block (read_bytes d (get_inode_addr c (toInt32 dir))) 0 ≠ 0
    ∧ blk_addr c (i_block (read_bytes d (get_inode_addr c (toInt32 dir))) 0) ≤ offset
    ∧ offset < blk_addr c (i_block (read_bytes d (get_inode_addr c (toInt32 dir))) 0)
        + c.block_size
  | _ => False

/-- What a walk from state `s` to state `s1` did to the image: it appended
reports `rs` to the log, the image is the old one with the repairs of `rs`
replayed, and each report concerns an entry of block `i_block[0]` of a
directory, as found in the image after some initial part of the repairs. -/
def WalkOK (c : Ctx) (s s1 : State) : Prop :=
  ∃ rs : List Report, s1.log = s.log ++ rs ∧ s1.disk = replay s.disk rs
    ∧ ∀ r ∈ rs, ∃ pre, pre <+: rs ∧ slot_of c (replay s.disk pre) r

/-- The reports `check_entry` appends for the entry at `dir_entry_base`: a `.`
report for the first entry of block 0, a `..` report for the second one. -/
def own_reports (block_offset block_num current_dir parent_dir dir_entry_base cnt : Nat)
    (buf name : Disk) : List Report :=
  (if cnt == 1 && block_num == 0
        && (!is_dot (load_name name buf dir_entry_base (rd8 buf (dir_entry_base + 6)))
            || rd32 buf dir_entry_base != current_dir) then
      [Report.self_err (block_offset + dir_entry_base) (rd32 buf dir_entry_base) current_dir]
    else [])
  ++ (if cnt == 2 && block_num == 0
        && (!is_dotdot (load_name name buf dir_entry_base (rd8 buf (dir_entry_base + 6)))
            || rd32 buf dir_entry_base != parent_dir) then
      [Report.parent_err (block_offset + dir_entry_base) current_dir parent_dir]
    else [])

/-- The report `r` is one that the loop of `traverse_direct_block`, standing at
`dir_entry_base`, can still append by itself: only in block 0, a `.` or `..`
report for the current directory at an entry offset of the block from
`dir_entry_base` on. -/
def OwnSite (c : Ctx) (block_offset block_num current_dir parent_dir dir_entry_base : Nat)
    (r : Report) : Prop :=
  block_num = 0
  ∧ ∃ e, dir_entry_base ≤ e ∧ e < c.block_size
    ∧ ((∃ x, r = Report.self_err (block_offset + e) x current_dir)
      ∨ r = Report.parent_err (block_offset + e) current_dir parent_dir)

/-- What a walk of one directory block did to the image: as `WalkOK`, except
that the reports of the block's own entries are described by `OwnSite`. -/
def BlockOK (c : Ctx) (block_offset block_num current_dir parent_dir dir_entry_base : Nat)
    (s s1 : State) : Prop :=
  ∃ rs : List Report, s1.log = s.log ++ rs ∧ s1.disk = replay s.disk rs
    ∧ ∀ r ∈ rs, OwnSite c block_offset block_num current_dir parent_dir dir_entry_base r
        ∨ ∃ pre, pre <+: rs ∧ slot_of c (replay s.disk pre) r

/-- The repair of report `r` leaves the 32-bit field at offset `slot` holding
`value`: it writes four bytes that do not meet the field, or it writes `value`
exactly there. -/
def keeps (slot value : Nat) (r : Report) : Prop :=
  match r with
  | Report.self_err offset _ expected =>
    offset + 4 ≤ slot ∨ slot + 4 ≤ offset ∨ (offset = slot ∧ expected = value)
  | Report.parent_err offset _ expected =>
    offset + 4 ≤ slot ∨ slot + 4 ≤ offset ∨ (offset = slot ∧ expected = value)
  | _ => True

/-- Byte address of block `i_block[0]` of inode `dir`, as the image `d` stores it. -/
def dir_block0 (c : Ctx) (d : Disk) (dir : Nat) : Nat :=
  blk_addr c (i_block (read_bytes d (get_inode_addr c (toInt32 dir))) 0)

instance (slot value : Nat) (r : Report) : Decidable (keeps slot value r) := by
  cases r <;> simp only [keeps] <;> infer_instance

/-- The `rec_len` values chain from the entry at `off` exactly to `target`:
following `rec_len` (at least 8, the size of an entry's header) from `off`
reaches `target` in at most `fuel` entries. -/
def chain_to (target : Nat) (buf : Disk) : Nat → Nat → Bool
  | 0, off => decide (off = target)
  | fuel + 1, off =>
    if off = target then true
    else if off < target ∧ 8 ≤ rd16 buf (off + 4) then
      chain_to target buf fuel (off + rd16 buf (off + 4))
    else false

/-- Byte address of the block bitmap of group `g`. -/
def bitmap_addr (c : Ctx) (g : Nat) : Nat := blk_addr c (c.bg_desc_table (g : Int)).bg_block_bitmap

/-- The number of bits of one group that the loop of `fix_block_map` compares
when `num` blocks remain. -/
def bits_compared (c : Ctx) (num : Nat) : Nat :=
  if num ≥ c.blocks_per_group then c.blocks_per_group else num - s_fst_db c

/-- The store that follows report `r` of the walk writes, at each of its four
bytes, the byte that the image `d` already holds there.  The reports of the
other passes are never idle. -/
def idle (d : Disk) : Report → Prop
  | Report.self_err offset _ expected => ∀ i, i < 4 → d (offset + i) = le_byte expected i
  | Report.parent_err offset _ expected => ∀ i, i < 4 → d (offset + i) = le_byte expected i
  | _ => False

instance (d : Disk) (r : Report) : Decidable (idle d r) := by
  cases r <;> simp only [idle] <;> infer_instance

/-- What a pass from state `s` to state `s1` did, seen from the image `d`: it
appended reports `rs` to the log, and when these are all idle in `d` and the
pass started on the image `d`, it ended on `d`. -/
def IdleStep (d : Disk) (s s1 : State) : Prop :=
  ∃ rs : List Report, s1.log = s.log ++ rs
    ∧ ((∀ r ∈ rs, idle d r) → s.disk = d → s1.disk = d)

/-- The reference map only grows from state `s` to state `s1`. -/
def MapGrows (s s1 : State) : Prop := ∀ k, s.inode_map k ≤ s1.inode_map k

/-- Following `rec_len` (at least 8, the size of an entry's header) from the
entry at `off`, the entry reached after `m` steps starts at `e`. -/
def entry_at (buf : Disk) : Nat → Nat → Nat → Bool
  | 0, off, e => decide (off = e)
  | m + 1, off, e =>
    decide (8 ≤ rd16 buf (off + 4)) && entry_at buf m (off + rd16 buf (off + 4)) e

/-- The bytes of the name `lost+found`, the one component of `LOST_FOUND_PATH`. -/
def LOST_FOUND_NAME : List Nat := [108, 111, 115, 116, 43, 102, 111, 117, 110, 100]

/-- The block number `i_block[j]` of inode `dir`, as the image `d` stores it. -/
def dir_blk (c : Ctx) (d : Disk) (dir j : Nat) : Nat :=
  i_block (read_bytes d (get_inode_addr c (toInt32 dir))) j

/-- The image `d` is laid out around `/lost+found` (inode `lf`) as `mke2fs`
leaves it.  The root directory's block `i_block[0]` starts with three entries:
the first two (as `.` and `..`) have a file type, a name that fits into the
entry, is shorter than 255 bytes and is not `lost+found`; the third is the
directory entry `lost+found` for inode `lf`.  Inode `lf` is a directory without
indirect blocks whose direct blocks are pairwise different.  The root's block,
the two inode records and the direct blocks of `lf` lie below 4 GiB; no direct
block of `lf` overlaps the root's block or one of the two inode records, nor
the root's block the inode record of `lf`. -/
structure LostFoundReady (c : Ctx) (d : Disk) (lf : Nat) : Prop where
  root_dir : EXT2_S_ISDIR (i_mode (read_bytes d (get_inode_addr c (toInt32 EXT2_ROOT_INO)))) = true
  root_blk : i_block (read_bytes d (get_inode_addr c (toInt32 EXT2_ROOT_INO))) 0 ≠ 0
  e1_len : 8 + rd8 d (dir_block0 c d EXT2_ROOT_INO + 6) ≤ rd16 d (dir_block0 c d EXT2_ROOT_INO + 4)
  e1_type : rd8 d (dir_block0 c d EXT2_ROOT_INO + 7) ≠ 0
  e1_short : rd8 d (dir_block0 c d EXT2_ROOT_INO + 6) ≠ 255
  e1_name : LOST_FOUND_NAME ≠ cstr (entry_name (read_bytes d (dir_block0 c d EXT2_ROOT_INO)) 0
    (rd8 d (dir_block0 c d EXT2_ROOT_INO + 6)))
  e2_len : 8 + rd8 d (dir_block0 c d EXT2_ROOT_INO
      + (rd16 d (dir_block0 c d EXT2_ROOT_INO + 4) + 6))
    ≤ rd16 d (dir_block0 c d EXT2_ROOT_INO + (rd16 d (dir_block0 c d EXT2_ROOT_INO + 4) + 4))
  e2_type : rd8 d (dir_block0 c d EXT2_ROOT_INO
    + (rd16 d (dir_block0 c d EXT2_ROOT_INO + 4) + 7)) ≠ 0
  e2_short : rd8 d (dir_block0 c d EXT2_ROOT_INO
    + (rd16 d (dir_block0 c d EXT2_ROOT_INO + 4) + 6)) ≠ 255
  e2_name : LOST_FOUND_NAME ≠ cstr (entry_name (read_bytes d (dir_block0 c d EXT2_ROOT_INO))
    (rd16 d (dir_block0 c d EXT2_ROOT_INO + 4))
    (rd8 d (dir_block0 c d EXT2_ROOT_INO + (rd16 d (dir_block0 c d EXT2_ROOT_INO + 4) + 6))))
  e3_in : rd16 d (dir_block0 c d EXT2_ROOT_INO + 4)
    + rd16 d (dir_block0 c d EXT2_ROOT_INO + (rd16 d (dir_block0 c d EXT2_ROOT_INO + 4) + 4))
    + 18 ≤ c.block_size
  e3_ino : rd32 d (dir_block0 c d EXT2_ROOT_INO
    + (rd16 d (dir_block0 c d EXT2_ROOT_INO + 4)
      + rd16 d (dir_block0 c d EXT2_ROOT_INO
          + (rd16 d (dir_block0 c d EXT2_ROOT_INO + 4) + 4)))) = lf
  e3_type : rd8 d (dir_block0 c d EXT2_ROOT_INO
    + (rd16 d (dir_block0 c d EXT2_ROOT_INO + 4)
      + rd16 d (dir_block0 c d EXT2_ROOT_INO
          + (rd16 d (dir_block0 c d EXT2_ROOT_INO + 4) + 4)) + 7)) = EXT2_FT_DIR
  e3_nlen : rd8 d (dir_block0 c d EXT2_ROOT_INO
    + (rd16 d (dir_block0 c d EXT2_ROOT_INO + 4)
      + rd16 d (dir_block0 c d EXT2_ROOT_INO
          + (rd16 d (dir_block0 c d EXT2_ROOT_INO + 4) + 4)) + 6)) = 10
  e3_name : entry_name (read_bytes d (dir_block0 c d EXT2_ROOT_INO))
    (rd16 d (dir_block0 c d EXT2_ROOT_INO + 4)
      + rd16 d (dir_block0 c d EXT2_ROOT_INO
          + (rd16 d (dir_block0 c d EXT2_ROOT_INO + 4) + 4))) 10 = LOST_FOUND_NAME
  lf_pos : 0 < lf
  lf_le : lf ≤ c.num_inodes
  lf_ne : lf ≠ EXT2_ROOT_INO
  ino_small : c.num_inodes < 2147483648
  lf_dir : EXT2_S_ISDIR (i_mode (read_bytes d (get_inode_addr c (toInt32 lf)))) = true
  lf_ind : ∀ j, j < 15 → 12 ≤ j → dir_blk c d lf j = 0
  lf_apart : ∀ j, j < 12 → ∀ i, i < j → dir_blk c d lf i ≠ 0 →
    dir_blk c d lf i ≠ dir_blk c d lf j
  fit : ∀ j, j < 12 → dir_blk c d lf j ≠ 0 →
    c.base + dir_blk c d lf j * c.block_size + c.block_size ≤ 4294967295
  bs_le : c.block_size ≤ 65536
  root_hi : dir_block0 c d EXT2_ROOT_INO + c.block_size ≤ 4294967295
  rooti_hi : get_inode_addr c (toInt32 EXT2_ROOT_INO) + INODE_REC_SIZE ≤ 4294967295
  lfi_hi : get_inode_addr c (toInt32 lf) + INODE_REC_SIZE ≤ 4294967295
  sep_root : ∀ j, j < 12 → dir_blk c d lf j ≠ 0 →
    dir_block0 c d EXT2_ROOT_INO + c.block_size ≤ blk_addr c (dir_blk c d lf j)
    ∨ blk_addr c (dir_blk c d lf j) + c.block_size ≤ dir_block0 c d EXT2_ROOT_INO
  sep_rooti : ∀ j, j < 12 → dir_blk c d lf j ≠ 0 →
    get_inode_addr c (toInt32 EXT2_ROOT_INO) + INODE_REC_SIZE ≤ blk_addr c (dir_blk c d lf j)
    ∨ blk_addr c (dir_blk c d lf j) + c.block_size ≤ get_inode_addr c (toInt32 EXT2_ROOT_INO)
  sep_lfi : ∀ j, j < 12 → dir_blk c d lf j ≠ 0 →
    get_inode_addr c (toInt32 lf) + INODE_REC_SIZE ≤ blk_addr c (dir_blk c d lf j)
    ∨ blk_addr c (dir_blk c d lf j) + c.block_size ≤ get_inode_addr c (toInt32 lf)
  sep_root_lfi : dir_block0 c d EXT2_ROOT_INO + c.block_size ≤ get_inode_addr c (toInt32 lf)
    ∨ get_inode_addr c (toInt32 lf) + INODE_REC_SIZE ≤ dir_block0 c d EXT2_ROOT_INO

/-- In the image `d`, the block at `A` holds an entry for inode `k` at offset
`e`: the entry is reached from the start of the block along `rec_len` values of
at least 8, its header lies inside the block, and its own `rec_len` is at
least 8. -/
def holds_entry (bs : Nat) (d : Disk) (A e k : Nat) : Prop :=
  (∃ m, entry_at (read_bytes d A) m 0 e = true) ∧ e + 8 ≤ bs ∧ rd32 d (A + e) = k
    ∧ 8 ≤ rd16 d (A + e + 4)

/-- The repair of report `r` writes into no `rec_len` field on the chain of
the block at `A` (whose content is `buf`) before its `m`-th entry: for every
entry reached from the start of the block in fewer than `m` steps, the two
bytes at offset 4 of the entry are not among those the repair writes. -/
def spares_chain (buf : Disk) (A m : Nat) (r : Report) : Prop :=
  ∀ m' p, m' < m → entry_at buf m' 0 p = true →
    ¬ touches r (A + p + 4) ∧ ¬ touches r (A + p + 4 + 1)

/-- The repair of report `rep` leaves the entry for inode `k` at the image
offset `r` in place: it leaves the entry's inode field holding `k`, and where
`r` lies in a direct block `i_block[j]` of directory `lf` and is reached from
the start of that block along the chain, it writes into no `rec_len` field on
the way. -/
def spares_entry (c : Ctx) (d : Disk) (lf r k : Nat) (rep : Report) : Prop :=
  keeps r k rep
    ∧ ∀ j m, j < 12 → dir_blk c d lf j ≠ 0 → blk_addr c (dir_blk c d lf j) ≤ r →
        r < blk_addr c (dir_blk c d lf j) + c.block_size →
        entry_at (read_bytes d (blk_addr c (dir_blk c d lf j))) m 0
          (r - blk_addr c (dir_blk c d lf j)) = true →
        spares_chain (read_bytes d (blk_addr c (dir_blk c d lf j)))
          (blk_addr c (dir_blk c d lf j)) m rep

/-- Entry `k` of the indirect block `blk`, as `mark_block` reads it from the
image `d`. -/
def ind_entry (c : Ctx) (d : Disk) (blk k : Nat) : Nat :=
  rd32 (read_bytes d (blk_addr c blk)) (4 * k)

/-- Entry `k` of the indirect block `blk` comes before the first zero entry of
that block: it is one of the `block_size / 4` entries, and the entries
`0 .. k` are all non-zero. -/
def in_run (c : Ctx) (d : Disk) (blk k : Nat) : Prop :=
  k < c.block_size / 4 ∧ ∀ j, j ≤ k → ind_entry c d blk j ≠ 0

/-! ## Vocabulary for the partition table -/

/-- The second entry (the link to the next record) of the extended boot record
at `sector` is all zero: the test of the two 8-byte words at `BOOTSTRAP_SIZE +
16` and `BOOTSTRAP_SIZE + 24` in `read_partition_info`. -/
def ebr_link_zero (d : Disk) (sector : Nat) : Prop :=
  rd32 (read_sector d sector) (BOOTSTRAP_SIZE + 16) = 0
    ∧ rd32 (read_sector d sector) (BOOTSTRAP_SIZE + 20) = 0
    ∧ rd32 (read_sector d sector) (BOOTSTRAP_SIZE + 24) = 0
    ∧ rd32 (read_sector d sector) (BOOTSTRAP_SIZE + 28) = 0

instance ebr_link_zero_decidable (d : Disk) (sector : Nat) :
    Decidable (ebr_link_zero d sector) := by
  unfold ebr_link_zero
  infer_instance

/-- The sector of the extended boot record reached from `ebr0` after `k` hops
`E ← ebr0 + (start field of the second entry of the record at E)`, the sum
taken in 32 bits as `read_partition_info` computes it. -/
def ebr_at (d : Disk) (ebr0 : Nat) : Nat → Nat
  | 0 => ebr0
  | k + 1 => u32 (ebr0 + rd32 (read_sector d (ebr_at d ebr0 k)) (BOOTSTRAP_SIZE + 24))

/-- The start sector of the primary partition at which the loop `for (i = 1; i
<= 4; i++)` of `read_partition_info` stops. -/
def extended_start (d : Disk) : Nat :=
  rd32 (read_sector d 0)
    (BOOTSTRAP_SIZE + 16 * (find_extended (read_sector d 0) [1, 2, 3, 4] - 1) + 8)


/-! ## The walk with its trace

The functions of traverse.c once more, each returning next to the state the
list of what the walk did: `enter n` when `traverse_dir` is entered for inode
`n`, `entry k` when `traverse_direct_block` has read a directory entry whose
inode field, after the `.`/`..` repair, is `k`.  The state they compute is the
one of the functions above. -/

/-- What a walk does that the state does not record. -/
inductive WalkEvent where
  | enter (ino : Nat)
  | entry (ino : Nat)
  deriving DecidableEq, Repr

/-- A state with the events of the walk so far. -/
abbrev Traced := State × List WalkEvent

/-- Function `traverse_direct_block` (traverse.c) with its trace: after the
entry at `dir_entry_base` has been read and repaired, `entry inode` is
recorded; `walk` is `traverse_dir` with its trace. -/
def traverse_direct_block_tr (walk : Nat → Nat → Traced → Option Traced) (c : Ctx)
    (block_offset block_num current_dir parent_dir : Nat) :
    Nat → Nat → Nat → Disk → Disk → Traced → Option Traced
  | 0, _, _, _, _, _ => none
  | fuel + 1, dir_entry_base, cnt, buf, name, t =>
    if dir_entry_base < c.block_size then
      let file_type := rd8 buf (dir_entry_base + 7)
      let rec_len := rd16 buf (dir_entry_base + 4)
      let cnt1 := cnt_after_name (rd8 buf (dir_entry_base + 6)) cnt
      let r := check_entry c block_offset block_num current_dir parent_dir dir_entry_base cnt1
        buf name t.1
      let inode := rd32 r.1 dir_entry_base
      let t1 : Traced := (r.2.2, t.2 ++ [WalkEvent.entry inode])
      if file_type == EXT2_FT_DIR && decide (r.2.2.inode_map inode ≤ 1)
          && (decide (cnt1 > 2) || decide (block_num > 0)) then
        match walk inode current_dir t1 with
        | none => none
        | some t4 =>
          traverse_direct_block_tr walk c block_offset block_num current_dir parent_dir
            fuel (dir_entry_base + rec_len) (cnt1 + 1) r.1 r.2.1 t4
      else
        traverse_direct_block_tr walk c block_offset block_num current_dir parent_dir
          fuel (dir_entry_base + rec_len) (cnt1 + 1) r.1 r.2.1 t1
    else some t

/-- The loop `for_each` over traced states. -/
def for_each_tr (f : Nat → Traced → Option Traced) : List Nat → Traced → Option Traced
  | [], t => some t
  | i :: rest, t =>
    match f i t with
    | none => none
    | some t1 => for_each_tr f rest t1

/-- The loop `indirect_loop` over traced states. -/
def indirect_loop_tr (f : Nat → Traced → Option Traced) (buf : Disk) :
    Nat → Nat → Traced → Option Traced
  | 0, _, t => some t
  | n + 1, i, t =>
    if rd32 buf (4 * i) = 0 then some t
    else
      match f (rd32 buf (4 * i)) t with
      | none => none
      | some t1 => indirect_loop_tr f buf n (i + 1) t1

/-- Function `traverse_singly` (traverse.c) with its trace. -/
def traverse_singly_tr (walk : Nat → Nat → Traced → Option Traced) (c : Ctx) (stk : Stale)
    (fuel : Nat) (singly_buf : Disk) (current_dir parent_dir : Nat) (t : Traced) :
    Option Traced :=
  indirect_loop_tr
    (fun blk t1 =>
      traverse_direct_block_tr walk c (blk_addr c blk) 1 current_dir parent_dir
        fuel 0 1 (read_bytes t1.1.disk (blk_addr c blk)) (stk t1.1 (blk_addr c blk)) t1)
    singly_buf (c.block_size / 4) 0 t

/-- Function `traverse_doubly` (traverse.c) with its trace. -/
def traverse_doubly_tr (walk : Nat → Nat → Traced → Option Traced) (c : Ctx) (stk : Stale)
    (fuel : Nat) (doubly_buf : Disk) (current_dir parent_dir : Nat) (t : Traced) :
    Option Traced :=
  indirect_loop_tr
    (fun blk t1 =>
      traverse_singly_tr walk c stk fuel (read_bytes t1.1.disk (blk_addr c blk))
        current_dir parent_dir t1)
    doubly_buf (c.block_size / 4) 0 t

/-- Function `traverse_triply` (traverse.c) with its trace. -/
def traverse_triply_tr (walk : Nat → Nat → Traced → Option Traced) (c : Ctx) (stk : Stale)
    (fuel : Nat) (triply_buf : Disk) (current_dir parent_dir : Nat) (t : Traced) :
    Option Traced :=
  indirect_loop_tr
    (fun blk t1 =>
      traverse_singly_tr walk c stk fuel (read_bytes t1.1.disk (blk_addr c blk))
        current_dir parent_dir t1)
    triply_buf (c.block_size / 4) 0 t

/-- Function `traverse_dir` (traverse.c) with its trace: `enter inode_num` is
recorded when the function is entered. -/
def traverse_dir_tr (c : Ctx) (stk : Stale) : Nat → Nat → Nat → Traced → Option Traced
  | 0, _, _, _ => none
  | fuel + 1, inode_num, parent, t =>
    let t0 : Traced := (t.1, t.2 ++ [WalkEvent.enter inode_num])
    let inode := read_bytes t.1.disk (get_inode_addr c (toInt32 inode_num))
    if !EXT2_S_ISDIR (i_mode inode) then some t0
    else
      match for_each_tr
          (fun i t1 =>
            if i_block inode i = 0 then some t1
            else
              traverse_direct_block_tr (traverse_dir_tr c stk fuel) c
                (blk_addr c (i_block inode i)) i inode_num parent fuel 0 1
                (read_bytes t1.1.disk (blk_addr c (i_block inode i)))
                (stk t1.1 (blk_addr c (i_block inode i))) t1)
          (List.range EXT2_NDIR_BLOCKS) t0 with
      | none => none
      | some t1 =>
        match traverse_singly_tr (traverse_dir_tr c stk fuel) c stk fuel
            (read_bytes t1.1.disk (blk_addr c (i_block inode 12))) inode_num parent t1 with
        | none => none
        | some t2 =>
          match traverse_doubly_tr (traverse_dir_tr c stk fuel) c stk fuel
              (read_bytes t2.1.disk (blk_addr c (i_block inode 13))) inode_num parent t2 with
          | none => none
          | some t3 =>
            traverse_triply_tr (traverse_dir_tr c stk fuel) c stk fuel
              (read_bytes t3.1.disk (blk_addr c (i_block inode 14))) inode_num parent t3


/-- What a traced walk from `t` to `t1` did: it appended events `ev` to the
trace; for every inode number `k ≤ num_inodes` the reference count grew by the
number of events `entry k`; and for every `i ≤ num_inodes` there is at most one
event `enter i`, and when there is one the count of `i` was 0 before and is at
least 1 after. -/
def WalkTrace (c : Ctx) (t t1 : Traced) : Prop :=
  ∃ ev : List WalkEvent, t1.2 = t.2 ++ ev
    ∧ (∀ k, k ≤ c.num_inodes →
        t1.1.inode_map k = t.1.inode_map k + ev.count (WalkEvent.entry k))
    ∧ (∀ i, i ≤ c.num_inodes → ev.count (WalkEvent.enter i) ≤ 1
        ∧ (ev.count (WalkEvent.enter i) = 1 → t.1.inode_map i = 0 ∧ 1 ≤ t1.1.inode_map i))


/-! ## The walk that watches its entries

The functions of traverse.c once more, stopping as soon as the walk reads a
directory entry whose `rec_len` is 0 or whose inode number, once the `.`/`..`
slots are patched, is above `num_inodes`.  The result is `none` when the fuel
runs out, `some none` when such an entry was read, and `some (some s)` when the
walk returned with the state `s`, every entry it read being free of both. -/

/-- Function `traverse_direct_block` (traverse.c), watching its entries; `walk`
is `traverse_dir`, watching its entries. -/
def traverse_direct_block_ck (walk : Nat → Nat → State → Option (Option State)) (c : Ctx)
    (block_offset block_num current_dir parent_dir : Nat) :
    Nat → Nat → Nat → Disk → Disk → State → Option (Option State)
  | 0, _, _, _, _, _ => none
  | fuel + 1, dir_entry_base, cnt, buf, name, s =>
    if dir_entry_base < c.block_size then
      let file_type := rd8 buf (dir_entry_base + 7)
      let rec_len := rd16 buf (dir_entry_base + 4)
      let cnt1 := cnt_after_name (rd8 buf (dir_entry_base + 6)) cnt
      let r := check_entry c block_offset block_num current_dir parent_dir dir_entry_base cnt1
        buf name s
      let inode := rd32 r.1 dir_entry_base
      if rec_len = 0 ∨ inode > c.num_inodes then some none
      else if file_type == EXT2_FT_DIR && decide (r.2.2.inode_map inode ≤ 1)
          && (decide (cnt1 > 2) || decide (block_num > 0)) then
        match walk inode current_dir r.2.2 with
        | none => none
        | some none => some none
        | some (some s4) =>
          traverse_direct_block_ck walk c block_offset block_num current_dir parent_dir
            fuel (dir_entry_base + rec_len) (cnt1 + 1) r.1 r.2.1 s4
      else
        traverse_direct_block_ck walk c block_offset block_num current_dir parent_dir
          fuel (dir_entry_base + rec_len) (cnt1 + 1) r.1 r.2.1 r.2.2
    else some (some s)

/-- The loop `for_each` for walks that watch their entries. -/
def for_each_ck (f : Nat → State → Option (Option State)) :
    List Nat → State → Option (Option State)
  | [], s => some (some s)
  | i :: rest, s =>
    match f i s with
    | none => none
    | some none => some none
    | some (some s1) => for_each_ck f rest s1

/-- The loop `indirect_loop` for walks that watch their entries. -/
def indirect_loop_ck (f : Nat → State → Option (Option State)) (buf : Disk) :
    Nat → Nat → State → Option (Option State)
  | 0, _, s => some (some s)
  | n + 1, i, s =>
    if rd32 buf (4 * i) = 0 then some (some s)
    else
      match f (rd32 buf (4 * i)) s with
      | none => none
      | some none => some none
      | some (some s1) => indirect_loop_ck f buf n (i + 1) s1

/-- Function `traverse_singly` (traverse.c), watching the entries. -/
def traverse_singly_ck (walk : Nat → Nat → State → Option (Option State)) (c : Ctx)
    (stk : Stale) (fuel : Nat) (singly_buf : Disk) (current_dir parent_dir : Nat) (s : State) :
    Option (Option State) :=
  indirect_loop_ck
    (fun blk s1 =>
      traverse_direct_block_ck walk c (blk_addr c blk) 1 current_dir parent_dir
        fuel 0 1 (read_bytes s1.disk (blk_addr c blk)) (stk s1 (blk_addr c blk)) s1)
    singly_buf (c.block_size / 4) 0 s

/-- Function `traverse_doubly` (traverse.c), watching the entries. -/
def traverse_doubly_ck (walk : Nat → Nat → State → Option (Option State)) (c : Ctx)
    (stk : Stale) (fuel : Nat) (doubly_buf : Disk) (current_dir parent_dir : Nat) (s : State) :
    Option (Option State) :=
  indirect_loop_ck
    (fun blk s1 =>
      traverse_singly_ck walk c stk fuel (read_bytes s1.disk (blk_addr c blk))
        current_dir parent_dir s1)
    doubly_buf (c.block_size / 4) 0 s

/-- Function `traverse_triply` (traverse.c), watching the entries. -/
def traverse_triply_ck (walk : Nat → Nat → State → Option (Option State)) (c : Ctx)
    (stk : Stale) (fuel : Nat) (triply_buf : Disk) (current_dir parent_dir : Nat) (s : State) :
    Option (Option State) :=
  indirect_loop_ck
    (fun blk s1 =>
      traverse_singly_ck walk c stk fuel (read_bytes s1.disk (blk_addr c blk))
        current_dir parent_dir s1)
    triply_buf (c.block_size / 4) 0 s

/-- Function `traverse_dir` (traverse.c), watching the entries. -/
def traverse_dir_ck (c : Ctx) (stk : Stale) : Nat → Nat → Nat → State → Option (Option State)
  | 0, _, _, _ => none
  | fuel + 1, inode_num, parent, s =>
    let inode := read_bytes s.disk (get_inode_addr c (toInt32 inode_num))
    if !EXT2_S_ISDIR (i_mode inode) then some (some s)
    else
      match for_each_ck
          (fun i s1 =>
            if i_block inode i = 0 then some (some s1)
            else
              traverse_direct_block_ck (traverse_dir_ck c stk fuel) c
                (blk_addr c (i_block inode i)) i inode_num parent fuel 0 1
                (read_bytes s1.disk (blk_addr c (i_block inode i)))
                (stk s1 (blk_addr c (i_block inode i))) s1)
          (List.range EXT2_NDIR_BLOCKS) s with
      | none => none
      | some none => some none
      | some (some s1) =>
        match traverse_singly_ck (traverse_dir_ck c stk fuel) c stk fuel
            (read_bytes s1.disk (blk_addr c (i_block inode 12))) inode_num parent s1 with
        | none => none
        | some none => some none
        | some (some s2) =>
          match traverse_doubly_ck (traverse_dir_ck c stk fuel) c stk fuel
              (read_bytes s2.disk (blk_addr c (i_block inode 13))) inode_num parent s2 with
          | none => none
          | some none => some none
          | some (some s3) =>
            traverse_triply_ck (traverse_dir_ck c stk fuel) c stk fuel
              (read_bytes s3.disk (blk_addr c (i_block inode 14))) inode_num parent s3

/-- The inode numbers `0 .. num_inodes` whose reference count is still 0 in the
state `s`. -/
def unseen (c : Ctx) (s : State) : Finset Nat :=
  (Finset.range (c.num_inodes + 1)).filter (fun k => s.inode_map k = 0)

/-! ## Example images -/

/-- The image `d` with the bytes `bs` stored from offset `base` on. -/
def bytes_at (base : Nat) (bs : List Nat) (d : Disk) : Disk :=
  fun a => if base ≤ a ∧ a < base + bs.length then bs.getD (a - base) 0 else d a

/-- The globals after `fsck_partition_init` on the example images: partition 1
starts at sector 2, one group, 32 inodes of 128 bytes, blocks of 1 KiB; the
bitmaps are blocks 3 and 4, the inode table starts at block 5. -/
def ctx_ex : Ctx :=
  { start_sec := 2, base := 1024, block_size := 1024, inode_size := 128, num_blocks := 32,
    blocks_per_group := 8192, num_inodes := 32, inodes_per_group := 32, num_groups := 1,
    bg_desc_table := fun _ => ⟨3, 4, 5⟩ }

/-- A process memory that holds zeros wherever the program reads it unwritten. -/
def junk0 : Junk := ⟨fun _ => 0, fun _ => 0, fun _ => 0, fun _ => ⟨0, 0, 0⟩, fun _ _ _ => 0⟩

/-- The state after the first walk of `fix_fs` on the image `d` (pass 1). -/
def after_walk (c : Ctx) (d : Disk) : State :=
  match traverse_dir c (fun _ _ _ => 0) 64 EXT2_ROOT_INO EXT2_ROOT_INO
      { disk := d, inode_map := fun _ => 0, log := [] } with
  | some s => s
  | none => { disk := d, inode_map := fun _ => 0, log := [] }

/-- An image whose inode 30, a regular file (`i_mode = 0x81A4`, one link), is in no
directory.  Partition 1 starts at sector 2; blocks are 1 KiB; the inode table
is at block 5, the root directory at block 9, `/lost+found` (inode 11) at block 10. -/
def img_orphan : Disk :=
  bytes_at 450 [131] <|
  bytes_at 454 [2, 0, 0, 0, 64, 0, 0, 0] <|
  bytes_at 2048 [32, 0, 0, 0, 32, 0, 0, 0] <|
  bytes_at 2080 [0, 32, 0, 0] <|
  bytes_at 2088 [32, 0, 0, 0] <|
  bytes_at 3072 [3, 0, 0, 0, 4, 0, 0, 0, 5, 0, 0, 0] <|
  bytes_at 4096 [255, 3] <|
  bytes_at 6272 [237, 65] <|
  bytes_at 6298 [3, 0] <|
  bytes_at 6312 [9, 0, 0, 0] <|
  bytes_at 7424 [192, 65] <|
  bytes_at 7450 [2, 0] <|
  bytes_at 7464 [10, 0, 0, 0] <|
  bytes_at 9856 [164, 129] <|
  bytes_at 9882 [1, 0] <|
  bytes_at 10240 [2, 0, 0, 0, 12, 0, 1, 2, 46, 0, 0, 0, 2, 0, 0, 0, 12, 0, 2, 2, 46, 46, 0, 0, 11, 0, 0, 0, 232, 3, 10, 2, 108, 111, 115, 116, 43, 102, 111, 117, 110, 100] <|
  bytes_at 11264 [11, 0, 0, 0, 12, 0, 1, 2, 46, 0, 0, 0, 2, 0, 0, 0, 244, 3, 2, 2, 46, 46] <|
  fun _ => 0

/-- The image `img_orphan` with a `/lost+found` whose only block ends in an entry
at offset 1012 (`a`, `rec_len` 12): no entry can be appended. -/
def img_full : Disk :=
  bytes_at 450 [131] <|
  bytes_at 454 [2, 0, 0, 0, 64, 0, 0, 0] <|
  bytes_at 2048 [32, 0, 0, 0, 32, 0, 0, 0] <|
  bytes_at 2080 [0, 32, 0, 0] <|
  bytes_at 2088 [32, 0, 0, 0] <|
  bytes_at 3072 [3, 0, 0, 0, 4, 0, 0, 0, 5, 0, 0, 0] <|
  bytes_at 4096 [255, 3] <|
  bytes_at 6272 [237, 65] <|
  bytes_at 6298 [3, 0] <|
  bytes_at 6312 [9, 0, 0, 0] <|
  bytes_at 7424 [192, 65] <|
  bytes_at 7450 [2, 0] <|
  bytes_at 7464 [10, 0, 0, 0] <|
  bytes_at 9856 [164, 129] <|
  bytes_at 9882 [1, 0] <|
  bytes_at 10240 [2, 0, 0, 0, 12, 0, 1, 2, 46, 0, 0, 0, 2, 0, 0, 0, 12, 0, 2, 2, 46, 46, 0, 0, 11, 0, 0, 0, 232, 3, 10, 2, 108, 111, 115, 116, 43, 102, 111, 117, 110, 100] <|
  bytes_at 11264 [11, 0, 0, 0, 12, 0, 1, 2, 46, 0, 0, 0, 2, 0, 0, 0, 232, 3, 2, 2, 46, 46] <|
  bytes_at 12276 [12, 0, 0, 0, 12, 0, 1, 1, 97] <|
  fun _ => 0

/-- The layout of `img_orphan` with, in place of inode 30, a directory inode 12
(block 11) that no directory names and whose `..` entry stores 12 itself. -/
def img_selfparent : Disk :=
  bytes_at 450 [131] <|
  bytes_at 454 [2, 0, 0, 0, 64, 0, 0, 0] <|
  bytes_at 2048 [32, 0, 0, 0, 32, 0, 0, 0] <|
  bytes_at 2080 [0, 32, 0, 0] <|
  bytes_at 2088 [32, 0, 0, 0] <|
  bytes_at 3072 [3, 0, 0, 0, 4, 0, 0, 0, 5, 0, 0, 0] <|
  bytes_at 4096 [255, 7] <|
  bytes_at 6272 [237, 65] <|
  bytes_at 6298 [3, 0] <|
  bytes_at 6312 [9, 0, 0, 0] <|
  bytes_at 7424 [192, 65] <|
  bytes_at 7450 [2, 0] <|
  bytes_at 7464 [10, 0, 0, 0] <|
  bytes_at 7552 [237, 65] <|
  bytes_at 7578 [2, 0] <|
  bytes_at 7592 [11, 0, 0, 0] <|
  bytes_at 10240 [2, 0, 0, 0, 12, 0, 1, 2, 46, 0, 0, 0, 2, 0, 0, 0, 12, 0, 2, 2, 46, 46, 0, 0, 11, 0, 0, 0, 232, 3, 10, 2, 108, 111, 115, 116, 43, 102, 111, 117, 110, 100] <|
  bytes_at 11264 [11, 0, 0, 0, 12, 0, 1, 2, 46, 0, 0, 0, 2, 0, 0, 0, 244, 3, 2, 2, 46, 46] <|
  bytes_at 12288 [12, 0, 0, 0, 12, 0, 1, 2, 46, 0, 0, 0, 12, 0, 0, 0, 244, 3, 2, 2, 46, 46] <|
  fun _ => 0

/-- The layout of `img_orphan` with two directories that no directory reachable
from root names: inode 12 (block 11, `..` stores 2, one entry `sub` for 13) and
inode 13 (block 12, `..` stores 12). -/
def img_nested : Disk :=
  bytes_at 450 [131] <|
  bytes_at 454 [2, 0, 0, 0, 64, 0, 0, 0] <|
  bytes_at 2048 [32, 0, 0, 0, 32, 0, 0, 0] <|
  bytes_at 2080 [0, 32, 0, 0] <|
  bytes_at 2088 [32, 0, 0, 0] <|
  bytes_at 3072 [3, 0, 0, 0, 4, 0, 0, 0, 5, 0, 0, 0] <|
  bytes_at 4096 [255, 15] <|
  bytes_at 6272 [237, 65] <|
  bytes_at 6298 [3, 0] <|
  bytes_at 6312 [9, 0, 0, 0] <|
  bytes_at 7424 [192, 65] <|
  bytes_at 7450 [2, 0] <|
  bytes_at 7464 [10, 0, 0, 0] <|
  bytes_at 7552 [237, 65] <|
  bytes_at 7578 [3, 0] <|
  bytes_at 7592 [11, 0, 0, 0] <|
  bytes_at 7680 [237, 65] <|
  bytes_at 7706 [2, 0] <|
  bytes_at 7720 [12, 0, 0, 0] <|
  bytes_at 10240 [2, 0, 0, 0, 12, 0, 1, 2, 46, 0, 0, 0, 2, 0, 0, 0, 12, 0, 2, 2, 46, 46, 0, 0, 11, 0, 0, 0, 232, 3, 10, 2, 108, 111, 115, 116, 43, 102, 111, 117, 110, 100] <|
  bytes_at 11264 [11, 0, 0, 0, 12, 0, 1, 2, 46, 0, 0, 0, 2, 0, 0, 0, 244, 3, 2, 2, 46, 46] <|
  bytes_at 12288 [12, 0, 0, 0, 12, 0, 1, 2, 46, 0, 0, 0, 2, 0, 0, 0, 12, 0, 2, 2, 46, 46, 0, 0, 13, 0, 0, 0, 232, 3, 3, 2, 115, 117, 98] <|
  bytes_at 13312 [13, 0, 0, 0, 12, 0, 1, 2, 46, 0, 0, 0, 12, 0, 0, 0, 244, 3, 2, 2, 46, 46] <|
  fun _ => 0


/-- The state of `fix_unreferenced_inode` on `img_nested` once the first orphan,
inode 12, is handled. -/
def nested_after_12 : State :=
  match adopt_loop ctx_ex 64 (fun _ => 0) [12] [] (after_walk ctx_ex img_nested) with
  | some t => t
  | none => after_walk ctx_ex img_nested

/-- The layout of `img_orphan` with the directories `/d` (inode 12, block 11) and
`/d/e` (inode 14, block 12): the `.` entry of 12 stores inode 0 and the `..`
entry of 14 stores inode 2. -/
def img_dots : Disk :=
  bytes_at 450 [131] <|
  bytes_at 454 [2, 0, 0, 0, 64, 0, 0, 0] <|
  bytes_at 2048 [32, 0, 0, 0, 32, 0, 0, 0] <|
  bytes_at 2080 [0, 32, 0, 0] <|
  bytes_at 2088 [32, 0, 0, 0] <|
  bytes_at 3072 [3, 0, 0, 0, 4, 0, 0, 0, 5, 0, 0, 0] <|
  bytes_at 4096 [255, 15] <|
  bytes_at 6272 [237, 65] <|
  bytes_at 6298 [4, 0] <|
  bytes_at 6312 [9, 0, 0, 0] <|
  bytes_at 7424 [192, 65] <|
  bytes_at 7450 [2, 0] <|
  bytes_at 7464 [10, 0, 0, 0] <|
  bytes_at 7552 [237, 65] <|
  bytes_at 7578 [3, 0] <|
  bytes_at 7592 [11, 0, 0, 0] <|
  bytes_at 7808 [237, 65] <|
  bytes_at 7834 [2, 0] <|
  bytes_at 7848 [12, 0, 0, 0] <|
  bytes_at 10240 [2, 0, 0, 0, 12, 0, 1, 2, 46, 0, 0, 0, 2, 0, 0, 0, 12, 0, 2, 2, 46, 46, 0, 0, 11, 0, 0, 0, 20, 0, 10, 2, 108, 111, 115, 116, 43, 102, 111, 117, 110, 100, 0, 0, 12, 0, 0, 0, 212, 3, 1, 2, 100] <|
  bytes_at 11264 [11, 0, 0, 0, 12, 0, 1, 2, 46, 0, 0, 0, 2, 0, 0, 0, 244, 3, 2, 2, 46, 46] <|
  bytes_at 12288 [0, 0, 0, 0, 12, 0, 1, 2, 46, 0, 0, 0, 2, 0, 0, 0, 12, 0, 2, 2, 46, 46, 0, 0, 14, 0, 0, 0, 232, 3, 1, 2, 101] <|
  bytes_at 13312 [14, 0, 0, 0, 12, 0, 1, 2, 46, 0, 0, 0, 2, 0, 0, 0, 244, 3, 2, 2, 46, 46] <|
  fun _ => 0

/-- The state after `traverse_dir(12, 2)` on `img_dots` with a zeroed map. -/
def walked_dots : State :=
  match traverse_dir ctx_ex (fun _ _ _ => 0) 64 12 2
      { disk := img_dots, inode_map := fun _ => 0, log := [] } with
  | some s => s
  | none => { disk := img_dots, inode_map := fun _ => 0, log := [] }


/-- The result of `find_dir_end_in_direct` on block 10 of `img_orphan`, the
block of `/lost+found`, for an entry of 9 bytes. -/
def orphan_dir_end : Nat × Disk :=
  match find_dir_end_in_direct ctx_ex 64 (fun _ => 0) img_orphan 11264
      (read_bytes img_orphan 11264) 9 with
  | some r => r
  | none => (0, img_orphan)



/-- The state after `fix_block_map` on the walked image `img_orphan`. -/
def mapped_orphan : State :=
  match fix_block_map ctx_ex 8 (fun _ => 0) (after_walk ctx_ex img_orphan) with
  | some s => s
  | none => after_walk ctx_ex img_orphan

/-- The expected map that `fix_block_map` builds on the walked image `img_orphan`. -/
def expected_orphan : Nat → Nat :=
  match build_block_map ctx_ex 8 (fun _ => 0) (after_walk ctx_ex img_orphan) with
  | some bm => bm
  | none => fun _ => 0


/-- The image `img_orphan` with the name of the first entry of the root
directory changed from `.` to `x` (byte 120 at offset 10248). -/
def img_misnamed : Disk := bytes_at 10248 [120] img_orphan

/-- The state when `fix_fs(1)` returns on the image `d`, with zeroed process memory. -/
def run_fix_fs (d : Disk) : State :=
  match fix_fs 64 junk0 d 1 with
  | some s => s
  | none => { disk := d, inode_map := fun _ => 0, log := [] }


/-- The state after pass 2 (`fix_unreferenced_inode`) on the walked image `d`. -/
def adopted (d : Disk) : State :=
  match fix_unreferenced_inode ctx_ex 64 (fun _ => 0) (after_walk ctx_ex d) with
  | some s => s
  | none => after_walk ctx_ex d

/-- The state after pass 2 and the fresh walk from the root with the reference
map zeroed, on the image `d`. -/
def rewalked (d : Disk) : State :=
  match traverse_dir ctx_ex (fun _ _ _ => 0) 64 EXT2_ROOT_INO EXT2_ROOT_INO
      { adopted d with inode_map := zero_map ctx_ex (adopted d).inode_map } with
  | some s => s
  | none => adopted d


/-- A disk whose first partition entry gives the start sector `0x00800000`
(bytes 0, 0, 128, 0 at offset `0x1BE + 8`): the partition starts at 4 GiB. -/
def img_far : Disk := bytes_at 454 [0, 0, 128, 0] (fun _ => 0)


/-- A disk with an extended primary partition (entry 2, type 5, start sector
100) and two logical partitions: the record at sector 100 describes a
partition of type `0x83` starting 1 sector further, 50 sectors long, and links
to the record at `100 + 60`; that one describes a partition of type `0x83`
starting 1 sector further, 40 sectors long, and ends the chain. -/
def img_ebr : Disk :=
  bytes_at 466 [5, 0, 0, 0, 100, 0, 0, 0, 200, 0, 0, 0] <|
  bytes_at 51650 [131, 0, 0, 0, 1, 0, 0, 0, 50, 0, 0, 0] <|
  bytes_at 51666 [5, 0, 0, 0, 60, 0, 0, 0, 41, 0, 0, 0] <|
  bytes_at 82370 [131, 0, 0, 0, 1, 0, 0, 0, 40, 0, 0, 0] <|
  fun _ => 0

/-- The disk `img_ebr` with the type of its extended primary changed from
`0x05` to `0x0F`. -/
def img_lba : Disk := bytes_at 466 [15] img_ebr


/-- A disk whose superblock (partition start sector 2, so byte 2048) has
`s_blocks_count = 0` and `s_blocks_per_group = 8192`. -/
def img_noblocks : Disk := bytes_at 2080 [0, 32, 0, 0] (fun _ => 0)

/-- The image `img_orphan` with inode 30 given a singly indirect block: its
`i_block[12]` is 20, and block 20 lists 21, then 0, then 22. -/
def img_hole : Disk :=
  bytes_at 9944 [20, 0, 0, 0] <|
  bytes_at 21504 [21, 0, 0, 0, 0, 0, 0, 0, 22, 0, 0, 0] <|
  img_orphan

/-- The image `img_orphan` with inode 31 made a symbolic link of 10 bytes
(`i_mode = 0xA1FF`, `i_size = 10`) whose `i_block` holds the text `/etc/fstab`. -/
def img_symlink : Disk :=
  bytes_at 9984 [255, 161, 0, 0, 10, 0, 0, 0] <|
  bytes_at 10024 [47, 101, 116, 99, 47, 102, 115, 116, 97, 98] <|
  img_orphan


/-- The image `img_dots` with the `file_type` byte of the root entry `d` set to 1
(regular file), while inode 12, which the entry names, is still a directory. -/
def img_untyped : Disk := bytes_at 10291 [1] img_dots

/-- The events of the walk `traverse_dir(root, root)` on the image `d` with a
zeroed map. -/
def walk_events (c : Ctx) (d : Disk) : List WalkEvent :=
  match traverse_dir_tr c (fun _ _ _ => 0) 64 EXT2_ROOT_INO EXT2_ROOT_INO
      ({ disk := d, inode_map := fun _ => 0, log := [] }, []) with
  | some t => t.2
  | none => []

/-- The state `run_passes` returns on the image `d`. -/
def passes_end (d : Disk) : State :=
  match run_passes ctx_ex 64 junk0 d with
  | some s => s
  | none => { disk := d, inode_map := fun _ => 0, log := [] }



/-- The globals of a filesystem with blocks of 4 KiB and one group of 8192
blocks: the bitmaps are blocks 2 and 3, the inode table starts at block 4. -/
def ctx_4k : Ctx :=
  { start_sec := 2, base := 1024, block_size := 4096, inode_size := 128, num_blocks := 8192,
    blocks_per_group := 32768, num_inodes := 32, inodes_per_group := 32, num_groups := 1,
    bg_desc_table := fun _ => ⟨2, 3, 4⟩ }

/-- The map `fix_block_map` builds for `ctx_4k` on an image of zeros with no
inode referenced. -/
def expected_4k : Nat → Nat :=
  match build_block_map ctx_4k 8 (fun _ => 0)
      { disk := fun _ => 0, inode_map := fun _ => 0, log := [] } with
  | some bm => bm
  | none => fun _ => 0

/-- The image `img_orphan` with bit 9 of the block bitmap cleared (byte 1 of
block 3 is 1 in place of 3): block 10, the block of `/lost+found`, is in use
and its bit says free. -/
def img_clearbit : Disk := bytes_at 4097 [1] img_orphan

/-- The state after `fix_block_map` on the walked image `d`. -/
def mapped_image (d : Disk) : State :=
  match fix_block_map ctx_ex 8 (fun _ => 0) (after_walk ctx_ex d) with
  | some s => s
  | none => after_walk ctx_ex d

/-- The expected map that `fix_block_map` builds on the walked image `d`. -/
def expected_image (d : Disk) : Nat → Nat :=
  match build_block_map ctx_ex 8 (fun _ => 0) (after_walk ctx_ex d) with
  | some bm => bm
  | none => fun _ => 0

/-- The image `img_orphan` with a reference map that counts three entries for
inode 30, whose stored link count is 1, and none for any other inode. -/
def refs_orphan : State :=
  { disk := img_orphan, inode_map := fun i => if i = 30 then 3 else 0, log := [] }

/-- The run `myfsck -f 0` on the image `d`. -/
def repair_all_run (d : Disk) : Run :=
  match main 64 8 (fun _ => junk0) d (-1) 0 with
  | some r => r
  | none => { out := [], status := 0, fixed := [], disk := d }


/-- The image `img_orphan` with three of its free blocks filled: block 20 holds
the words 30, 12 and 0 (read as a directory block: an entry for inode 30 with
`rec_len` 12 and an empty entry of `rec_len` 1012), and blocks 12 and 30 hold
one empty directory entry of `rec_len` 1024.  Block 0 of the partition, the
boot block, is zero. -/
def img_spare : Disk :=
  bytes_at 21504 [30, 0, 0, 0, 12, 0, 0, 0, 0, 0, 0, 0, 0, 0, 0, 0, 244, 3] <|
  bytes_at 13316 [0, 4] <|
  bytes_at 31748 [0, 4] <|
  img_orphan

/-- The image `img_spare` with the first word of partition block 0 (byte 1024,
in the boot block) set to 20. -/
def img_boot : Disk := bytes_at 1024 [20] img_spare

/-- The reference map after the walk from the root on the image `d`, as the
list of the pairs `(k, my_inode_map[k])` with a count other than 0, for `k` in
`0 .. num_inodes`; `none` when the walk does not end within the fuel. -/
def walk_map (c : Ctx) (d : Disk) : Option (List (Nat × Nat)) :=
  (traverse_dir c (fun _ _ _ => 0) 64 EXT2_ROOT_INO EXT2_ROOT_INO
      { disk := d, inode_map := fun _ => 0, log := [] }).map
    (fun s => (List.range (c.num_inodes + 1)).filterMap
      (fun k => if s.inode_map k = 0 then none else some (k, s.inode_map k)))

/-- The globals of `ctx_ex` for a filesystem of 2048 blocks. -/
def ctx_2k : Ctx := { ctx_ex with num_blocks := 2048 }

/-- An image of 2048 blocks with the layout of `img_orphan` whose root directory
has a triply indirect root: `i_block[14]` of inode 2 is 20, block 20 lists
block 21, block 21 lists block 22, block 22 lists the data blocks 23 and 1024;
block 23 holds the directory entry `f` for inode 30 (`rec_len` 1024) and block
1024 an empty entry of `rec_len` 1024. -/
def img_triply : Disk :=
  bytes_at 458 [4, 16, 0, 0] <|
  bytes_at 2052 [0, 8, 0, 0] <|
  bytes_at 6368 [20, 0, 0, 0] <|
  bytes_at 21504 [21, 0, 0, 0] <|
  bytes_at 22528 [22, 0, 0, 0] <|
  bytes_at 23552 [23, 0, 0, 0, 0, 4, 0, 0] <|
  bytes_at 24576 [30, 0, 0, 0, 0, 4, 1, 1, 102] <|
  bytes_at 1049604 [0, 4] <|
  img_orphan

/-- The image `img_orphan` whose root directory has a singly indirect block:
`i_block[12]` of inode 2 is 20, block 20 lists block 21, and block 21 holds the
directory entry `f` for inode 30 (`rec_len` 1024, file type 1). -/
def img_indirect : Disk :=
  bytes_at 6360 [20, 0, 0, 0] <|
  bytes_at 21504 [21, 0, 0, 0] <|
  bytes_at 22528 [30, 0, 0, 0, 0, 4, 1, 1, 102] <|
  img_orphan



/-- The image `img_dots` with a third entry `u` in the directory `/d/e` (inode
14, block 12) that names inode 12, the directory `/d`, with file type
"directory": the entries form the cycle `/d -> /d/e -> /d`. -/
def img_cycle : Disk :=
  bytes_at 13328 [12, 0] <|
  bytes_at 13336 [12, 0, 0, 0, 232, 3, 1, 2, 117] <|
  img_dots

/-- The image `img_orphan` whose `/lost+found` block (block 10) ends in an unused
entry: `..` has `rec_len` 12 and a third entry at offset 24 has inode 0,
`rec_len` 1000, `name_len` 0 and file type 0. -/
def img_emptytail : Disk :=
  bytes_at 11280 [12, 0] <|
  bytes_at 11288 [0, 0, 0, 0, 232, 3, 0, 0] <|
  img_orphan

/-- The globals of `ctx_ex` for a filesystem of 8192 blocks of 1 KiB: one group
that is full (`num_blocks = blocks_per_group = 8192`). -/
def ctx_fullgroup : Ctx := { ctx_ex with num_blocks := 8192 }

/-- The image `img_dots` with the inode number of the root entry `d` (file type
"directory") set to 100, above `num_inodes = 32`. -/
def img_outrange : Disk := bytes_at 10284 [100] img_dots

/-- The events of the walk `traverse_dir(root, root)` on the image `d` from a
reference map that is zero in `0 .. num_inodes` and holds `junk` in the memory
behind it. -/
def walk_events_junk (c : Ctx) (d : Disk) (junk : Nat) : List WalkEvent :=
  match traverse_dir_tr c (fun _ _ _ => 0) 64 EXT2_ROOT_INO EXT2_ROOT_INO
      ({ disk := d, inode_map := fun k => if k ≤ c.num_inodes then 0 else junk, log := [] },
        []) with
  | some t => t.2
  | none => []

/-- The image `img_full`, whose `/lost+found` (inode 11) has no room in its
direct block 10, with a singly indirect block for inode 11: `i_block[12]` is
20, block 20 lists block 21, and block 21 holds the single entry `b` for inode
12 with `rec_len` 1024, after which there is room. -/
def img_fullind : Disk :=
  bytes_at 7512 [20, 0, 0, 0] <|
  bytes_at 21504 [21, 0, 0, 0] <|
  bytes_at 22528 [12, 0, 0, 0, 0, 4, 1, 1, 98] <|
  img_full

/-- The image `img_full` with a second block for `/lost+found`: `i_block[1]` of
inode 11 is block 20, which holds one empty entry that spans the block. -/
def img_twoblock : Disk :=
  bytes_at 7468 [20, 0, 0, 0] <|
  bytes_at 21504 [0, 0, 0, 0, 0, 4, 0, 0] <|
  img_full

/-- The state after pass 2 and the fresh walk from the root with the reference
map zeroed, on the image `d`, when every byte of the walk's name buffer that
the walk reads unwritten holds `junk`. -/
def rewalked_junk (d : Disk) (junk : Nat) : State :=
  match traverse_dir ctx_ex (fun _ _ _ => junk) 64 EXT2_ROOT_INO EXT2_ROOT_INO
      { adopted d with inode_map := zero_map ctx_ex (adopted d).inode_map } with
  | some s => s
  | none => adopted d

/-- The state after `fix_block_map` on the walked image `d` for the full group
of `ctx_fullgroup`. -/
def mapped_full (d : Disk) : State :=
  match fix_block_map ctx_fullgroup 8 (fun _ => 0) (after_walk ctx_fullgroup d) with
  | some s => s
  | none => after_walk ctx_fullgroup d

/-- The expected map that `fix_block_map` builds on the walked image `d` for
`ctx_fullgroup`. -/
def expected_full (d : Disk) : Nat → Nat :=
  match build_block_map ctx_fullgroup 8 (fun _ => 0) (after_walk ctx_fullgroup d) with
  | some bm => bm
  | none => fun _ => 0

/-- The image `img_dots` with the `name_len` byte of the first entry of
directory 12 (block 11, offset 6) set to 255. -/
def img_longdot : Disk := bytes_at 12294 [255] img_dots

/-- The image `img_orphan` with two more entries in the root directory and a
regular file as inode 12: behind `lost+found` (now with `rec_len` 20) the root's
block holds, at offset 44, the entry of inode 12 with a name of 255 bytes
(`rec_len` 264) and, at offset 308, the entry `f` of inode 30, which reaches the
end of the block. -/
def img_longname : Disk :=
  bytes_at 7552 [164, 129] <|
  bytes_at 7578 [1, 0] <|
  bytes_at 10268 [20, 0] <|
  bytes_at 10284 ([12, 0, 0, 0, 8, 1, 255, 1] ++ List.replicate 255 97) <|
  bytes_at 10548 [30, 0, 0, 0, 204, 2, 1, 1, 102] <|
  img_orphan

/-- The image `img_orphan` with the root's data block moved from `i_block[0]`
to `i_block[1]`: `i_block[0]` of inode 2 is 0 and `i_block[1]` is 9. -/
def img_rootblk1 : Disk := bytes_at 6312 [0, 0, 0, 0, 9, 0, 0, 0] img_orphan

/-- The result of `get_dir_entry_end` for `/lost+found` (inode 11) on the walked
image `img_twoblock`, for the entry of inode 30. -/
def twoblock_dir_end : Nat × Disk :=
  match get_dir_entry_end ctx_ex 64 (fun _ => 0) (after_walk ctx_ex img_twoblock).disk
      ((11 : Nat) : Int) (8 + ((decimal 30).length - 1) % 256) with
  | some r => r
  | none => (0, img_twoblock)

/-- A process memory as `junk0`, except that every byte of the walk's name
buffer that the walk reads unwritten holds 65. -/
def junk65 : Junk := { junk0 with walk_stk := fun _ _ _ => 65 }

/-- The state when `fix_fs(1)` returns on the image `d`, with the process
memory `j`. -/
def run_fix_fs_with (j : Junk) (d : Disk) : State :=
  match fix_fs 64 j d 1 with
  | some s => s
  | none => { disk := d, inode_map := fun _ => 0, log := [] }

/-- The image `img_orphan` with the block of the inode table (block 5) as a
second directory block of the root, `i_block[1] = 5`.  Read as directory
entries, the record of inode 1 is an entry of `rec_len` 282 for inode 0, and
the next entry lies in the record of inode 3: its inode field is the field
`i_links_count` of inode 3 (which holds 7) with the two bytes behind it, and
its `rec_len` 742 reaches the end of the block. -/
def img_alias : Disk :=
  bytes_at 6148 [26, 1] <|
  bytes_at 6316 [5, 0, 0, 0] <|
  bytes_at 6426 [7, 0, 0, 0, 230, 2, 0, 1] <|
  img_orphan

/-- The image `img_orphan` with a `/lost+found` that holds the single entry `.`,
whose `rec_len` 1024 spans the block. -/
def img_nodotdot : Disk := bytes_at 11268 [0, 4] img_orphan

/-! # Theorems -/

/-! ## Pass 2: what `put_into_lostfound` writes -/

/-- Claim C5, the code at the failing input: on `img_orphan`, whose inode 30 is a
regular file (`i_mode = 0x81A4`) named by no directory, `put_into_lostfound(30)`
returns 0 and appends to `/lost+found` (block 10, offset 24) an entry with
inode 30, `rec_len` 1000, `name_len` 1 (not 2) and file type 1 (regular): the
name written is `"3"` (byte 51), and the byte after it stays 0. -/
theorem put_into_lostfound_name_len :
    (put_into_lostfound ctx_ex 64 (fun _ => 0) img_orphan 30).map
        (fun r => [r.1.toNat, rd32 r.2 11288, rd16 r.2 11292, rd8 r.2 11294, rd8 r.2 11295,
          rd8 r.2 11296, rd8 r.2 11297])
      = some [0, 30, 1000, 1, 1, 51, 0] := by
  decide

/-- Claim C8, the code at the failing input: on `img_full`, where no block of
`/lost+found` has room after its final entry, `get_dir_entry_end` returns
`(unsigned) -1`, and `put_into_lostfound(30)` then returns 0 and writes the new
entry (inode 30, `name_len` 1, name byte 51) at offset 4294967295 of the image,
which held zeros there. -/
theorem put_into_lostfound_no_room :
    ((get_dir_entry_end ctx_ex 64 (fun _ => 0) img_full 11 9).map (fun r => r.1),
     (put_into_lostfound ctx_ex 64 (fun _ => 0) img_full 30).map
        (fun r => [r.1.toNat, rd32 r.2 4294967295, rd8 r.2 4294967301, rd8 r.2 4294967303]),
     [rd32 img_full 4294967295, rd8 img_full 4294967301, rd8 img_full 4294967303])
      = (some 4294967295, some [0, 30, 1, 51], [0, 0, 0]) := by
  decide

/-! ## Pass 2: which orphan directories are adopted -/

theorem adopt_loop_append (c : Ctx) (fuel : Nat) (stk : Disk) (pre rest : List Nat) :
    ∀ (earlier : List Nat) (s : State),
      adopt_loop c fuel stk (pre ++ rest) earlier s
        = (adopt_loop c fuel stk pre earlier s).bind
            (fun t => adopt_loop c fuel stk rest (earlier ++ pre) t) := by
  induction pre with
  | nil => intro earlier s; simp [adopt_loop]
  | cons x xs ih =>
    intro earlier s
    simp only [List.cons_append, adopt_loop]
    split
    · cases h : put_into_lostfound c fuel stk s.disk x with
      | none => simp
      | some r => simp [ih, List.append_assoc]
    · simp [ih, List.append_assoc]

theorem uref_inodes_pairwise (c : Ctx) (s : State) :
    (uref_inodes c s).Pairwise (fun a b => a < b) := by
  unfold uref_inodes
  exact List.Pairwise.filter _ (List.pairwise_lt_range' 1 c.num_inodes)

/-- Claim C6, counterexample: on `img_selfparent` the orphan set is `{12}`,
inode 12 is a directory whose `..` entry stores 12, a member of the set, and
`fix_unreferenced_inode` still links it into `/lost+found`: "linked iff the
stored parent is not in the orphan set" fails. -/
theorem self_parent_orphan_adopted :
    ¬ (∀ s', fix_unreferenced_inode ctx_ex 64 (fun _ => 0) (after_walk ctx_ex img_selfparent)
          = some s' →
        ∀ d ∈ uref_inodes ctx_ex (after_walk ctx_ex img_selfparent),
          EXT2_S_ISDIR (i_mode (read_bytes (after_walk ctx_ex img_selfparent).disk
            (get_inode_addr ctx_ex d))) = true →
          (Report.adopt d ∈ s'.log ↔
            get_parent_id ctx_ex (after_walk ctx_ex img_selfparent).disk
              (read_bytes (after_walk ctx_ex img_selfparent).disk (get_inode_addr ctx_ex d))
              ∉ uref_inodes ctx_ex (after_walk ctx_ex img_selfparent))) := by
  intro h
  cases hr : fix_unreferenced_inode ctx_ex 64 (fun _ => 0) (after_walk ctx_ex img_selfparent) with
  | none =>
    have h1 : (fix_unreferenced_inode ctx_ex 64 (fun _ => 0)
        (after_walk ctx_ex img_selfparent)).isSome = true := by decide
    rw [hr] at h1
    cases h1
  | some s' =>
    have hlog : (fix_unreferenced_inode ctx_ex 64 (fun _ => 0)
        (after_walk ctx_ex img_selfparent)).map (fun s => s.log) = some [Report.adopt 12] := by
      decide
    rw [hr] at hlog
    have hl : s'.log = [Report.adopt 12] := by simpa using hlog
    have h2 := h s' hr 12 (by decide) (by decide)
    rw [hl] at h2
    revert h2
    decide

/-- Claim C6, amended: when the turn of an orphan directory `d` comes in
`fix_unreferenced_inode` (the orphans `pre` before it are handled and the state
is `t`), `d` is skipped, the state unchanged, if its stored parent is an orphan
with a smaller inode number, and `put_into_lostfound(d)` is called, after the
report, if its stored parent is no orphan or is `d` itself. -/
theorem fix_unreferenced_inode_defers (c : Ctx) (fuel : Nat) (stk : Disk) (s t : State)
    (pre post : List Nat) (d : Nat)
    (hu : uref_inodes c s = pre ++ d :: post)
    (ht : adopt_loop c fuel stk pre [] s = some t)
    (hd : EXT2_S_ISDIR (i_mode (read_bytes t.disk (get_inode_addr c d))) = true) :
    ((get_parent_id c t.disk (read_bytes t.disk (get_inode_addr c d)) ∈ uref_inodes c s
        ∧ get_parent_id c t.disk (read_bytes t.disk (get_inode_addr c d)) < d) →
      fix_unreferenced_inode c fuel stk s = adopt_loop c fuel stk post (pre ++ [d]) t)
    ∧ ((get_parent_id c t.disk (read_bytes t.disk (get_inode_addr c d)) ∉ uref_inodes c s
        ∨ get_parent_id c t.disk (read_bytes t.disk (get_inode_addr c d)) = d) →
      fix_unreferenced_inode c fuel stk s
        = (put_into_lostfound c fuel stk t.disk d).bind
            (fun r => adopt_loop c fuel stk post (pre ++ [d])
              { t with disk := r.2, log := t.log ++ [Report.adopt d] })) := by
  have hp := uref_inodes_pairwise c s
  rw [hu, List.pairwise_append] at hp
  obtain ⟨_, hpost, hpre⟩ := hp
  have hrun : fix_unreferenced_inode c fuel stk s = adopt_loop c fuel stk (d :: post) pre t := by
    unfold fix_unreferenced_inode
    rw [hu, adopt_loop_append, ht]
    simp
  constructor
  · rintro ⟨hmem, hlt⟩
    have hin : get_parent_id c t.disk (read_bytes t.disk (get_inode_addr c d)) ∈ pre := by
      rw [hu, List.mem_append, List.mem_cons] at hmem
      rcases hmem with h | h | h
      · exact h
      · omega
      · have := (List.pairwise_cons.1 hpost).1 _ h
        omega
    rw [hrun]
    simp [adopt_loop, hd, hin]
  · intro hcase
    have hnot : get_parent_id c t.disk (read_bytes t.disk (get_inode_addr c d)) ∉ pre := by
      intro hin
      rcases hcase with h | h
      · exact h (by rw [hu]; exact List.mem_append_left _ hin)
      · have := hpre _ hin d (List.mem_cons_self _ _)
        omega
    rw [hrun]
    simp only [adopt_loop, hd, hnot, List.contains_eq_any_beq]
    cases hput : put_into_lostfound c fuel stk t.disk d with
    | none => simp [hnot]
    | some r => simp [hnot]

/-- Witness for `fix_unreferenced_inode_defers`: on `img_nested` the orphans are
12 and 13; when the turn of 13 comes its stored parent is 12, an earlier
orphan, and 13 is skipped. -/
theorem fix_unreferenced_inode_defers_witness :
    (uref_inodes ctx_ex (after_walk ctx_ex img_nested) = [12] ++ 13 :: []
      ∧ get_parent_id ctx_ex nested_after_12.disk
          (read_bytes nested_after_12.disk (get_inode_addr ctx_ex 13)) = 12)
    ∧ fix_unreferenced_inode ctx_ex 64 (fun _ => 0) (after_walk ctx_ex img_nested)
        = adopt_loop ctx_ex 64 (fun _ => 0) [] ([12] ++ [13]) nested_after_12 :=
  ⟨⟨by decide, by decide⟩,
   (fix_unreferenced_inode_defers ctx_ex 64 (fun _ => 0) (after_walk ctx_ex img_nested)
      nested_after_12 [12] [] 13 (by decide) (by rfl) (by decide)).1 ⟨by decide, by decide⟩⟩


/-! ## Inode addressing -/

theorem wrap32_natCast (x : Nat) : wrap32 (x : Int) = x % 4294967296 := by
  unfold wrap32
  omega

theorem get_inode_addr_nat (c : Ctx) (n : Nat) (h : 1 ≤ n) :
    get_inode_addr c (n : Int)
      = (c.start_sec * SECTOR_SIZE
          + (c.bg_desc_table (((n - 1) / c.inodes_per_group : Nat) : Int)).bg_inode_table
              * c.block_size
          + (n - 1) % c.inodes_per_group * c.inode_size) % 4294967296 := by
  unfold get_inode_addr
  have h1 : ((n : Int) - 1) = ((n - 1 : Nat) : Int) := by omega
  simp only [h1]
  rw [Int.tdiv_eq_ediv (Int.ofNat_zero_le _) (Int.ofNat_zero_le _),
    Int.tmod_eq_emod (Int.ofNat_zero_le _) (Int.ofNat_zero_le _)]
  rw [← Int.natCast_div, ← Int.natCast_mod]
  rw [← wrap32_natCast]
  congr 1

/-! ## Loads and stores -/

theorem rd16_congr {m m' : Disk} {a b : Nat} (h0 : m a = m' b) (h1 : m (a + 1) = m' (b + 1)) :
    rd16 m a = rd16 m' b := by
  simp [rd16, rd8, h0, h1]

theorem rd32_congr {m m' : Disk} {a b : Nat} (h0 : m a = m' b) (h1 : m (a + 1) = m' (b + 1))
    (h2 : m (a + 2) = m' (b + 2)) (h3 : m (a + 3) = m' (b + 3)) :
    rd32 m a = rd32 m' b := by
  simp [rd32, rd8, h0, h1, h2, h3]

theorem rd8_lt (m : Disk) (a : Nat) : rd8 m a < 256 := by
  unfold rd8; omega

theorem rd16_lt (m : Disk) (a : Nat) : rd16 m a < 65536 := by
  unfold rd16 rd8; omega

theorem rd32_lt (m : Disk) (a : Nat) : rd32 m a < 4294967296 := by
  unfold rd32 rd8; omega

theorem rd16_wr16 (m : Disk) (a v : Nat) : rd16 (wr16 m a v) a = v % 65536 := by
  simp [rd16, rd8, wr16, le_byte]
  omega

theorem rd32_wr32 (m : Disk) (a v : Nat) : rd32 (wr32 m a v) a = v % 4294967296 := by
  simp [rd32, rd8, wr32, le_byte]
  omega

/-! ## Pass 3: link counts -/

theorem fix_link_count_inode_map (c : Ctx) (i : Nat) (s : State) :
    (fix_link_count c i s).inode_map = s.inode_map := by
  unfold fix_link_count
  simp only
  split <;> rfl

theorem fix_link_count_frame (c : Ctx) (i : Nat) (s : State) (x : Nat)
    (hx : x < get_inode_addr c i + OFF_I_LINKS ∨ get_inode_addr c i + OFF_I_LINKS + 2 ≤ x) :
    (fix_link_count c i s).disk x = s.disk x := by
  unfold fix_link_count
  simp only
  split
  · simp only [write_bytes, wr16, read_bytes, INODE_REC_SIZE, OFF_I_LINKS] at *
    by_cases h : get_inode_addr c i ≤ x ∧ x < get_inode_addr c i + 128
    · rw [if_pos h, if_neg (by omega)]
      congr 1
      omega
    · rw [if_neg h]
  · rfl

theorem fix_link_count_stored (c : Ctx) (i : Nat) (s : State) (hfit : s.inode_map i < 65536) :
    i_links_count (read_bytes (fix_link_count c i s).disk (get_inode_addr c i)) = s.inode_map i := by
  unfold fix_link_count
  simp only
  split
  · have h := rd16_wr16 (read_bytes s.disk (get_inode_addr c i)) OFF_I_LINKS (s.inode_map i)
    rw [Nat.mod_eq_of_lt hfit] at h
    refine Eq.trans ?_ h
    unfold i_links_count
    apply rd16_congr <;>
      simp [read_bytes, write_bytes, INODE_REC_SIZE, OFF_I_LINKS, Nat.add_assoc]
  · rename_i h
    simp only [ne_eq, Decidable.not_not] at h
    exact h.symm

theorem fix_link_counts_aux (c : Ctx) (l : List Nat) :
    ∀ (s : State), l.Nodup →
      (∀ i ∈ l, s.inode_map i < 65536) →
      (∀ i ∈ l, ∀ j ∈ l, i ≠ j →
        get_inode_addr c i + INODE_REC_SIZE ≤ get_inode_addr c j
          ∨ get_inode_addr c j + INODE_REC_SIZE ≤ get_inode_addr c i) →
      (l.foldl (fun s1 i => fix_link_count c i s1) s).inode_map = s.inode_map
      ∧ (∀ x, (∀ i ∈ l, x < get_inode_addr c i + OFF_I_LINKS
                  ∨ get_inode_addr c i + OFF_I_LINKS + 2 ≤ x) →
            (l.foldl (fun s1 i => fix_link_count c i s1) s).disk x = s.disk x)
      ∧ (∀ i ∈ l, i_links_count
            (read_bytes (l.foldl (fun s1 i => fix_link_count c i s1) s).disk (get_inode_addr c i))
            = s.inode_map i) := by
  induction l with
  | nil => intro s _ _ _; simp
  | cons k l ih =>
    intro s hnd hfit hsep
    have hnd' := (List.nodup_cons.1 hnd)
    have ih' := ih (fix_link_count c k s) hnd'.2
      (fun i hi => by rw [fix_link_count_inode_map]; exact hfit i (List.mem_cons_of_mem _ hi))
      (fun i hi j hj hij => hsep i (List.mem_cons_of_mem _ hi) j (List.mem_cons_of_mem _ hj) hij)
    obtain ⟨ihm, ihf, ihs⟩ := ih'
    simp only [List.foldl_cons]
    refine ⟨?_, ?_, ?_⟩
    · rw [ihm, fix_link_count_inode_map]
    · intro x hx
      rw [ihf x (fun i hi => hx i (List.mem_cons_of_mem _ hi))]
      exact fix_link_count_frame c k s x (hx k (List.mem_cons_self _ _))
    · intro i hi
      rcases List.mem_cons.1 hi with rfl | hi'
      · have hk := fix_link_count_stored c i s (hfit i (List.mem_cons_self _ _))
        refine Eq.trans ?_ hk
        unfold i_links_count
        have hout : ∀ x, get_inode_addr c i + OFF_I_LINKS ≤ x →
            x < get_inode_addr c i + OFF_I_LINKS + 2 →
            ∀ j ∈ l, x < get_inode_addr c j + OFF_I_LINKS
              ∨ get_inode_addr c j + OFF_I_LINKS + 2 ≤ x := by
          intro x hx1 hx2 j hj
          have hne : i ≠ j := fun h => hnd'.1 (h ▸ hj)
          have := hsep i (List.mem_cons_self _ _) j (List.mem_cons_of_mem _ hj) hne
          simp only [INODE_REC_SIZE, OFF_I_LINKS] at *
          omega
        apply rd16_congr
        · simp only [read_bytes]
          exact ihf _ (hout _ (by omega) (by omega))
        · simp only [read_bytes]
          have := ihf (get_inode_addr c i + (OFF_I_LINKS + 1)) (hout _ (by omega) (by omega))
          simpa [Nat.add_assoc] using this
      · rw [ihs i hi', fix_link_count_inode_map]

/-- Claim C2: after `fix_link_counts`, for every inode `i` in `1 .. num_inodes`
the `i_links_count` stored on disk equals `my_inode_map[i]`, the count of the
preceding walk, which the pass leaves as it was.  The counts are taken to fit
the 16-bit field and the records of distinct inodes not to overlap. -/
theorem fix_link_counts_stores_refs (c : Ctx) (s : State)
    (hfit : ∀ i, 1 ≤ i → i ≤ c.num_inodes → s.inode_map i < 65536)
    (hsep : ∀ i j, 1 ≤ i → i ≤ c.num_inodes → 1 ≤ j → j ≤ c.num_inodes → i ≠ j →
      get_inode_addr c i + INODE_REC_SIZE ≤ get_inode_addr c j
        ∨ get_inode_addr c j + INODE_REC_SIZE ≤ get_inode_addr c i)
    (i : Nat) (h1 : 1 ≤ i) (h2 : i ≤ c.num_inodes) :
    i_links_count (read_bytes (fix_link_counts c s).disk (get_inode_addr c i)) = s.inode_map i
      ∧ (fix_link_counts c s).inode_map = s.inode_map := by
  have hmem : ∀ k, k ∈ List.range' 1 c.num_inodes ↔ 1 ≤ k ∧ k ≤ c.num_inodes := by
    intro k
    rw [List.mem_range'_1]
    omega
  have h := fix_link_counts_aux c (List.range' 1 c.num_inodes) s (List.nodup_range' 1 c.num_inodes)
    (fun k hk => hfit k ((hmem k).1 hk).1 ((hmem k).1 hk).2)
    (fun a ha b hb hab => hsep a b ((hmem a).1 ha).1 ((hmem a).1 ha).2
      ((hmem b).1 hb).1 ((hmem b).1 hb).2 hab)
  exact ⟨h.2.2 i ((hmem i).2 ⟨h1, h2⟩), h.1⟩

/-- Witness for `fix_link_counts_stores_refs`: on `img_orphan`, where inode 30
stores the count 1, a reference map that counts three entries for inode 30
makes `fix_link_counts` store 3. -/
theorem fix_link_counts_stores_refs_witness :
    i_links_count (read_bytes img_orphan (get_inode_addr ctx_ex 30)) = 1
    ∧ i_links_count (read_bytes
        (fix_link_counts ctx_ex
          { disk := img_orphan, inode_map := fun i => if i = 30 then 3 else 0, log := [] }).disk
        (get_inode_addr ctx_ex 30)) = 3 :=
  ⟨by decide,
   (fix_link_counts_stores_refs ctx_ex
      { disk := img_orphan, inode_map := fun i => if i = 30 then 3 else 0, log := [] }
      (by intro i _ _; show (if i = 30 then 3 else 0) < 65536; split <;> omega)
      (by
        intro i j h1 h2 h3 h4 h5
        have hn : ctx_ex.num_inodes = 32 := rfl
        rw [get_inode_addr_nat _ i h1, get_inode_addr_nat _ j h3]
        simp only [ctx_ex, SECTOR_SIZE, INODE_REC_SIZE] at *
        omega)
      30 (by decide) (by decide)).1⟩


/-! ## The walk: reports and repairs -/

theorem replay_append (d : Disk) (a b : List Report) :
    replay d (a ++ b) = replay (replay d a) b := by
  unfold replay
  exact List.foldl_append _ _ _ _

theorem WalkOK_refl (c : Ctx) (s : State) : WalkOK c s s :=
  ⟨[], by simp, rfl, by simp⟩

theorem WalkOK_trans {c : Ctx} {s1 s2 s3 : State} (h1 : WalkOK c s1 s2) (h2 : WalkOK c s2 s3) :
    WalkOK c s1 s3 := by
  obtain ⟨r1, hl1, hd1, hs1⟩ := h1
  obtain ⟨r2, hl2, hd2, hs2⟩ := h2
  refine ⟨r1 ++ r2, by rw [hl2, hl1, List.append_assoc], by rw [hd2, hd1, replay_append], ?_⟩
  intro r hr
  rcases List.mem_append.1 hr with h | h
  · obtain ⟨pre, hp, hs⟩ := hs1 r h
    exact ⟨pre, hp.trans (List.prefix_append _ _), hs⟩
  · obtain ⟨pre, hp, hs⟩ := hs2 r h
    refine ⟨r1 ++ pre, (List.prefix_append_right_inj r1).2 hp, ?_⟩
    rw [replay_append, ← hd1]
    exact hs

theorem check_entry_log (c : Ctx) (bo bn cur par base cnt : Nat) (buf name : Disk) (s : State) :
    (check_entry c bo bn cur par base cnt buf name s).2.2.log
      = s.log ++ own_reports bo bn cur par base cnt buf name := by
  unfold check_entry own_reports
  dsimp only
  split_ifs <;> simp

theorem check_entry_disk (c : Ctx) (bo bn cur par base cnt : Nat) (buf name : Disk) (s : State) :
    (check_entry c bo bn cur par base cnt buf name s).2.2.disk
      = replay s.disk (own_reports bo bn cur par base cnt buf name) := by
  unfold check_entry own_reports
  dsimp only
  split_ifs <;> simp [replay, apply_repair, set_inode_num]

theorem own_reports_site (c : Ctx) (bo bn cur par base cnt : Nat) (buf name : Disk)
    (r : Report) (hbase : base < c.block_size)
    (hr : r ∈ own_reports bo bn cur par base cnt buf name) :
    OwnSite c bo bn cur par base r := by
  unfold own_reports at hr
  unfold OwnSite
  rcases List.mem_append.1 hr with h | h
  · split at h
    · rename_i hc
      simp only [Bool.and_eq_true, beq_iff_eq] at hc
      simp only [List.mem_singleton] at h
      exact ⟨hc.1.2, base, Nat.le_refl _, hbase, Or.inl ⟨_, h⟩⟩
    · simp at h
  · split at h
    · rename_i hc
      simp only [Bool.and_eq_true, beq_iff_eq] at hc
      simp only [List.mem_singleton] at h
      exact ⟨hc.1.2, base, Nat.le_refl _, hbase, Or.inr h⟩
    · simp at h

theorem BlockOK_step {c : Ctx} {bo bn cur par base cnt rec_len : Nat} {buf name : Disk}
    {s s3 s4 s5 : State} (hbase : base < c.block_size)
    (h3l : s3.log = s.log ++ own_reports bo bn cur par base cnt buf name)
    (h3d : s3.disk = replay s.disk (own_reports bo bn cur par base cnt buf name))
    (hw : WalkOK c s3 s4)
    (hrest : BlockOK c bo bn cur par (base + rec_len) s4 s5) :
    BlockOK c bo bn cur par base s s5 := by
  obtain ⟨rw, hwl, hwd, hws⟩ := hw
  obtain ⟨rr, hrl, hrd, hrs⟩ := hrest
  refine ⟨own_reports bo bn cur par base cnt buf name ++ (rw ++ rr), ?_, ?_, ?_⟩
  · rw [hrl, hwl, h3l]; simp [List.append_assoc]
  · rw [hrd, hwd, h3d, replay_append, replay_append]
  · intro r hr
    rcases List.mem_append.1 hr with h | h
    · exact Or.inl (own_reports_site c _ _ _ _ _ _ _ _ r hbase h)
    · rcases List.mem_append.1 h with h | h
      · obtain ⟨pre, hp, hs⟩ := hws r h
        refine Or.inr ⟨own_reports bo bn cur par base cnt buf name ++ pre, ?_, ?_⟩
        · exact (List.prefix_append_right_inj _).2 (hp.trans (List.prefix_append _ _))
        · rw [replay_append, ← h3d]; exact hs
      · rcases hrs r h with ho | ⟨pre, hp, hs⟩
        · left
          obtain ⟨hbn, e, he1, he2, ho⟩ := ho
          exact ⟨hbn, e, by omega, he2, ho⟩
        · refine Or.inr ⟨own_reports bo bn cur par base cnt buf name ++ (rw ++ pre), ?_, ?_⟩
          · exact (List.prefix_append_right_inj _).2 ((List.prefix_append_right_inj _).2 hp)
          · rw [replay_append, replay_append, ← h3d, ← hwd]; exact hs

theorem traverse_direct_block_ok (walk : Nat → Nat → State → Option State) (c : Ctx)
    (bo bn cur par : Nat)
    (hwalk : ∀ i p t t', walk i p t = some t' → WalkOK c t t') :
    ∀ (fuel base cnt : Nat) (buf name : Disk) (s s' : State),
      traverse_direct_block walk c bo bn cur par fuel base cnt buf name s = some s' →
      BlockOK c bo bn cur par base s s' := by
  intro fuel
  induction fuel with
  | zero => intro base cnt buf name s s' h; simp [traverse_direct_block] at h
  | succ fuel ih =>
    intro base cnt buf name s s' h
    rw [traverse_direct_block] at h
    split at h
    · rename_i hbase
      simp only at h
      split at h
      · split at h
        · exact absurd h (by simp)
        · rename_i s4 hw4
          exact BlockOK_step hbase
            (check_entry_log c bo bn cur par base (cnt_after_name (rd8 buf (base + 6)) cnt)
              buf name s)
            (check_entry_disk c bo bn cur par base (cnt_after_name (rd8 buf (base + 6)) cnt)
              buf name s)
            (hwalk _ _ _ _ hw4) (ih _ _ _ _ _ _ h)
      · exact BlockOK_step hbase
          (check_entry_log c bo bn cur par base (cnt_after_name (rd8 buf (base + 6)) cnt)
            buf name s)
          (check_entry_disk c bo bn cur par base (cnt_after_name (rd8 buf (base + 6)) cnt)
            buf name s)
          (WalkOK_refl c _) (ih _ _ _ _ _ _ h)
    · simp only [Option.some.injEq] at h
      subst h
      exact ⟨[], by simp, rfl, by simp⟩

theorem for_each_ok (c : Ctx) (f : Nat → State → Option State) (l : List Nat)
    (hf : ∀ i ∈ l, ∀ t t', f i t = some t' → WalkOK c t t') :
    ∀ (s s' : State), for_each f l s = some s' → WalkOK c s s' := by
  induction l with
  | nil =>
    intro s s' h
    simp only [for_each, Option.some.injEq] at h
    subst h
    exact WalkOK_refl c _
  | cons i l ih =>
    intro s s' h
    rw [for_each] at h
    split at h
    · exact absurd h (by simp)
    · rename_i s1 h1
      exact WalkOK_trans (hf i (List.mem_cons_self _ _) _ _ h1)
        (ih (fun j hj => hf j (List.mem_cons_of_mem _ hj)) _ _ h)

theorem indirect_loop_ok (c : Ctx) (f : Nat → State → Option State) (buf : Disk)
    (hf : ∀ b t t', f b t = some t' → WalkOK c t t') :
    ∀ (n i : Nat) (s s' : State), indirect_loop f buf n i s = some s' → WalkOK c s s' := by
  intro n
  induction n with
  | zero =>
    intro i s s' h
    simp only [indirect_loop, Option.some.injEq] at h
    subst h
    exact WalkOK_refl c _
  | succ n ih =>
    intro i s s' h
    rw [indirect_loop] at h
    split at h
    · simp only [Option.some.injEq] at h
      subst h
      exact WalkOK_refl c _
    · split at h
      · exact absurd h (by simp)
      · rename_i s1 h1
        exact WalkOK_trans (hf _ _ _ h1) (ih _ _ _ h)

theorem BlockOK_inner {c : Ctx} {bo bn cur par base : Nat} {s s' : State}
    (hbn : bn ≠ 0) (h : BlockOK c bo bn cur par base s s') : WalkOK c s s' := by
  obtain ⟨rs, hl, hd, hs⟩ := h
  refine ⟨rs, hl, hd, ?_⟩
  intro r hr
  rcases hs r hr with ho | ho
  · exact absurd ho.1 hbn
  · exact ho

theorem traverse_singly_ok (walk : Nat → Nat → State → Option State) (c : Ctx) (stk : Stale)
    (fuel : Nat) (hwalk : ∀ i p t t', walk i p t = some t' → WalkOK c t t')
    (buf : Disk) (cur par : Nat) (s s' : State)
    (h : traverse_singly walk c stk fuel buf cur par s = some s') : WalkOK c s s' := by
  unfold traverse_singly at h
  refine indirect_loop_ok c _ buf ?_ _ _ _ _ h
  intro b t t' ht
  exact BlockOK_inner (by decide)
    (traverse_direct_block_ok walk c _ 1 cur par hwalk _ _ _ _ _ _ _ ht)

theorem traverse_doubly_ok (walk : Nat → Nat → State → Option State) (c : Ctx) (stk : Stale)
    (fuel : Nat) (hwalk : ∀ i p t t', walk i p t = some t' → WalkOK c t t')
    (buf : Disk) (cur par : Nat) (s s' : State)
    (h : traverse_doubly walk c stk fuel buf cur par s = some s') : WalkOK c s s' := by
  unfold traverse_doubly at h
  refine indirect_loop_ok c _ buf ?_ _ _ _ _ h
  intro b t t' ht
  exact traverse_singly_ok walk c stk fuel hwalk _ _ _ _ _ ht

theorem traverse_triply_ok (walk : Nat → Nat → State → Option State) (c : Ctx) (stk : Stale)
    (fuel : Nat) (hwalk : ∀ i p t t', walk i p t = some t' → WalkOK c t t')
    (buf : Disk) (cur par : Nat) (s s' : State)
    (h : traverse_triply walk c stk fuel buf cur par s = some s') : WalkOK c s s' := by
  unfold traverse_triply at h
  refine indirect_loop_ok c _ buf ?_ _ _ _ _ h
  intro b t t' ht
  exact traverse_singly_ok walk c stk fuel hwalk _ _ _ _ _ ht

theorem BlockOK_first {c : Ctx} {cur par : Nat} {s s' : State}
    (hdir : EXT2_S_ISDIR (i_mode (read_bytes s.disk (get_inode_addr c (toInt32 cur)))) = true)
    (hb : i_block (read_bytes s.disk (get_inode_addr c (toInt32 cur))) 0 ≠ 0)
    (h : BlockOK c (blk_addr c (i_block (read_bytes s.disk (get_inode_addr c (toInt32 cur))) 0))
      0 cur par 0 s s') :
    WalkOK c s s' := by
  obtain ⟨rs, hl, hd, hs⟩ := h
  refine ⟨rs, hl, hd, ?_⟩
  intro r hr
  rcases hs r hr with ho | ho
  · refine ⟨[], List.nil_prefix, ?_⟩
    obtain ⟨_, e, _, he, ho⟩ := ho
    rcases ho with ⟨x, hx⟩ | hx
    · subst hx
      exact ⟨hdir, hb, by simp only [replay, List.foldl_nil]; omega,
        by simp only [replay, List.foldl_nil]; omega⟩
    · subst hx
      exact ⟨hdir, hb, by simp only [replay, List.foldl_nil]; omega,
        by simp only [replay, List.foldl_nil]; omega⟩
  · exact ho

theorem traverse_dir_ok (c : Ctx) (stk : Stale) :
    ∀ (fuel n p : Nat) (s s' : State), traverse_dir c stk fuel n p s = some s' → WalkOK c s s' := by
  intro fuel
  induction fuel with
  | zero => intro n p s s' h; simp [traverse_dir] at h
  | succ fuel ih =>
    intro n p s s' h
    rw [traverse_dir] at h
    split at h
    · simp only [Option.some.injEq] at h
      subst h
      exact WalkOK_refl c _
    · rename_i hdir
      simp only [Bool.not_eq_true, Bool.not_eq_false'] at hdir
      have hwalk : ∀ i p t t', traverse_dir c stk fuel i p t = some t' → WalkOK c t t' :=
        fun i p t t' ht => ih i p t t' ht
      split at h
      · exact absurd h (by simp)
      · rename_i s1 h1
        have hrange : List.range EXT2_NDIR_BLOCKS = 0 :: List.range' 1 11 := by decide
        rw [hrange, for_each] at h1
        have w1 : WalkOK c s s1 := by
          split at h1
          · exact absurd h1 (by simp)
          · rename_i s0 h0
            have w0 : WalkOK c s s0 := by
              split at h0
              · simp only [Option.some.injEq] at h0
                subst h0
                exact WalkOK_refl c _
              · rename_i hb
                exact BlockOK_first (by simpa using hdir) hb
                  (traverse_direct_block_ok _ c _ 0 n p hwalk _ _ _ _ _ _ _ h0)
            refine WalkOK_trans w0 (for_each_ok c _ _ ?_ _ _ h1)
            intro i hi t t' ht
            have hi1 : 1 ≤ i := by
              rw [List.mem_range'_1] at hi
              exact hi.1
            split at ht
            · simp only [Option.some.injEq] at ht
              subst ht
              exact WalkOK_refl c _
            · exact BlockOK_inner (by omega)
                (traverse_direct_block_ok _ c _ i n p hwalk _ _ _ _ _ _ _ ht)
        split at h
        · exact absurd h (by simp)
        · rename_i s2 h2
          have w2 := traverse_singly_ok _ c stk fuel hwalk _ _ _ _ _ h2
          split at h
          · exact absurd h (by simp)
          · rename_i s3 h3
            have w3 := traverse_doubly_ok _ c stk fuel hwalk _ _ _ _ _ h3
            have w4 := traverse_triply_ok _ c stk fuel hwalk _ _ _ _ _ h
            exact WalkOK_trans w1 (WalkOK_trans w2 (WalkOK_trans w3 w4))

theorem apply_repair_frame (d : Disk) (r : Report) (a : Nat) (h : ¬ touches r a) :
    apply_repair d r a = d a := by
  cases r <;> simp only [apply_repair, touches, set_inode_num] at * <;>
    first
    | rfl
    | (simp only [if_true, if_false, one_ne_zero, write_bytes]; rw [if_neg h])

theorem replay_frame (rs : List Report) :
    ∀ (d : Disk) (a : Nat), (∀ r ∈ rs, ¬ touches r a) → replay d rs a = d a := by
  induction rs with
  | nil => intro d a _; rfl
  | cons r rs ih =>
    intro d a h
    show replay (apply_repair d r) rs a = d a
    rw [ih _ _ (fun r' hr' => h r' (List.mem_cons_of_mem _ hr'))]
    exact apply_repair_frame d r a (h r (List.mem_cons_self _ _))

/-- A walk changes the image only through the repairs it reports.  If
`traverse_dir` returns, the log has grown by reports `rs`; the image is the old
one with the four-byte stores of these reports replayed in order; every report
is a `.` or `..` report at an offset inside block `i_block[0]` of the directory
it names (as that directory is found in the image after some initial part of
the repairs); and every byte outside the four bytes the reports name is
unchanged. -/
theorem traverse_dir_frame (c : Ctx) (stk : Stale) (fuel n p : Nat) (s s' : State)
    (h : traverse_dir c stk fuel n p s = some s') :
    ∃ rs : List Report, s'.log = s.log ++ rs ∧ s'.disk = replay s.disk rs
      ∧ (∀ r ∈ rs, ∃ pre, pre <+: rs ∧ slot_of c (replay s.disk pre) r)
      ∧ (∀ a, (∀ r ∈ rs, ¬ touches r a) → s'.disk a = s.disk a) := by
  obtain ⟨rs, hl, hd, hs⟩ := traverse_dir_ok c stk fuel n p s s' h
  exact ⟨rs, hl, hd, hs, fun a ha => by rw [hd]; exact replay_frame rs _ a ha⟩


/-! ## The walk: the first two entries of a directory -/

theorem rd32_write_bytes_wr32 (d : Disk) (off v : Nat) :
    rd32 (write_bytes d off (wr32 (fun _ => 0) 0 v) 4) off = v % 4294967296 := by
  simp [rd32, rd8, write_bytes, wr32, le_byte]
  omega

theorem rd32_write_bytes_disjoint (d buf : Disk) (off slot : Nat)
    (h : off + 4 ≤ slot ∨ slot + 4 ≤ off) :
    rd32 (write_bytes d off buf 4) slot = rd32 d slot := by
  apply rd32_congr <;> simp only [write_bytes] <;> rw [if_neg (by omega)]

theorem keeps_apply (slot v : Nat) (hv : v < 4294967296) (r : Report) (d : Disk)
    (hk : keeps slot v r) (h : rd32 d slot = v) : rd32 (apply_repair d r) slot = v := by
  cases r with
  | self_err off x e =>
    simp only [keeps] at hk
    simp only [apply_repair, set_inode_num, if_true]
    rcases hk with hk | hk | ⟨h1, h2⟩
    · rw [rd32_write_bytes_disjoint _ _ _ _ (Or.inl hk)]; exact h
    · rw [rd32_write_bytes_disjoint _ _ _ _ (Or.inr hk)]; exact h
    · subst h1; subst h2
      rw [rd32_write_bytes_wr32, Nat.mod_eq_of_lt hv]
  | parent_err off x e =>
    simp only [keeps] at hk
    simp only [apply_repair, set_inode_num, if_true, if_false, one_ne_zero]
    rcases hk with hk | hk | ⟨h1, h2⟩
    · rw [rd32_write_bytes_disjoint _ _ _ _ (Or.inl hk)]; exact h
    · rw [rd32_write_bytes_disjoint _ _ _ _ (Or.inr hk)]; exact h
    · subst h1; subst h2
      rw [rd32_write_bytes_wr32, Nat.mod_eq_of_lt hv]
  | adopt _ => exact h
  | link_err _ _ _ => exact h
  | bitmap_err _ _ _ => exact h

theorem keeps_replay (slot v : Nat) (hv : v < 4294967296) (rs : List Report) :
    ∀ (d : Disk), (∀ r ∈ rs, keeps slot v r) → rd32 d slot = v → rd32 (replay d rs) slot = v := by
  induction rs with
  | nil => intro d _ h; exact h
  | cons r rs ih =>
    intro d hk h
    show rd32 (replay (apply_repair d r) rs) slot = v
    exact ih _ (fun r' hr' => hk r' (List.mem_cons_of_mem _ hr'))
      (keeps_apply slot v hv r d (hk r (List.mem_cons_self _ _)) h)

theorem BlockOK_replayed {c : Ctx} {bo bn cur par base : Nat} {s s' : State}
    (h : BlockOK c bo bn cur par base s s') :
    ∃ rs, s'.log = s.log ++ rs ∧ s'.disk = replay s.disk rs := by
  obtain ⟨rs, hl, hd, _⟩ := h
  exact ⟨rs, hl, hd⟩

theorem traverse_dir_unfold (c : Ctx) (stk : Stale) (fuel n p : Nat) (s s' : State)
    (h : traverse_dir c stk fuel n p s = some s')
    (hdir : EXT2_S_ISDIR (i_mode (read_bytes s.disk (get_inode_addr c (toInt32 n)))) = true)
    (hb : i_block (read_bytes s.disk (get_inode_addr c (toInt32 n))) 0 ≠ 0) :
    ∃ k s0, fuel = k + 1
      ∧ traverse_direct_block (traverse_dir c stk k) c (dir_block0 c s.disk n) 0 n p k 0 1
          (read_bytes s.disk (dir_block0 c s.disk n)) (stk s (dir_block0 c s.disk n)) s
          = some s0
      ∧ WalkOK c s0 s' := by
  cases fuel with
  | zero => simp [traverse_dir] at h
  | succ fuel =>
    refine ⟨fuel, ?_⟩
    rw [traverse_dir] at h
    split at h
    · rename_i hnd
      simp [hdir] at hnd
    · have hwalk : ∀ i p t t', traverse_dir c stk fuel i p t = some t' → WalkOK c t t' :=
        fun i p t t' ht => traverse_dir_ok c stk fuel i p t t' ht
      split at h
      · exact absurd h (by simp)
      · rename_i s1 h1
        have hrange : List.range EXT2_NDIR_BLOCKS = 0 :: List.range' 1 11 := by decide
        rw [hrange, for_each] at h1
        split at h1
        · exact absurd h1 (by simp)
        · rename_i s0 h0
          rw [if_neg hb] at h0
          refine ⟨s0, rfl, h0, ?_⟩
          have w1 : WalkOK c s0 s1 := by
            refine for_each_ok c _ _ ?_ _ _ h1
            intro i hi t t' ht
            have hi1 : 1 ≤ i := by
              rw [List.mem_range'_1] at hi
              exact hi.1
            split at ht
            · simp only [Option.some.injEq] at ht
              subst ht
              exact WalkOK_refl c _
            · exact BlockOK_inner (by omega)
                (traverse_direct_block_ok _ c _ i n p hwalk _ _ _ _ _ _ _ ht)
          split at h
          · exact absurd h (by simp)
          · rename_i s2 h2
            have w2 := traverse_singly_ok _ c stk fuel hwalk _ _ _ _ _ h2
            split at h
            · exact absurd h (by simp)
            · rename_i s3 h3
              have w3 := traverse_doubly_ok _ c stk fuel hwalk _ _ _ _ _ h3
              have w4 := traverse_triply_ok _ c stk fuel hwalk _ _ _ _ _ h
              exact WalkOK_trans w1 (WalkOK_trans w2 (WalkOK_trans w3 w4))

theorem check_entry_buf (c : Ctx) (bo bn cur par base cnt : Nat) (buf name : Disk) (s : State)
    (x : Nat) (hx : x < base ∨ base + 4 ≤ x) :
    (check_entry c bo bn cur par base cnt buf name s).1 x = buf x := by
  unfold check_entry
  dsimp only
  split_ifs <;> simp only [wr32] <;> repeat (rw [if_neg (by omega)])

theorem traverse_direct_block_two (walk : Nat → Nat → State → Option State) (c : Ctx)
    (bo cur par fuel : Nat) (buf name : Disk) (s s0 : State)
    (hwalk : ∀ i p t t', walk i p t = some t' → WalkOK c t t')
    (h : traverse_direct_block walk c bo 0 cur par fuel 0 1 buf name s = some s0)
    (hrb : rd16 buf 4 < c.block_size)
    (hn1 : rd8 buf 6 ≠ 255) (hn2 : rd8 buf (rd16 buf 4 + 6) ≠ 255) :
    ∃ rest, s0.log = s.log ++ (own_reports bo 0 cur par 0 1 buf name
        ++ (own_reports bo 0 cur par (rd16 buf 4) 2
              (check_entry c bo 0 cur par 0 1 buf name s).1
              (check_entry c bo 0 cur par 0 1 buf name s).2.1 ++ rest))
      ∧ s0.disk = replay s.disk (own_reports bo 0 cur par 0 1 buf name
        ++ (own_reports bo 0 cur par (rd16 buf 4) 2
              (check_entry c bo 0 cur par 0 1 buf name s).1
              (check_entry c bo 0 cur par 0 1 buf name s).2.1 ++ rest)) := by
  cases fuel with
  | zero => simp [traverse_direct_block] at h
  | succ fuel =>
    rw [traverse_direct_block] at h
    rw [if_pos (by omega)] at h
    have hc1 : cnt_after_name (rd8 buf (0 + 6)) 1 = 1 := by
      simp only [cnt_after_name, Nat.zero_add, if_neg hn1]
    simp only [hc1] at h
    simp only [Nat.zero_add, gt_iff_lt, Nat.lt_irrefl, decide_False, Bool.or_false,
      Bool.and_false, Bool.false_eq_true, if_false] at h
    have h' : traverse_direct_block walk c bo 0 cur par fuel (rd16 buf 4) 2
        (check_entry c bo 0 cur par 0 1 buf name s).1
        (check_entry c bo 0 cur par 0 1 buf name s).2.1
        (check_entry c bo 0 cur par 0 1 buf name s).2.2 = some s0 := by
      simpa using h
    clear h
    cases fuel with
    | zero => simp [traverse_direct_block] at h'
    | succ fuel =>
      rw [traverse_direct_block] at h'
      rw [if_pos hrb] at h'
      have hc2 : cnt_after_name
          (rd8 (check_entry c bo 0 cur par 0 1 buf name s).1 (rd16 buf 4 + 6)) 2 = 2 := by
        have e : rd8 (check_entry c bo 0 cur par 0 1 buf name s).1 (rd16 buf 4 + 6)
            = rd8 buf (rd16 buf 4 + 6) := by
          unfold rd8
          rw [check_entry_buf c bo 0 cur par 0 1 buf name s _ (Or.inr (by omega))]
        simp only [cnt_after_name, e, if_neg hn2]
      simp only [hc2] at h'
      simp only [gt_iff_lt, Nat.lt_irrefl, decide_False, Bool.or_false,
        Bool.and_false, Bool.false_eq_true, if_false] at h'
      have hb := traverse_direct_block_ok walk c bo 0 cur par hwalk _ _ _ _ _ _ _ h'
      obtain ⟨rest, hl, hd⟩ := BlockOK_replayed hb
      refine ⟨rest, ?_, ?_⟩
      · rw [hl, check_entry_log, check_entry_log]
        simp [List.append_assoc]
      · rw [hd, check_entry_disk, check_entry_disk, replay_append, replay_append]

theorem apply_repair_rd32 (d : Disk) (r : Report) (slot : Nat)
    (h : match r with
      | Report.self_err off _ _ => off + 4 ≤ slot ∨ slot + 4 ≤ off
      | Report.parent_err off _ _ => off + 4 ≤ slot ∨ slot + 4 ≤ off
      | _ => True) :
    rd32 (apply_repair d r) slot = rd32 d slot := by
  cases r with
  | self_err off x e =>
    simp only [apply_repair, set_inode_num, if_true]
    exact rd32_write_bytes_disjoint _ _ _ _ h
  | parent_err off x e =>
    simp only [apply_repair, set_inode_num, if_true, if_false, one_ne_zero]
    exact rd32_write_bytes_disjoint _ _ _ _ h
  | adopt _ => rfl
  | link_err _ _ _ => rfl
  | bitmap_err _ _ _ => rfl

theorem keeps_replay_frame (slot : Nat) (rs : List Report) :
    ∀ (d : Disk), (∀ r ∈ rs, match r with
      | Report.self_err off _ _ => off + 4 ≤ slot ∨ slot + 4 ≤ off
      | Report.parent_err off _ _ => off + 4 ≤ slot ∨ slot + 4 ≤ off
      | _ => True) → rd32 (replay d rs) slot = rd32 d slot := by
  induction rs with
  | nil => intro d _; rfl
  | cons r rs ih =>
    intro d hk
    show rd32 (replay (apply_repair d r) rs) slot = rd32 d slot
    rw [ih _ (fun r' hr' => hk r' (List.mem_cons_of_mem _ hr'))]
    exact apply_repair_rd32 d r slot (hk r (List.mem_cons_self _ _))

theorem rd16_read_bytes (d : Disk) (a k : Nat) : rd16 (read_bytes d a) k = rd16 d (a + k) := by
  simp [rd16, rd8, read_bytes, Nat.add_assoc]

theorem rd32_read_bytes (d : Disk) (a k : Nat) : rd32 (read_bytes d a) k = rd32 d (a + k) := by
  simp [rd32, rd8, read_bytes, Nat.add_assoc]

theorem own_reports_first (bo cur par : Nat) (buf name : Disk) (d : Disk) (hcur : cur < 4294967296)
    (hbuf : rd32 buf 0 = rd32 d bo) :
    rd32 (replay d (own_reports bo 0 cur par 0 1 buf name)) bo = cur
    ∧ ∀ r ∈ own_reports bo 0 cur par 0 1 buf name, ∃ x, r = Report.self_err bo x cur := by
  unfold own_reports
  by_cases hc : (!is_dot (load_name name buf 0 (rd8 buf (0 + 6))) || rd32 buf 0 != cur) = true
  · simp only [beq_self_eq_true, Bool.true_and, hc, if_true, Nat.add_zero]
    refine ⟨?_, ?_⟩
    · simp only [List.append_nil, replay, List.foldl_cons, List.foldl_nil, apply_repair,
        set_inode_num, if_true]
      have : (1 == 2) = false := by decide
      simp only [this, Bool.false_and, Bool.false_eq_true, if_false, List.append_nil,
        List.foldl_cons, List.foldl_nil, apply_repair, set_inode_num, if_true]
      rw [rd32_write_bytes_wr32, Nat.mod_eq_of_lt hcur]
    · intro r hr
      have : (1 == 2) = false := by decide
      simp only [this, Bool.false_and, Bool.false_eq_true, if_false, List.append_nil,
        List.mem_singleton] at hr
      exact ⟨_, hr⟩
  · have h1 : (1 == 2) = false := by decide
    simp only [beq_self_eq_true, Bool.true_and, hc, if_false, h1, Bool.false_and,
      Bool.false_eq_true, List.append_nil, replay, List.foldl_nil]
    refine ⟨?_, by simp⟩
    simp only [Bool.or_eq_true, Bool.not_eq_true', bne_iff_ne, ne_eq, not_or,
      Bool.not_eq_false, Decidable.not_not] at hc
    rw [← hbuf]
    exact hc.2

theorem own_reports_second (bo cur par base : Nat) (buf name : Disk) (d : Disk)
    (hpar : par < 4294967296) (hbuf : rd32 buf base = rd32 d (bo + base)) :
    rd32 (replay d (own_reports bo 0 cur par base 2 buf name)) (bo + base) = par
    ∧ ∀ r ∈ own_reports bo 0 cur par base 2 buf name, r = Report.parent_err (bo + base) cur par := by
  unfold own_reports
  have h1 : (2 == 1) = false := by decide
  by_cases hc : (!is_dotdot (load_name name buf base (rd8 buf (base + 6)))
      || rd32 buf base != par) = true
  · simp only [h1, Bool.false_and, Bool.false_eq_true, if_false, beq_self_eq_true, Bool.true_and,
      hc, if_true, List.nil_append, replay, List.foldl_cons, List.foldl_nil, apply_repair,
      set_inode_num, one_ne_zero, List.mem_singleton]
    refine ⟨?_, fun r hr => hr⟩
    rw [rd32_write_bytes_wr32, Nat.mod_eq_of_lt hpar]
  · simp only [h1, Bool.false_and, Bool.false_eq_true, if_false, beq_self_eq_true, Bool.true_and,
      hc, List.nil_append, replay, List.foldl_nil]
    refine ⟨?_, by simp⟩
    simp only [Bool.or_eq_true, Bool.not_eq_true', bne_iff_ne, ne_eq, not_or,
      Bool.not_eq_false, Decidable.not_not] at hc
    rw [← hbuf]
    exact hc.2

/-- The first two entries of a directory, for names shorter than 255 bytes:
after `traverse_dir(d, p)` on a directory `d` with a non-zero `i_block[0]`, the
first entry of that block stores inode `d` and the second entry stores inode
`p` on disk, whatever they stored before.  The second entry is the one the
first entry's `rec_len` leads to, inside the block and past the first entry's
inode field; neither entry has `name_len = 255`; and no other repair of the
same walk is taken to write a different value into these two fields (`keeps`),
as a directory sharing the block would. -/
theorem traverse_dir_repairs_short_dot_entries (c : Ctx) (stk : Stale) (fuel d p : Nat)
    (s s' : State)
    (h : traverse_dir c stk fuel d p s = some s')
    (hd : d < 4294967296) (hp : p < 4294967296)
    (hdir : EXT2_S_ISDIR (i_mode (read_bytes s.disk (get_inode_addr c (toInt32 d)))) = true)
    (hb : i_block (read_bytes s.disk (get_inode_addr c (toInt32 d))) 0 ≠ 0)
    (hr4 : 4 ≤ rd16 s.disk (dir_block0 c s.disk d + 4))
    (hrb : rd16 s.disk (dir_block0 c s.disk d + 4) < c.block_size)
    (hn1 : rd8 s.disk (dir_block0 c s.disk d + 6) ≠ 255)
    (hn2 : rd8 s.disk (dir_block0 c s.disk d
      + (rd16 s.disk (dir_block0 c s.disk d + 4) + 6)) ≠ 255)
    (hkeep : ∀ r ∈ s'.log.drop s.log.length,
      keeps (dir_block0 c s.disk d) d r
        ∧ keeps (dir_block0 c s.disk d + rd16 s.disk (dir_block0 c s.disk d + 4)) p r) :
    rd32 s'.disk (dir_block0 c s.disk d) = d
      ∧ rd32 s'.disk (dir_block0 c s.disk d + rd16 s.disk (dir_block0 c s.disk d + 4)) = p := by
  obtain ⟨k, s0, _, h0, w0⟩ := traverse_dir_unfold c stk fuel d p s s' h hdir hb
  have hwalk : ∀ i p t t', traverse_dir c stk k i p t = some t' → WalkOK c t t' :=
    fun i p t t' ht => traverse_dir_ok c stk k i p t t' ht
  have hr1 : rd16 (read_bytes s.disk (dir_block0 c s.disk d)) 4
      = rd16 s.disk (dir_block0 c s.disk d + 4) := rd16_read_bytes _ _ _
  generalize stk s (dir_block0 c s.disk d) = nm at h0
  obtain ⟨rest, hl0, hd0⟩ := traverse_direct_block_two _ c _ d p k _ nm s s0 hwalk h0
    (by rw [hr1]; exact hrb)
    (by simpa only [rd8, read_bytes] using hn1)
    (by rw [hr1]; simpa only [rd8, read_bytes] using hn2)
  obtain ⟨rs2, hl2, hd2, _⟩ := w0
  rw [hr1] at hl0 hd0
  generalize dir_block0 c s.disk d = A at *
  generalize rd16 s.disk (A + 4) = r1 at *
  generalize hoa : own_reports A 0 d p 0 1 (read_bytes s.disk A) nm = own_a at *
  generalize hob : own_reports A 0 d p r1 2
      (check_entry c A 0 d p 0 1 (read_bytes s.disk A) nm s).1
      (check_entry c A 0 d p 0 1 (read_bytes s.disk A) nm s).2.1 = own_b at *
  have hlog : s'.log.drop s.log.length = own_a ++ (own_b ++ rest) ++ rs2 := by
    rw [hl2, hl0, List.append_assoc, List.drop_left]
  rw [hlog] at hkeep
  have hdisk : s'.disk = replay s.disk (own_a ++ (own_b ++ rest) ++ rs2) := by
    rw [hd2, hd0, ← replay_append]
  have ha := own_reports_first A d p (read_bytes s.disk A) nm s.disk hd
    (by rw [rd32_read_bytes, Nat.add_zero])
  rw [hoa] at ha
  have hb2 := own_reports_second A d p r1
      (check_entry c A 0 d p 0 1 (read_bytes s.disk A) nm s).1
      (check_entry c A 0 d p 0 1 (read_bytes s.disk A) nm s).2.1
      (replay s.disk own_a) hp
      (by
        have e1 : rd32 (check_entry c A 0 d p 0 1 (read_bytes s.disk A) nm s).1 r1
            = rd32 (read_bytes s.disk A) r1 := by
          apply rd32_congr <;> exact check_entry_buf _ _ _ _ _ _ _ _ _ _ _ (by omega)
        rw [e1, rd32_read_bytes]
        symm
        apply keeps_replay_frame
        intro r hr
        obtain ⟨x, hx⟩ := ha.2 r hr
        subst hx
        exact Or.inl (by omega))
  rw [hob] at hb2
  have e1 : replay s.disk (own_a ++ (own_b ++ rest) ++ rs2)
      = replay (replay s.disk own_a) ((own_b ++ rest) ++ rs2) := by
    simp only [replay_append]
  have e2 : replay s.disk (own_a ++ (own_b ++ rest) ++ rs2)
      = replay (replay (replay s.disk own_a) own_b) (rest ++ rs2) := by
    simp only [replay_append]
  constructor
  · rw [hdisk, e1]
    apply keeps_replay _ _ hd _ _ _ ha.1
    intro r hr
    exact (hkeep r (by simp only [List.mem_append] at hr ⊢; tauto)).1
  · rw [hdisk, e2]
    apply keeps_replay _ _ hp _ _ _ hb2.1
    intro r hr
    exact (hkeep r (by simp only [List.mem_append] at hr ⊢; tauto)).2

/-- The frame of a walk on `img_dots`: `traverse_dir(12, 2)` returns with two
reports, the `.` entry of 12 at offset 12288 and the `..` entry of 14 at offset
13324. -/
theorem traverse_dir_frame_on_img_dots :
    walked_dots.log = [Report.self_err 12288 0 12, Report.parent_err 13324 14 12]
    ∧ ∃ rs : List Report, walked_dots.log = [] ++ rs ∧ walked_dots.disk = replay img_dots rs
      ∧ (∀ r ∈ rs, ∃ pre, pre <+: rs ∧ slot_of ctx_ex (replay img_dots pre) r)
      ∧ (∀ a, (∀ r ∈ rs, ¬ touches r a) → walked_dots.disk a = img_dots a) :=
  ⟨by decide,
   traverse_dir_frame ctx_ex (fun _ _ _ => 0) 64 12 2
     { disk := img_dots, inode_map := fun _ => 0, log := [] } walked_dots (by rfl)⟩

/-- The first two entries on `img_dots`: the `.` entry of directory 12 (block
11, offset 12288) stores 0 and becomes 12 by `traverse_dir(12, 2)`, and its
`..` entry (offset 12300) stores 2. -/
theorem traverse_dir_repairs_short_dot_entries_on_img_dots :
    rd32 img_dots 12288 = 0 ∧ dir_block0 ctx_ex img_dots 12 = 12288
    ∧ rd32 walked_dots.disk (dir_block0 ctx_ex img_dots 12) = 12
    ∧ rd32 walked_dots.disk
        (dir_block0 ctx_ex img_dots 12 + rd16 img_dots (dir_block0 ctx_ex img_dots 12 + 4)) = 2 :=
  ⟨by decide, by decide,
   traverse_dir_repairs_short_dot_entries ctx_ex (fun _ _ _ => 0) 64 12 2
     { disk := img_dots, inode_map := fun _ => 0, log := [] } walked_dots (by rfl)
     (by decide) (by decide) (by decide) (by decide) (by decide) (by decide) (by decide)
     (by decide) (by decide)⟩


set_option maxRecDepth 100000 in
/-- Claim C9, the code at the failing input: on `img_longdot` inode 12 is a
directory with a non-zero `i_block[0]` whose first entry stores inode 0 and has
`name_len` 255.  `traverse_dir(12, 2)` reports the second and the third entry
as `.` and `..`: after it the first entry still stores 0 and not 12, the second
entry stores 12 and not the parent 2, and the third entry stores 2 in place of
inode 14. -/
theorem dot_repair_shifted_by_long_name :
    EXT2_S_ISDIR (i_mode (read_bytes img_longdot (get_inode_addr ctx_ex (toInt32 12)))) = true
    ∧ dir_block0 ctx_ex img_longdot 12 = 12288
    ∧ rd8 img_longdot (12288 + 6) = 255
    ∧ [rd32 img_longdot 12288, rd32 img_longdot (12288 + 12), rd32 img_longdot (12288 + 24)]
        = [0, 2, 14]
    ∧ (traverse_dir ctx_ex (fun _ _ _ => 0) 64 12 2
          { disk := img_longdot, inode_map := fun _ => 0, log := [] }).map
        (fun s => (s.log, [rd32 s.disk 12288, rd32 s.disk (12288 + 12),
          rd32 s.disk (12288 + 24)]))
      = some ([Report.self_err 12300 2 12, Report.parent_err 12312 12 2], [0, 12, 2]) := by
  decide

set_option maxRecDepth 100000 in
/-- Claim C10, the code at the failing input: on `img_longname` the root's block
holds `.`, `..`, `lost+found`, at offset 44 an entry with a name of 255 bytes
and at offset 308 the entry `f` of inode 30.  The walk from the root reports
this fifth entry as `.` of the root and overwrites its inode field: the four
bytes at offset `10240 + 308`, which held 30, hold 2 afterwards. -/
theorem walk_overwrites_entry_after_long_name :
    dir_block0 ctx_ex img_longname EXT2_ROOT_INO = 10240
    ∧ [rd16 img_longname (10240 + 4), rd16 img_longname (10240 + 12 + 4),
        rd16 img_longname (10240 + 24 + 4), rd16 img_longname (10240 + 44 + 4)]
        = [12, 12, 20, 264]
    ∧ rd8 img_longname (10240 + 44 + 6) = 255
    ∧ rd32 img_longname (10240 + 308) = 30
    ∧ (traverse_dir ctx_ex (fun _ _ _ => 0) 64 EXT2_ROOT_INO EXT2_ROOT_INO
          { disk := img_longname, inode_map := fun _ => 0, log := [] }).map
        (fun s => (s.log, rd32 s.disk (10240 + 308)))
      = some ([Report.self_err 10548 30 2], 2) := by
  decide


/-! ## Insertion into `/lost+found`: the entry chain -/

theorem chain_to_le (target : Nat) (buf : Disk) :
    ∀ (n off : Nat), chain_to target buf n off = true → off ≤ target := by
  intro n
  induction n with
  | zero => intro off h; simp [chain_to] at h; omega
  | succ n ih =>
    intro off h
    rw [chain_to] at h
    split at h
    · omega
    · split at h
      · omega
      · exact absurd h (by simp)

theorem chain_to_self (target : Nat) (buf : Disk) (n : Nat) : chain_to target buf n target = true := by
  cases n <;> simp [chain_to]

theorem chain_to_congr (target : Nat) (buf buf' : Disk) (hb : ∀ x, x < target → buf' x = buf x) :
    ∀ (n off : Nat), chain_to target buf n off = true → chain_to target buf' n off = true := by
  intro n
  induction n with
  | zero => intro off h; simpa [chain_to] using h
  | succ n ih =>
    intro off h
    rw [chain_to] at h ⊢
    split at h
    · rename_i h1; rw [if_pos h1]
    · rename_i h1
      rw [if_neg h1]
      split at h
      · rename_i h2
        have hle := chain_to_le _ _ _ _ h
        have e : rd16 buf' (off + 4) = rd16 buf (off + 4) := by
          apply rd16_congr
          · exact hb _ (by omega)
          · exact hb _ (by omega)
        rw [e, if_pos h2]
        exact ih _ h
      · exact absurd h (by simp)

theorem chain_to_extend (e r : Nat) (buf : Disk) (hr : rd16 buf (e + 4) = r) (h8 : 8 ≤ r) :
    ∀ (n off : Nat), chain_to e buf n off = true → chain_to (e + r) buf (n + 1) off = true := by
  intro n
  induction n with
  | zero =>
    intro off h
    simp only [chain_to, decide_eq_true_eq] at h
    subst h
    rw [chain_to, if_neg (by omega), if_pos ⟨by omega, by omega⟩, hr]
    exact chain_to_self _ _ _
  | succ n ih =>
    intro off h
    rw [chain_to] at h
    split at h
    · rename_i h1
      subst h1
      rw [chain_to, if_neg (by omega), if_pos ⟨by omega, by omega⟩, hr]
      exact chain_to_self _ _ _
    · split at h
      · rename_i h1 h2
        rw [chain_to, if_neg (by omega), if_pos ⟨by omega, h2.2⟩]
        exact ih _ h
      · exact absurd h (by simp)

theorem find_last_entry_chain (c : Ctx) (buf : Disk) :
    ∀ (n off fuel : Nat) (name : Disk) (e : Nat) (name' : Disk),
      chain_to c.block_size buf n off = true → off < c.block_size →
      find_last_entry c buf fuel off name = some (e, name') →
      1 ≤ n ∧ chain_to e buf (n - 1) off = true ∧ e < c.block_size
        ∧ e + rd16 buf (e + 4) = c.block_size ∧ 8 ≤ rd16 buf (e + 4) := by
  intro n
  induction n with
  | zero =>
    intro off fuel name e name' h hoff _
    simp only [chain_to, decide_eq_true_eq] at h
    omega
  | succ n ih =>
    intro off fuel name e name' h hoff hf
    rw [chain_to, if_neg (by omega)] at h
    split at h
    · rename_i h2
      cases fuel with
      | zero => simp [find_last_entry] at hf
      | succ fuel =>
        rw [find_last_entry] at hf
        split at hf
        · rename_i hge
          simp only [Option.some.injEq, Prod.mk.injEq] at hf
          obtain ⟨he, _⟩ := hf
          subst he
          have hle := chain_to_le _ _ _ _ h
          exact ⟨by omega, chain_to_self _ _ _, hoff, by omega, h2.2⟩
        · rename_i hlt
          obtain ⟨h1, hc, he, hsum, h8⟩ := ih _ _ _ _ _ h (by omega) hf
          have hle := chain_to_le _ _ _ _ hc
          refine ⟨by omega, ?_, he, hsum, h8⟩
          have hn : n + 1 - 1 = (n - 1) + 1 := by omega
          rw [hn, chain_to, if_neg (by omega), if_pos ⟨by omega, h2.2⟩]
          exact hc
    · exact absurd h (by simp)

theorem name_size_eq (nl : Nat) : name_size nl = if nl = 0 then 4 else (nl - 1) / 4 * 4 + 4 := by
  unfold name_size
  split
  · rename_i h; subst h; decide
  · rename_i h
    have h1 : ((nl : Int) - 1) = ((nl - 1 : Nat) : Int) := by omega
    rw [h1, Int.tdiv_eq_ediv (Int.ofNat_zero_le _) (by decide)]
    omega

theorem name_size_bounds (nl : Nat) (h : nl < 256) : 4 ≤ name_size nl ∧ name_size nl ≤ 256 := by
  rw [name_size_eq]
  split <;> omega

theorem find_dir_end_in_direct_room (c : Ctx) (fuel : Nat) (stk d : Disk) (A : Nat) (buf : Disk)
    (size base : Nat) (d1 : Disk)
    (h : find_dir_end_in_direct c fuel stk d A buf size = some (base, d1))
    (hne : base ≠ 4294967295) :
    ∃ e name, find_last_entry c buf fuel 0 stk = some (e, name)
      ∧ e + 8 + name_size (rd8 buf (e + 6)) + size < c.block_size
      ∧ base = u32 (A + e + 8 + name_size (rd8 buf (e + 6)))
      ∧ d1 = write_bytes d (u32 (A + e))
          (shrunk_entry buf (copy_name name buf e (rd8 buf (e + 6))) e)
          (8 + name_size (rd8 buf (e + 6))) := by
  unfold find_dir_end_in_direct at h
  split at h
  · exact absurd h (by simp)
  · rename_i e name hfl
    refine ⟨e, name, hfl, ?_⟩
    dsimp only at h
    split at h
    · rename_i hroom
      simp only [Option.some.injEq, Prod.mk.injEq] at h
      exact ⟨hroom, h.1.symm, h.2.symm⟩
    · simp only [Option.some.injEq, Prod.mk.injEq] at h
      exact absurd h.1.symm hne

theorem new_rec_len_eq (c : Ctx) (b e2 : Nat) (h0 : 0 < e2) (h1 : e2 < c.block_size)
    (hfit : c.base + b * c.block_size + c.block_size ≤ 4294967296)
    (hbs : c.block_size ≤ 65536) :
    new_rec_len c (c.base + b * c.block_size + e2) = c.block_size - e2 := by
  unfold new_rec_len
  generalize hX : b * c.block_size = X at *
  have hs : sub32 (c.base + X + e2) c.base = X + e2 := by
    unfold sub32
    omega
  rw [hs]
  have hs1 : sub32 (X + e2) 1 = X + e2 - 1 := by
    unfold sub32
    omega
  rw [hs1]
  have hdiv : (X + e2 - 1) / c.block_size = b := by
    apply Nat.div_eq_of_lt_le
    · rw [hX]; omega
    · rw [Nat.succ_mul, hX]; omega
  rw [hdiv, hX]
  omega

theorem dir_end_direct_skip (c : Ctx) (fuel : Nat) (stk inode : Disk) (size : Nat) (d : Disk)
    (rest : List Nat) (l : List Nat)
    (hl : ∀ i ∈ l, i_block inode i = 0
      ∨ find_dir_end_in_direct c fuel stk d (blk_addr c (i_block inode i))
          (read_bytes d (blk_addr c (i_block inode i))) size = some (4294967295, d)) :
    ∀ ret, ∃ ret', dir_end_direct c fuel stk inode size (l ++ rest) ret d
      = dir_end_direct c fuel stk inode size rest ret' d := by
  induction l with
  | nil => intro ret; exact ⟨ret, rfl⟩
  | cons i l ih =>
    intro ret
    have ih' := ih (fun k hk => hl k (List.mem_cons_of_mem _ hk))
    rw [List.cons_append, dir_end_direct]
    rcases hl i (List.mem_cons_self _ _) with h | h
    · rw [if_pos h]; exact ih' ret
    · by_cases h0 : i_block inode i = 0
      · rw [if_pos h0]; exact ih' ret
      · rw [if_neg h0, h]
        try simp only
        rw [if_neg (by decide)]
        exact ih' _

theorem get_dir_entry_end_direct (c : Ctx) (fuel : Nat) (stk d : Disk) (inode_num : Int)
    (size j base : Nat) (d1 : Disk)
    (hdir : EXT2_S_ISDIR (i_mode (read_bytes d (get_inode_addr c inode_num))) = true)
    (hj : j < 12)
    (hb : i_block (read_bytes d (get_inode_addr c inode_num)) j ≠ 0)
    (hearlier : ∀ i, i < j → i_block (read_bytes d (get_inode_addr c inode_num)) i = 0
      ∨ find_dir_end_in_direct c fuel stk d
          (blk_addr c (i_block (read_bytes d (get_inode_addr c inode_num)) i))
          (read_bytes d (blk_addr c (i_block (read_bytes d (get_inode_addr c inode_num)) i))) size
        = some (4294967295, d))
    (hroom : find_dir_end_in_direct c fuel stk d
        (blk_addr c (i_block (read_bytes d (get_inode_addr c inode_num)) j))
        (read_bytes d (blk_addr c (i_block (read_bytes d (get_inode_addr c inode_num)) j))) size
      = some (base, d1))
    (hpos : toInt32 base > 0) :
    get_dir_entry_end c fuel stk d inode_num size = some (base, d1) := by
  unfold get_dir_entry_end
  simp only [hdir, Bool.not_true, Bool.false_eq_true, if_false]
  have hall : ∀ k, k < 12 →
      List.range EXT2_NDIR_BLOCKS = List.range k ++ k :: List.range' (k + 1) (11 - k) := by
    decide
  have hsplit := hall j hj
  obtain ⟨ret', hskip⟩ := dir_end_direct_skip c fuel stk
    (read_bytes d (get_inode_addr c inode_num)) size d (j :: List.range' (j + 1) (11 - j))
    (List.range j) (fun i hi => hearlier i (List.mem_range.1 hi)) 4294967295
  rw [hsplit, hskip, dir_end_direct, if_neg hb, hroom]
  try simp only
  rw [if_pos hpos]

theorem rd8_read_bytes (d : Disk) (a k : Nat) : rd8 (read_bytes d a) k = rd8 d (a + k) := by
  simp [rd8, read_bytes]

theorem rd16_write_bytes_disjoint (d buf : Disk) (off len x : Nat)
    (h : x + 2 ≤ off ∨ off + len ≤ x) :
    rd16 (write_bytes d off buf len) x = rd16 d x := by
  apply rd16_congr <;> simp only [write_bytes] <;> rw [if_neg (by omega)]

theorem rd32_write_bytes_away (d buf : Disk) (off len x : Nat)
    (h : x + 4 ≤ off ∨ off + len ≤ x) :
    rd32 (write_bytes d off buf len) x = rd32 d x := by
  apply rd32_congr <;> simp only [write_bytes] <;> rw [if_neg (by omega)]

theorem rd16_write_bytes_in (d buf : Disk) (off len k : Nat) (h : k + 2 ≤ len) :
    rd16 (write_bytes d off buf len) (off + k) = rd16 buf k := by
  apply rd16_congr <;> simp only [write_bytes] <;> rw [if_pos (by omega)] <;> congr 1 <;> omega

theorem rd32_write_bytes_in (d buf : Disk) (off len k : Nat) (h : k + 4 ≤ len) :
    rd32 (write_bytes d off buf len) (off + k) = rd32 buf k := by
  apply rd32_congr <;> simp only [write_bytes] <;> rw [if_pos (by omega)] <;> congr 1 <;> omega

theorem rd32_shrunk_entry (buf name : Disk) (e : Nat) : rd32 (shrunk_entry buf name e) 0 = rd32 buf e := by
  have h := rd32_lt buf e
  simp [rd32, rd8, shrunk_entry, le_byte] at *
  omega

theorem rd16_shrunk_entry (buf name : Disk) (e : Nat) :
    rd16 (shrunk_entry buf name e) 4 = (8 + name_size (rd8 buf (e + 6))) % 65536 := by
  simp [rd16, rd8, shrunk_entry, le_byte]
  omega

theorem rd16_new_entry (k rl nl ft : Nat) : rd16 (new_entry k rl nl ft) 4 = rl % 65536 := by
  simp [rd16, rd8, new_entry, le_byte]
  omega

/-- Claim C7: directory chain integrity under insertion.  Let block `j` be the
first direct block of `/lost+found` in which `find_dir_end_in_direct` finds
room, and let its `rec_len` values chain exactly to `block_size` (in `n`
entries).  Then `put_into_lostfound(k)` returns 0 and, for the old final entry
at offset `e`: its stored inode is unchanged, its `rec_len` is shrunk to
`8 + name_size`, the new entry starts immediately after it (at `base`) with a
`rec_len` that reaches the block boundary exactly, and the `rec_len` values of
the block still chain exactly to `block_size` (in `n + 1` entries). -/
theorem put_into_lostfound_keeps_chain (c : Ctx) (fuel : Nat) (stk d : Disk) (k : Nat) (lf : Int)
    (j n base : Nat) (d1 : Disk)
    (hlf : get_inode_by_filepath c fuel d LOST_FOUND_PATH = some lf)
    (hdir : EXT2_S_ISDIR (i_mode (read_bytes d (get_inode_addr c lf))) = true)
    (hj : j < 12)
    (hb : i_block (read_bytes d (get_inode_addr c lf)) j ≠ 0)
    (hfit : c.base + i_block (read_bytes d (get_inode_addr c lf)) j * c.block_size
        + c.block_size ≤ 2147483648)
    (hbs : c.block_size ≤ 65536)
    (hearlier : ∀ i, i < j → i_block (read_bytes d (get_inode_addr c lf)) i = 0
      ∨ find_dir_end_in_direct c fuel stk d
          (blk_addr c (i_block (read_bytes d (get_inode_addr c lf)) i))
          (read_bytes d (blk_addr c (i_block (read_bytes d (get_inode_addr c lf)) i)))
          (8 + ((decimal k).length - 1) % 256)
        = some (4294967295, d))
    (hroom : find_dir_end_in_direct c fuel stk d
        (blk_addr c (i_block (read_bytes d (get_inode_addr c lf)) j))
        (read_bytes d (blk_addr c (i_block (read_bytes d (get_inode_addr c lf)) j)))
        (8 + ((decimal k).length - 1) % 256)
      = some (base, d1))
    (hbase : base ≠ 4294967295)
    (hchain : chain_to c.block_size
        (read_bytes d (blk_addr c (i_block (read_bytes d (get_inode_addr c lf)) j))) n 0 = true) :
    ∃ d2 e, put_into_lostfound c fuel stk d k = some (0, d2)
      ∧ e + rd16 d (blk_addr c (i_block (read_bytes d (get_inode_addr c lf)) j) + e + 4)
          = c.block_size
      ∧ rd32 d2 (blk_addr c (i_block (read_bytes d (get_inode_addr c lf)) j) + e)
          = rd32 d (blk_addr c (i_block (read_bytes d (get_inode_addr c lf)) j) + e)
      ∧ rd16 d2 (blk_addr c (i_block (read_bytes d (get_inode_addr c lf)) j) + e + 4)
          = 8 + name_size
              (rd8 d (blk_addr c (i_block (read_bytes d (get_inode_addr c lf)) j) + e + 6))
      ∧ base = blk_addr c (i_block (read_bytes d (get_inode_addr c lf)) j) + e
          + rd16 d2 (blk_addr c (i_block (read_bytes d (get_inode_addr c lf)) j) + e + 4)
      ∧ base + rd16 d2 (base + 4)
          = blk_addr c (i_block (read_bytes d (get_inode_addr c lf)) j) + c.block_size
      ∧ chain_to c.block_size
          (read_bytes d2 (blk_addr c (i_block (read_bytes d (get_inode_addr c lf)) j)))
          (n + 1) 0 = true := by
  generalize hbdef : i_block (read_bytes d (get_inode_addr c lf)) j = b at *
  have hA : blk_addr c b = c.base + b * c.block_size := by
    unfold blk_addr u32
    generalize b * c.block_size = X at *
    omega
  generalize hAdef : blk_addr c b = A at *
  generalize hsz : 8 + ((decimal k).length - 1) % 256 = size at *
  have hsz8 : 8 ≤ size := by omega
  obtain ⟨e, name, hfl, hroomlt, hbase_eq, hd1⟩ :=
    find_dir_end_in_direct_room c fuel stk d A (read_bytes d A) size base d1 hroom hbase
  have hbspos : 0 < c.block_size := by omega
  obtain ⟨hn1, hce, he, hsum, h8⟩ :=
    find_last_entry_chain c (read_bytes d A) n 0 fuel stk e name hchain hbspos hfl
  have hns := name_size_bounds (rd8 (read_bytes d A) (e + 6)) (rd8_lt _ _)
  generalize hnsdef : name_size (rd8 (read_bytes d A) (e + 6)) = ns at *
  have hbase2 : base = A + e + 8 + ns := by
    rw [hbase_eq]; unfold u32
    generalize b * c.block_size = X at *
    omega
  have hae : u32 (A + e) = A + e := by
    unfold u32
    generalize b * c.block_size = X at *
    omega
  rw [hae] at hd1
  have hpos : toInt32 base > 0 := by
    unfold toInt32
    generalize b * c.block_size = X at *
    have : base % 4294967296 = base := Nat.mod_eq_of_lt (by omega)
    rw [this, if_pos (by omega)]
    omega
  have hend := get_dir_entry_end_direct c fuel stk d lf size j base d1 hdir hj
    (by rw [hbdef]; exact hb)
    (by intro i hi; exact hearlier i hi)
    (by rw [hbdef, hAdef]; exact hroom) hpos
  have hnr : new_rec_len c base = c.block_size - (e + 8 + ns) := by
    have := new_rec_len_eq c b (e + 8 + ns) (by omega) (by omega) (by omega) hbs
    rw [← this, hbase2, hA]
    congr 1
    omega
  generalize hSdef : shrunk_entry (read_bytes d A)
      (copy_name name (read_bytes d A) e (rd8 (read_bytes d A) (e + 6))) e = S at hd1
  generalize hNdef : new_entry k (new_rec_len c base) (((decimal k).length - 1) % 256)
      (imode_to_filetype (i_mode (read_bytes d (get_inode_addr c k)))) = N
  have hlow : ∀ x, x < A + e → write_bytes d1 base N size x = d x := by
    intro x hx
    simp only [write_bytes]
    rw [if_neg (by omega), hd1]
    simp only [write_bytes]
    rw [if_neg (by omega)]
  have hrl1 : rd16 (write_bytes d1 base N size) (A + e + 4) = 8 + ns := by
    rw [rd16_write_bytes_disjoint d1 N base size (A + e + 4) (Or.inl (by omega)), hd1,
      rd16_write_bytes_in d S (A + e) (8 + ns) 4 (by omega), ← hSdef, rd16_shrunk_entry, hnsdef]
    omega
  have hrl2 : rd16 (write_bytes d1 base N size) (base + 4) = c.block_size - (e + 8 + ns) := by
    rw [rd16_write_bytes_in d1 N base size 4 (by omega), ← hNdef, rd16_new_entry, hnr]
    omega
  refine ⟨write_bytes d1 base N size, e, ?_, ?_, ?_, ?_, ?_, ?_, ?_⟩
  · unfold put_into_lostfound
    simp only [hlf, hsz, hend, hNdef]
  · rw [← hsum, rd16_read_bytes]
    congr 2
  · have e0 := rd32_write_bytes_in d S (A + e) (8 + ns) 0 (by omega)
    rw [Nat.add_zero] at e0
    rw [rd32_write_bytes_away d1 N base size (A + e) (Or.inl (by omega)), hd1, e0, ← hSdef,
      rd32_shrunk_entry, rd32_read_bytes]
  · rw [hrl1, ← hnsdef, rd8_read_bytes]
    congr 3
  · rw [hrl1]; omega
  · rw [hrl2]
    generalize b * c.block_size = X at *
    omega
  · have hc1 : chain_to e (read_bytes (write_bytes d1 base N size) A) (n - 1) 0 = true := by
      apply chain_to_congr e (read_bytes d A) _ _ _ _ hce
      intro x hx
      simp only [read_bytes]
      exact hlow _ (by omega)
    have hc2 := chain_to_extend e (8 + ns) (read_bytes (write_bytes d1 base N size) A)
      (by rw [rd16_read_bytes, ← Nat.add_assoc]; exact hrl1) (by omega) _ _ hc1
    have hc3 := chain_to_extend (e + (8 + ns)) (c.block_size - (e + 8 + ns))
      (read_bytes (write_bytes d1 base N size) A)
      (by
        rw [rd16_read_bytes]
        have : A + (e + (8 + ns) + 4) = base + 4 := by omega
        rw [this]
        exact hrl2)
      (by omega) _ _ hc2
    have h1 : e + (8 + ns) + (c.block_size - (e + 8 + ns)) = c.block_size := by omega
    have h2 : n - 1 + 1 + 1 = n + 1 := by omega
    rw [h1, h2] at hc3
    exact hc3

/-- Witness for `put_into_lostfound_keeps_chain`: on `img_orphan` block 10 of
`/lost+found` chains to 1024 in two entries and has room; inode 30 is inserted
at offset 11288 and the block chains to 1024 in three entries. -/
theorem put_into_lostfound_keeps_chain_witness :
    orphan_dir_end.1 = 11288
    ∧ ∃ d2 e, put_into_lostfound ctx_ex 64 (fun _ => 0) img_orphan 30 = some (0, d2)
      ∧ e + rd16 img_orphan (blk_addr ctx_ex
            (i_block (read_bytes img_orphan (get_inode_addr ctx_ex 11)) 0) + e + 4)
          = ctx_ex.block_size
      ∧ rd32 d2 (blk_addr ctx_ex (i_block (read_bytes img_orphan (get_inode_addr ctx_ex 11)) 0) + e)
          = rd32 img_orphan
              (blk_addr ctx_ex (i_block (read_bytes img_orphan (get_inode_addr ctx_ex 11)) 0) + e)
      ∧ rd16 d2 (blk_addr ctx_ex
            (i_block (read_bytes img_orphan (get_inode_addr ctx_ex 11)) 0) + e + 4)
          = 8 + name_size (rd8 img_orphan (blk_addr ctx_ex
              (i_block (read_bytes img_orphan (get_inode_addr ctx_ex 11)) 0) + e + 6))
      ∧ orphan_dir_end.1
          = blk_addr ctx_ex (i_block (read_bytes img_orphan (get_inode_addr ctx_ex 11)) 0) + e
            + rd16 d2 (blk_addr ctx_ex
                (i_block (read_bytes img_orphan (get_inode_addr ctx_ex 11)) 0) + e + 4)
      ∧ orphan_dir_end.1 + rd16 d2 (orphan_dir_end.1 + 4)
          = blk_addr ctx_ex (i_block (read_bytes img_orphan (get_inode_addr ctx_ex 11)) 0)
            + ctx_ex.block_size
      ∧ chain_to ctx_ex.block_size
          (read_bytes d2
            (blk_addr ctx_ex (i_block (read_bytes img_orphan (get_inode_addr ctx_ex 11)) 0)))
          (2 + 1) 0 = true :=
  ⟨by decide,
   put_into_lostfound_keeps_chain ctx_ex 64 (fun _ => 0) img_orphan 30 11 0 2
     orphan_dir_end.1 orphan_dir_end.2
     (by decide) (by decide) (by decide) (by decide) (by decide) (by decide)
     (by intro i hi; omega) (by rfl) (by decide) (by decide)⟩


/-! ## Pass 4: the comparison with the on-disk bitmaps -/

theorem mask_eq_zero_iff (b0 k : Nat) : b0 &&& (1 <<< k) = 0 ↔ b0.testBit k = false := by
  rw [Nat.one_shiftLeft, Nat.and_two_pow]
  cases b0.testBit k <;> simp

theorem bit_step_low (b0 v k m : Nat) (hk : k < 8) (hm : m < k) :
    (((b0 &&& (255 ^^^ (1 <<< k))) ||| (v <<< k)) % 256).testBit m = b0.testBit m := by
  have h256 : (256 : Nat) = 2 ^ 8 := by norm_num
  have h255 : (255 : Nat) = 2 ^ 8 - 1 := by norm_num
  rw [h256, Nat.testBit_mod_two_pow, Nat.testBit_lor, Nat.testBit_land, Nat.testBit_xor,
    Nat.one_shiftLeft, Nat.testBit_two_pow, Nat.testBit_shiftLeft, h255,
    Nat.testBit_two_pow_sub_one]
  have h1 : decide (m < 8) = true := by simp; omega
  have h2 : decide (k = m) = false := by simp; omega
  have h3 : decide (m ≥ k) = false := by simp; omega
  rw [h1, h2, h3]
  simp

theorem bit_step_at (b0 v k : Nat) (hk : k < 8) (hv : v ≤ 1) :
    (((b0 &&& (255 ^^^ (1 <<< k))) ||| (v <<< k)) % 256).testBit k = decide (v ≠ 0) := by
  have h256 : (256 : Nat) = 2 ^ 8 := by norm_num
  have h255 : (255 : Nat) = 2 ^ 8 - 1 := by norm_num
  rw [h256, Nat.testBit_mod_two_pow, Nat.testBit_lor, Nat.testBit_land, Nat.testBit_xor,
    Nat.one_shiftLeft, Nat.testBit_two_pow, Nat.testBit_shiftLeft, h255,
    Nat.testBit_two_pow_sub_one]
  have h1 : decide (k < 8) = true := by simp; omega
  rw [h1]
  have hv' : v = 0 ∨ v = 1 := by omega
  rcases hv' with h | h <;> subst h <;> simp

theorem compare_bits_append (c : Ctx) (bm : Nat → Nat) (g : Nat) (l1 l2 : List Nat) :
    ∀ r, compare_bits c bm g (l1 ++ l2) r = compare_bits c bm g l2 (compare_bits c bm g l1 r) := by
  induction l1 with
  | nil => intro r; rfl
  | cons i l ih =>
    intro r
    obtain ⟨bitmap, log⟩ := r
    simp only [List.cons_append, compare_bits]
    split <;> exact ih _

theorem compare_bits_one (c : Ctx) (bm : Nat → Nat) (g n : Nat) (bitmap : Disk) (log : List Report) :
    (∀ x, x ≠ n / 8 → (compare_bits c bm g [n] (bitmap, log)).1 x = bitmap x)
    ∧ (∀ m, m < n % 8 →
        (rd8 (compare_bits c bm g [n] (bitmap, log)).1 (n / 8)).testBit m
          = (rd8 bitmap (n / 8)).testBit m)
    ∧ (bm (g * c.blocks_per_group + n + s_fst_db c) ≤ 1 →
        (rd8 (compare_bits c bm g [n] (bitmap, log)).1 (n / 8)).testBit (n % 8)
          = decide (bm (g * c.blocks_per_group + n + s_fst_db c) ≠ 0)) := by
  have hk : n % 8 < 8 := Nat.mod_lt _ (by decide)
  simp only [compare_bits]
  split
  · simp only [compare_bits]
    refine ⟨?_, ?_, ?_⟩
    · intro x hx
      simp [wr8, hx]
    · intro m hm
      have : rd8 (wr8 bitmap (n / 8)
          (rd8 bitmap (n / 8) &&& (255 ^^^ 1 <<< (n % 8))
            ||| bm (g * c.blocks_per_group + n + s_fst_db c) <<< (n % 8))) (n / 8)
          = ((rd8 bitmap (n / 8) &&& (255 ^^^ 1 <<< (n % 8))
            ||| bm (g * c.blocks_per_group + n + s_fst_db c) <<< (n % 8))) % 256 := by
        simp [rd8, wr8]
      rw [this]
      exact bit_step_low _ _ _ _ hk hm
    · intro hv
      have : rd8 (wr8 bitmap (n / 8)
          (rd8 bitmap (n / 8) &&& (255 ^^^ 1 <<< (n % 8))
            ||| bm (g * c.blocks_per_group + n + s_fst_db c) <<< (n % 8))) (n / 8)
          = ((rd8 bitmap (n / 8) &&& (255 ^^^ 1 <<< (n % 8))
            ||| bm (g * c.blocks_per_group + n + s_fst_db c) <<< (n % 8))) % 256 := by
        simp [rd8, wr8]
      rw [this]
      exact bit_step_at _ _ _ hk hv
  · rename_i hc
    refine ⟨?_, ?_, ?_⟩
    · intro x _; rfl
    · intro m _; rfl
    · intro _
      show (rd8 bitmap (n / 8)).testBit (n % 8)
        = decide (bm (g * c.blocks_per_group + n + s_fst_db c) ≠ 0)
      have hc' : ¬(((rd8 bitmap (n / 8)).testBit (n % 8) = false
            ∧ bm (g * c.blocks_per_group + n + s_fst_db c) ≠ 0)
          ∨ (¬ (rd8 bitmap (n / 8)).testBit (n % 8) = false
            ∧ bm (g * c.blocks_per_group + n + s_fst_db c) = 0)) := by
        simpa only [ne_eq, mask_eq_zero_iff] using hc
      by_cases hv0 : bm (g * c.blocks_per_group + n + s_fst_db c) = 0 <;>
        cases hb : (rd8 bitmap (n / 8)).testBit (n % 8) <;> simp_all

theorem compare_bits_range (c : Ctx) (bm : Nat → Nat) (g : Nat) (bitmap : Disk) (log : List Report) :
    ∀ (n i : Nat), i < n → bm (g * c.blocks_per_group + i + s_fst_db c) ≤ 1 →
      (rd8 (compare_bits c bm g (List.range n) (bitmap, log)).1 (i / 8)).testBit (i % 8)
        = decide (bm (g * c.blocks_per_group + i + s_fst_db c) ≠ 0) := by
  intro n
  induction n with
  | zero => intro i hi; omega
  | succ n ih =>
    intro i hi hv
    rw [List.range_succ, compare_bits_append]
    generalize hr : compare_bits c bm g (List.range n) (bitmap, log) = r
    obtain ⟨B, lg⟩ := r
    obtain ⟨h1, h2, h3⟩ := compare_bits_one c bm g n B lg
    by_cases hin : i = n
    · subst hin
      exact h3 hv
    · have hlt : i < n := by omega
      have ih' := ih i hlt hv
      rw [hr] at ih'
      rw [← ih']
      by_cases hbyte : i / 8 = n / 8
      · rw [hbyte]
        exact h2 _ (by omega)
      · simp only [rd8]
        rw [h1 _ hbyte]

theorem compare_groups_frame (c : Ctx) (bm : Nat → Nat) :
    ∀ (fuel num g0 : Nat) (s s' : State), compare_groups c bm fuel num g0 s = some s' →
      ∀ x, (∀ t, t * c.blocks_per_group < num →
          x < bitmap_addr c (g0 + t) ∨ bitmap_addr c (g0 + t) + c.block_size ≤ x) →
        s'.disk x = s.disk x := by
  intro fuel
  induction fuel with
  | zero => intro num g0 s s' h; simp [compare_groups] at h
  | succ fuel ih =>
    intro num g0 s s' h x hx
    rw [compare_groups] at h
    split at h
    · rename_i hnum
      have h0 := hx 0 (by omega)
      rw [ih _ _ _ _ h x ?_]
      · simp only [write_bytes]
        rw [if_neg ?_]
        simp only [bitmap_addr, Nat.add_zero] at h0
        omega
      · intro t ht
        have := hx (t + 1) (by rw [Nat.succ_mul]; omega)
        rw [← Nat.add_assoc] at this
        rw [Nat.add_right_comm]
        exact this
    · simp only [Option.some.injEq] at h
      subst h
      rfl

theorem compare_groups_bits (c : Ctx) (bm : Nat → Nat) :
    ∀ (fuel num g0 : Nat) (s s' : State), compare_groups c bm fuel num g0 s = some s' →
      ∀ t b, t * c.blocks_per_group < num →
        b < bits_compared c (num - t * c.blocks_per_group) → b / 8 < c.block_size →
        bm ((g0 + t) * c.blocks_per_group + b + s_fst_db c) ≤ 1 →
        (∀ t', t' * c.blocks_per_group < num → t' ≠ t →
          bitmap_addr c (g0 + t) + c.block_size ≤ bitmap_addr c (g0 + t')
            ∨ bitmap_addr c (g0 + t') + c.block_size ≤ bitmap_addr c (g0 + t)) →
        (rd8 s'.disk (bitmap_addr c (g0 + t) + b / 8)).testBit (b % 8)
          = decide (bm ((g0 + t) * c.blocks_per_group + b + s_fst_db c) ≠ 0) := by
  intro fuel
  induction fuel with
  | zero => intro num g0 s s' h; simp [compare_groups] at h
  | succ fuel ih =>
    intro num g0 s s' h t b ht hb hb8 hv hsep
    rw [compare_groups] at h
    split at h
    · rename_i hnum
      cases t with
      | zero =>
        simp only [Nat.zero_mul, Nat.sub_zero, Nat.add_zero] at *
        have hfr := compare_groups_frame c bm _ _ _ _ _ h (bitmap_addr c g0 + b / 8) (by
          intro t' ht'
          have := hsep (t' + 1) (by rw [Nat.succ_mul]; omega) (by omega)
          rw [Nat.add_right_comm, Nat.add_assoc]
          omega)
        have hcb := compare_bits_range c bm g0 (read_bytes s.disk (bitmap_addr c g0)) s.log
          (bits_compared c num) b hb hv
        simp only [rd8, bits_compared, bitmap_addr] at hcb hfr ⊢
        rw [hfr, ← hcb]
        have hw : ∀ (B : Disk) (a : Nat),
            write_bytes s.disk a B c.block_size (a + b / 8) = B (b / 8) := by
          intro B a
          simp only [write_bytes]
          rw [if_pos (by omega)]
          congr 1
          omega
        rw [hw]
      | succ t =>
        have hbpg : t * c.blocks_per_group + c.blocks_per_group < num := by
          rw [Nat.succ_mul] at ht; exact ht
        have e1 : num - (t + 1) * c.blocks_per_group
            = num - c.blocks_per_group - t * c.blocks_per_group := by
          rw [Nat.succ_mul]; omega
        have e2 : g0 + (t + 1) = g0 + 1 + t := by omega
        rw [e1] at hb
        rw [e2] at hv ⊢
        refine ih _ _ _ _ h t b (by omega) hb hb8 hv ?_
        intro t' ht' hne
        have := hsep (t' + 1) (by rw [Nat.succ_mul]; omega) (by omega)
        rw [e2] at this
        have e3 : g0 + (t' + 1) = g0 + 1 + t' := by omega
        rw [e3] at this
        exact this
    · omega

/-! ## Pass 4: the expected map holds flags -/

theorem mark_flag (L : Nat) (bm : Nat → Nat) (blk : Nat) (h : ∀ i, i < L → bm i ≤ 1) :
    ∀ i, i < L → mark bm blk i ≤ 1 := by
  intro i hi
  unfold mark
  split
  · omega
  · exact h i hi

theorem mark_loop_flag (L : Nat) (f : Nat → (Nat → Nat) → (Nat → Nat)) (buf : Disk)
    (hf : ∀ blk bm, (∀ i, i < L → bm i ≤ 1) → ∀ i, i < L → f blk bm i ≤ 1) :
    ∀ (n k : Nat) (bm : Nat → Nat), (∀ i, i < L → bm i ≤ 1) →
      ∀ i, i < L → mark_loop f buf n k bm i ≤ 1 := by
  intro n
  induction n with
  | zero => intro k bm h; simpa [mark_loop] using h
  | succ n ih =>
    intro k bm h
    rw [mark_loop]
    split
    · exact h
    · exact ih _ _ (hf _ _ h)

theorem mark_block_singly_flag (L : Nat) (c : Ctx) (buf : Disk) (bm : Nat → Nat)
    (h : ∀ i, i < L → bm i ≤ 1) : ∀ i, i < L → mark_block_singly c buf bm i ≤ 1 :=
  mark_loop_flag L _ buf (fun blk b hb => mark_flag L b blk hb) _ _ bm h

theorem mark_block_doubly_flag (L : Nat) (c : Ctx) (d buf : Disk) (bm : Nat → Nat)
    (h : ∀ i, i < L → bm i ≤ 1) : ∀ i, i < L → mark_block_doubly c d buf bm i ≤ 1 :=
  mark_loop_flag L _ buf
    (fun blk b hb => mark_block_singly_flag L c _ _ (mark_flag L b blk hb)) _ _ bm h

theorem mark_block_triply_flag (L : Nat) (c : Ctx) (d buf : Disk) (bm : Nat → Nat)
    (h : ∀ i, i < L → bm i ≤ 1) : ∀ i, i < L → mark_block_triply c d buf bm i ≤ 1 :=
  mark_loop_flag L _ buf
    (fun blk b hb => mark_block_doubly_flag L c d _ _ (mark_flag L b blk hb)) _ _ bm h

theorem foldl_flag (L : Nat) {α : Type} (f : (Nat → Nat) → α → (Nat → Nat))
    (hf : ∀ bm a, (∀ i, i < L → bm i ≤ 1) → ∀ i, i < L → f bm a i ≤ 1) (l : List α) :
    ∀ bm : Nat → Nat, (∀ i, i < L → bm i ≤ 1) → ∀ i, i < L → l.foldl f bm i ≤ 1 := by
  induction l with
  | nil => intro bm h; exact h
  | cons a l ih => intro bm h; exact ih _ (hf _ _ h)

theorem mark_block_flag (L : Nat) (c : Ctx) (d : Disk) (n : Nat) (bm : Nat → Nat)
    (h : ∀ i, i < L → bm i ≤ 1) : ∀ i, i < L → mark_block c d n bm i ≤ 1 := by
  unfold mark_block
  dsimp only
  split
  · exact h
  · have h1 := foldl_flag L
      (fun b i => if i_block (read_bytes d (get_inode_addr c ↑n)) i = 0 then b
        else mark b (i_block (read_bytes d (get_inode_addr c ↑n)) i))
      (fun b a hb => by
        dsimp only
        split
        · exact hb
        · exact mark_flag L _ _ hb)
      (List.range EXT2_NDIR_BLOCKS) bm h
    have h2 : ∀ b : Nat → Nat, (∀ i, i < L → b i ≤ 1) → ∀ i, i < L →
        (if i_block (read_bytes d (get_inode_addr c ↑n)) 12 > 0 then
          mark_block_singly c
            (read_bytes d (blk_addr c (i_block (read_bytes d (get_inode_addr c ↑n)) 12)))
            (mark b (i_block (read_bytes d (get_inode_addr c ↑n)) 12))
         else b) i ≤ 1 := by
      intro b hb
      split
      · exact mark_block_singly_flag L c _ _ (mark_flag L _ _ hb)
      · exact hb
    have h3 : ∀ b : Nat → Nat, (∀ i, i < L → b i ≤ 1) → ∀ i, i < L →
        (if i_block (read_bytes d (get_inode_addr c ↑n)) 13 > 0 then
          mark_block_doubly c d
            (read_bytes d (blk_addr c (i_block (read_bytes d (get_inode_addr c ↑n)) 13)))
            (mark b (i_block (read_bytes d (get_inode_addr c ↑n)) 13))
         else b) i ≤ 1 := by
      intro b hb
      split
      · exact mark_block_doubly_flag L c d _ _ (mark_flag L _ _ hb)
      · exact hb
    split
    · exact mark_block_triply_flag L c d _ _ (mark_flag L _ _ (h3 _ (h2 _ h1)))
    · exact h3 _ (h2 _ h1)

theorem mark_group_flag (L : Nat) (c : Ctx) (fuel g : Nat) (bm bm' : Nat → Nat)
    (h : ∀ i, i < L → bm i ≤ 1) (hg : mark_group c fuel g bm = some bm') :
    ∀ i, i < L → bm' i ≤ 1 := by
  unfold mark_group at hg
  split at hg
  · simp only [Option.some.injEq] at hg
    subst hg
    apply foldl_flag L mark (fun b a hb => mark_flag L b a hb)
    apply mark_flag
    apply mark_flag
    split
    · exact mark_flag L _ _ (mark_flag L _ _ h)
    · exact h
  · exact absurd hg (by simp)

theorem mark_groups_flag (L : Nat) (c : Ctx) (fuel : Nat) (l : List Nat) :
    ∀ (bm bm' : Nat → Nat), (∀ i, i < L → bm i ≤ 1) → mark_groups c fuel l bm = some bm' →
      ∀ i, i < L → bm' i ≤ 1 := by
  induction l with
  | nil =>
    intro bm bm' h hg
    simp only [mark_groups, Option.some.injEq] at hg
    subst hg
    exact h
  | cons g l ih =>
    intro bm bm' h hg
    rw [mark_groups] at hg
    split at hg
    · exact absurd hg (by simp)
    · rename_i bm1 h1
      exact ih _ _ (mark_group_flag L c fuel g bm bm1 h h1) hg

theorem build_block_map_flag (c : Ctx) (fuel : Nat) (heap : Nat → Nat) (s : State)
    (bm : Nat → Nat) (h : build_block_map c fuel heap s = some bm) :
    ∀ i, i < c.num_groups * c.blocks_per_group → bm i ≤ 1 := by
  unfold build_block_map at h
  dsimp only at h
  split at h
  · exact absurd h (by simp)
  · rename_i bm2 h2
    simp only [Option.some.injEq] at h
    subst h
    apply foldl_flag _ _ (fun b a hb => ?_)
    · refine mark_groups_flag _ c fuel _ _ _ ?_ h2
      intro i hi
      dsimp only
      split
      · omega
      · omega
    · dsimp only
      split
      · exact hb
      · exact mark_block_flag _ c s.disk a b hb

/-- Claim C4, counterexample: on the walked image `img_orphan` (1 KiB blocks,
one group, 32 blocks) blocks 0..10 are marked in the expected map, and after
`fix_block_map` bit 10 of group 0 is clear although `10 < min(8192, 32)` and
block `0 * 8192 + 10` is marked: the bit is compared with block 11. -/
theorem fix_block_map_bit_shifted :
    ¬ (∀ s' bm, fix_block_map ctx_ex 8 (fun _ => 0) (after_walk ctx_ex img_orphan) = some s' →
        build_block_map ctx_ex 8 (fun _ => 0) (after_walk ctx_ex img_orphan) = some bm →
        ∀ g b, b < min ctx_ex.blocks_per_group (ctx_ex.num_blocks - g * ctx_ex.blocks_per_group) →
          ((rd8 s'.disk (bitmap_addr ctx_ex g + b / 8)).testBit (b % 8) = true
            ↔ bm (g * ctx_ex.blocks_per_group + b) ≠ 0)) := by
  intro h
  have h1 := h mapped_orphan expected_orphan (by rfl) (by rfl) 0 10 (by decide)
  revert h1
  decide

/-- Claim C4, amended: after `fix_block_map`, for every group `g` that the loop
reaches (`g * blocks_per_group < num_blocks`) and every bit index `b` below the
number of bits the loop compares for that group (`blocks_per_group` when at
least that many blocks remain, else the remaining blocks less
`s_first_data_block`), bit `b` of the group's on-disk block bitmap is set iff
block `g * blocks_per_group + b + s_first_data_block` is marked in
`block_expected`.  The bit lies inside the one bitmap block, the index lies
inside `block_expected`, and the bitmap blocks of distinct groups are distinct
places of the image. -/
theorem fix_block_map_bits (c : Ctx) (fuel : Nat) (heap : Nat → Nat) (s s' : State)
    (bm : Nat → Nat) (h : fix_block_map c fuel heap s = some s')
    (hbm : build_block_map c fuel heap s = some bm) (g b : Nat)
    (hg : g * c.blocks_per_group < c.num_blocks)
    (hb : b < bits_compared c (c.num_blocks - g * c.blocks_per_group))
    (hb8 : b / 8 < c.block_size)
    (hin : g * c.blocks_per_group + b + s_fst_db c < c.num_groups * c.blocks_per_group)
    (hsep : ∀ g', g' * c.blocks_per_group < c.num_blocks → g' ≠ g →
      bitmap_addr c g + c.block_size ≤ bitmap_addr c g'
        ∨ bitmap_addr c g' + c.block_size ≤ bitmap_addr c g) :
    ((rd8 s'.disk (bitmap_addr c g + b / 8)).testBit (b % 8) = true
      ↔ bm (g * c.blocks_per_group + b + s_fst_db c) ≠ 0) := by
  unfold fix_block_map at h
  rw [hbm] at h
  have hv := build_block_map_flag c fuel heap s bm hbm _ hin
  have hk := compare_groups_bits c bm fuel c.num_blocks 0 s s' h g b hg hb hb8
    (by simpa only [Nat.zero_add] using hv)
    (by simpa only [Nat.zero_add] using hsep)
  simp only [Nat.zero_add] at hk
  rw [hk]
  simp

/-- Witness for `fix_block_map_bits`: on the walked image `img_orphan` bit 10 of
group 0 is clear after `fix_block_map` and block 11 is not marked; bit 9 is set
and block 10 is marked. -/
theorem fix_block_map_bits_witness :
    expected_orphan 11 = 0 ∧ expected_orphan 10 = 1
    ∧ (rd8 mapped_orphan.disk (bitmap_addr ctx_ex 0 + 9 / 8)).testBit (9 % 8) = true
    ∧ ((rd8 mapped_orphan.disk (bitmap_addr ctx_ex 0 + 10 / 8)).testBit (10 % 8) = true
        ↔ expected_orphan (0 * ctx_ex.blocks_per_group + 10 + s_fst_db ctx_ex) ≠ 0) :=
  ⟨by decide, by decide, by decide,
   fix_block_map_bits ctx_ex 8 (fun _ => 0) (after_walk ctx_ex img_orphan) mapped_orphan
     expected_orphan (by rfl) (by rfl) 0 10 (by decide) (by decide) (by decide) (by decide)
     (by
      intro g1 h1 h2
      exfalso
      apply h2
      have : g1 * 8192 < 32 := h1
      omega)⟩


/-! ## A run whose reports are idle writes nothing -/

theorem IdleStep_refl (d : Disk) (s : State) : IdleStep d s s :=
  ⟨[], by simp, fun _ h => h⟩

theorem IdleStep_trans {d : Disk} {s s1 s2 : State} (h1 : IdleStep d s s1)
    (h2 : IdleStep d s1 s2) : IdleStep d s s2 := by
  obtain ⟨r1, hl1, hd1⟩ := h1
  obtain ⟨r2, hl2, hd2⟩ := h2
  refine ⟨r1 ++ r2, by rw [hl2, hl1, List.append_assoc], ?_⟩
  intro h hs
  exact hd2 (fun r hr => h r (List.mem_append_right _ hr))
    (hd1 (fun r hr => h r (List.mem_append_left _ hr)) hs)

theorem apply_repair_idle (d : Disk) (r : Report) (h : idle d r) : apply_repair d r = d := by
  cases r with
  | self_err offset stored expected =>
    funext x
    show write_bytes d offset (wr32 (fun _ => 0) 0 expected) 4 x = d x
    simp only [write_bytes, wr32]
    split
    · rename_i hx
      have := h (x - offset) (by omega)
      rw [if_pos (by omega), Nat.sub_zero]
      rw [← this]
      congr 1
      omega
    · rfl
  | parent_err offset dir expected =>
    funext x
    show write_bytes d offset (wr32 (fun _ => 0) 0 expected) 4 x = d x
    simp only [write_bytes, wr32]
    split
    · rename_i hx
      have := h (x - offset) (by omega)
      rw [if_pos (by omega), Nat.sub_zero]
      rw [← this]
      congr 1
      omega
    · rfl
  | adopt _ => rfl
  | link_err _ _ _ => rfl
  | bitmap_err _ _ _ => rfl

theorem replay_idle (d : Disk) (rs : List Report) (h : ∀ r ∈ rs, idle d r) : replay d rs = d := by
  induction rs with
  | nil => rfl
  | cons r rs ih =>
    show replay (apply_repair d r) rs = d
    rw [apply_repair_idle d r (h r (List.mem_cons_self _ _))]
    exact ih (fun r' hr' => h r' (List.mem_cons_of_mem _ hr'))

theorem WalkOK_IdleStep {c : Ctx} (d : Disk) {s s1 : State} (h : WalkOK c s s1) :
    IdleStep d s s1 := by
  obtain ⟨rs, hl, hd, _⟩ := h
  refine ⟨rs, hl, ?_⟩
  intro hi hs
  rw [hd, hs]
  exact replay_idle d rs hi

theorem adopt_loop_IdleStep (c : Ctx) (fuel : Nat) (stk : Disk) (d : Disk) (l : List Nat) :
    ∀ (earlier : List Nat) (s s1 : State), adopt_loop c fuel stk l earlier s = some s1 →
      IdleStep d s s1 := by
  induction l with
  | nil =>
    intro earlier s s1 h
    simp only [adopt_loop, Option.some.injEq] at h
    subst h
    exact IdleStep_refl d _
  | cons x xs ih =>
    intro earlier s s1 h
    rw [adopt_loop] at h
    split at h
    · split at h
      · exact absurd h (by simp)
      · rename_i r d1 hp
        refine IdleStep_trans ?_ (ih _ _ _ h)
        exact ⟨[Report.adopt x], rfl, fun e _ => absurd (e _ (List.mem_singleton.mpr rfl)) id⟩
    · exact ih _ _ _ h

theorem fix_link_count_IdleStep (c : Ctx) (d : Disk) (i : Nat) (s : State) :
    IdleStep d s (fix_link_count c i s) := by
  unfold fix_link_count
  dsimp only
  split
  · exact ⟨[_], rfl, fun e _ => absurd (e _ (List.mem_singleton.mpr rfl)) id⟩
  · exact IdleStep_refl d _

theorem fix_link_counts_IdleStep (c : Ctx) (d : Disk) (s : State) :
    IdleStep d s (fix_link_counts c s) := by
  unfold fix_link_counts
  generalize List.range' 1 c.num_inodes = l
  induction l generalizing s with
  | nil => exact IdleStep_refl d _
  | cons i l ih => exact IdleStep_trans (fix_link_count_IdleStep c d i s) (ih _)

theorem compare_bits_idle (c : Ctx) (bm : Nat → Nat) (g : Nat) (d : Disk) (l : List Nat) :
    ∀ (bitmap : Disk) (log : List Report),
      ∃ rs, (compare_bits c bm g l (bitmap, log)).2 = log ++ rs
        ∧ ((∀ r ∈ rs, idle d r) → (compare_bits c bm g l (bitmap, log)).1 = bitmap) := by
  induction l with
  | nil => intro bitmap log; exact ⟨[], by simp [compare_bits], fun _ => rfl⟩
  | cons i l ih =>
    intro bitmap log
    rw [compare_bits]
    split
    · obtain ⟨rs, hl, _⟩ := ih
        (wr8 bitmap (i / 8) ((rd8 bitmap (i / 8) &&& (255 ^^^ (1 <<< (i % 8))))
          ||| (bm (g * c.blocks_per_group + i + s_fst_db c) <<< (i % 8))))
        (log ++ [Report.bitmap_err i g (bm (g * c.blocks_per_group + i))])
      refine ⟨Report.bitmap_err i g (bm (g * c.blocks_per_group + i)) :: rs, ?_, ?_⟩
      · rw [hl]; simp
      · intro e; exact absurd (e _ (List.mem_cons_self _ _)) id
    · exact ih bitmap log

theorem write_bytes_read_bytes (d : Disk) (a n : Nat) : write_bytes d a (read_bytes d a) n = d := by
  funext x
  unfold write_bytes read_bytes
  split
  · congr 1; omega
  · rfl

theorem compare_groups_IdleStep (c : Ctx) (bm : Nat → Nat) (d : Disk) :
    ∀ (fuel num g : Nat) (s s1 : State), compare_groups c bm fuel num g s = some s1 →
      IdleStep d s s1 := by
  intro fuel
  induction fuel with
  | zero => intro num g s s1 h; simp [compare_groups] at h
  | succ fuel ih =>
    intro num g s s1 h
    rw [compare_groups] at h
    split at h
    · refine IdleStep_trans ?_ (ih _ _ _ _ h)
      obtain ⟨rs, hl, hb⟩ := compare_bits_idle c bm g d
        (List.range (if num ≥ c.blocks_per_group then c.blocks_per_group else num - s_fst_db c))
        (read_bytes s.disk (blk_addr c (c.bg_desc_table g).bg_block_bitmap)) s.log
      refine ⟨rs, hl, ?_⟩
      intro e hs
      dsimp only
      rw [hb e, write_bytes_read_bytes]
      exact hs
    · simp only [Option.some.injEq] at h
      subst h
      exact IdleStep_refl d _

theorem fix_block_map_IdleStep (c : Ctx) (fuel : Nat) (heap : Nat → Nat) (d : Disk)
    (s s1 : State) (h : fix_block_map c fuel heap s = some s1) : IdleStep d s s1 := by
  unfold fix_block_map at h
  split at h
  · exact absurd h (by simp)
  · exact compare_groups_IdleStep c _ d _ _ _ _ _ h

theorem run_passes_IdleStep (c : Ctx) (fuel : Nat) (j : Junk) (d : Disk) (s : State)
    (h : run_passes c fuel j d = some s) :
    IdleStep d { disk := d, inode_map := zero_map c j.inode_heap, log := [] } s := by
  unfold run_passes at h
  split at h
  · exact absurd h (by simp)
  · rename_i s1 h1
    split at h
    · exact absurd h (by simp)
    · rename_i s2 h2
      split at h
      · exact absurd h (by simp)
      · rename_i s3 h3
        have w1 := WalkOK_IdleStep d (traverse_dir_ok c _ _ _ _ _ _ h1)
        have w2 := adopt_loop_IdleStep c fuel j.stk d _ _ _ _ h2
        have w3 : IdleStep d { s2 with inode_map := zero_map c s2.inode_map } s3 :=
          WalkOK_IdleStep d (traverse_dir_ok c _ _ _ _ _ _ h3)
        have w3' : IdleStep d s2 s3 := w3
        have w4 := fix_link_counts_IdleStep c d s3
        have w5 := fix_block_map_IdleStep c fuel _ d _ _ h
        exact IdleStep_trans w1 (IdleStep_trans w2 (IdleStep_trans w3' (IdleStep_trans w4 w5)))

theorem MapGrows_refl (s : State) : MapGrows s s := fun _ => Nat.le_refl _

theorem MapGrows_trans {s s1 s2 : State} (h1 : MapGrows s s1) (h2 : MapGrows s1 s2) :
    MapGrows s s2 := fun k => Nat.le_trans (h1 k) (h2 k)

theorem check_entry_grows (c : Ctx) (bo bn cur par base cnt : Nat) (buf name : Disk) (s : State) :
    MapGrows s (check_entry c bo bn cur par base cnt buf name s).2.2 := by
  intro k
  unfold check_entry
  dsimp only
  split_ifs <;> first
    | exact Nat.le_refl _
    | (simp only; split_ifs <;> omega)

theorem traverse_direct_block_grows (walk : Nat → Nat → State → Option State) (c : Ctx)
    (bo bn cur par : Nat)
    (hwalk : ∀ i p t t', walk i p t = some t' → MapGrows t t') :
    ∀ (fuel base cnt : Nat) (buf name : Disk) (s s' : State),
      traverse_direct_block walk c bo bn cur par fuel base cnt buf name s = some s' →
      MapGrows s s' := by
  intro fuel
  induction fuel with
  | zero => intro base cnt buf name s s' h; simp [traverse_direct_block] at h
  | succ fuel ih =>
    intro base cnt0 buf name s s' h
    rw [traverse_direct_block] at h
    split at h
    · simp only at h
      generalize cnt_after_name (rd8 buf (base + 6)) cnt0 = cnt at h
      split at h
      · split at h
        · exact absurd h (by simp)
        · rename_i s4 h4
          exact MapGrows_trans (check_entry_grows c bo bn cur par base cnt buf name s)
            (MapGrows_trans (hwalk _ _ _ _ h4) (ih _ _ _ _ _ _ h))
      · exact MapGrows_trans (check_entry_grows c bo bn cur par base cnt buf name s)
          (ih _ _ _ _ _ _ h)
    · simp only [Option.some.injEq] at h
      subst h
      exact MapGrows_refl _

theorem for_each_grows (f : Nat → State → Option State) (l : List Nat)
    (hf : ∀ i t t', f i t = some t' → MapGrows t t') :
    ∀ (s s' : State), for_each f l s = some s' → MapGrows s s' := by
  induction l with
  | nil =>
    intro s s' h
    simp only [for_each, Option.some.injEq] at h
    subst h
    exact MapGrows_refl _
  | cons i l ih =>
    intro s s' h
    rw [for_each] at h
    split at h
    · exact absurd h (by simp)
    · rename_i s1 h1
      exact MapGrows_trans (hf _ _ _ h1) (ih _ _ h)

theorem indirect_loop_grows (f : Nat → State → Option State) (buf : Disk)
    (hf : ∀ b t t', f b t = some t' → MapGrows t t') :
    ∀ (n i : Nat) (s s' : State), indirect_loop f buf n i s = some s' → MapGrows s s' := by
  intro n
  induction n with
  | zero =>
    intro i s s' h
    simp only [indirect_loop, Option.some.injEq] at h
    subst h
    exact MapGrows_refl _
  | succ n ih =>
    intro i s s' h
    rw [indirect_loop] at h
    split at h
    · simp only [Option.some.injEq] at h
      subst h
      exact MapGrows_refl _
    · split at h
      · exact absurd h (by simp)
      · rename_i s1 h1
        exact MapGrows_trans (hf _ _ _ h1) (ih _ _ _ h)

theorem traverse_singly_grows (walk : Nat → Nat → State → Option State) (c : Ctx) (stk : Stale)
    (fuel : Nat) (hwalk : ∀ i p t t', walk i p t = some t' → MapGrows t t')
    (buf : Disk) (cur par : Nat) (s s' : State)
    (h : traverse_singly walk c stk fuel buf cur par s = some s') : MapGrows s s' := by
  unfold traverse_singly at h
  refine indirect_loop_grows _ buf ?_ _ _ _ _ h
  intro b t t' ht
  exact traverse_direct_block_grows walk c _ 1 cur par hwalk _ _ _ _ _ _ _ ht

theorem traverse_doubly_grows (walk : Nat → Nat → State → Option State) (c : Ctx) (stk : Stale)
    (fuel : Nat) (hwalk : ∀ i p t t', walk i p t = some t' → MapGrows t t')
    (buf : Disk) (cur par : Nat) (s s' : State)
    (h : traverse_doubly walk c stk fuel buf cur par s = some s') : MapGrows s s' := by
  unfold traverse_doubly at h
  refine indirect_loop_grows _ buf ?_ _ _ _ _ h
  intro b t t' ht
  exact traverse_singly_grows walk c stk fuel hwalk _ cur par _ _ ht

theorem traverse_triply_grows (walk : Nat → Nat → State → Option State) (c : Ctx) (stk : Stale)
    (fuel : Nat) (hwalk : ∀ i p t t', walk i p t = some t' → MapGrows t t')
    (buf : Disk) (cur par : Nat) (s s' : State)
    (h : traverse_triply walk c stk fuel buf cur par s = some s') : MapGrows s s' := by
  unfold traverse_triply at h
  refine indirect_loop_grows _ buf ?_ _ _ _ _ h
  intro b t t' ht
  exact traverse_singly_grows walk c stk fuel hwalk _ cur par _ _ ht

theorem traverse_dir_tail_grows (c : Ctx) (stk : Stale) (fuel n p : Nat) (inode : Disk)
    (hwalk : ∀ i p t t', traverse_dir c stk fuel i p t = some t' → MapGrows t t')
    (s1 s' : State)
    (h : (match traverse_singly (traverse_dir c stk fuel) c stk fuel
            (read_bytes s1.disk (blk_addr c (i_block inode 12))) n p s1 with
        | none => none
        | some s2 =>
          match traverse_doubly (traverse_dir c stk fuel) c stk fuel
              (read_bytes s2.disk (blk_addr c (i_block inode 13))) n p s2 with
          | none => none
          | some s3 =>
            traverse_triply (traverse_dir c stk fuel) c stk fuel
              (read_bytes s3.disk (blk_addr c (i_block inode 14))) n p s3) = some s') :
    MapGrows s1 s' := by
  split at h
  · exact absurd h (by simp)
  · rename_i s2 h2
    split at h
    · exact absurd h (by simp)
    · rename_i s3 h3
      exact MapGrows_trans (traverse_singly_grows _ c stk fuel hwalk _ n p _ _ h2)
        (MapGrows_trans (traverse_doubly_grows _ c stk fuel hwalk _ n p _ _ h3)
          (traverse_triply_grows _ c stk fuel hwalk _ n p _ _ h))

theorem traverse_dir_grows (c : Ctx) (stk : Stale) :
    ∀ (fuel n p : Nat) (s s' : State), traverse_dir c stk fuel n p s = some s' →
      MapGrows s s' := by
  intro fuel
  induction fuel with
  | zero => intro n p s s' h; simp [traverse_dir] at h
  | succ fuel ih =>
    intro n p s s' h
    rw [traverse_dir] at h
    split at h
    · simp only [Option.some.injEq] at h
      subst h
      exact MapGrows_refl _
    · split at h
      · exact absurd h (by simp)
      · rename_i s1 h1
        refine MapGrows_trans (for_each_grows _ _ ?_ _ _ h1)
          (traverse_dir_tail_grows c stk fuel n p _ ih _ _ h)
        intro i t t' ht
        split at ht
        · simp only [Option.some.injEq] at ht
          subst ht
          exact MapGrows_refl _
        · exact traverse_direct_block_grows _ c _ i n p ih _ _ _ _ _ _ _ ht

/-! ## The walk counts the entries on a block's chain -/

theorem entry_at_le (buf : Disk) :
    ∀ (m off e : Nat), entry_at buf m off e = true → off + 8 * m ≤ e := by
  intro m
  induction m with
  | zero => intro off e h; simp [entry_at] at h; omega
  | succ m ih =>
    intro off e h
    simp only [entry_at, Bool.and_eq_true, decide_eq_true_eq] at h
    have := ih _ _ h.2
    omega

theorem entry_at_congr (buf buf1 : Disk) (lo e : Nat)
    (hag : ∀ x, lo ≤ x → x < e → buf1 x = buf x) :
    ∀ (m off : Nat), lo ≤ off + 4 → entry_at buf m off e = true →
      entry_at buf1 m off e = true := by
  intro m
  induction m with
  | zero => intro off _ h; simpa [entry_at] using h
  | succ m ih =>
    intro off hlo h
    have hle := entry_at_le buf _ _ _ h
    simp only [entry_at, Bool.and_eq_true, decide_eq_true_eq] at h ⊢
    have hr : rd16 buf1 (off + 4) = rd16 buf (off + 4) := by
      unfold rd16 rd8
      rw [hag (off + 4) (by omega) (by omega), hag (off + 4 + 1) (by omega) (by omega)]
    rw [hr]
    exact ⟨h.1, ih _ (by omega) h.2⟩

theorem check_entry_kept (c : Ctx) (bo bn cur par base cnt : Nat) (buf name : Disk) (s : State)
    (k : Nat) (hrd : rd32 buf base = k) (hk : k ≤ c.num_inodes)
    (hkeep : ∀ r ∈ own_reports bo bn cur par base cnt buf name, keeps (bo + base) k r) :
    rd32 (check_entry c bo bn cur par base cnt buf name s).1 base = k
    ∧ (check_entry c bo bn cur par base cnt buf name s).2.2.inode_map k = s.inode_map k + 1 := by
  have hk32 : k < 4294967296 := by rw [← hrd]; exact rd32_lt _ _
  unfold own_reports at hkeep
  unfold check_entry
  dsimp only
  by_cases c1 : (cnt == 1 && bn == 0
      && (!is_dot (load_name name buf base (rd8 buf (base + 6))) || rd32 buf base != cur)) = true
  · have hcur : cur = k := by
      have := hkeep (Report.self_err (bo + base) (rd32 buf base) cur) (by simp [c1])
      simp only [keeps] at this
      omega
    have hc1 : (cnt == 1) = true := by
      simp only [Bool.and_eq_true] at c1
      exact c1.1.1
    have hc2 : (cnt == 2) = false := by
      simp only [beq_iff_eq] at hc1
      simp [hc1]
    simp only [c1, if_true, hc2, Bool.false_and, Bool.false_eq_true, if_false]
    rw [rd32_wr32, Nat.mod_eq_of_lt (by omega), hcur]
    simp only [hk, if_true]
    exact ⟨trivial, trivial⟩
  · simp only [c1, Bool.false_eq_true, if_false]
    by_cases c2 : (cnt == 2 && bn == 0
        && (!is_dotdot (load_name name buf base (rd8 buf (base + 6)))
            || rd32 buf base != par)) = true
    · have hpar : par = k := by
        have := hkeep (Report.parent_err (bo + base) cur par) (by simp [c1, c2])
        simp only [keeps] at this
        omega
      simp only [c2, if_true]
      rw [rd32_wr32, Nat.mod_eq_of_lt (by omega), hpar]
      simp only [hk, if_true]
      exact ⟨trivial, trivial⟩
    · simp only [c2, Bool.false_eq_true, if_false]
      simp only [hrd, hk, if_true]
      exact ⟨trivial, trivial⟩

/-- The walk of a directory block counts an entry on the block's chain: when
the entry at `e`, reached from `dir_entry_base` along `rec_len` values of at
least 8, names inode `k ≤ num_inodes`, and every repair the block walk reports
leaves the entry's inode field holding `k`, the reference count of `k` grows
by at least one. -/
theorem traverse_direct_block_counts (walk : Nat → Nat → State → Option State) (c : Ctx)
    (bo bn cur par : Nat) (e k : Nat)
    (hwalk : ∀ i p t t', walk i p t = some t' → WalkOK c t t')
    (hgrow : ∀ i p t t', walk i p t = some t' → MapGrows t t')
    (he : e < c.block_size) (hk : k ≤ c.num_inodes) :
    ∀ (m fuel base cnt : Nat) (buf name : Disk) (s s' : State) (rs : List Report),
      traverse_direct_block walk c bo bn cur par fuel base cnt buf name s = some s' →
      entry_at buf m base e = true → rd32 buf e = k →
      s'.log = s.log ++ rs → (∀ r ∈ rs, keeps (bo + e) k r) →
      s.inode_map k + 1 ≤ s'.inode_map k := by
  intro m
  induction m with
  | zero =>
    intro fuel base cnt0 buf name s s' rs h hat hrd hlog hkeep
    have hb : base = e := by simpa [entry_at] using hat
    subst hb
    cases fuel with
    | zero => simp [traverse_direct_block] at h
    | succ fuel =>
      rw [traverse_direct_block] at h
      rw [if_pos he] at h
      simp only at h
      generalize cnt_after_name (rd8 buf (base + 6)) cnt0 = cnt at h
      have hcl := check_entry_log c bo bn cur par base cnt buf name s
      split at h
      · split at h
        · exact absurd h (by simp)
        · rename_i s4 h4
          obtain ⟨rw, hwl, _, _⟩ := hwalk _ _ _ _ h4
          obtain ⟨rr, hrl, _⟩ := BlockOK_replayed
            (traverse_direct_block_ok walk c bo bn cur par hwalk _ _ _ _ _ _ _ h)
          have hrs : rs = own_reports bo bn cur par base cnt buf name ++ (rw ++ rr) := by
            apply @List.append_cancel_left _ s.log
            rw [← hlog, hrl, hwl, hcl]
            simp only [List.append_assoc]
          have hc := check_entry_kept c bo bn cur par base cnt buf name s k hrd hk
            (fun r hr => hkeep r (by rw [hrs]; exact List.mem_append_left _ hr))
          have g1 := hgrow _ _ _ _ h4 k
          have g2 := traverse_direct_block_grows walk c bo bn cur par hgrow _ _ _ _ _ _ _ h k
          omega
      · obtain ⟨rr, hrl, _⟩ := BlockOK_replayed
          (traverse_direct_block_ok walk c bo bn cur par hwalk _ _ _ _ _ _ _ h)
        have hrs : rs = own_reports bo bn cur par base cnt buf name ++ rr := by
          apply @List.append_cancel_left _ s.log
          rw [← hlog, hrl, hcl]
          simp only [List.append_assoc]
        have hc := check_entry_kept c bo bn cur par base cnt buf name s k hrd hk
          (fun r hr => hkeep r (by rw [hrs]; exact List.mem_append_left _ hr))
        have g2 := traverse_direct_block_grows walk c bo bn cur par hgrow _ _ _ _ _ _ _ h k
        omega
  | succ m ih =>
    intro fuel base cnt0 buf name s s' rs h hat hrd hlog hkeep
    have hle := entry_at_le buf _ _ _ hat
    simp only [entry_at, Bool.and_eq_true, decide_eq_true_eq] at hat
    cases fuel with
    | zero => simp [traverse_direct_block] at h
    | succ fuel =>
      rw [traverse_direct_block] at h
      rw [if_pos (by omega)] at h
      simp only at h
      generalize cnt_after_name (rd8 buf (base + 6)) cnt0 = cnt at h
      have hcl := check_entry_log c bo bn cur par base cnt buf name s
      have hbuf : ∀ x, base + 4 ≤ x → x < e + 4 →
          (check_entry c bo bn cur par base cnt buf name s).1 x = buf x :=
        fun x hx _ => check_entry_buf c bo bn cur par base cnt buf name s x (Or.inr hx)
      have hat1 : entry_at (check_entry c bo bn cur par base cnt buf name s).1 m
          (base + rd16 buf (base + 4)) e = true :=
        entry_at_congr buf _ (base + 4) e (fun x hx hx2 => hbuf x hx (by omega)) _ _
          (by omega) hat.2
      have hrd1 : rd32 (check_entry c bo bn cur par base cnt buf name s).1 e = k := by
        rw [← hrd]
        unfold rd32 rd8
        rw [hbuf e (by omega) (by omega), hbuf (e + 1) (by omega) (by omega),
          hbuf (e + 2) (by omega) (by omega), hbuf (e + 3) (by omega) (by omega)]
      have g0 := check_entry_grows c bo bn cur par base cnt buf name s k
      split at h
      · split at h
        · exact absurd h (by simp)
        · rename_i s4 h4
          obtain ⟨rw, hwl, _, _⟩ := hwalk _ _ _ _ h4
          obtain ⟨rr, hrl, _⟩ := BlockOK_replayed
            (traverse_direct_block_ok walk c bo bn cur par hwalk _ _ _ _ _ _ _ h)
          have hrs : rs = own_reports bo bn cur par base cnt buf name ++ (rw ++ rr) := by
            apply @List.append_cancel_left _ s.log
            rw [← hlog, hrl, hwl, hcl]
            simp only [List.append_assoc]
          have g1 := hgrow _ _ _ _ h4 k
          have g2 := ih _ _ _ _ _ _ _ rr h hat1 hrd1 hrl
            (fun r hr => hkeep r (by
              rw [hrs]
              exact List.mem_append_right _ (List.mem_append_right _ hr)))
          omega
      · obtain ⟨rr, hrl, _⟩ := BlockOK_replayed
          (traverse_direct_block_ok walk c bo bn cur par hwalk _ _ _ _ _ _ _ h)
        have hrs : rs = own_reports bo bn cur par base cnt buf name ++ rr := by
          apply @List.append_cancel_left _ s.log
          rw [← hlog, hrl, hcl]
          simp only [List.append_assoc]
        have g2 := ih _ _ _ _ _ _ _ rr h hat1 hrd1 hrl
          (fun r hr => hkeep r (by rw [hrs]; exact List.mem_append_right _ hr))
        omega

/-! ## The walk of a first block reaches its third entry -/

theorem check_entry_disk_frame (c : Ctx) (bo bn cur par base cnt : Nat) (buf name : Disk)
    (s : State) (x : Nat) (hx : x < bo + base ∨ bo + base + 4 ≤ x) :
    (check_entry c bo bn cur par base cnt buf name s).2.2.disk x = s.disk x := by
  rw [check_entry_disk]
  apply replay_frame
  intro r hr
  unfold own_reports at hr
  simp only [List.mem_append] at hr
  rcases hr with hr | hr
  · split at hr
    · simp only [List.mem_singleton] at hr
      subst hr
      simp only [touches]
      omega
    · simp at hr
  · split at hr
    · simp only [List.mem_singleton] at hr
      subst hr
      simp only [touches]
      omega
    · simp at hr

theorem check_entry_inode_first (c : Ctx) (bo cur par base : Nat) (buf name : Disk) (s : State)
    (hcur : cur < 4294967296) :
    rd32 (check_entry c bo 0 cur par base 1 buf name s).1 base = cur := by
  unfold check_entry
  have h2 : (1 == 2) = false := by decide
  simp only [h2, Bool.false_and, Bool.false_eq_true, if_false, beq_self_eq_true, Bool.true_and]
  split
  · rw [rd32_wr32, Nat.mod_eq_of_lt hcur]
  · rename_i h
    simp only [Bool.or_eq_true, Bool.not_eq_true', bne_iff_ne, ne_eq, not_or, not_not] at h
    exact h.2

theorem check_entry_inode_second (c : Ctx) (bo cur par base : Nat) (buf name : Disk) (s : State)
    (hpar : par < 4294967296) :
    rd32 (check_entry c bo 0 cur par base 2 buf name s).1 base = par := by
  unfold check_entry
  have h2 : (2 == 1) = false := by decide
  simp only [h2, Bool.false_and, Bool.false_eq_true, if_false, beq_self_eq_true, Bool.true_and]
  split
  · rw [rd32_wr32, Nat.mod_eq_of_lt hpar]
  · rename_i h
    simp only [Bool.or_eq_true, Bool.not_eq_true', bne_iff_ne, ne_eq, not_or, not_not] at h
    exact h.2

theorem check_entry_map_other (c : Ctx) (bo bn cur par base cnt : Nat) (buf name : Disk)
    (s : State) (x : Nat)
    (hx : x ≠ rd32 (check_entry c bo bn cur par base cnt buf name s).1 base) :
    (check_entry c bo bn cur par base cnt buf name s).2.2.inode_map x = s.inode_map x := by
  unfold check_entry at hx ⊢
  dsimp only at hx ⊢
  split_ifs at hx ⊢ <;> first
    | rfl
    | (simp only; rw [if_neg hx])

theorem check_entry_plain (c : Ctx) (bo bn cur par base cnt : Nat) (buf name : Disk) (s : State)
    (hpos : 3 ≤ cnt ∨ 0 < bn) (hk : rd32 buf base ≤ c.num_inodes) :
    (check_entry c bo bn cur par base cnt buf name s).1 = buf
    ∧ (check_entry c bo bn cur par base cnt buf name s).2.2.disk = s.disk
    ∧ (check_entry c bo bn cur par base cnt buf name s).2.2.inode_map (rd32 buf base)
        = s.inode_map (rd32 buf base) + 1 := by
  have h1 : (cnt == 1 && bn == 0) = false := by
    rcases hpos with h | h
    · have : (cnt == 1) = false := by simp; omega
      simp [this]
    · have : (bn == 0) = false := by simp; omega
      simp [this]
  have h2 : (cnt == 2 && bn == 0) = false := by
    rcases hpos with h | h
    · have : (cnt == 2) = false := by simp; omega
      simp [this]
    · have : (bn == 0) = false := by simp; omega
      simp [this]
  unfold check_entry
  simp only [h1, h2, Bool.false_and, Bool.false_eq_true, if_false, hk, if_true, and_self]

/-- What a part of the walk did to log and image: reports were appended, and
the image is the old one with their repairs replayed. -/
theorem for_each_replayed (f : Nat → State → Option State) (l : List Nat)
    (hf : ∀ i ∈ l, ∀ t t', f i t = some t' →
      ∃ rs, t'.log = t.log ++ rs ∧ t'.disk = replay t.disk rs) :
    ∀ (s s' : State), for_each f l s = some s' →
      ∃ rs, s'.log = s.log ++ rs ∧ s'.disk = replay s.disk rs := by
  induction l with
  | nil =>
    intro s s' h
    simp only [for_each, Option.some.injEq] at h
    subst h
    exact ⟨[], by simp, rfl⟩
  | cons i l ih =>
    intro s s' h
    rw [for_each] at h
    split at h
    · exact absurd h (by simp)
    · rename_i s1 h1
      obtain ⟨r1, hl1, hd1⟩ := hf i (List.mem_cons_self _ _) _ _ h1
      obtain ⟨r2, hl2, hd2⟩ := ih (fun j hj => hf j (List.mem_cons_of_mem _ hj)) _ _ h
      exact ⟨r1 ++ r2, by rw [hl2, hl1, List.append_assoc], by rw [hd2, hd1, replay_append]⟩

theorem range_split (n j : Nat) (hj : j < n) :
    List.range n = List.range j ++ (j :: List.range' (j + 1) (n - 1 - j)) := by
  have e : n = j + ((n - 1 - j) + 1) := by omega
  rw [List.range_eq_range', List.range_eq_range']
  conv_lhs => rw [e]
  rw [List.range'_eq_append_iff]
  refine ⟨j, by omega, rfl, ?_⟩
  simp [List.range'_succ]

theorem for_each_append (f : Nat → State → Option State) (l1 l2 : List Nat) :
    ∀ (s s' : State), for_each f (l1 ++ l2) s = some s' →
      ∃ v, for_each f l1 s = some v ∧ for_each f l2 v = some s' := by
  induction l1 with
  | nil => intro s s' h; exact ⟨s, rfl, h⟩
  | cons i l1 ih =>
    intro s s' h
    rw [List.cons_append, for_each] at h
    split at h
    · exact absurd h (by simp)
    · rename_i s1 h1
      obtain ⟨v, hv1, hv2⟩ := ih _ _ h
      refine ⟨v, ?_, hv2⟩
      rw [for_each, h1]
      exact hv1

theorem entry_at_congr_path (buf buf1 : Disk) (e : Nat) :
    ∀ (m off : Nat),
      (∀ m' p, m' < m → entry_at buf m' off p = true →
        rd16 buf1 (p + 4) = rd16 buf (p + 4)) →
      entry_at buf m off e = true → entry_at buf1 m off e = true := by
  intro m
  induction m with
  | zero => intro off _ h; simpa [entry_at] using h
  | succ m ih =>
    intro off hag h
    simp only [entry_at, Bool.and_eq_true, decide_eq_true_eq] at h ⊢
    have h0 : rd16 buf1 (off + 4) = rd16 buf (off + 4) :=
      hag 0 off (Nat.succ_pos _) (by simp [entry_at])
    rw [h0]
    refine ⟨h.1, ih _ ?_ h.2⟩
    intro m' p hm' hp
    apply hag (m' + 1) p (by omega)
    simp only [entry_at, Bool.and_eq_true, decide_eq_true_eq]
    exact ⟨h.1, hp⟩

theorem touches_rd16 (rs : List Report) (d : Disk) (a : Nat)
    (h : ∀ r ∈ rs, ¬ touches r a ∧ ¬ touches r (a + 1)) :
    rd16 (replay d rs) a = rd16 d a := by
  unfold rd16 rd8
  rw [replay_frame rs d a (fun r hr => (h r hr).1),
    replay_frame rs d (a + 1) (fun r hr => (h r hr).2)]

/-- The walk of directory `n` counts an entry on the chain of its direct block
`i_block[j]`.  `buf0` is a content of that block in which the entry at offset
`e` is reached from the start of the block along `rec_len` values of at least
8; the image the walk starts from holds these `rec_len` values and, at the
entry, the inode number `k ≤ num_inodes`; no repair that this walk reports
writes into one of these `rec_len` fields (`spares_chain`), and every one
leaves the entry's inode field holding `k` (`keeps`). -/
theorem traverse_dir_counts_block (c : Ctx) (stk : Stale) (fuel n p : Nat) (s s' : State)
    (j e k m : Nat) (rs : List Report) (buf0 : Disk)
    (h : traverse_dir c stk fuel n p s = some s')
    (hdir : EXT2_S_ISDIR (i_mode (read_bytes s.disk (get_inode_addr c (toInt32 n)))) = true)
    (hj : j < 12)
    (hjb : i_block (read_bytes s.disk (get_inode_addr c (toInt32 n))) j ≠ 0)
    (he : e < c.block_size) (hk : k ≤ c.num_inodes)
    (hat : entry_at buf0 m 0 e = true)
    (hag : ∀ m' q, m' < m → entry_at buf0 m' 0 q = true →
      rd16 s.disk
        (blk_addr c (i_block (read_bytes s.disk (get_inode_addr c (toInt32 n))) j) + q + 4)
        = rd16 buf0 (q + 4))
    (hrd : rd32 s.disk
      (blk_addr c (i_block (read_bytes s.disk (get_inode_addr c (toInt32 n))) j) + e) = k)
    (hlog : s'.log = s.log ++ rs)
    (hfr : ∀ rep ∈ rs,
      keeps (blk_addr c (i_block (read_bytes s.disk (get_inode_addr c (toInt32 n))) j) + e) k rep
      ∧ spares_chain buf0
        (blk_addr c (i_block (read_bytes s.disk (get_inode_addr c (toInt32 n))) j)) m rep) :
    s.inode_map k + 1 ≤ s'.inode_map k := by
  generalize hA : blk_addr c (i_block (read_bytes s.disk (get_inode_addr c (toInt32 n))) j) = A
    at hag hrd hfr
  cases fuel with
  | zero => simp [traverse_dir] at h
  | succ fuel =>
    rw [traverse_dir] at h
    split at h
    · rename_i hnd
      simp [hdir] at hnd
    · have hgrow : ∀ i p t t', traverse_dir c stk fuel i p t = some t' → MapGrows t t' :=
        fun i p t t' ht => traverse_dir_grows c stk fuel i p t t' ht
      have hwalk : ∀ i p t t', traverse_dir c stk fuel i p t = some t' → WalkOK c t t' :=
        fun i p t t' ht => traverse_dir_ok c stk fuel i p t t' ht
      have hblk : ∀ i t t',
          (if i_block (read_bytes s.disk (get_inode_addr c (toInt32 n))) i = 0 then some t
            else traverse_direct_block (traverse_dir c stk fuel) c
              (blk_addr c (i_block (read_bytes s.disk (get_inode_addr c (toInt32 n))) i)) i n p
              fuel 0 1
              (read_bytes t.disk
                (blk_addr c (i_block (read_bytes s.disk (get_inode_addr c (toInt32 n))) i)))
              (stk t (blk_addr c (i_block (read_bytes s.disk (get_inode_addr c (toInt32 n))) i)))
              t) = some t' →
          (∃ rs, t'.log = t.log ++ rs ∧ t'.disk = replay t.disk rs) ∧ MapGrows t t' := by
        intro i t t' ht
        split at ht
        · simp only [Option.some.injEq] at ht
          subst ht
          exact ⟨⟨[], by simp, rfl⟩, MapGrows_refl _⟩
        · exact ⟨BlockOK_replayed
            (traverse_direct_block_ok _ c _ i n p hwalk _ _ _ _ _ _ _ ht),
            traverse_direct_block_grows _ c _ i n p hgrow _ _ _ _ _ _ _ ht⟩
      split at h
      · exact absurd h (by simp)
      · rename_i s1 h1
        have hrange : List.range EXT2_NDIR_BLOCKS
            = List.range j ++ (j :: List.range' (j + 1) (11 - j)) :=
          range_split 12 j hj
        rw [hrange] at h1
        obtain ⟨v, hv1, hv2⟩ := for_each_append _ _ _ _ _ h1
        obtain ⟨pre, hpl, hpd⟩ := for_each_replayed _ _
          (fun i _ t t' ht => (hblk i t t' ht).1) _ _ hv1
        have gpre : MapGrows s v :=
          for_each_grows _ _ (fun i t t' ht => (hblk i t t' ht).2) _ _ hv1
        rw [for_each] at hv2
        split at hv2
        · exact absurd hv2 (by simp)
        · rename_i w hw
          rw [if_neg hjb, hA] at hw
          obtain ⟨mid, hml, _⟩ := BlockOK_replayed
            (traverse_direct_block_ok _ c _ j n p hwalk _ _ _ _ _ _ _ hw)
          obtain ⟨suf, hsl, _⟩ := for_each_replayed _ _
            (fun i _ t t' ht => (hblk i t t' ht).1) _ _ hv2
          have gsuf : MapGrows w s1 :=
            for_each_grows _ _ (fun i t t' ht => (hblk i t t' ht).2) _ _ hv2
          have gtail : MapGrows s1 s' := traverse_dir_tail_grows c stk fuel n p _ hgrow _ _ h
          have htl : ∃ tl, s'.log = s1.log ++ tl := by
            split at h
            · exact absurd h (by simp)
            · rename_i s2 h2
              split at h
              · exact absurd h (by simp)
              · rename_i s3 h3
                obtain ⟨r2, hl2, _, _⟩ := traverse_singly_ok _ c stk fuel hwalk _ _ _ _ _ h2
                obtain ⟨r3, hl3, _, _⟩ := traverse_doubly_ok _ c stk fuel hwalk _ _ _ _ _ h3
                obtain ⟨r4, hl4, _, _⟩ := traverse_triply_ok _ c stk fuel hwalk _ _ _ _ _ h
                exact ⟨r2 ++ (r3 ++ r4), by rw [hl4, hl3, hl2]; simp only [List.append_assoc]⟩
          obtain ⟨tl, htl⟩ := htl
          have hrs : rs = pre ++ (mid ++ (suf ++ tl)) := by
            apply @List.append_cancel_left _ s.log
            rw [← hlog, htl, hsl, hml, hpl]
            simp only [List.append_assoc]
          have hk32 : k < 4294967296 := by rw [← hrd]; exact rd32_lt _ _
          have hpre : ∀ rep ∈ pre, keeps (A + e) k rep ∧ spares_chain buf0 A m rep :=
            fun rep hr => hfr rep (by rw [hrs]; exact List.mem_append_left _ hr)
          have hat1 : entry_at (read_bytes v.disk A) m 0 e = true := by
            apply entry_at_congr_path buf0 _ e m 0 _ hat
            intro m' q hm' hq
            rw [rd16_read_bytes, hpd, ← hag m' q hm' hq, ← Nat.add_assoc]
            apply touches_rd16
            intro r hr
            exact (hpre r hr).2 m' q hm' hq
          have hrd1 : rd32 (read_bytes v.disk A) e = k := by
            rw [rd32_read_bytes, hpd]
            exact keeps_replay _ _ hk32 pre _ (fun r hr => (hpre r hr).1) hrd
          have hcount := traverse_direct_block_counts (traverse_dir c stk fuel) c A j n p e k
            hwalk hgrow he hk m _ _ _ _ _ _ _ mid hw hat1 hrd1 hml
            (fun r hr => (hfr r (by
              rw [hrs]
              exact List.mem_append_right _ (List.mem_append_left _ hr))).1)
          have g1 := gpre k
          have g2 := gsuf k
          have g3 := gtail k
          omega

theorem traverse_direct_block_third (walk : Nat → Nat → State → Option State) (c : Ctx)
    (bo cur par fuel lf : Nat) (buf name : Disk) (s s' : State)
    (hwalk : ∀ i p t t', walk i p t = some t' → WalkOK c t t')
    (hgrow : ∀ i p t t', walk i p t = some t' → MapGrows t t')
    (h : traverse_direct_block walk c bo 0 cur par fuel 0 1 buf name s = some s')
    (h1 : 8 ≤ rd16 buf 4) (h2 : 8 ≤ rd16 buf (rd16 buf 4 + 4))
    (h3 : rd16 buf 4 + rd16 buf (rd16 buf 4 + 4) < c.block_size)
    (hn1 : rd8 buf 6 ≠ 255) (hn2 : rd8 buf (rd16 buf 4 + 6) ≠ 255)
    (hn3 : rd8 buf (rd16 buf 4 + rd16 buf (rd16 buf 4 + 4) + 6) ≠ 255)
    (hlf : rd32 buf (rd16 buf 4 + rd16 buf (rd16 buf 4 + 4)) = lf)
    (hft : rd8 buf (rd16 buf 4 + rd16 buf (rd16 buf 4 + 4) + 7) = EXT2_FT_DIR)
    (hlfn : lf ≤ c.num_inodes) (hne1 : lf ≠ cur) (hne2 : lf ≠ par)
    (hcur : cur < 4294967296) (hpar : par < 4294967296) (hz : s.inode_map lf = 0) :
    ∃ u3 u4 a cc, walk lf cur u3 = some u4 ∧ MapGrows u4 s'
      ∧ (∀ x, x < bo ∨ bo + rd16 buf 4 + 4 ≤ x → u3.disk x = s.disk x)
      ∧ u3.log = s.log ++ a ∧ u3.disk = replay s.disk a ∧ s'.log = u4.log ++ cc := by
  generalize hr1 : rd16 buf 4 = r1 at *
  generalize hr2 : rd16 buf (r1 + 4) = r2 at *
  cases fuel with
  | zero => simp [traverse_direct_block] at h
  | succ fuel =>
    rw [traverse_direct_block] at h
    rw [if_pos (by omega)] at h
    have hc1 : cnt_after_name (rd8 buf (0 + 6)) 1 = 1 := by
      simp only [cnt_after_name, Nat.zero_add, if_neg hn1]
    simp only [hc1] at h
    simp only [Nat.zero_add, gt_iff_lt, Nat.lt_irrefl, decide_False, Bool.or_false,
      Bool.and_false, Bool.false_eq_true, if_false, hr1] at h
    have hA := check_entry_inode_first c bo cur par 0 buf name s hcur
    have hAb := check_entry_buf c bo 0 cur par 0 1 buf name s
    have hAd := check_entry_disk_frame c bo 0 cur par 0 1 buf name s
    have hAm := check_entry_map_other c bo 0 cur par 0 1 buf name s lf (by rw [hA]; exact hne1)
    have hAl := check_entry_log c bo 0 cur par 0 1 buf name s
    have hAr := check_entry_disk c bo 0 cur par 0 1 buf name s
    generalize own_reports bo 0 cur par 0 1 buf name = own1 at hAl hAr
    generalize check_entry c bo 0 cur par 0 1 buf name s = ra at *
    have h' : traverse_direct_block walk c bo 0 cur par fuel r1 2 ra.1 ra.2.1 ra.2.2 = some s' := by
      simpa using h
    clear h
    cases fuel with
    | zero => simp [traverse_direct_block] at h'
    | succ fuel =>
      rw [traverse_direct_block] at h'
      rw [if_pos (by omega)] at h'
      have hrl : rd16 ra.1 (r1 + 4) = r2 := by
        rw [← hr2]
        exact rd16_congr (hAb _ (by omega)) (hAb _ (by omega))
      have hc2 : cnt_after_name (rd8 ra.1 (r1 + 6)) 2 = 2 := by
        have e : rd8 ra.1 (r1 + 6) = rd8 buf (r1 + 6) := by
          unfold rd8
          rw [hAb _ (by omega)]
        simp only [cnt_after_name, e, if_neg hn2]
      simp only [hc2] at h'
      simp only [gt_iff_lt, Nat.lt_irrefl, decide_False, Bool.or_false,
        Bool.and_false, Bool.false_eq_true, if_false, hrl] at h'
      have hB := check_entry_inode_second c bo cur par r1 ra.1 ra.2.1 ra.2.2 hpar
      have hBb := check_entry_buf c bo 0 cur par r1 2 ra.1 ra.2.1 ra.2.2
      have hBd := check_entry_disk_frame c bo 0 cur par r1 2 ra.1 ra.2.1 ra.2.2
      have hBm := check_entry_map_other c bo 0 cur par r1 2 ra.1 ra.2.1 ra.2.2 lf
        (by rw [hB]; exact hne2)
      have hBl := check_entry_log c bo 0 cur par r1 2 ra.1 ra.2.1 ra.2.2
      have hBr := check_entry_disk c bo 0 cur par r1 2 ra.1 ra.2.1 ra.2.2
      generalize own_reports bo 0 cur par r1 2 ra.1 ra.2.1 = own2 at hBl hBr
      generalize check_entry c bo 0 cur par r1 2 ra.1 ra.2.1 ra.2.2 = rb at *
      have h'' : traverse_direct_block walk c bo 0 cur par fuel (r1 + r2) 3 rb.1 rb.2.1 rb.2.2
          = some s' := by
        simpa using h'
      clear h'
      cases fuel with
      | zero => simp [traverse_direct_block] at h''
      | succ fuel =>
        rw [traverse_direct_block] at h''
        rw [if_pos h3] at h''
        have hbuf : ∀ x, r1 + 4 ≤ x → rb.1 x = buf x := by
          intro x hx
          rw [hBb x (by omega), hAb x (by omega)]
        have hin : rd32 rb.1 (r1 + r2) = lf := by
          rw [← hlf]
          exact rd32_congr (hbuf _ (by omega)) (hbuf _ (by omega)) (hbuf _ (by omega))
            (hbuf _ (by omega))
        have hty : rd8 rb.1 (r1 + r2 + 7) = EXT2_FT_DIR := by
          rw [← hft]
          unfold rd8
          rw [hbuf _ (by omega)]
        have hc3 : cnt_after_name (rd8 rb.1 (r1 + r2 + 6)) 3 = 3 := by
          have e : rd8 rb.1 (r1 + r2 + 6) = rd8 buf (r1 + r2 + 6) := by
            unfold rd8
            rw [hbuf _ (by omega)]
          simp only [cnt_after_name, e, if_neg hn3]
        simp only [hc3] at h''
        have hC := check_entry_plain c bo 0 cur par (r1 + r2) 3 rb.1 rb.2.1 rb.2.2
          (Or.inl (Nat.le_refl _)) (by rw [hin]; exact hlfn)
        have hCl := check_entry_log c bo 0 cur par (r1 + r2) 3 rb.1 rb.2.1 rb.2.2
        have hCr := check_entry_disk c bo 0 cur par (r1 + r2) 3 rb.1 rb.2.1 rb.2.2
        generalize own_reports bo 0 cur par (r1 + r2) 3 rb.1 rb.2.1 = own3 at hCl hCr
        obtain ⟨hC1, hC2, hC3⟩ := hC
        rw [hin] at hC3
        simp only [hC1, hin, hty, beq_self_eq_true, Bool.true_and] at h''
        have hm1 : (check_entry c bo 0 cur par (r1 + r2) 3 rb.1 rb.2.1 rb.2.2).2.2.inode_map lf
            = 1 := by
          rw [hC3, hBm, hAm, hz]
        rw [hm1] at h''
        simp only [Nat.le_refl, decide_True, gt_iff_lt, Nat.lt_add_one, Nat.reduceLT,
          Bool.true_or, Bool.and_true, if_true, Bool.and_self] at h''
        split at h''
        · exact absurd h'' (by simp)
        · rename_i s4 h4
          obtain ⟨cc, hcl, _⟩ := BlockOK_replayed
            (traverse_direct_block_ok walk c bo 0 cur par hwalk _ _ _ _ _ _ _ h'')
          refine ⟨_, s4, own1 ++ (own2 ++ own3), cc, h4, ?_, ?_, ?_, ?_, hcl⟩
          · exact traverse_direct_block_grows walk c bo 0 cur par hgrow _ _ _ _ _ _ _ h''
          · intro x hx
            rw [hC2, hBd x (by omega), hAd x (by omega)]
          · rw [hCl, hBl, hAl]
            simp only [List.append_assoc]
          · rw [hCr, hBr, hAr]
            simp only [replay_append]

/-- The first block of a walked directory: the walk of `i_block[0]`, then the
rest of the walk, with what each part appends to the log. -/
theorem traverse_dir_first_block (c : Ctx) (stk : Stale) (fuel n p : Nat) (s s' : State)
    (h : traverse_dir c stk fuel n p s = some s')
    (hdir : EXT2_S_ISDIR (i_mode (read_bytes s.disk (get_inode_addr c (toInt32 n)))) = true)
    (hb : i_block (read_bytes s.disk (get_inode_addr c (toInt32 n))) 0 ≠ 0) :
    ∃ k s0 tl, fuel = k + 1
      ∧ traverse_direct_block (traverse_dir c stk k) c (dir_block0 c s.disk n) 0 n p k 0 1
          (read_bytes s.disk (dir_block0 c s.disk n)) (stk s (dir_block0 c s.disk n)) s
          = some s0
      ∧ MapGrows s0 s' ∧ s'.log = s0.log ++ tl := by
  obtain ⟨k, s0, hk, h0, w0⟩ := traverse_dir_unfold c stk fuel n p s s' h hdir hb
  obtain ⟨tl, htl, _, _⟩ := w0
  refine ⟨k, s0, tl, hk, h0, ?_, htl⟩
  subst hk
  rw [traverse_dir] at h
  split at h
  · rename_i hnd
    simp [hdir] at hnd
  · have hwalk : ∀ i p t t', traverse_dir c stk k i p t = some t' → MapGrows t t' :=
      fun i p t t' ht => traverse_dir_grows c stk k i p t t' ht
    split at h
    · exact absurd h (by simp)
    · rename_i s1 h1
      have hrange : List.range EXT2_NDIR_BLOCKS = 0 :: List.range' 1 11 := by decide
      rw [hrange, for_each] at h1
      split at h1
      · exact absurd h1 (by simp)
      · rename_i s0' h0'
        rw [if_neg hb] at h0'
        have e0 : s0' = s0 := by
          have := h0'.symm.trans h0
          simpa using this
        subst e0
        refine MapGrows_trans (for_each_grows _ _ ?_ _ _ h1)
          (traverse_dir_tail_grows c stk k n p _ hwalk _ _ h)
        intro i t t' ht
        split at ht
        · simp only [Option.some.injEq] at ht
          subst ht
          exact MapGrows_refl _
        · exact traverse_direct_block_grows _ c _ i n p hwalk _ _ _ _ _ _ _ ht

/-- A walk from the root counts an entry of a direct block of the directory
that the third entry of the root's first block names.  The root's first three
entries have names shorter than 255 bytes; the entry sits at offset `e` of the
block `i_block[j]` of that directory, on the block's chain, and names inode
`k`; no repair that the walk reports writes into a `rec_len` field on the way
to the entry, and every one leaves the entry's inode field holding `k`. -/
theorem root_walk_counts_entry (c : Ctx) (stk : Stale) (fuel : Nat) (s s' : State)
    (lf j k e m : Nat) (rs : List Report)
    (h : traverse_dir c stk fuel EXT2_ROOT_INO EXT2_ROOT_INO s = some s')
    (hroot : EXT2_S_ISDIR (i_mode (read_bytes s.disk (get_inode_addr c (toInt32 EXT2_ROOT_INO))))
      = true)
    (hrb : i_block (read_bytes s.disk (get_inode_addr c (toInt32 EXT2_ROOT_INO))) 0 ≠ 0)
    (h1 : 8 ≤ rd16 s.disk (dir_block0 c s.disk EXT2_ROOT_INO + 4))
    (h2 : 8 ≤ rd16 s.disk (dir_block0 c s.disk EXT2_ROOT_INO
      + (rd16 s.disk (dir_block0 c s.disk EXT2_ROOT_INO + 4) + 4)))
    (h3 : rd16 s.disk (dir_block0 c s.disk EXT2_ROOT_INO + 4)
      + rd16 s.disk (dir_block0 c s.disk EXT2_ROOT_INO
          + (rd16 s.disk (dir_block0 c s.disk EXT2_ROOT_INO + 4) + 4)) < c.block_size)
    (hn1 : rd8 s.disk (dir_block0 c s.disk EXT2_ROOT_INO + 6) ≠ 255)
    (hn2 : rd8 s.disk (dir_block0 c s.disk EXT2_ROOT_INO
      + (rd16 s.disk (dir_block0 c s.disk EXT2_ROOT_INO + 4) + 6)) ≠ 255)
    (hn3 : rd8 s.disk (dir_block0 c s.disk EXT2_ROOT_INO
      + (rd16 s.disk (dir_block0 c s.disk EXT2_ROOT_INO + 4)
        + rd16 s.disk (dir_block0 c s.disk EXT2_ROOT_INO
            + (rd16 s.disk (dir_block0 c s.disk EXT2_ROOT_INO + 4) + 4)) + 6)) ≠ 255)
    (hlf : rd32 s.disk (dir_block0 c s.disk EXT2_ROOT_INO
      + (rd16 s.disk (dir_block0 c s.disk EXT2_ROOT_INO + 4)
        + rd16 s.disk (dir_block0 c s.disk EXT2_ROOT_INO
            + (rd16 s.disk (dir_block0 c s.disk EXT2_ROOT_INO + 4) + 4)))) = lf)
    (hft : rd8 s.disk (dir_block0 c s.disk EXT2_ROOT_INO
      + (rd16 s.disk (dir_block0 c s.disk EXT2_ROOT_INO + 4)
        + rd16 s.disk (dir_block0 c s.disk EXT2_ROOT_INO
            + (rd16 s.disk (dir_block0 c s.disk EXT2_ROOT_INO + 4) + 4)) + 7)) = EXT2_FT_DIR)
    (hlfn : lf ≤ c.num_inodes) (hne : lf ≠ EXT2_ROOT_INO) (hz : s.inode_map lf = 0)
    (hlfdir : EXT2_S_ISDIR (i_mode (read_bytes s.disk (get_inode_addr c (toInt32 lf)))) = true)
    (hj : j < 12)
    (hjb : i_block (read_bytes s.disk (get_inode_addr c (toInt32 lf))) j ≠ 0)
    (hsep1 : dir_block0 c s.disk EXT2_ROOT_INO + c.block_size ≤ get_inode_addr c (toInt32 lf)
      ∨ get_inode_addr c (toInt32 lf) + INODE_REC_SIZE ≤ dir_block0 c s.disk EXT2_ROOT_INO)
    (he : e + 8 ≤ c.block_size) (hk : k ≤ c.num_inodes)
    (hat : entry_at (read_bytes s.disk
      (blk_addr c (i_block (read_bytes s.disk (get_inode_addr c (toInt32 lf))) j))) m 0 e = true)
    (hrd : rd32 s.disk
      (blk_addr c (i_block (read_bytes s.disk (get_inode_addr c (toInt32 lf))) j) + e) = k)
    (hlog : s'.log = s.log ++ rs)
    (hfr : ∀ rep ∈ rs,
      keeps (blk_addr c (i_block (read_bytes s.disk (get_inode_addr c (toInt32 lf))) j) + e) k rep
      ∧ spares_chain (read_bytes s.disk
          (blk_addr c (i_block (read_bytes s.disk (get_inode_addr c (toInt32 lf))) j)))
        (blk_addr c (i_block (read_bytes s.disk (get_inode_addr c (toInt32 lf))) j)) m rep) :
    1 ≤ s'.inode_map k := by
  generalize hR : dir_block0 c s.disk EXT2_ROOT_INO = R at *
  generalize hr1 : rd16 s.disk (R + 4) = r1 at *
  generalize hr2 : rd16 s.disk (R + (r1 + 4)) = r2 at *
  obtain ⟨f, t0, tl, _, h0, hg0, htl⟩ := traverse_dir_first_block c stk fuel _ _ s s' h hroot hrb
  rw [hR] at h0
  have hgrow : ∀ i p t t', traverse_dir c stk f i p t = some t' → MapGrows t t' :=
    fun i p t t' ht => traverse_dir_grows c stk f i p t t' ht
  have hwalk : ∀ i p t t', traverse_dir c stk f i p t = some t' → WalkOK c t t' :=
    fun i p t t' ht => traverse_dir_ok c stk f i p t t' ht
  have e1 : rd16 (read_bytes s.disk R) 4 = r1 := by rw [rd16_read_bytes, hr1]
  have e2 : rd16 (read_bytes s.disk R) (r1 + 4) = r2 := by rw [rd16_read_bytes, hr2]
  obtain ⟨u3, u4, a, cc, hw, hg1, hfrm, hal, had, hcl⟩ :=
    traverse_direct_block_third (traverse_dir c stk f) c R
      EXT2_ROOT_INO EXT2_ROOT_INO f lf (read_bytes s.disk R) (stk s R) s t0 hwalk hgrow h0
      (by rw [e1]; exact h1) (by rw [e1, e2]; exact h2) (by rw [e1, e2]; exact h3)
      (by rw [rd8_read_bytes]; exact hn1)
      (by rw [e1, rd8_read_bytes]; exact hn2)
      (by rw [e1, e2, rd8_read_bytes, Nat.add_assoc]; exact hn3)
      (by rw [e1, e2, rd32_read_bytes]; exact hlf)
      (by rw [e1, e2, rd8_read_bytes, Nat.add_assoc]; exact hft)
      hlfn hne hne (by decide) (by decide) hz
  rw [e1] at hfrm
  have hout : ∀ x, x < R ∨ R + c.block_size ≤ x → u3.disk x = s.disk x :=
    fun x hx => hfrm x (by omega)
  have hino : ∀ i, i < INODE_REC_SIZE →
      read_bytes u3.disk (get_inode_addr c (toInt32 lf)) i
        = read_bytes s.disk (get_inode_addr c (toInt32 lf)) i := by
    intro i hi
    unfold read_bytes
    exact hout _ (by omega)
  have hmode : i_mode (read_bytes u3.disk (get_inode_addr c (toInt32 lf)))
      = i_mode (read_bytes s.disk (get_inode_addr c (toInt32 lf))) := by
    unfold i_mode OFF_I_MODE
    exact rd16_congr (hino _ (by decide)) (hino _ (by decide))
  have hblk : i_block (read_bytes u3.disk (get_inode_addr c (toInt32 lf))) j
      = i_block (read_bytes s.disk (get_inode_addr c (toInt32 lf))) j := by
    unfold i_block OFF_I_BLOCK
    have hi : ∀ t, t < 4 → 40 + 4 * j + t < INODE_REC_SIZE := by
      intro t ht
      simp only [INODE_REC_SIZE]
      omega
    exact rd32_congr (hino _ (hi 0 (by omega))) (hino _ (hi 1 (by omega)))
      (hino _ (hi 2 (by omega))) (hino _ (hi 3 (by omega)))
  generalize hAdef : blk_addr c (i_block (read_bytes s.disk (get_inode_addr c (toInt32 lf))) j)
    = A at *
  obtain ⟨b, hbl, _, _⟩ := hwalk _ _ _ _ hw
  have hrs : rs = a ++ (b ++ (cc ++ tl)) := by
    apply @List.append_cancel_left _ s.log
    rw [← hlog, htl, hcl, hbl, hal]
    simp only [List.append_assoc]
  have hk32 : k < 4294967296 := by rw [← hrd]; exact rd32_lt _ _
  have ha : ∀ rep ∈ a, keeps (A + e) k rep ∧ spares_chain (read_bytes s.disk A) A m rep :=
    fun rep hr => hfr rep (by rw [hrs]; exact List.mem_append_left _ hr)
  have hc := traverse_dir_counts_block c stk f lf EXT2_ROOT_INO u3 u4 j e k m b
    (read_bytes s.disk A) hw
    (by rw [hmode]; exact hlfdir) hj (by rw [hblk]; exact hjb) (by omega) hk hat
    (by
      intro m' q hm' hq
      rw [hblk, hAdef, had, rd16_read_bytes, ← Nat.add_assoc]
      apply touches_rd16
      intro r hr
      exact (ha r hr).2 m' q hm' hq)
    (by
      rw [hblk, hAdef, had]
      exact keeps_replay _ _ hk32 a _ (fun r hr => (ha r hr).1) hrd)
    hbl
    (by
      intro rep hr
      rw [hblk, hAdef]
      exact hfr rep (by
        rw [hrs]
        exact List.mem_append_right _ (List.mem_append_left _ hr)))
  have g1 := hg1 k
  have g0 := hg0 k
  omega

/-! ## Pass 2 on the standard layout: the name lookup -/

theorem toInt32_small (n : Nat) (h : n < 2147483648) : toInt32 n = (n : Int) := by
  unfold toInt32
  have e : n % 4294967296 = n := Nat.mod_eq_of_lt (by omega)
  rw [e, if_pos h]

theorem search_lost_found (c : Ctx) (block : Disk) (fuel lf : Nat) (r : Int)
    (h1 : 8 ≤ rd16 block 4) (t1 : rd8 block 7 ≠ 0)
    (n1 : LOST_FOUND_NAME ≠ cstr (entry_name block 0 (rd8 block 6)))
    (h2 : 8 ≤ rd16 block (rd16 block 4 + 4)) (t2 : rd8 block (rd16 block 4 + 7) ≠ 0)
    (n2 : LOST_FOUND_NAME
      ≠ cstr (entry_name block (rd16 block 4) (rd8 block (rd16 block 4 + 6))))
    (h3 : rd16 block 4 + rd16 block (rd16 block 4 + 4) + 18 ≤ c.block_size)
    (hino : rd32 block (rd16 block 4 + rd16 block (rd16 block 4 + 4)) = lf)
    (t3 : rd8 block (rd16 block 4 + rd16 block (rd16 block 4 + 4) + 7) = EXT2_FT_DIR)
    (n3 : rd8 block (rd16 block 4 + rd16 block (rd16 block 4 + 4) + 6) = 10)
    (hname : entry_name block (rd16 block 4 + rd16 block (rd16 block 4 + 4)) 10
      = LOST_FOUND_NAME)
    (h : search_filename_in_dir_block c block LOST_FOUND_NAME fuel 0 = some r) :
    r = toInt32 lf := by
  generalize hr1 : rd16 block 4 = r1 at *
  generalize hr2 : rd16 block (r1 + 4) = r2 at *
  cases fuel with
  | zero => simp [search_filename_in_dir_block] at h
  | succ fuel =>
    rw [search_filename_in_dir_block] at h
    rw [if_pos (by omega), if_neg (by simpa using t1), if_neg (by simpa using n1)] at h
    simp only [Nat.zero_add, hr1] at h
    cases fuel with
    | zero => simp [search_filename_in_dir_block] at h
    | succ fuel =>
      rw [search_filename_in_dir_block] at h
      rw [if_pos (by omega), if_neg t2, if_neg n2, hr2] at h
      cases fuel with
      | zero => simp [search_filename_in_dir_block] at h
      | succ fuel =>
        rw [search_filename_in_dir_block] at h
        have hft : ¬ rd8 block (r1 + r2 + 7) = 0 := by rw [t3]; decide
        have hc : cstr LOST_FOUND_NAME = LOST_FOUND_NAME := by decide
        rw [if_pos (by omega), if_neg hft, n3, hname, hc, if_pos rfl, hino] at h
        simp only [Option.some.injEq] at h
        exact h.symm

theorem lookup_lost_found (c : Ctx) (fuel : Nat) (d : Disk) (lf : Nat) (v : Int)
    (hl : LostFoundReady c d lf)
    (h : get_inode_by_filepath c fuel d LOST_FOUND_PATH = some v) : v = (lf : Int) := by
  have hlf31 : lf < 2147483648 := Nat.lt_of_le_of_lt hl.lf_le hl.ino_small
  have hroot : toInt32 EXT2_ROOT_INO = ((EXT2_ROOT_INO : Nat) : Int) := by decide
  have hdir := hl.root_dir
  have hblk := hl.root_blk
  rw [hroot] at hdir hblk
  unfold get_inode_by_filepath at h
  have hp : ¬ LOST_FOUND_PATH = [47] := by decide
  have htok : path_tokens LOST_FOUND_PATH [] = [LOST_FOUND_NAME] := by decide
  rw [if_neg hp, htok, lookup_path] at h
  unfold lookup_component at h
  simp only [hdir, Bool.not_true, Bool.false_eq_true, if_false] at h
  have hrange : List.range EXT2_NDIR_BLOCKS = 0 :: List.range' 1 11 := by decide
  rw [hrange, search_direct, if_neg hblk] at h
  have hR : blk_addr c (i_block (read_bytes d (get_inode_addr c ((EXT2_ROOT_INO : Nat) : Int))) 0)
      = dir_block0 c d EXT2_ROOT_INO := by
    unfold dir_block0
    rw [hroot]
  rw [hR] at h
  cases hs : search_filename_in_dir_block c (read_bytes d (dir_block0 c d EXT2_ROOT_INO))
      LOST_FOUND_NAME fuel 0 with
  | none => rw [hs] at h; simp at h
  | some r =>
    have g1 := hl.e1_len
    have g2 := hl.e2_len
    have hr := search_lost_found c (read_bytes d (dir_block0 c d EXT2_ROOT_INO)) fuel lf r
      (by rw [rd16_read_bytes]; omega)
      (by rw [rd8_read_bytes]; exact hl.e1_type)
      (by rw [rd8_read_bytes]; exact hl.e1_name)
      (by rw [rd16_read_bytes, rd16_read_bytes]; omega)
      (by rw [rd8_read_bytes, rd16_read_bytes]; exact hl.e2_type)
      (by rw [rd8_read_bytes, rd16_read_bytes]; exact hl.e2_name)
      (by rw [rd16_read_bytes, rd16_read_bytes]; exact hl.e3_in)
      (by rw [rd32_read_bytes, rd16_read_bytes, rd16_read_bytes]; exact hl.e3_ino)
      (by rw [rd8_read_bytes, rd16_read_bytes, rd16_read_bytes]; exact hl.e3_type)
      (by rw [rd8_read_bytes, rd16_read_bytes, rd16_read_bytes]; exact hl.e3_nlen)
      (by rw [rd16_read_bytes, rd16_read_bytes]; exact hl.e3_name)
      hs
    rw [toInt32_small lf hlf31] at hr
    subst hr
    rw [hs] at h
    have hpos : ((lf : Nat) : Int) > 0 := by
      have := hl.lf_pos
      omega
    simp only [hpos, if_true, lookup_path, Option.some.injEq] at h
    exact h.symm

/-! ## Pass 2 on the standard layout: the end of the chain -/

theorem find_dir_end_in_direct_cases (c : Ctx) (fuel : Nat) (stk d : Disk) (A : Nat) (buf : Disk)
    (size r : Nat) (d1 : Disk) (hA : A + c.block_size ≤ 4294967295)
    (h : find_dir_end_in_direct c fuel stk d A buf size = some (r, d1)) :
    (r = 4294967295 ∧ d1 = d)
    ∨ ∃ e name, find_last_entry c buf fuel 0 stk = some (e, name)
        ∧ e + 8 + name_size (rd8 buf (e + 6)) + size < c.block_size
        ∧ r = A + e + 8 + name_size (rd8 buf (e + 6))
        ∧ d1 = write_bytes d (A + e)
            (shrunk_entry buf (copy_name name buf e (rd8 buf (e + 6))) e)
            (8 + name_size (rd8 buf (e + 6))) := by
  by_cases hr : r = 4294967295
  · left
    refine ⟨hr, ?_⟩
    subst hr
    unfold find_dir_end_in_direct at h
    split at h
    · exact absurd h (by simp)
    · rename_i e name hfl
      dsimp only at h
      split at h
      · rename_i hroom
        simp only [Option.some.injEq, Prod.mk.injEq] at h
        exfalso
        have h1 := h.1
        unfold u32 at h1
        omega
      · simp only [Option.some.injEq, Prod.mk.injEq] at h
        exact h.2.symm
  · right
    obtain ⟨e, name, hfl, hroom, hbase, hd1⟩ :=
      find_dir_end_in_direct_room c fuel stk d A buf size r d1 h hr
    refine ⟨e, name, hfl, hroom, ?_, ?_⟩
    · rw [hbase]; unfold u32; omega
    · rw [hd1]
      have : u32 (A + e) = A + e := by unfold u32; omega
      rw [this]

theorem find_dir_end_in_direct_frame (c : Ctx) (fuel : Nat) (stk d : Disk) (A : Nat) (buf : Disk)
    (size r : Nat) (d1 : Disk) (hA : A + c.block_size ≤ 4294967295)
    (h : find_dir_end_in_direct c fuel stk d A buf size = some (r, d1)) :
    (∀ x, x < A ∨ A + c.block_size ≤ x → d1 x = d x)
    ∧ (r = 4294967295 ∨ (A + 8 ≤ r ∧ r + size < A + c.block_size)) := by
  rcases find_dir_end_in_direct_cases c fuel stk d A buf size r d1 hA h
    with ⟨hr, hd⟩ | ⟨e, name, _, hroom, hr, hd⟩
  · exact ⟨fun x _ => by rw [hd], Or.inl hr⟩
  · refine ⟨?_, Or.inr (by omega)⟩
    intro x hx
    rw [hd]
    simp only [write_bytes]
    rw [if_neg (by omega)]

theorem blk_addr_fit (c : Ctx) (b : Nat)
    (h : c.base + b * c.block_size + c.block_size ≤ 4294967295) :
    blk_addr c b = c.base + b * c.block_size := by
  unfold blk_addr u32
  exact Nat.mod_eq_of_lt (by omega)

theorem blk_addr_apart (c : Ctx) (a b : Nat)
    (ha : c.base + a * c.block_size + c.block_size ≤ 4294967295)
    (hb : c.base + b * c.block_size + c.block_size ≤ 4294967295) :
    blk_addr c a = blk_addr c b ∨ blk_addr c a + c.block_size ≤ blk_addr c b
      ∨ blk_addr c b + c.block_size ≤ blk_addr c a := by
  rw [blk_addr_fit c a ha, blk_addr_fit c b hb]
  rcases Nat.lt_trichotomy a b with h | h | h
  · right; left
    have : (a + 1) * c.block_size ≤ b * c.block_size := Nat.mul_le_mul_right _ h
    rw [Nat.add_mul, Nat.one_mul] at this
    omega
  · left; rw [h]
  · right; right
    have : (b + 1) * c.block_size ≤ a * c.block_size := Nat.mul_le_mul_right _ h
    rw [Nat.add_mul, Nat.one_mul] at this
    omega

theorem blk_addr_disjoint (c : Ctx) (a b : Nat) (hne : a ≠ b)
    (ha : c.base + a * c.block_size + c.block_size ≤ 4294967295)
    (hb : c.base + b * c.block_size + c.block_size ≤ 4294967295) :
    blk_addr c a + c.block_size ≤ blk_addr c b
      ∨ blk_addr c b + c.block_size ≤ blk_addr c a := by
  rw [blk_addr_fit c a ha, blk_addr_fit c b hb]
  rcases Nat.lt_trichotomy a b with h | h | h
  · left
    have : (a + 1) * c.block_size ≤ b * c.block_size := Nat.mul_le_mul_right _ h
    rw [Nat.add_mul, Nat.one_mul] at this
    omega
  · exact absurd h hne
  · right
    have : (b + 1) * c.block_size ≤ a * c.block_size := Nat.mul_le_mul_right _ h
    rw [Nat.add_mul, Nat.one_mul] at this
    omega

/-- The loop over the direct blocks writes only into the blocks it visits, and
its result is the start value, `-1`, or an offset inside one of these blocks
with room for the new entry behind it. -/
theorem dir_end_direct_frame (c : Ctx) (fuel : Nat) (stk inode : Disk) (size : Nat) :
    ∀ (l : List Nat) (ret : Nat) (d : Disk) (found : Bool) (r : Nat) (d1 : Disk),
      (∀ i ∈ l, i_block inode i ≠ 0 →
        c.base + i_block inode i * c.block_size + c.block_size ≤ 4294967295) →
      dir_end_direct c fuel stk inode size l ret d = some (found, r, d1) →
      (∀ x, (∀ i ∈ l, i_block inode i ≠ 0 →
          x < blk_addr c (i_block inode i) ∨ blk_addr c (i_block inode i) + c.block_size ≤ x) →
        d1 x = d x)
      ∧ (r = ret ∨ r = 4294967295
          ∨ ∃ i ∈ l, i_block inode i ≠ 0 ∧ blk_addr c (i_block inode i) + 8 ≤ r
              ∧ r + size < blk_addr c (i_block inode i) + c.block_size) := by
  intro l
  induction l with
  | nil =>
    intro ret d found r d1 _ h
    simp only [dir_end_direct, Option.some.injEq, Prod.mk.injEq] at h
    obtain ⟨_, h2, h3⟩ := h
    subst h2 h3
    exact ⟨fun _ _ => rfl, Or.inl rfl⟩
  | cons i l ih =>
    intro ret d found r d1 hfit h
    have hfit' : ∀ j ∈ l, i_block inode j ≠ 0 →
        c.base + i_block inode j * c.block_size + c.block_size ≤ 4294967295 :=
      fun j hj => hfit j (List.mem_cons_of_mem _ hj)
    rw [dir_end_direct] at h
    split at h
    · obtain ⟨f1, f2⟩ := ih ret d found r d1 hfit' h
      refine ⟨fun x hx => f1 x (fun j hj => hx j (List.mem_cons_of_mem _ hj)), ?_⟩
      rcases f2 with f | f | ⟨j, hj, f⟩
      · exact Or.inl f
      · exact Or.inr (Or.inl f)
      · exact Or.inr (Or.inr ⟨j, List.mem_cons_of_mem _ hj, f⟩)
    · rename_i hb
      have hA := hfit i (List.mem_cons_self _ _) hb
      have hAeq := blk_addr_fit c _ hA
      split at h
      · exact absurd h (by simp)
      · rename_i ri di hcall
        obtain ⟨g1, g2⟩ := find_dir_end_in_direct_frame c fuel stk d _ _ size ri di
          (by rw [hAeq]; exact hA) hcall
        have hri : ri = 4294967295 ∨ ∃ j ∈ i :: l, i_block inode j ≠ 0
            ∧ blk_addr c (i_block inode j) + 8 ≤ ri
            ∧ ri + size < blk_addr c (i_block inode j) + c.block_size := by
          rcases g2 with g | g
          · exact Or.inl g
          · exact Or.inr ⟨i, List.mem_cons_self _ _, hb, g⟩
        split at h
        · simp only [Option.some.injEq, Prod.mk.injEq] at h
          obtain ⟨_, h2, h3⟩ := h
          subst h2 h3
          exact ⟨fun x hx => g1 x (hx i (List.mem_cons_self _ _) hb), Or.inr hri⟩
        · obtain ⟨f1, f2⟩ := ih ri di found r d1 hfit' h
          refine ⟨?_, ?_⟩
          · intro x hx
            rw [f1 x (fun j hj => hx j (List.mem_cons_of_mem _ hj)),
              g1 x (hx i (List.mem_cons_self _ _) hb)]
          · rcases f2 with f | f | ⟨j, hj, f⟩
            · rw [f]; exact Or.inr hri
            · exact Or.inr (Or.inl f)
            · exact Or.inr (Or.inr ⟨j, List.mem_cons_of_mem _ hj, f⟩)

/-- When the loop over the direct blocks `a .. a + n - 1` ends with a result
other than `-1` and other than an unchanged start value, that result comes
from the last block it tried, whose content was still that of the start. -/
theorem dir_end_direct_room (c : Ctx) (fuel : Nat) (stk inode : Disk) (size : Nat) :
    ∀ (n a ret : Nat) (d : Disk) (found : Bool) (r : Nat) (d1 : Disk),
      (∀ i, a ≤ i → i < a + n → i_block inode i ≠ 0 →
        c.base + i_block inode i * c.block_size + c.block_size ≤ 4294967295) →
      (∀ i j, a ≤ i → i < j → j < a + n → i_block inode i ≠ 0 →
        i_block inode i ≠ i_block inode j) →
      dir_end_direct c fuel stk inode size (List.range' a n) ret d = some (found, r, d1) →
      r = 4294967295 ∨ (r = ret ∧ d1 = d)
        ∨ ∃ j d0, a ≤ j ∧ j < a + n ∧ i_block inode j ≠ 0
            ∧ find_dir_end_in_direct c fuel stk d0 (blk_addr c (i_block inode j))
                (read_bytes d0 (blk_addr c (i_block inode j))) size = some (r, d1)
            ∧ ∀ x, blk_addr c (i_block inode j) ≤ x →
                x < blk_addr c (i_block inode j) + c.block_size → d0 x = d x := by
  intro n
  induction n with
  | zero =>
    intro a ret d found r d1 _ _ h
    simp only [List.range', dir_end_direct, Option.some.injEq, Prod.mk.injEq] at h
    obtain ⟨_, h2, h3⟩ := h
    exact Or.inr (Or.inl ⟨h2.symm, h3.symm⟩)
  | succ n ih =>
    intro a ret d found r d1 hfit hap h
    have hfit' : ∀ i, a + 1 ≤ i → i < a + 1 + n → i_block inode i ≠ 0 →
        c.base + i_block inode i * c.block_size + c.block_size ≤ 4294967295 :=
      fun i h1 h2 => hfit i (by omega) (by omega)
    have hap' : ∀ i j, a + 1 ≤ i → i < j → j < a + 1 + n → i_block inode i ≠ 0 →
        i_block inode i ≠ i_block inode j :=
      fun i j h1 h2 h3 => hap i j (by omega) h2 (by omega)
    have lift : ∀ (ret0 : Nat) (dd : Disk),
        (∀ x j, a + 1 ≤ j → j < a + 1 + n → i_block inode j ≠ 0 →
          blk_addr c (i_block inode j) ≤ x →
          x < blk_addr c (i_block inode j) + c.block_size → dd x = d x) →
        (r = 4294967295 ∨ (r = ret0 ∧ d1 = dd)
          ∨ ∃ j d0, a + 1 ≤ j ∧ j < a + 1 + n ∧ i_block inode j ≠ 0
              ∧ find_dir_end_in_direct c fuel stk d0 (blk_addr c (i_block inode j))
                  (read_bytes d0 (blk_addr c (i_block inode j))) size = some (r, d1)
              ∧ ∀ x, blk_addr c (i_block inode j) ≤ x →
                  x < blk_addr c (i_block inode j) + c.block_size → d0 x = dd x) →
        (r = 4294967295 ∨ (r = ret0 ∧ d1 = dd)
          ∨ ∃ j d0, a ≤ j ∧ j < a + (n + 1) ∧ i_block inode j ≠ 0
              ∧ find_dir_end_in_direct c fuel stk d0 (blk_addr c (i_block inode j))
                  (read_bytes d0 (blk_addr c (i_block inode j))) size = some (r, d1)
              ∧ ∀ x, blk_addr c (i_block inode j) ≤ x →
                  x < blk_addr c (i_block inode j) + c.block_size → d0 x = d x) := by
      intro ret0 dd hdd hh
      rcases hh with hh | hh | ⟨j, d0, j1, j2, j3, j4, j5⟩
      · exact Or.inl hh
      · exact Or.inr (Or.inl hh)
      · refine Or.inr (Or.inr ⟨j, d0, by omega, by omega, j3, j4, ?_⟩)
        intro x x1 x2
        rw [j5 x x1 x2, hdd x j j1 j2 j3 x1 x2]
    rw [List.range', dir_end_direct] at h
    split at h
    · exact lift ret d (fun _ _ _ _ _ _ _ => rfl) (ih (a + 1) ret d found r d1 hfit' hap' h)
    · rename_i hb
      have hA := hfit a (Nat.le_refl _) (by omega) hb
      have hAeq := blk_addr_fit c _ hA
      split at h
      · exact absurd h (by simp)
      · rename_i ri di hcall
        obtain ⟨g1, _⟩ := find_dir_end_in_direct_frame c fuel stk d _ _ size ri di
          (by rw [hAeq]; exact hA) hcall
        have here : r = ri → d1 = di →
            (r = 4294967295 ∨ (r = ret ∧ d1 = d)
              ∨ ∃ j d0, a ≤ j ∧ j < a + (n + 1) ∧ i_block inode j ≠ 0
                ∧ find_dir_end_in_direct c fuel stk d0 (blk_addr c (i_block inode j))
                    (read_bytes d0 (blk_addr c (i_block inode j))) size = some (r, d1)
                ∧ ∀ x, blk_addr c (i_block inode j) ≤ x →
                    x < blk_addr c (i_block inode j) + c.block_size → d0 x = d x) := by
          intro e1 e2
          subst e1 e2
          exact Or.inr (Or.inr ⟨a, d, Nat.le_refl _, by omega, hb, hcall, fun _ _ _ => rfl⟩)
        split at h
        · simp only [Option.some.injEq, Prod.mk.injEq] at h
          exact here h.2.1.symm h.2.2.symm
        · have hdi : ∀ x j, a + 1 ≤ j → j < a + 1 + n → i_block inode j ≠ 0 →
              blk_addr c (i_block inode j) ≤ x →
              x < blk_addr c (i_block inode j) + c.block_size → di x = d x := by
            intro x j j1 j2 j3 x1 x2
            have hne := hap a j (Nat.le_refl _) (by omega) (by omega) hb
            have := blk_addr_disjoint c _ _ hne hA (hfit j (by omega) (by omega) j3)
            exact g1 x (by omega)
          rcases ih (a + 1) ri di found r d1 hfit' hap' h with hh | ⟨hh1, hh2⟩ | hh
          · exact Or.inl hh
          · exact here hh1 hh2
          · rcases lift ri di hdi (Or.inr (Or.inr hh)) with q | ⟨q1, q2⟩ | q
            · exact Or.inl q
            · exact here q1 q2
            · exact Or.inr (Or.inr q)

theorem get_dir_entry_end_direct_only (c : Ctx) (fuel : Nat) (stk d : Disk) (lf size r : Nat)
    (d1 : Disk) (hl : LostFoundReady c d lf)
    (h : get_dir_entry_end c fuel stk d (lf : Int) size = some (r, d1)) :
    ∃ found, dir_end_direct c fuel stk (read_bytes d (get_inode_addr c (toInt32 lf))) size
      (List.range' 0 12) 4294967295 d = some (found, r, d1) := by
  have hlf31 : lf < 2147483648 := Nat.lt_of_le_of_lt hl.lf_le hl.ino_small
  have hdir := hl.lf_dir
  have h12 := hl.lf_ind 12 (by decide) (by decide)
  have h13 := hl.lf_ind 13 (by decide) (by decide)
  have h14 := hl.lf_ind 14 (by decide) (by decide)
  unfold dir_blk at h12 h13 h14
  rw [toInt32_small lf hlf31] at hdir h12 h13 h14 ⊢
  unfold get_dir_entry_end at h
  simp only [hdir, Bool.not_true, Bool.false_eq_true, if_false] at h
  have hrange : List.range EXT2_NDIR_BLOCKS = List.range' 0 12 := by decide
  rw [hrange] at h
  split at h
  · exact absurd h (by simp)
  · rename_i ret dd hd
    simp only [Option.some.injEq, Prod.mk.injEq] at h
    exact ⟨true, by rw [hd, h.1, h.2]⟩
  · rename_i ret dd hd
    simp only [h12, h13, h14, ne_eq, not_true_eq_false, if_false, Option.some.injEq,
      Prod.mk.injEq] at h
    exact ⟨false, by rw [hd, h.1, h.2]⟩

/-- On the standard layout `get_dir_entry_end` writes only into direct blocks of
`/lost+found`, and its result is `-1` or an offset inside one of them with room
for the new entry behind it. -/
theorem get_dir_entry_end_frame (c : Ctx) (fuel : Nat) (stk d : Disk) (lf size r : Nat)
    (d1 : Disk) (hl : LostFoundReady c d lf)
    (h : get_dir_entry_end c fuel stk d (lf : Int) size = some (r, d1)) :
    (∀ x, (∀ j, j < 12 → dir_blk c d lf j ≠ 0 →
        x < blk_addr c (dir_blk c d lf j) ∨ blk_addr c (dir_blk c d lf j) + c.block_size ≤ x) →
      d1 x = d x)
    ∧ (r = 4294967295
        ∨ ∃ j, j < 12 ∧ dir_blk c d lf j ≠ 0 ∧ blk_addr c (dir_blk c d lf j) + 8 ≤ r
            ∧ r + size < blk_addr c (dir_blk c d lf j) + c.block_size) := by
  obtain ⟨found, hd⟩ := get_dir_entry_end_direct_only c fuel stk d lf size r d1 hl h
  have hfit := hl.fit
  unfold dir_blk at hfit ⊢
  obtain ⟨f1, f2⟩ := dir_end_direct_frame c fuel stk _ size _ _ _ _ _ _
    (fun i hi hb => hfit i (by rw [List.mem_range'_1] at hi; omega) hb) hd
  refine ⟨?_, ?_⟩
  · intro x hx
    exact f1 x (fun i hi hb => hx i (by rw [List.mem_range'_1] at hi; omega) hb)
  · rcases f2 with f | f | ⟨j, hj, f⟩
    · exact Or.inl f
    · exact Or.inl f
    · exact Or.inr ⟨j, by rw [List.mem_range'_1] at hj; omega, f⟩

/-- On the standard layout a result of `get_dir_entry_end` other than `-1` is
the result of `find_dir_end_in_direct` for one direct block of `/lost+found`,
called when that block still had the content it had at the start. -/
theorem get_dir_entry_end_room (c : Ctx) (fuel : Nat) (stk d : Disk) (lf size r : Nat)
    (d1 : Disk) (hl : LostFoundReady c d lf)
    (h : get_dir_entry_end c fuel stk d (lf : Int) size = some (r, d1))
    (hr : r ≠ 4294967295) :
    ∃ j d0, j < 12 ∧ dir_blk c d lf j ≠ 0
      ∧ find_dir_end_in_direct c fuel stk d0 (blk_addr c (dir_blk c d lf j))
          (read_bytes d0 (blk_addr c (dir_blk c d lf j))) size = some (r, d1)
      ∧ ∀ x, blk_addr c (dir_blk c d lf j) ≤ x →
          x < blk_addr c (dir_blk c d lf j) + c.block_size → d0 x = d x := by
  obtain ⟨found, hd⟩ := get_dir_entry_end_direct_only c fuel stk d lf size r d1 hl h
  have hfit := hl.fit
  have hap := hl.lf_apart
  unfold dir_blk at hfit hap ⊢
  rcases dir_end_direct_room c fuel stk _ size 12 0 _ _ _ _ _
    (fun i _ hi hb => hfit i (by omega) hb)
    (fun i j _ hij hj hb => hap j (by omega) i hij hb) hd with f | ⟨f, _⟩ | ⟨j, d0, _, j2, f⟩
  · exact absurd f hr
  · exact absurd f hr
  · exact ⟨j, d0, by omega, f⟩

/-! ## Pass 2 on the standard layout: what an insertion does to the block -/

theorem chain_to_entry_at (target : Nat) (buf : Disk) :
    ∀ (n off : Nat), chain_to target buf n off = true →
      ∃ m, m ≤ n ∧ entry_at buf m off target = true := by
  intro n
  induction n with
  | zero =>
    intro off h
    simp only [chain_to, decide_eq_true_eq] at h
    exact ⟨0, Nat.le_refl _, by simp [entry_at, h]⟩
  | succ n ih =>
    intro off h
    rw [chain_to] at h
    split at h
    · rename_i heq
      exact ⟨0, Nat.zero_le _, by simp [entry_at, heq]⟩
    · split at h
      · rename_i hc
        obtain ⟨m, hm, hat⟩ := ih _ h
        refine ⟨m + 1, by omega, ?_⟩
        simp only [entry_at, Bool.and_eq_true, decide_eq_true_eq]
        exact ⟨hc.2, hat⟩
      · exact absurd h (by simp)

theorem entry_at_snoc (buf : Disk) (e : Nat) (h8 : 8 ≤ rd16 buf (e + 4)) :
    ∀ (m off : Nat), entry_at buf m off e = true →
      entry_at buf (m + 1) off (e + rd16 buf (e + 4)) = true := by
  intro m
  induction m with
  | zero =>
    intro off h
    simp only [entry_at, decide_eq_true_eq] at h
    subst h
    simp [entry_at, h8]
  | succ m ih =>
    intro off h
    simp only [entry_at, Bool.and_eq_true, decide_eq_true_eq] at h
    have := ih _ h.2
    rw [entry_at]
    simp only [Bool.and_eq_true, decide_eq_true_eq]
    exact ⟨h.1, this⟩

theorem rd32_new_entry (k rl nl ft : Nat) : rd32 (new_entry k rl nl ft) 0 = k % 4294967296 := by
  simp [rd32, rd8, new_entry, le_byte]
  omega

theorem holds_entry_congr (bs : Nat) (d d1 : Disk) (A e k : Nat)
    (hag : ∀ x, A ≤ x → x < A + e + 6 → d1 x = d x) (h : holds_entry bs d A e k) :
    holds_entry bs d1 A e k := by
  obtain ⟨⟨m, hat⟩, he, hrd, h8⟩ := h
  refine ⟨⟨m, ?_⟩, he, ?_, ?_⟩
  · refine entry_at_congr (read_bytes d A) _ 0 e ?_ _ _ (by omega) hat
    intro x _ hx
    simp only [read_bytes]
    exact hag _ (by omega) (by omega)
  · rw [← hrd]
    exact rd32_congr (hag _ (by omega) (by omega)) (hag _ (by omega) (by omega))
      (hag _ (by omega) (by omega)) (hag _ (by omega) (by omega))
  · have : rd16 d1 (A + e + 4) = rd16 d (A + e + 4) :=
      rd16_congr (hag _ (by omega) (by omega)) (hag _ (by omega) (by omega))
    rw [this]
    exact h8

theorem find_last_entry_ge (c : Ctx) (buf : Disk) :
    ∀ (fuel off : Nat) (name : Disk) (b : Nat) (nm : Disk),
      find_last_entry c buf fuel off name = some (b, nm) → off ≤ b := by
  intro fuel
  induction fuel with
  | zero => intro off name b nm h; simp [find_last_entry] at h
  | succ fuel ih =>
    intro off name b nm h
    rw [find_last_entry] at h
    split at h
    · simp only [Option.some.injEq, Prod.mk.injEq] at h
      omega
    · have := ih _ _ _ _ h
      omega

/-- The entry that `find_dir_end_in_direct` takes for the last one lies at or
behind every entry of the chain that starts inside the block. -/
theorem find_last_entry_after (c : Ctx) (buf : Disk) (e : Nat) (he : e < c.block_size) :
    ∀ (m fuel off : Nat) (name : Disk) (b : Nat) (nm : Disk),
      entry_at buf m off e = true →
      find_last_entry c buf fuel off name = some (b, nm) →
      b = e ∨ e + rd16 buf (e + 4) ≤ b := by
  intro m
  induction m with
  | zero =>
    intro fuel off name b nm hat h
    have hb : off = e := by simpa [entry_at] using hat
    subst hb
    cases fuel with
    | zero => simp [find_last_entry] at h
    | succ fuel =>
      rw [find_last_entry] at h
      split at h
      · simp only [Option.some.injEq, Prod.mk.injEq] at h
        exact Or.inl h.1.symm
      · exact Or.inr (find_last_entry_ge c buf _ _ _ _ _ h)
  | succ m ih =>
    intro fuel off name b nm hat h
    have hle := entry_at_le buf _ _ _ hat
    simp only [entry_at, Bool.and_eq_true, decide_eq_true_eq] at hat
    have hle2 := entry_at_le buf _ _ _ hat.2
    cases fuel with
    | zero => simp [find_last_entry] at h
    | succ fuel =>
      rw [find_last_entry] at h
      rw [if_neg (by omega)] at h
      exact ih _ _ _ _ _ hat.2 h

/-- One call of `find_dir_end_in_direct` on a block that is the block at `A` or
lies apart from it keeps an entry of the block at `A`, and a result other than
`-1` leaves the bytes of the entry's header out of the room it names. -/
theorem find_dir_end_in_direct_keeps (c : Ctx) (fuel : Nat) (stk d : Disk) (B size r : Nat)
    (d1 : Disk) (A e k : Nat) (hB : B + c.block_size ≤ 4294967295)
    (hrel : B = A ∨ B + c.block_size ≤ A ∨ A + c.block_size ≤ B)
    (h : find_dir_end_in_direct c fuel stk d B (read_bytes d B) size = some (r, d1))
    (hk : holds_entry c.block_size d A e k) :
    holds_entry c.block_size d1 A e k
      ∧ (r = 4294967295 ∨ r + size ≤ A ∨ A + e + 8 ≤ r) := by
  rcases find_dir_end_in_direct_cases c fuel stk d B _ size r d1 hB h
    with ⟨hr, hd⟩ | ⟨b, name, hfl, hroom, hr, hd⟩
  · rw [hd]
    exact ⟨hk, Or.inl hr⟩
  · have hns := name_size_bounds (rd8 (read_bytes d B) (b + 6)) (rd8_lt _ _)
    generalize hnsdef : name_size (rd8 (read_bytes d B) (b + 6)) = ns at *
    have hk0 := hk
    obtain ⟨⟨m, hat⟩, he, hrd, h8⟩ := hk
    rcases hrel with hrel | hrel
    · subst hrel
      have h8' : 8 ≤ rd16 (read_bytes d B) (e + 4) := by
        rw [rd16_read_bytes, ← Nat.add_assoc]; exact h8
      rcases find_last_entry_after c (read_bytes d B) e (by omega) m fuel 0 stk b name hat hfl
        with hb | hb
      · subst hb
        refine ⟨⟨⟨m, ?_⟩, he, ?_, ?_⟩, Or.inr (Or.inr (by omega))⟩
        · refine entry_at_congr (read_bytes d B) _ 0 b ?_ _ _ (by omega) hat
          intro x _ hx
          simp only [read_bytes]
          rw [hd]
          simp only [write_bytes]
          rw [if_neg (by omega)]
        · have e0 : rd32 (write_bytes d (B + b)
              (shrunk_entry (read_bytes d B)
                (copy_name name (read_bytes d B) b (rd8 (read_bytes d B) (b + 6))) b)
              (8 + ns)) (B + b) = _ :=
            rd32_write_bytes_in d _ (B + b) (8 + ns) 0 (by omega)
          rw [hd, e0, rd32_shrunk_entry, rd32_read_bytes]
          exact hrd
        · rw [hd, rd16_write_bytes_in d _ (B + b) (8 + ns) 4 (by omega), rd16_shrunk_entry,
            hnsdef]
          omega
      · refine ⟨holds_entry_congr c.block_size d d1 B e k ?_ hk0, Or.inr (Or.inr (by omega))⟩
        intro x _ hx
        rw [hd]
        simp only [write_bytes]
        rw [if_neg (by omega)]
    · refine ⟨holds_entry_congr c.block_size d d1 A e k ?_ hk0, Or.inr (by omega)⟩
      intro x _ hx
      rw [hd]
      simp only [write_bytes]
      rw [if_neg (by omega)]

theorem dir_end_direct_keeps (c : Ctx) (fuel : Nat) (stk inode : Disk) (size A e k : Nat) :
    ∀ (l : List Nat) (ret : Nat) (d : Disk) (found : Bool) (r : Nat) (d1 : Disk),
      (∀ i ∈ l, i_block inode i ≠ 0 →
        blk_addr c (i_block inode i) + c.block_size ≤ 4294967295
        ∧ (blk_addr c (i_block inode i) = A
          ∨ blk_addr c (i_block inode i) + c.block_size ≤ A
          ∨ A + c.block_size ≤ blk_addr c (i_block inode i))) →
      dir_end_direct c fuel stk inode size l ret d = some (found, r, d1) →
      holds_entry c.block_size d A e k →
      (ret = 4294967295 ∨ ret + size ≤ A ∨ A + e + 8 ≤ ret) →
      holds_entry c.block_size d1 A e k
        ∧ (r = 4294967295 ∨ r + size ≤ A ∨ A + e + 8 ≤ r) := by
  intro l
  induction l with
  | nil =>
    intro ret d found r d1 _ h hk hs
    simp only [dir_end_direct, Option.some.injEq, Prod.mk.injEq] at h
    obtain ⟨_, h2, h3⟩ := h
    subst h2 h3
    exact ⟨hk, hs⟩
  | cons i l ih =>
    intro ret d found r d1 hrel h hk hs
    have hrel' := fun j hj => hrel j (List.mem_cons_of_mem _ hj)
    rw [dir_end_direct] at h
    split at h
    · exact ih ret d found r d1 hrel' h hk hs
    · rename_i hb
      obtain ⟨hB, hr⟩ := hrel i (List.mem_cons_self _ _) hb
      split at h
      · exact absurd h (by simp)
      · rename_i ri di hcall
        obtain ⟨g1, g2⟩ := find_dir_end_in_direct_keeps c fuel stk d _ size ri di A e k hB hr
          hcall hk
        split at h
        · simp only [Option.some.injEq, Prod.mk.injEq] at h
          obtain ⟨_, h2, h3⟩ := h
          subst h2 h3
          exact ⟨g1, g2⟩
        · exact ih ri di found r d1 hrel' h g1 g2

/-- On the standard layout every call of `put_into_lostfound` leaves the image
outside the direct blocks of `/lost+found` alone, below offset `2^32 - 1`. -/
theorem put_into_lostfound_frame (c : Ctx) (fuel : Nat) (stk d : Disk) (lf k : Nat) (v : Int)
    (d2 : Disk) (hl : LostFoundReady c d lf)
    (h : put_into_lostfound c fuel stk d k = some (v, d2)) :
    ∀ x, (∀ j, j < 12 → dir_blk c d lf j ≠ 0 →
        x < blk_addr c (dir_blk c d lf j) ∨ blk_addr c (dir_blk c d lf j) + c.block_size ≤ x) →
      x < 4294967295 → d2 x = d x := by
  intro x hx hx32
  unfold put_into_lostfound at h
  dsimp only at h
  split at h
  · exact absurd h (by simp)
  · rename_i w hw
    have hweq := lookup_lost_found c fuel d lf w hl hw
    subst hweq
    split at h
    · exact absurd h (by simp)
    · rename_i base d1 hfd
      simp only [Option.some.injEq, Prod.mk.injEq] at h
      obtain ⟨_, hd2⟩ := h
      obtain ⟨f1, f2⟩ := get_dir_entry_end_frame c fuel stk d lf _ base d1 hl hfd
      rw [← hd2, ← f1 x hx]
      simp only [write_bytes]
      rcases f2 with f | ⟨j, hj, hb, f3, f4⟩
      · rw [if_neg (by omega)]
      · have := hx j hj hb
        rw [if_neg (by omega)]

/-- On the standard layout a call of `put_into_lostfound` keeps every entry of
a direct block of `/lost+found`. -/
theorem put_into_lostfound_keeps (c : Ctx) (fuel : Nat) (stk d : Disk) (lf k : Nat) (v : Int)
    (d2 : Disk) (j e k1 : Nat) (hl : LostFoundReady c d lf) (hj : j < 12)
    (hjb : dir_blk c d lf j ≠ 0)
    (hk : holds_entry c.block_size d (blk_addr c (dir_blk c d lf j)) e k1)
    (h : put_into_lostfound c fuel stk d k = some (v, d2)) :
    holds_entry c.block_size d2 (blk_addr c (dir_blk c d lf j)) e k1 := by
  have hfit := hl.fit
  have hAj := hfit j hj hjb
  have hAeq := blk_addr_fit c _ hAj
  unfold put_into_lostfound at h
  dsimp only at h
  split at h
  · exact absurd h (by simp)
  · rename_i w hw
    have hweq := lookup_lost_found c fuel d lf w hl hw
    subst hweq
    split at h
    · exact absurd h (by simp)
    · rename_i base d1 hfd
      simp only [Option.some.injEq, Prod.mk.injEq] at h
      obtain ⟨_, hd2⟩ := h
      obtain ⟨found, hd⟩ := get_dir_entry_end_direct_only c fuel stk d lf _ base d1 hl hfd
      obtain ⟨g1, g2⟩ := dir_end_direct_keeps c fuel stk _ _ (blk_addr c (dir_blk c d lf j)) e k1
        _ _ _ _ _ _
        (fun i hi hb => by
          rw [List.mem_range'_1] at hi
          have hi12 : i < 12 := by omega
          have hAi := hfit i hi12 hb
          have hAieq := blk_addr_fit c _ hAi
          unfold dir_blk at hAi hAieq
          refine ⟨by rw [hAieq]; exact hAi, ?_⟩
          exact blk_addr_apart c _ _ hAi hAj)
        hd hk (Or.inl rfl)
      have he := hk.2.1
      rw [← hd2]
      refine holds_entry_congr c.block_size d1 _ _ e k1 ?_ g1
      intro x x1 x2
      simp only [write_bytes]
      rw [if_neg (by omega)]

theorem insert_lists (bs A b ns size k m : Nat) (d S N : Disk)
    (hat : entry_at (read_bytes d A) m 0 b = true)
    (hroom : b + 8 + ns + size < bs) (hns : 4 ≤ ns) (hsz : 8 ≤ size) (hbs : bs ≤ 65536)
    (hS4 : rd16 S 4 = 8 + ns)
    (hN4 : rd16 N 4 = bs - (b + 8 + ns)) (hN0 : rd32 N 0 = k) :
    holds_entry bs (write_bytes (write_bytes d (A + b) S (8 + ns)) (A + b + 8 + ns) N size) A
      (b + 8 + ns) k := by
  generalize hd1 : write_bytes d (A + b) S (8 + ns) = d1
  generalize hd2 : write_bytes d1 (A + b + 8 + ns) N size = d2
  have hfr : ∀ x, x < A + b → d2 x = d x := by
    intro x hx
    rw [← hd2, ← hd1]
    simp only [write_bytes]
    rw [if_neg (by omega), if_neg (by omega)]
  have hrl1 : rd16 d2 (A + b + 4) = 8 + ns := by
    rw [← hd2, rd16_write_bytes_disjoint d1 N _ size (A + b + 4) (Or.inl (by omega)), ← hd1,
      rd16_write_bytes_in d S (A + b) (8 + ns) 4 (by omega), hS4]
  have hrl2 : rd16 d2 (A + b + 8 + ns + 4) = bs - (b + 8 + ns) := by
    rw [← hd2, rd16_write_bytes_in d1 N _ size 4 (by omega), hN4]
  have hi2 : rd32 d2 (A + (b + 8 + ns)) = k := by
    have e0 : rd32 (write_bytes d1 (A + b + 8 + ns) N size) (A + b + 8 + ns) = rd32 N 0 :=
      rd32_write_bytes_in d1 N (A + b + 8 + ns) size 0 (by omega)
    have : A + (b + 8 + ns) = A + b + 8 + ns := by omega
    rw [this, ← hd2, e0, hN0]
  have hat2 : entry_at (read_bytes d2 A) m 0 b = true := by
    refine entry_at_congr (read_bytes d A) _ 0 b ?_ _ _ (by omega) hat
    intro x _ hx
    simp only [read_bytes]
    exact hfr _ (by omega)
  have hr : rd16 (read_bytes d2 A) (b + 4) = 8 + ns := by
    rw [rd16_read_bytes, ← Nat.add_assoc]; exact hrl1
  have hs := entry_at_snoc (read_bytes d2 A) b (by rw [hr]; omega) m 0 hat2
  rw [hr] at hs
  refine ⟨⟨m + 1, by rw [Nat.add_assoc]; exact hs⟩, by omega, hi2, ?_⟩
  have : A + (b + 8 + ns) + 4 = A + b + 8 + ns + 4 := by omega
  rw [this, hrl2]
  omega

/-- On the standard layout, when `get_dir_entry_end` finds room at offset `r`
in a block of `/lost+found` whose chain is sound, `put_into_lostfound` leaves an
entry for the inode at `r`, on the chain of that block. -/
theorem put_into_lostfound_lists (c : Ctx) (fuel : Nat) (stk d : Disk) (lf k r : Nat) (v : Int)
    (d1 d2 : Disk) (hl : LostFoundReady c d lf) (hk : k < 4294967296)
    (hend : get_dir_entry_end c fuel stk d (lf : Int) (8 + ((decimal k).length - 1) % 256)
      = some (r, d1))
    (hroom : r ≠ 4294967295)
    (hsound : ∀ j, j < 12 → dir_blk c d lf j ≠ 0 → blk_addr c (dir_blk c d lf j) ≤ r →
      r < blk_addr c (dir_blk c d lf j) + c.block_size →
      ∃ n, chain_to c.block_size (read_bytes d (blk_addr c (dir_blk c d lf j))) n 0 = true)
    (h : put_into_lostfound c fuel stk d k = some (v, d2)) :
    ∃ j, j < 12 ∧ dir_blk c d lf j ≠ 0 ∧ blk_addr c (dir_blk c d lf j) ≤ r
      ∧ holds_entry c.block_size d2 (blk_addr c (dir_blk c d lf j))
          (r - blk_addr c (dir_blk c d lf j)) k := by
  have hbs := hl.bs_le
  obtain ⟨j, d0, hj, hjb, hcall, hag⟩ := get_dir_entry_end_room c fuel stk d lf _ r d1 hl hend hroom
  have hAj := hl.fit j hj hjb
  have hAeq := blk_addr_fit c _ hAj
  have hsnd := hsound j hj hjb
  generalize hbdef : dir_blk c d lf j = bn at *
  generalize hAdef : blk_addr c bn = A at *
  have hA32 : A + c.block_size ≤ 4294967295 := by rw [hAeq]; exact hAj
  unfold put_into_lostfound at h
  dsimp only at h
  split at h
  · exact absurd h (by simp)
  · rename_i w hw
    have hweq := lookup_lost_found c fuel d lf w hl hw
    subst hweq
    rw [hend] at h
    simp only [Option.some.injEq, Prod.mk.injEq] at h
    obtain ⟨_, hd2⟩ := h
    generalize hsz : 8 + ((decimal k).length - 1) % 256 = size at *
    have hsz8 : 8 ≤ size := by omega
    generalize hNdef : new_entry k (new_rec_len c r) (((decimal k).length - 1) % 256)
      (imode_to_filetype (i_mode (read_bytes d (get_inode_addr c k)))) = N at hd2
    rcases find_dir_end_in_direct_cases c fuel stk d0 A (read_bytes d0 A) size r d1 hA32 hcall
      with ⟨hb1, _⟩ | ⟨b, name, hfl, hroomlt, hbase, hd1⟩
    · exact absurd hb1 hroom
    · have hns := name_size_bounds (rd8 (read_bytes d0 A) (b + 6)) (rd8_lt _ _)
      obtain ⟨n, hchain⟩ := hsnd (by omega) (by omega)
      have hchain0 : chain_to c.block_size (read_bytes d0 A) n 0 = true := by
        refine chain_to_congr c.block_size (read_bytes d A) _ ?_ _ _ hchain
        intro x hx
        simp only [read_bytes]
        exact hag _ (by omega) (by omega)
      have hbspos : 0 < c.block_size := by omega
      obtain ⟨_, hce, _, _, _⟩ :=
        find_last_entry_chain c (read_bytes d0 A) n 0 fuel stk b name hchain0 hbspos hfl
      obtain ⟨m, _, hat⟩ := chain_to_entry_at b (read_bytes d0 A) (n - 1) 0 hce
      have hnr : new_rec_len c r
          = c.block_size - (b + 8 + name_size (rd8 (read_bytes d0 A) (b + 6))) := by
        have := new_rec_len_eq c bn (b + 8 + name_size (rd8 (read_bytes d0 A) (b + 6)))
          (by omega) (by omega) (by omega) hbs
        rw [← this, hbase, hAeq]
        congr 1
        omega
      have hins := insert_lists c.block_size A b (name_size (rd8 (read_bytes d0 A) (b + 6)))
        size k m d0
        (shrunk_entry (read_bytes d0 A)
          (copy_name name (read_bytes d0 A) b (rd8 (read_bytes d0 A) (b + 6))) b) N
        hat hroomlt hns.1 hsz8 hbs
        (by rw [rd16_shrunk_entry]; omega)
        (by rw [← hNdef, rd16_new_entry, hnr]; omega)
        (by rw [← hNdef, rd32_new_entry]; exact Nat.mod_eq_of_lt hk)
      rw [← hd1, ← hbase, hd2] at hins
      refine ⟨j, hj, by rw [hbdef]; exact hjb, by rw [hbdef, hAdef]; omega, ?_⟩
      rw [hbdef, hAdef]
      have : r - A = b + 8 + name_size (rd8 (read_bytes d0 A) (b + 6)) := by omega
      rw [this]
      exact hins

theorem entry_name_congr (buf buf1 : Disk) (base n : Nat)
    (h : ∀ i, i < n → buf1 (base + 8 + i) = buf (base + 8 + i)) :
    entry_name buf1 base n = entry_name buf base n := by
  unfold entry_name
  apply List.map_congr_left
  intro i hi
  rw [List.mem_range] at hi
  unfold rd8
  rw [h i hi]

theorem LostFoundReady_transfer (c : Ctx) (d d2 : Disk) (lf : Nat) (hl : LostFoundReady c d lf)
    (hfr : ∀ x, (∀ j, j < 12 → dir_blk c d lf j ≠ 0 →
        x < blk_addr c (dir_blk c d lf j) ∨ blk_addr c (dir_blk c d lf j) + c.block_size ≤ x) →
      x < 4294967295 → d2 x = d x) :
    LostFoundReady c d2 lf ∧ ∀ j, j < 15 → dir_blk c d2 lf j = dir_blk c d lf j := by
  have hrec : INODE_REC_SIZE = 128 := rfl
  have s1 := hl.sep_rooti
  have s2 := hl.sep_lfi
  have s3 := hl.sep_root
  have g1 := hl.rooti_hi
  have g2 := hl.lfi_hi
  have g3 := hl.root_hi
  have g4 := hl.e3_in
  have g5 := hl.e1_len
  have g6 := hl.e2_len
  have k1 := hl.e1_type
  have k2 := hl.e1_name
  have k3 := hl.e2_type
  have k4 := hl.e2_name
  have k5 := hl.e3_ino
  have k6 := hl.e3_type
  have k7 := hl.e3_nlen
  have k8 := hl.e3_name
  have k9 := hl.sep_root_lfi
  have k10 := hl.e1_short
  have k11 := hl.e2_short
  rw [hrec] at s1 s2 g1 g2
  have hI2 : ∀ i, i < 128 →
      read_bytes d2 (get_inode_addr c (toInt32 EXT2_ROOT_INO)) i
        = read_bytes d (get_inode_addr c (toInt32 EXT2_ROOT_INO)) i := by
    intro i hi
    simp only [read_bytes]
    refine hfr _ ?_ (by omega)
    intro j hj hb
    have := s1 j hj hb
    omega
  have hIl : ∀ i, i < 128 →
      read_bytes d2 (get_inode_addr c (toInt32 lf)) i
        = read_bytes d (get_inode_addr c (toInt32 lf)) i := by
    intro i hi
    simp only [read_bytes]
    refine hfr _ ?_ (by omega)
    intro j hj hb
    have := s2 j hj hb
    omega
  have hm2 : i_mode (read_bytes d2 (get_inode_addr c (toInt32 EXT2_ROOT_INO)))
      = i_mode (read_bytes d (get_inode_addr c (toInt32 EXT2_ROOT_INO))) := by
    unfold i_mode OFF_I_MODE
    exact rd16_congr (hI2 _ (by omega)) (hI2 _ (by omega))
  have hb2 : i_block (read_bytes d2 (get_inode_addr c (toInt32 EXT2_ROOT_INO))) 0
      = i_block (read_bytes d (get_inode_addr c (toInt32 EXT2_ROOT_INO))) 0 := by
    unfold i_block OFF_I_BLOCK
    exact rd32_congr (hI2 _ (by omega)) (hI2 _ (by omega)) (hI2 _ (by omega)) (hI2 _ (by omega))
  have hml : i_mode (read_bytes d2 (get_inode_addr c (toInt32 lf)))
      = i_mode (read_bytes d (get_inode_addr c (toInt32 lf))) := by
    unfold i_mode OFF_I_MODE
    exact rd16_congr (hIl _ (by omega)) (hIl _ (by omega))
  have hbl : ∀ j, j < 15 → dir_blk c d2 lf j = dir_blk c d lf j := by
    intro j hj
    unfold dir_blk i_block OFF_I_BLOCK
    exact rd32_congr (hIl _ (by omega)) (hIl _ (by omega)) (hIl _ (by omega)) (hIl _ (by omega))
  have hR : dir_block0 c d2 EXT2_ROOT_INO = dir_block0 c d EXT2_ROOT_INO := by
    unfold dir_block0
    rw [hb2]
  generalize hRdef : dir_block0 c d EXT2_ROOT_INO = R at *
  have hblk : ∀ x, x < c.block_size → d2 (R + x) = d (R + x) := by
    intro x hx
    refine hfr _ ?_ (by omega)
    intro j hj hb
    have := s3 j hj hb
    omega
  have r8 : ∀ a, a < c.block_size → rd8 d2 (R + a) = rd8 d (R + a) := by
    intro a ha
    unfold rd8
    rw [hblk a ha]
  have r16 : ∀ a, a + 2 ≤ c.block_size → rd16 d2 (R + a) = rd16 d (R + a) := by
    intro a ha
    refine rd16_congr (hblk a (by omega)) ?_
    rw [Nat.add_assoc]
    exact hblk _ (by omega)
  have r32 : ∀ a, a + 4 ≤ c.block_size → rd32 d2 (R + a) = rd32 d (R + a) := by
    intro a ha
    refine rd32_congr (hblk a (by omega)) ?_ ?_ ?_ <;>
      (rw [Nat.add_assoc]; exact hblk _ (by omega))
  have q1 : rd16 d2 (R + 4) = rd16 d (R + 4) := r16 4 (by omega)
  have q3 : rd8 d2 (R + 6) = rd8 d (R + 6) := r8 6 (by omega)
  generalize hr1 : rd16 d (R + 4) = r1 at *
  generalize hn1 : rd8 d (R + 6) = n1 at *
  have q2 : rd16 d2 (R + (r1 + 4)) = rd16 d (R + (r1 + 4)) := r16 _ (by omega)
  have q4 : rd8 d2 (R + (r1 + 6)) = rd8 d (R + (r1 + 6)) := r8 _ (by omega)
  generalize hr2 : rd16 d (R + (r1 + 4)) = r2 at *
  generalize hn2 : rd8 d (R + (r1 + 6)) = n2 at *
  have hname : ∀ base n, base + 8 + n ≤ c.block_size →
      entry_name (read_bytes d2 R) base n = entry_name (read_bytes d R) base n := by
    intro base n hbn
    apply entry_name_congr
    intro i hi
    simp only [read_bytes]
    have := hblk (base + 8 + i) (by omega)
    rw [← Nat.add_assoc, ← Nat.add_assoc] at this
    rw [← Nat.add_assoc, ← Nat.add_assoc]
    exact this
  refine ⟨?_, hbl⟩
  refine
    { root_dir := by rw [hm2]; exact hl.root_dir
      root_blk := by rw [hb2]; exact hl.root_blk
      e1_len := by rw [hR, q1, q3]; exact g5
      e1_type := by rw [hR, r8 7 (by omega)]; exact k1
      e1_short := by rw [hR, q3]; exact k10
      e1_name := by rw [hR, q3, hname 0 n1 (by omega)]; exact k2
      e2_len := by rw [hR, q1, q2, q4]; exact g6
      e2_type := by rw [hR, q1, r8 _ (by omega)]; exact k3
      e2_short := by rw [hR, q1, q4]; exact k11
      e2_name := by rw [hR, q1, q4, hname r1 n2 (by omega)]; exact k4
      e3_in := by rw [hR, q1, q2]; exact g4
      e3_ino := by rw [hR, q1, q2, r32 _ (by omega)]; exact k5
      e3_type := by rw [hR, q1, q2, r8 _ (by omega)]; exact k6
      e3_nlen := by rw [hR, q1, q2, r8 _ (by omega)]; exact k7
      e3_name := by rw [hR, q1, q2, hname _ 10 (by omega)]; exact k8
      lf_pos := hl.lf_pos
      lf_le := hl.lf_le
      lf_ne := hl.lf_ne
      ino_small := hl.ino_small
      lf_dir := by rw [hml]; exact hl.lf_dir
      lf_ind := by
        intro j h1 h2
        rw [hbl j h1]
        exact hl.lf_ind j h1 h2
      lf_apart := by
        intro j h2 i h1 h3
        rw [hbl i (by omega)] at h3 ⊢
        rw [hbl j (by omega)]
        exact hl.lf_apart j h2 i h1 h3
      fit := by
        intro j h1 h2
        rw [hbl j (by omega)] at h2 ⊢
        exact hl.fit j h1 h2
      bs_le := hl.bs_le
      root_hi := by rw [hR]; exact g3
      rooti_hi := hl.rooti_hi
      lfi_hi := hl.lfi_hi
      sep_root := by
        intro j h1 h2
        rw [hbl j (by omega)] at h2 ⊢
        rw [hR]
        exact s3 j h1 h2
      sep_rooti := by
        intro j h1 h2
        rw [hbl j (by omega)] at h2 ⊢
        rw [hrec]
        exact s1 j h1 h2
      sep_lfi := by
        intro j h1 h2
        rw [hbl j (by omega)] at h2 ⊢
        rw [hrec]
        exact s2 j h1 h2
      sep_root_lfi := by rw [hR]; exact k9 }

/-- On the standard layout the adoption loop keeps the layout, the block
numbers of `/lost+found` and every entry of a direct block of `/lost+found`. -/
theorem adopt_loop_ready (c : Ctx) (fuel : Nat) (stk : Disk) (lf : Nat) (l : List Nat) :
    ∀ (earlier : List Nat) (s s1 : State), LostFoundReady c s.disk lf →
      adopt_loop c fuel stk l earlier s = some s1 →
      LostFoundReady c s1.disk lf
      ∧ (∀ j, j < 15 → dir_blk c s1.disk lf j = dir_blk c s.disk lf j)
      ∧ (∀ j e k, j < 12 → dir_blk c s.disk lf j ≠ 0 →
          holds_entry c.block_size s.disk (blk_addr c (dir_blk c s.disk lf j)) e k →
          holds_entry c.block_size s1.disk (blk_addr c (dir_blk c s.disk lf j)) e k)
      ∧ ∃ rs, s1.log = s.log ++ rs := by
  induction l with
  | nil =>
    intro earlier s s1 hl h
    simp only [adopt_loop, Option.some.injEq] at h
    subst h
    exact ⟨hl, fun _ _ => rfl, fun _ _ _ _ _ hk => hk, [], by simp⟩
  | cons x xs ih =>
    intro earlier s s1 hl h
    rw [adopt_loop] at h
    split at h
    · split at h
      · exact absurd h (by simp)
      · rename_i r d1 hp
        have hfr := put_into_lostfound_frame c fuel stk s.disk lf x r d1 hl hp
        obtain ⟨g1, g2⟩ := LostFoundReady_transfer c s.disk d1 lf hl hfr
        obtain ⟨i1, i2, i3, rs, i4⟩ := ih _ _ _ g1 h
        refine ⟨i1, ?_, ?_, Report.adopt x :: rs, ?_⟩
        · intro j hj
          rw [i2 j hj]
          exact g2 j hj
        · intro j e k hj hjb hk
          have := put_into_lostfound_keeps c fuel stk s.disk lf x r d1 j e k hl hj hjb hk hp
          have q := i3 j e k hj (by show dir_blk c d1 lf j ≠ 0; rw [g2 j (by omega)]; exact hjb)
            (by show holds_entry c.block_size d1 (blk_addr c (dir_blk c d1 lf j)) e k
                rw [g2 j (by omega)]; exact this)
          have e1 : dir_blk c d1 lf j = dir_blk c s.disk lf j := g2 j (by omega)
          simp only at q
          rw [e1] at q
          exact q
        · rw [i4]
          simp
    · exact ih _ _ _ hl h

set_option maxRecDepth 100000 in
set_option maxHeartbeats 4000000 in
/-- Claim C3, counterexample: on `img_full`, whose `/lost+found` has no room
for a new entry, inode 30 (one link, in no directory) is still unreferenced
after pass 2 and the fresh walk from the root with a zeroed reference map.  On
`img_nodotdot`, whose `/lost+found` holds the single entry `.`, there is room:
`get_dir_entry_end` returns the offset 11276 and pass 2 writes the entry of
inode 30 there, as the second entry of the block; the fresh walk takes it for
`..`, reports it and stores the parent's number 2 in it, and inode 30 is
unreferenced after the walk. -/
theorem orphan_left_unreferenced :
    ¬ (∀ s2 s3, fix_unreferenced_inode ctx_ex 64 (fun _ => 0) (after_walk ctx_ex img_full)
          = some s2 →
        traverse_dir ctx_ex (fun _ _ _ => 0) 64 EXT2_ROOT_INO EXT2_ROOT_INO
          { s2 with inode_map := zero_map ctx_ex s2.inode_map } = some s3 →
        ∀ i, 1 ≤ i → i ≤ ctx_ex.num_inodes →
          ¬ (s3.inode_map i = 0
              ∧ i_links_count (read_bytes s3.disk (get_inode_addr ctx_ex i)) > 0))
    ∧ (get_dir_entry_end ctx_ex 64 (fun _ => 0) (after_walk ctx_ex img_nodotdot).disk
          ((11 : Nat) : Int) (8 + ((decimal 30).length - 1) % 256)).map Prod.fst = some 11276
    ∧ rd32 (adopted img_nodotdot).disk 11276 = 30
    ∧ (rewalked img_nodotdot).log = [Report.adopt 30, Report.parent_err 11276 11 2]
    ∧ rd32 (rewalked img_nodotdot).disk 11276 = 2
    ∧ ¬ (∀ s2 s3, fix_unreferenced_inode ctx_ex 64 (fun _ => 0) (after_walk ctx_ex img_nodotdot)
          = some s2 →
        traverse_dir ctx_ex (fun _ _ _ => 0) 64 EXT2_ROOT_INO EXT2_ROOT_INO
          { s2 with inode_map := zero_map ctx_ex s2.inode_map } = some s3 →
        ∀ i, 1 ≤ i → i ≤ ctx_ex.num_inodes →
          ¬ (s3.inode_map i = 0
              ∧ i_links_count (read_bytes s3.disk (get_inode_addr ctx_ex i)) > 0)) := by
  have g1 : (get_dir_entry_end ctx_ex 64 (fun _ => 0) (after_walk ctx_ex img_nodotdot).disk
      ((11 : Nat) : Int) (8 + ((decimal 30).length - 1) % 256)).map Prod.fst = some 11276 := by
    decide
  have g2 : rd32 (adopted img_nodotdot).disk 11276 = 30 := by decide
  have g3 : (rewalked img_nodotdot).log = [Report.adopt 30, Report.parent_err 11276 11 2] := by
    decide
  have g4 : rd32 (rewalked img_nodotdot).disk 11276 = 2 := by decide
  refine ⟨?_, g1, g2, g3, g4, ?_⟩
  · intro h
    have e1 : fix_unreferenced_inode ctx_ex 64 (fun _ => 0) (after_walk ctx_ex img_full)
        = some (adopted img_full) := by rfl
    have e2 : traverse_dir ctx_ex (fun _ _ _ => 0) 64 EXT2_ROOT_INO EXT2_ROOT_INO
        { adopted img_full with inode_map := zero_map ctx_ex (adopted img_full).inode_map }
        = some (rewalked img_full) := by rfl
    have e3 : (rewalked img_full).inode_map 30 = 0 := by decide
    have e4 : i_links_count (read_bytes (rewalked img_full).disk
        (get_inode_addr ctx_ex (30 : Nat))) > 0 := by decide
    exact h (adopted img_full) (rewalked img_full) e1 e2 30 (by omega) (by decide) ⟨e3, e4⟩
  · intro h
    have e1 : fix_unreferenced_inode ctx_ex 64 (fun _ => 0) (after_walk ctx_ex img_nodotdot)
        = some (adopted img_nodotdot) := by rfl
    have e2 : traverse_dir ctx_ex (fun _ _ _ => 0) 64 EXT2_ROOT_INO EXT2_ROOT_INO
        { adopted img_nodotdot with
          inode_map := zero_map ctx_ex (adopted img_nodotdot).inode_map }
        = some (rewalked img_nodotdot) := by rfl
    have e3 : (rewalked img_nodotdot).inode_map 30 = 0 := by decide
    have e4 : i_links_count (read_bytes (rewalked img_nodotdot).disk
        (get_inode_addr ctx_ex (30 : Nat))) > 0 := by decide
    exact h (adopted img_nodotdot) (rewalked img_nodotdot) e1 e2 30 (by omega) (by decide)
      ⟨e3, e4⟩

/-- Claim C3, amended: let the image after pass 1 be laid out as `mke2fs` leaves it
(`LostFoundReady`).  Let `k` be an orphan that pass 2 links into `/lost+found`
(when its turn comes, after the orphans `pre`, it is not a directory or its
stored parent is not one of `pre`), let `get_dir_entry_end` find room for its
entry at offset `r` at that moment, in a direct block of `/lost+found` whose
`rec_len` values chain to the end of the block, and let no repair that the
fresh walk reports overwrite that entry or a `rec_len` field before it
(`spares_entry`).  Then after pass 2 followed by a fresh walk from the root
with a zeroed reference map, `inode_refs[k]` is not 0. -/
theorem adopted_orphan_is_referenced (c : Ctx) (stk : Disk) (wstk : Stale) (fuel fuel2 : Nat)
    (s1 t s2 s3 : State) (lf k r : Nat) (d1 : Disk) (pre post : List Nat) (rs : List Report)
    (hl : LostFoundReady c s1.disk lf)
    (hsplit : uref_inodes c s1 = pre ++ k :: post)
    (ht : adopt_loop c fuel stk pre [] s1 = some t)
    (hcond : (!EXT2_S_ISDIR (i_mode (read_bytes t.disk (get_inode_addr c k)))
      || !(pre.contains (get_parent_id c t.disk (read_bytes t.disk (get_inode_addr c k)))))
      = true)
    (hend : get_dir_entry_end c fuel stk t.disk (lf : Int)
        (8 + ((decimal k).length - 1) % 256) = some (r, d1))
    (hroom : r ≠ 4294967295)
    (hsound : ∀ j, j < 12 → dir_blk c t.disk lf j ≠ 0 →
      blk_addr c (dir_blk c t.disk lf j) ≤ r →
      r < blk_addr c (dir_blk c t.disk lf j) + c.block_size →
      ∃ n, chain_to c.block_size (read_bytes t.disk (blk_addr c (dir_blk c t.disk lf j))) n 0
        = true)
    (h2 : fix_unreferenced_inode c fuel stk s1 = some s2)
    (h3 : traverse_dir c wstk fuel2 EXT2_ROOT_INO EXT2_ROOT_INO
      { s2 with inode_map := zero_map c s2.inode_map } = some s3)
    (hlog : s3.log = s2.log ++ rs)
    (hfr : ∀ rep ∈ rs, spares_entry c s2.disk lf r k rep) :
    s3.inode_map k ≠ 0 := by
  have hmem : ∀ i ∈ uref_inodes c s1, i ≤ c.num_inodes := by
    intro i hi
    unfold uref_inodes at hi
    have := (List.mem_filter.mp hi).1
    rw [List.mem_range'_1] at this
    omega
  have hsmall := hl.ino_small
  rw [hsplit] at hmem
  have hk : k ≤ c.num_inodes := hmem k (by simp)
  unfold fix_unreferenced_inode at h2
  rw [hsplit, adopt_loop_append, ht] at h2
  simp only [Option.bind_eq_bind, Option.some_bind, List.nil_append] at h2
  obtain ⟨hlt1, _, _, _⟩ := adopt_loop_ready c fuel stk lf pre [] s1 t hl ht
  rw [adopt_loop, if_pos hcond] at h2
  split at h2
  · exact absurd h2 (by simp)
  · rename_i v d2 hp
    obtain ⟨j, hj, hjb, hle, hhold⟩ := put_into_lostfound_lists c fuel stk t.disk lf k r v d1 d2
      hlt1 (by omega) hend hroom hsound hp
    have hfrm := put_into_lostfound_frame c fuel stk t.disk lf k v d2 hlt1 hp
    obtain ⟨g1, g2⟩ := LostFoundReady_transfer c t.disk d2 lf hlt1 hfrm
    obtain ⟨hl2, i2, i3, _⟩ := adopt_loop_ready c fuel stk lf post _ _ s2 g1 h2
    have e1 : dir_blk c d2 lf j = dir_blk c t.disk lf j := g2 j (by omega)
    have e2 : dir_blk c s2.disk lf j = dir_blk c t.disk lf j := by
      rw [i2 j (by omega)]
      exact e1
    have hh := i3 j (r - blk_addr c (dir_blk c t.disk lf j)) k hj
      (by show dir_blk c d2 lf j ≠ 0; rw [e1]; exact hjb)
      (by show holds_entry c.block_size d2 (blk_addr c (dir_blk c d2 lf j)) _ k
          rw [e1]; exact hhold)
    simp only at hh
    rw [e1, ← e2] at hh
    rw [← e2] at hle hjb
    generalize hAdef : blk_addr c (dir_blk c s2.disk lf j) = A at *
    obtain ⟨⟨m, hat⟩, he, hrd, _⟩ := hh
    have hrA : A + (r - A) = r := by omega
    have hz : ({ s2 with inode_map := zero_map c s2.inode_map } : State).inode_map lf = 0 := by
      show zero_map c s2.inode_map lf = 0
      unfold zero_map
      rw [if_pos hl2.lf_le]
    have hin := hl2.e3_in
    have hl1 := hl2.e1_len
    have hl3 := hl2.e2_len
    have hn3 := hl2.e3_nlen
    have h8a : 8 ≤ rd16 s2.disk (dir_block0 c s2.disk EXT2_ROOT_INO + 4) := by omega
    have h8b : 8 ≤ rd16 s2.disk (dir_block0 c s2.disk EXT2_ROOT_INO
        + (rd16 s2.disk (dir_block0 c s2.disk EXT2_ROOT_INO + 4) + 4)) := by omega
    have hn3b : rd8 s2.disk (dir_block0 c s2.disk EXT2_ROOT_INO
      + (rd16 s2.disk (dir_block0 c s2.disk EXT2_ROOT_INO + 4)
        + rd16 s2.disk (dir_block0 c s2.disk EXT2_ROOT_INO
            + (rd16 s2.disk (dir_block0 c s2.disk EXT2_ROOT_INO + 4) + 4)) + 6)) ≠ 255 := by
      rw [hn3]; decide
    have := root_walk_counts_entry c wstk fuel2
      { s2 with inode_map := zero_map c s2.inode_map } s3 lf j k (r - A) m rs h3
      hl2.root_dir hl2.root_blk h8a h8b
      (Nat.lt_of_lt_of_le (Nat.lt_add_of_pos_right (by decide)) hin)
      hl2.e1_short hl2.e2_short
      hn3b
      hl2.e3_ino hl2.e3_type hl2.lf_le hl2.lf_ne hz hl2.lf_dir hj hjb hl2.sep_root_lfi
      he hk (by show entry_at (read_bytes s2.disk (blk_addr c (dir_blk c s2.disk lf j))) m 0 _
                  = true
                rw [hAdef]; exact hat)
      (by show rd32 s2.disk (blk_addr c (dir_blk c s2.disk lf j) + _) = k
          rw [hAdef]; exact hrd)
      hlog
      (by
        intro rep hrep
        obtain ⟨f1, f2⟩ := hfr rep hrep
        have f3 := f2 j m hj hjb (by rw [hAdef]; exact hle) (by rw [hAdef]; omega)
          (by rw [hAdef]; exact hat)
        rw [hAdef] at f3
        show keeps (blk_addr c (dir_blk c s2.disk lf j) + _) k rep
          ∧ spares_chain (read_bytes s2.disk (blk_addr c (dir_blk c s2.disk lf j)))
              (blk_addr c (dir_blk c s2.disk lf j)) m rep
        rw [hAdef, hrA]
        exact ⟨f1, f3⟩)
    omega

set_option maxRecDepth 100000 in
set_option maxHeartbeats 4000000 in
/-- Witness for `adopted_orphan_is_referenced`: on `img_twoblock` the one orphan
is inode 30, a regular file; the first block of `/lost+found` (inode 11) is
full and `get_dir_entry_end` finds room at offset 21516, in the second block;
the fresh walk, whose name buffer holds the byte 65 where it is read unwritten,
reports the `.` entries of the root and of `/lost+found`, and after it inode 30
has a reference. -/
theorem adopted_orphan_is_referenced_witness :
    uref_inodes ctx_ex (after_walk ctx_ex img_twoblock) = [30]
    ∧ twoblock_dir_end.1 = 21516
    ∧ (rewalked_junk img_twoblock 65).log
        = (adopted img_twoblock).log
          ++ [Report.self_err 10240 2 2, Report.self_err 11264 11 11]
    ∧ (rewalked_junk img_twoblock 65).inode_map 30 ≠ 0 := by
  have hl : LostFoundReady ctx_ex (after_walk ctx_ex img_twoblock).disk 11 :=
    { root_dir := by decide
      root_blk := by decide
      e1_len := by decide
      e1_type := by decide
      e1_short := by decide
      e1_name := by decide
      e2_len := by decide
      e2_type := by decide
      e2_short := by decide
      e2_name := by decide
      e3_in := by decide
      e3_ino := by decide
      e3_type := by decide
      e3_nlen := by decide
      e3_name := by decide
      lf_pos := by decide
      lf_le := by decide
      lf_ne := by decide
      ino_small := by decide
      lf_dir := by decide
      lf_ind := by decide
      lf_apart := by decide
      fit := by decide
      bs_le := by decide
      root_hi := by decide
      rooti_hi := by decide
      lfi_hi := by decide
      sep_root := by decide
      sep_rooti := by decide
      sep_lfi := by decide
      sep_root_lfi := by decide }
  have hsplit : uref_inodes ctx_ex (after_walk ctx_ex img_twoblock) = [] ++ 30 :: [] := by
    decide
  have ht : adopt_loop ctx_ex 64 (fun _ => 0) [] [] (after_walk ctx_ex img_twoblock)
      = some (after_walk ctx_ex img_twoblock) := rfl
  have hcond : (!EXT2_S_ISDIR (i_mode (read_bytes (after_walk ctx_ex img_twoblock).disk
        (get_inode_addr ctx_ex (30 : Nat))))
      || !(([] : List Nat).contains (get_parent_id ctx_ex (after_walk ctx_ex img_twoblock).disk
        (read_bytes (after_walk ctx_ex img_twoblock).disk (get_inode_addr ctx_ex (30 : Nat))))))
      = true := by decide
  have hr : twoblock_dir_end.1 = 21516 := by decide
  have hend : get_dir_entry_end ctx_ex 64 (fun _ => 0) (after_walk ctx_ex img_twoblock).disk
      ((11 : Nat) : Int) (8 + ((decimal 30).length - 1) % 256)
      = some (21516, twoblock_dir_end.2) := by
    have e0 : get_dir_entry_end ctx_ex 64 (fun _ => 0) (after_walk ctx_ex img_twoblock).disk
        ((11 : Nat) : Int) (8 + ((decimal 30).length - 1) % 256)
        = some (twoblock_dir_end.1, twoblock_dir_end.2) := by rfl
    rw [e0, hr]
  have hb1 : ∀ j, j < 12 →
      dir_blk ctx_ex (after_walk ctx_ex img_twoblock).disk 11 j
        = [10, 20].getD j 0 := by decide
  have hb2 : ∀ j, j < 12 →
      dir_blk ctx_ex (adopted img_twoblock).disk 11 j = [10, 20].getD j 0 := by decide
  have hba : ∀ b, b = 10 ∨ b = 20 → blk_addr ctx_ex b = 1024 + b * 1024 := by
    intro b hb
    rcases hb with hb | hb <;> subst hb <;> decide
  have hsound : ∀ j, j < 12 → dir_blk ctx_ex (after_walk ctx_ex img_twoblock).disk 11 j ≠ 0 →
      blk_addr ctx_ex (dir_blk ctx_ex (after_walk ctx_ex img_twoblock).disk 11 j) ≤ 21516 →
      21516 < blk_addr ctx_ex (dir_blk ctx_ex (after_walk ctx_ex img_twoblock).disk 11 j)
        + ctx_ex.block_size →
      ∃ n, chain_to ctx_ex.block_size (read_bytes (after_walk ctx_ex img_twoblock).disk
        (blk_addr ctx_ex (dir_blk ctx_ex (after_walk ctx_ex img_twoblock).disk 11 j))) n 0
        = true := by
    intro j hj hb h1 h2
    rw [hb1 j hj] at hb h1 h2 ⊢
    have hbs : ctx_ex.block_size = 1024 := rfl
    rw [hbs] at h2
    match j, hj with
    | 0, _ =>
      have := hba 10 (Or.inl rfl)
      simp only [List.getD_cons_zero] at h2
      omega
    | 1, _ => exact ⟨1, by decide⟩
    | j + 2, _ => exact absurd rfl hb
  have h2 : fix_unreferenced_inode ctx_ex 64 (fun _ => 0) (after_walk ctx_ex img_twoblock)
      = some (adopted img_twoblock) := by rfl
  have h3 : traverse_dir ctx_ex (fun _ _ _ => 65) 64 EXT2_ROOT_INO EXT2_ROOT_INO
      { adopted img_twoblock with
        inode_map := zero_map ctx_ex (adopted img_twoblock).inode_map }
      = some (rewalked_junk img_twoblock 65) := by rfl
  have hlog : (rewalked_junk img_twoblock 65).log
      = (adopted img_twoblock).log
        ++ [Report.self_err 10240 2 2, Report.self_err 11264 11 11] := by decide
  have hfr : ∀ rep ∈ [Report.self_err 10240 2 2, Report.self_err 11264 11 11],
      spares_entry ctx_ex (adopted img_twoblock).disk 11 21516 30 rep := by
    intro rep hrep
    have hoff : ∃ off x y, rep = Report.self_err off x y ∧ off < 12000 := by
      simp only [List.mem_cons, List.mem_singleton, List.not_mem_nil, or_false] at hrep
      rcases hrep with h | h
      · exact ⟨_, _, _, h, by decide⟩
      · exact ⟨_, _, _, h, by decide⟩
    obtain ⟨off, x, y, hrep2, hlt⟩ := hoff
    subst hrep2
    refine ⟨Or.inl (by omega), ?_⟩
    intro j m hj hb h1 h2 _ m' p _ _
    rw [hb2 j hj] at hb h1 h2 ⊢
    have hbs : ctx_ex.block_size = 1024 := rfl
    rw [hbs] at h2
    match j, hj with
    | 0, _ =>
      have := hba 10 (Or.inl rfl)
      simp only [List.getD_cons_zero] at h2
      omega
    | 1, _ =>
      have := hba 20 (Or.inr rfl)
      simp only [List.getD_cons_succ, List.getD_cons_zero] at this ⊢
      simp only [touches]
      omega
    | j + 2, _ => exact absurd rfl hb
  exact ⟨by decide, hr, hlog,
    adopted_orphan_is_referenced ctx_ex (fun _ => 0) (fun _ _ _ => 65) 64 64
      (after_walk ctx_ex img_twoblock) (after_walk ctx_ex img_twoblock) (adopted img_twoblock)
      (rewalked_junk img_twoblock 65) 11 30 21516 twoblock_dir_end.2 [] []
      [Report.self_err 10240 2 2, Report.self_err 11264 11 11]
      hl hsplit ht hcond hend (by decide) hsound h2 h3 hlog hfr⟩

/-! ## The partition table: primary partitions -/

/-- Claim C13, counterexample: on `img_far` the first primary entry starts at
sector `0x00800000`; `read_partition_info(1)` succeeds and sets `base` to 0,
not to `start_sec * 512 = 2^32`. -/
theorem partition_base_wraps :
    ¬ (∀ pt, read_partition_info img_far 1 = some pt → pt.base = pt.start_sec * 512) := by
  intro h
  have h1 := h ⟨1, 0, 8388608, 0, 0⟩ (by decide)
  revert h1
  decide

/-- Claim C13, amended: for every content of sector 0 and every `n` with
`1 ≤ n ≤ 4`, `read_partition_info(n)` succeeds and returns `type` = the byte at
offset `0x1BE + 16(n-1) + 4`, `start_sec` = the little-endian 32-bit value at
`+8`, `length` = the little-endian 32-bit value at `+0xC` of that entry, and
`base = start_sec * 512` reduced modulo `2^32`; `base` is `start_sec * 512`
itself when `start_sec < 2^22`, that is when the product fits an `int`. -/
theorem read_partition_info_primary (d : Disk) (n : Nat) (h1 : 1 ≤ n) (h4 : n ≤ 4) :
    ∃ pt, read_partition_info d (n : Int) = some pt
      ∧ pt.partition_num = (n : Int)
      ∧ pt.type = rd8 d (0x1BE + 16 * (n - 1) + 4)
      ∧ pt.start_sec = rd32 d (0x1BE + 16 * (n - 1) + 8)
      ∧ pt.length = rd32 d (0x1BE + 16 * (n - 1) + 12)
      ∧ pt.base = pt.start_sec * 512 % 4294967296
      ∧ (pt.start_sec < 4194304 → pt.base = pt.start_sec * 512) := by
  have hn0 : ¬ ((n : Int) ≤ 0) := by omega
  have hn4 : ((n : Int) ≤ 4) := by omega
  unfold read_partition_info
  rw [if_neg hn0]
  simp only [hn4, if_true, Int.toNat_ofNat]
  refine ⟨_, rfl, rfl, ?_, ?_, ?_, ?_, ?_⟩
  · simp [read_sector, rd8, read_bytes, BOOTSTRAP_SIZE, PARTITION_ENTRY_SIZE]
  · simp [read_sector, rd32, rd8, read_bytes, BOOTSTRAP_SIZE, PARTITION_ENTRY_SIZE]
  · simp [read_sector, rd32, rd8, read_bytes, BOOTSTRAP_SIZE, PARTITION_ENTRY_SIZE]
  · simp [u32, SECTOR_SIZE]
  · intro hs
    simp only [u32, SECTOR_SIZE] at hs ⊢
    omega

/-- Witness for `read_partition_info_primary`: partition 1 of `img_orphan` has
type `0x83`, starts at sector 2 (byte 1024) and is 64 sectors long. -/
theorem read_partition_info_primary_witness :
    rd8 img_orphan (0x1BE + 16 * (1 - 1) + 4) = 131
    ∧ ∃ pt, read_partition_info img_orphan ((1 : Nat) : Int) = some pt
      ∧ pt.partition_num = ((1 : Nat) : Int)
      ∧ pt.type = rd8 img_orphan (0x1BE + 16 * (1 - 1) + 4)
      ∧ pt.start_sec = rd32 img_orphan (0x1BE + 16 * (1 - 1) + 8)
      ∧ pt.length = rd32 img_orphan (0x1BE + 16 * (1 - 1) + 12)
      ∧ pt.base = pt.start_sec * 512 % 4294967296
      ∧ (pt.start_sec < 4194304 → pt.base = pt.start_sec * 512) :=
  ⟨by decide, read_partition_info_primary img_orphan 1 (by decide) (by decide)⟩

/-! ## The partition table: logical partitions -/

theorem find_extended_spec (buf : Disk) :
    ∀ (l : List Nat), (∀ i ∈ l, 1 ≤ i ∧ i ≤ 4) →
      (find_extended buf l = 5
        ∧ ∀ i ∈ l, rd8 buf (BOOTSTRAP_SIZE + PARTITION_ENTRY_SIZE * (i - 1) + 4)
            ≠ DOS_EXTENDED_PARTITION)
      ∨ (find_extended buf l ∈ l
        ∧ rd8 buf (BOOTSTRAP_SIZE + PARTITION_ENTRY_SIZE * (find_extended buf l - 1) + 4)
            = DOS_EXTENDED_PARTITION) := by
  intro l
  induction l with
  | nil => intro _; left; exact ⟨rfl, fun i hi => by simp at hi⟩
  | cons x xs ih =>
    intro hl
    rw [find_extended]
    split
    · rename_i hx
      right
      exact ⟨List.mem_cons_self _ _, hx⟩
    · rename_i hx
      rcases ih (fun i hi => hl i (List.mem_cons_of_mem _ hi)) with ⟨h5, hall⟩ | ⟨hm, ht⟩
      · left
        refine ⟨h5, ?_⟩
        intro i hi
        rcases List.mem_cons.mp hi with h | h
        · subst h; exact hx
        · exact hall i h
      · right
        exact ⟨List.mem_cons_of_mem _ hm, ht⟩

theorem ebr_walk_spec (d : Disk) (ebr0 : Nat) :
    ∀ (hops j : Nat),
      (ebr_walk d ebr0 hops (ebr_at d ebr0 j) = none
        ∧ ∃ k, k < hops ∧ ebr_link_zero d (ebr_at d ebr0 (j + k)))
      ∨ (ebr_walk d ebr0 hops (ebr_at d ebr0 j) = some (ebr_at d ebr0 (j + hops))
        ∧ ∀ k, k < hops → ¬ ebr_link_zero d (ebr_at d ebr0 (j + k))) := by
  intro hops
  induction hops with
  | zero =>
    intro j
    right
    exact ⟨rfl, fun k hk => by omega⟩
  | succ hops ih =>
    intro j
    rw [ebr_walk]
    by_cases hz : ebr_link_zero d (ebr_at d ebr0 j)
    · left
      have hz' := hz
      unfold ebr_link_zero at hz'
      refine ⟨by simp only [hz', and_self, if_true], 0, by omega, hz⟩
    · have hz' := hz
      unfold ebr_link_zero at hz'
      simp only [hz', if_false]
      have hstep : u32 (ebr0 + rd32 (read_sector d (ebr_at d ebr0 j)) (BOOTSTRAP_SIZE + 24))
          = ebr_at d ebr0 (j + 1) := rfl
      rw [hstep]
      rcases ih (j + 1) with ⟨hn, k, hk, hkz⟩ | ⟨hs, hall⟩
      · left
        refine ⟨hn, k + 1, by omega, ?_⟩
        have : j + (k + 1) = j + 1 + k := by omega
        rw [this]
        exact hkz
      · right
        refine ⟨?_, ?_⟩
        · rw [hs]
          congr 2
          omega
        · intro k hk
          cases k with
          | zero => exact hz
          | succ k =>
            have : j + (k + 1) = j + 1 + k := by omega
            rw [this]
            exact hall k (by omega)

theorem find_extended_first (buf : Disk) :
    (find_extended buf [1, 2, 3, 4] = 5
      ∧ ∀ j, 1 ≤ j → j ≤ 4 → rd8 buf (0x1BE + 16 * (j - 1) + 4) ≠ DOS_EXTENDED_PARTITION)
    ∨ (1 ≤ find_extended buf [1, 2, 3, 4] ∧ find_extended buf [1, 2, 3, 4] ≤ 4
      ∧ rd8 buf (0x1BE + 16 * (find_extended buf [1, 2, 3, 4] - 1) + 4) = DOS_EXTENDED_PARTITION
      ∧ ∀ j, 1 ≤ j → j < find_extended buf [1, 2, 3, 4] →
          rd8 buf (0x1BE + 16 * (j - 1) + 4) ≠ DOS_EXTENDED_PARTITION) := by
  simp only [find_extended, BOOTSTRAP_SIZE, PARTITION_ENTRY_SIZE]
  by_cases h1 : rd8 buf (0x1be + 16 * (1 - 1) + 4) = DOS_EXTENDED_PARTITION
  · right
    rw [if_pos h1]
    exact ⟨by omega, by omega, h1, fun j hj1 hj2 => by omega⟩
  · rw [if_neg h1]
    by_cases h2 : rd8 buf (0x1be + 16 * (2 - 1) + 4) = DOS_EXTENDED_PARTITION
    · right
      rw [if_pos h2]
      refine ⟨by omega, by omega, h2, ?_⟩
      intro j hj1 hj2
      have : j = 1 := by omega
      subst this
      exact h1
    · rw [if_neg h2]
      by_cases h3 : rd8 buf (0x1be + 16 * (3 - 1) + 4) = DOS_EXTENDED_PARTITION
      · right
        rw [if_pos h3]
        refine ⟨by omega, by omega, h3, ?_⟩
        intro j hj1 hj2
        have : j = 1 ∨ j = 2 := by omega
        rcases this with h | h <;> subst h
        · exact h1
        · exact h2
      · rw [if_neg h3]
        by_cases h4 : rd8 buf (0x1be + 16 * (4 - 1) + 4) = DOS_EXTENDED_PARTITION
        · right
          rw [if_pos h4]
          refine ⟨by omega, by omega, h4, ?_⟩
          intro j hj1 hj2
          have : j = 1 ∨ j = 2 ∨ j = 3 := by omega
          rcases this with h | h | h <;> subst h
          · exact h1
          · exact h2
          · exact h3
        · left
          rw [if_neg h4]
          refine ⟨rfl, ?_⟩
          intro j hj1 hj2
          have : j = 1 ∨ j = 2 ∨ j = 3 ∨ j = 4 := by omega
          rcases this with h | h | h | h <;> subst h
          · exact h1
          · exact h2
          · exact h3
          · exact h4

theorem rd8_sector (d : Disk) (sec k : Nat) : rd8 (read_sector d sec) k = rd8 d (sec * 512 + k) := by
  simp [read_sector, rd8, read_bytes, SECTOR_SIZE]

theorem rd32_sector (d : Disk) (sec k : Nat) :
    rd32 (read_sector d sec) k = rd32 d (sec * 512 + k) := by
  simp [read_sector, rd32, rd8, read_bytes, SECTOR_SIZE, Nat.add_assoc]

set_option maxRecDepth 100000 in
/-- Claim C14, counterexample: on `img_lba` the second primary entry has the
extended type `0x0F` and the start sector 100, and the record at sector 100
has a non-zero link, so the chain has the one hop that partition 6 needs; yet
`read_partition_info(6)` returns not-found.  On `img_ebr`, the same disk with
the type `0x05` in that entry, partition 6 is found at sector 161. -/
theorem logical_behind_lba_primary_not_found :
    rd8 img_lba (0x1BE + 16 * (2 - 1) + 4) = 0x0F
    ∧ rd32 img_lba (0x1BE + 16 * (2 - 1) + 8) = 100
    ∧ ¬ ebr_link_zero img_lba (ebr_at img_lba 100 0)
    ∧ read_partition_info img_lba 6 = none
    ∧ (read_partition_info img_ebr 6).map (fun pt => pt.start_sec) = some 161 := by
  refine ⟨by decide, by decide, by decide, by decide, by decide⟩

/-- Claim C14, amended: logical partitions.  Let `n ≥ 5`, let a primary entry of type
`DOS_EXTENDED_PARTITION` exist, `EBR0 = extended_start` being the start sector
of the first such entry, and let the records at the first `n - 5` sectors
`ebr_at k` of the chain have a second entry that is not all zero.  With the
sector sums below `2^31` (they fit the `int` the code keeps them in),
`read_partition_info(n)` succeeds with `start_sec = E + ` (start field of the
first entry of the record at `E`), `type` = byte `+4` and `length` = the length
field of that entry, where `E = ebr_at (n - 5)` is obtained from `EBR0` by
`n - 5` hops `E ← EBR0 + ` (start field of the second entry of the record at `E`). -/
theorem read_partition_info_logical (d : Disk) (n : Nat) (h5 : 5 ≤ n)
    (hext : ∃ i, 1 ≤ i ∧ i ≤ 4 ∧ rd8 d (0x1BE + 16 * (i - 1) + 4) = DOS_EXTENDED_PARTITION)
    (hlinks : ∀ k, k < n - 5 → ¬ ebr_link_zero d (ebr_at d (extended_start d) k))
    (hfit : ∀ k, k < n - 5 →
      extended_start d + rd32 d (ebr_at d (extended_start d) k * 512 + 0x1BE + 24) < 2147483648)
    (hfit2 : ebr_at d (extended_start d) (n - 5)
      + rd32 d (ebr_at d (extended_start d) (n - 5) * 512 + 0x1BE + 8) < 2147483648) :
    ∃ pt, read_partition_info d (n : Int) = some pt
      ∧ pt.type = rd8 d (ebr_at d (extended_start d) (n - 5) * 512 + 0x1BE + 4)
      ∧ pt.start_sec = ebr_at d (extended_start d) (n - 5)
          + rd32 d (ebr_at d (extended_start d) (n - 5) * 512 + 0x1BE + 8)
      ∧ pt.length = rd32 d (ebr_at d (extended_start d) (n - 5) * 512 + 0x1BE + 12)
      ∧ (∀ k, k < n - 5 → ebr_at d (extended_start d) (k + 1)
          = extended_start d + rd32 d (ebr_at d (extended_start d) k * 512 + 0x1BE + 24))
      ∧ ∃ i, 1 ≤ i ∧ i ≤ 4 ∧ rd8 d (0x1BE + 16 * (i - 1) + 4) = DOS_EXTENDED_PARTITION
          ∧ (∀ j, 1 ≤ j → j < i → rd8 d (0x1BE + 16 * (j - 1) + 4) ≠ DOS_EXTENDED_PARTITION)
          ∧ extended_start d = rd32 d (0x1BE + 16 * (i - 1) + 8) := by
  have hn0 : ¬ ((n : Int) ≤ 0) := by omega
  have hn4 : ¬ ((n : Int) ≤ 4) := by omega
  have hsec0 : ∀ k, rd8 (read_sector d 0) k = rd8 d k := by
    intro k; rw [rd8_sector]; simp
  have hsec0w : ∀ k, rd32 (read_sector d 0) k = rd32 d k := by
    intro k; rw [rd32_sector]; simp
  rcases find_extended_first (read_sector d 0) with ⟨_, hall⟩ | ⟨hi1, hi4, hty, hfirst⟩
  · obtain ⟨i, h1, h4, ht⟩ := hext
    exact absurd ht (by rw [← hsec0]; exact hall i h1 h4)
  · have hwalk := ebr_walk_spec d (extended_start d) (n - 5) 0
    simp only [Nat.zero_add] at hwalk
    rcases hwalk with ⟨_, k, hk, hz⟩ | ⟨hs, _⟩
    · exact absurd hz (hlinks k hk)
    · have hes : rd32 (read_sector d 0)
          (BOOTSTRAP_SIZE + 16 * (find_extended (read_sector d 0) [1, 2, 3, 4] - 1) + 8)
          = extended_start d := rfl
      have he0 : ebr_at d (extended_start d) 0 = extended_start d := rfl
      rw [he0] at hs
      unfold read_partition_info
      rw [if_neg hn0]
      simp only [hn4, if_false, Int.toNat_ofNat, gt_iff_lt, Nat.not_lt.mpr hi4, hes, hs]
      generalize hE : ebr_at d (extended_start d) (n - 5) = E at *
      refine ⟨_, rfl, ?_, ?_, ?_, ?_, ?_⟩
      · simp only [rd8_sector, BOOTSTRAP_SIZE, Nat.add_assoc]
      · simp only [rd32_sector, BOOTSTRAP_SIZE, u32, Nat.add_assoc] at hfit2 ⊢
        exact Nat.mod_eq_of_lt (by omega)
      · simp only [rd32_sector, BOOTSTRAP_SIZE, Nat.add_assoc]
      · intro k hk
        have := hfit k hk
        show u32 _ = _
        simp only [rd32_sector, BOOTSTRAP_SIZE, u32, Nat.add_assoc] at this ⊢
        exact Nat.mod_eq_of_lt (by omega)
      · refine ⟨_, hi1, hi4, ?_, ?_, ?_⟩
        · rw [← hsec0]; exact hty
        · intro j hj1 hj2
          rw [← hsec0]
          exact hfirst j hj1 hj2
        · rw [← hsec0w]
          rfl

/-- Witness for `read_partition_info_logical`: partition 6 of `img_ebr` is
found one hop from the first record (sector 100) at sector 160; it starts at
sector 161, has type `0x83` and is 40 sectors long. -/
theorem read_partition_info_logical_witness :
    extended_start img_ebr = 100 ∧ ebr_at img_ebr (extended_start img_ebr) (6 - 5) = 160
    ∧ ∃ pt, read_partition_info img_ebr ((6 : Nat) : Int) = some pt
      ∧ pt.type = rd8 img_ebr (ebr_at img_ebr (extended_start img_ebr) (6 - 5) * 512 + 0x1BE + 4)
      ∧ pt.start_sec = ebr_at img_ebr (extended_start img_ebr) (6 - 5)
          + rd32 img_ebr (ebr_at img_ebr (extended_start img_ebr) (6 - 5) * 512 + 0x1BE + 8)
      ∧ pt.length
          = rd32 img_ebr (ebr_at img_ebr (extended_start img_ebr) (6 - 5) * 512 + 0x1BE + 12)
      ∧ (∀ k, k < 6 - 5 → ebr_at img_ebr (extended_start img_ebr) (k + 1)
          = extended_start img_ebr
            + rd32 img_ebr (ebr_at img_ebr (extended_start img_ebr) k * 512 + 0x1BE + 24))
      ∧ ∃ i, 1 ≤ i ∧ i ≤ 4 ∧ rd8 img_ebr (0x1BE + 16 * (i - 1) + 4) = DOS_EXTENDED_PARTITION
          ∧ (∀ j, 1 ≤ j → j < i →
              rd8 img_ebr (0x1BE + 16 * (j - 1) + 4) ≠ DOS_EXTENDED_PARTITION)
          ∧ extended_start img_ebr = rd32 img_ebr (0x1BE + 16 * (i - 1) + 8) :=
  ⟨by decide, by decide,
   read_partition_info_logical img_ebr 6 (by decide) ⟨2, by decide, by decide, by decide⟩
     (by decide) (by decide) (by decide)⟩

/-- Claim C15, counterexample: `img_lba` has a primary entry of type `0x0F`
(start sector 100, with the records of `img_ebr` behind it) and partition 5
needs no hop, yet `read_partition_info(5)` returns not-found, while on
`img_ebr`, the same disk with type `0x05`, it succeeds. -/
theorem extended_lba_not_resolved :
    (read_partition_info img_ebr 5).isSome = true
    ∧ ¬ (read_partition_info img_lba 5 = none ↔
        ((5 : Int) ≤ 0 ∨ ((5 : Int) ≥ 5
          ∧ ((∀ i, 1 ≤ i → i ≤ 4 → rd8 img_lba (0x1BE + 16 * (i - 1) + 4) ≠ 0x05
                ∧ rd8 img_lba (0x1BE + 16 * (i - 1) + 4) ≠ 0x0F)
            ∨ ∃ k, k < 5 - 5 ∧ ebr_link_zero img_lba (ebr_at img_lba 100 k))))) := by
  refine ⟨by decide, ?_⟩
  intro h
  have hn : read_partition_info img_lba 5 = none := by decide
  rcases h.mp hn with h0 | ⟨_, h1 | ⟨k, hk, _⟩⟩
  · omega
  · have h2 := (h1 2 (by decide) (by decide)).2
    revert h2
    decide
  · omega

/-- Claim C15, amended: `read_partition_info(n)` returns not-found exactly when
`n ≤ 0`, or `n ≥ 5` and either no primary entry has the type
`DOS_EXTENDED_PARTITION` (`0x05`; an entry of type `0x0F` does not count) or
one of the first `n - 5` records of the chain that starts at the first such
entry has an all-zero second entry. -/
theorem read_partition_info_none_iff (d : Disk) (n : Int) :
    read_partition_info d n = none ↔
      (n ≤ 0 ∨ (5 ≤ n
        ∧ ((∀ i, 1 ≤ i → i ≤ 4 → rd8 d (0x1BE + 16 * (i - 1) + 4) ≠ DOS_EXTENDED_PARTITION)
          ∨ ∃ k, k < n.toNat - 5 ∧ ebr_link_zero d (ebr_at d (extended_start d) k)))) := by
  have hsec0 : ∀ k, rd8 (read_sector d 0) k = rd8 d k := by
    intro k; rw [rd8_sector]; simp
  have hes : rd32 (read_sector d 0)
      (BOOTSTRAP_SIZE + 16 * (find_extended (read_sector d 0) [1, 2, 3, 4] - 1) + 8)
      = extended_start d := rfl
  unfold read_partition_info
  by_cases hn0 : n ≤ 0
  · simp [hn0]
  · rw [if_neg hn0]
    by_cases hn4 : n ≤ 4
    · simp only [hn4, if_true]
      constructor
      · intro h; exact absurd h (by simp)
      · intro h
        rcases h with h | ⟨h, _⟩ <;> omega
    · simp only [hn4, if_false, hes]
      have h5 : 5 ≤ n := by omega
      rcases find_extended_first (read_sector d 0) with ⟨he5, hall⟩ | ⟨hi1, hi4, hty, hfirst⟩
      · rw [he5]
        simp only [gt_iff_lt, Nat.lt_add_one, if_true, true_iff]
        right
        refine ⟨h5, Or.inl ?_⟩
        intro i h1 h4
        rw [← hsec0]
        exact hall i h1 h4
      · rw [if_neg (by omega)]
        have hnot : ¬ ∀ i, 1 ≤ i → i ≤ 4 →
            rd8 d (0x1BE + 16 * (i - 1) + 4) ≠ DOS_EXTENDED_PARTITION := by
          intro hc
          exact hc _ hi1 hi4 (by rw [← hsec0]; exact hty)
        have hwalk := ebr_walk_spec d (extended_start d) (n.toNat - 5) 0
        simp only [Nat.zero_add] at hwalk
        have he0 : ebr_at d (extended_start d) 0 = extended_start d := rfl
        rw [he0] at hwalk
        rcases hwalk with ⟨hnone, k, hk, hz⟩ | ⟨hs, hall⟩
        · rw [hnone]
          simp only [true_iff]
          exact Or.inr ⟨h5, Or.inr ⟨k, hk, hz⟩⟩
        · rw [hs]
          constructor
          · intro h; exact absurd h (by simp)
          · intro h
            rcases h with h | ⟨_, h | ⟨k, hk, hz⟩⟩
            · omega
            · exact absurd h hnot
            · exact absurd hz (hall k hk)

/-- Witness for `read_partition_info_none_iff`: partition 7 of `img_ebr` is not
found, because the second record of the chain (sector 160, one hop from sector
100) has an all-zero second entry. -/
theorem read_partition_info_none_iff_witness :
    read_partition_info img_ebr 7 = none
    ∧ ebr_link_zero img_ebr (ebr_at img_ebr (extended_start img_ebr) 1)
    ∧ (read_partition_info img_ebr 7 = none ↔
        ((7 : Int) ≤ 0 ∨ (5 ≤ (7 : Int)
          ∧ ((∀ i, 1 ≤ i → i ≤ 4 →
                rd8 img_ebr (0x1BE + 16 * (i - 1) + 4) ≠ DOS_EXTENDED_PARTITION)
            ∨ ∃ k, k < (7 : Int).toNat - 5
                ∧ ebr_link_zero img_ebr (ebr_at img_ebr (extended_start img_ebr) k))))) :=
  ⟨by decide, by decide, read_partition_info_none_iff img_ebr 7⟩

/-! ## Inode addresses, file types and the superblock -/

/-- Claim C16: for every inode number `n ≥ 1` (in particular `n` in
`1..num_inodes`), with `inodes_per_group > 0` and `base` the partition's byte
offset as `fsck_partition_init` sets it, `get_inode_addr(n)` is `base +
bg_desc_table[(n-1) / inodes_per_group].bg_inode_table * block_size + ((n-1)
mod inodes_per_group) * inode_size` as an exact integer whenever that sum fits
the `int` result (is below `2^31`). -/
theorem get_inode_addr_exact (c : Ctx) (n : Nat) (h1 : 1 ≤ n) (hipg : 0 < c.inodes_per_group)
    (hbase : c.base = u32 (c.start_sec * SECTOR_SIZE))
    (hfit : c.base
      + (c.bg_desc_table (((n - 1) / c.inodes_per_group : Nat) : Int)).bg_inode_table
          * c.block_size
      + (n - 1) % c.inodes_per_group * c.inode_size < 2147483648) :
    get_inode_addr c (n : Int)
      = c.base
        + (c.bg_desc_table (((n - 1) / c.inodes_per_group : Nat) : Int)).bg_inode_table
            * c.block_size
        + (n - 1) % c.inodes_per_group * c.inode_size := by
  have _ := hipg
  rw [get_inode_addr_nat c n h1]
  rw [hbase] at hfit ⊢
  unfold u32 at hfit ⊢
  generalize (c.bg_desc_table (((n - 1) / c.inodes_per_group : Nat) : Int)).bg_inode_table
    * c.block_size = X at *
  generalize (n - 1) % c.inodes_per_group * c.inode_size = Y at *
  generalize c.start_sec * SECTOR_SIZE = Z at *
  omega

/-- Witness for `get_inode_addr_exact`: in the example context inode 30 is at
`1024 + 5 * 1024 + 29 * 128 = 9856`. -/
theorem get_inode_addr_exact_witness :
    get_inode_addr ctx_ex ((30 : Nat) : Int) = 9856
    ∧ get_inode_addr ctx_ex ((30 : Nat) : Int)
      = ctx_ex.base
        + (ctx_ex.bg_desc_table (((30 - 1) / ctx_ex.inodes_per_group : Nat) : Int)).bg_inode_table
            * ctx_ex.block_size
        + (30 - 1) % ctx_ex.inodes_per_group * ctx_ex.inode_size :=
  ⟨by decide, get_inode_addr_exact ctx_ex 30 (by decide) (by decide) (by decide) (by decide)⟩

/-- Claim C17: `imode_to_filetype` depends only on the top nibble of the 16-bit
`i_mode` (`i_mode & 0xF000`, the nibble being `i_mode / 4096 mod 16`) and
returns the directory-entry code of socket (6), symlink (7), regular (1),
block device (4), directory (2), char device (3), fifo (5) for the nibbles
`0xC`, `0xA`, `0x8`, `0x6`, `0x4`, `0x2`, `0x1`, and unknown (0) for every other
nibble; `0x81A4` maps to regular. -/
theorem imode_to_filetype_table (m : Nat) :
    imode_to_filetype m
      = (if m / 4096 % 16 = 12 then 6 else if m / 4096 % 16 = 10 then 7
         else if m / 4096 % 16 = 8 then 1 else if m / 4096 % 16 = 6 then 4
         else if m / 4096 % 16 = 4 then 2 else if m / 4096 % 16 = 2 then 3
         else if m / 4096 % 16 = 1 then 5 else 0)
    ∧ (∀ m1, m1 / 4096 % 16 = m / 4096 % 16 → imode_to_filetype m1 = imode_to_filetype m)
    ∧ imode_to_filetype 0x81A4 = 1 := by
  refine ⟨?_, ?_, by decide⟩
  · unfold imode_to_filetype
    have hk : m / 4096 % 16 < 16 := Nat.mod_lt _ (by decide)
    generalize m / 4096 % 16 = k at *
    interval_cases k <;> rfl
  · intro m1 h
    unfold imode_to_filetype
    rw [h]

/-- Claim C18, counterexample: on `img_noblocks` the superblock has
`s_blocks_count = 0` and `s_blocks_per_group = 8192 > 0`;
`read_superblock_info` sets `num_groups` to 1, while `⌈0 / 8192⌉ = 0`. -/
theorem num_groups_of_no_blocks :
    (read_superblock_info img_noblocks ⟨1, 131, 2, 1024, 64⟩).blocks_per_group = 8192
    ∧ (read_superblock_info img_noblocks ⟨1, 131, 2, 1024, 64⟩).num_blocks = 0
    ∧ ¬ ((read_superblock_info img_noblocks ⟨1, 131, 2, 1024, 64⟩).num_groups
          = ((read_superblock_info img_noblocks ⟨1, 131, 2, 1024, 64⟩).num_blocks
              + (read_superblock_info img_noblocks ⟨1, 131, 2, 1024, 64⟩).blocks_per_group - 1)
            / (read_superblock_info img_noblocks ⟨1, 131, 2, 1024, 64⟩).blocks_per_group) := by
  decide

/-- Claim C18, amended: for every on-disk superblock with `blocks_per_group >
0` and `num_blocks ≥ 1`, both below `2^31` (they are kept in `int`), and
`1024 << s_log_block_size` below `2^31`, `read_superblock_info` sets
`block_size = 1024 << s_log_block_size` and `num_groups = ⌈num_blocks /
blocks_per_group⌉`, the least `g` with `num_blocks ≤ g * blocks_per_group`. -/
theorem read_superblock_info_derives (d : Disk) (pt : Partition)
    (hbpg : 0 < rd32 (read_sector d (pt.start_sec + 2)) 32)
    (hnb : 1 ≤ rd32 (read_sector d (pt.start_sec + 2)) 4)
    (hnb31 : rd32 (read_sector d (pt.start_sec + 2)) 4 < 2147483648)
    (hbpg31 : rd32 (read_sector d (pt.start_sec + 2)) 32 < 2147483648)
    (hlog : 1024 <<< rd32 (read_sector d (pt.start_sec + 2)) 24 < 2147483648) :
    (read_superblock_info d pt).block_size = 1024 <<< rd32 (read_sector d (pt.start_sec + 2)) 24
    ∧ (read_superblock_info d pt).num_blocks = rd32 (read_sector d (pt.start_sec + 2)) 4
    ∧ (read_superblock_info d pt).blocks_per_group = rd32 (read_sector d (pt.start_sec + 2)) 32
    ∧ (read_superblock_info d pt).num_groups
        = (rd32 (read_sector d (pt.start_sec + 2)) 4
            + rd32 (read_sector d (pt.start_sec + 2)) 32 - 1)
          / rd32 (read_sector d (pt.start_sec + 2)) 32
    ∧ rd32 (read_sector d (pt.start_sec + 2)) 4
        ≤ (read_superblock_info d pt).num_groups * rd32 (read_sector d (pt.start_sec + 2)) 32
    ∧ ((read_superblock_info d pt).num_groups - 1) * rd32 (read_sector d (pt.start_sec + 2)) 32
        < rd32 (read_sector d (pt.start_sec + 2)) 4 := by
  have _ := hnb31
  have _ := hbpg31
  have hsec : pt.start_sec + 1024 / SECTOR_SIZE = pt.start_sec + 2 := by
    simp [SECTOR_SIZE]
  unfold read_superblock_info
  simp only [hsec]
  generalize rd32 (read_sector d (pt.start_sec + 2)) 4 = nb at *
  generalize rd32 (read_sector d (pt.start_sec + 2)) 32 = bpg at *
  generalize rd32 (read_sector d (pt.start_sec + 2)) 24 = lg at *
  have hg : (Int.tdiv ((nb : Int) - 1) (bpg : Int) + 1).toNat = (nb - 1) / bpg + 1 := by
    have h1 : ((nb : Int) - 1) = ((nb - 1 : Nat) : Int) := by omega
    have e : (((nb - 1) / bpg : Nat) : Int) + 1 = (((nb - 1) / bpg + 1 : Nat) : Int) := by
      norm_cast
    rw [h1, Int.tdiv_eq_ediv (Int.ofNat_zero_le _) (Int.ofNat_zero_le _), ← Int.natCast_div, e,
      Int.toNat_ofNat]
  have hceil : (nb + bpg - 1) / bpg = (nb - 1) / bpg + 1 := by
    have : nb + bpg - 1 = (nb - 1) + bpg := by omega
    rw [this, Nat.add_div_right _ hbpg]
  have hdm := Nat.div_add_mod (nb - 1) bpg
  have hml := Nat.mod_lt (nb - 1) hbpg
  refine ⟨?_, trivial, trivial, ?_, ?_, ?_⟩
  · unfold u32
    exact Nat.mod_eq_of_lt (by omega)
  · rw [hg, hceil]
  · rw [hg, Nat.add_mul, Nat.mul_comm]
    omega
  · rw [hg, Nat.add_sub_cancel, Nat.mul_comm]
    omega

/-- Witness for `read_superblock_info_derives`: the superblock of `img_orphan`
has 32 blocks in groups of 8192 and `s_log_block_size = 0`: one group, blocks of
1024 bytes. -/
theorem read_superblock_info_derives_witness :
    (read_superblock_info img_orphan ⟨1, 131, 2, 1024, 64⟩).num_groups = 1
    ∧ (read_superblock_info img_orphan ⟨1, 131, 2, 1024, 64⟩).block_size = 1024
    ∧ (read_superblock_info img_orphan ⟨1, 131, 2, 1024, 64⟩).num_groups
        = (rd32 (read_sector img_orphan ((⟨1, 131, 2, 1024, 64⟩ : Partition).start_sec + 2)) 4
            + rd32 (read_sector img_orphan ((⟨1, 131, 2, 1024, 64⟩ : Partition).start_sec + 2)) 32
            - 1)
          / rd32 (read_sector img_orphan ((⟨1, 131, 2, 1024, 64⟩ : Partition).start_sec + 2)) 32 :=
  ⟨by decide, by decide,
   (read_superblock_info_derives img_orphan ⟨1, 131, 2, 1024, 64⟩ (by decide) (by decide)
     (by decide) (by decide) (by decide)).2.2.2.1⟩

/-! ## Pass 4: the blocks of one inode -/

/-- Claim C19, counterexample: on `img_hole` inode 30 is a
regular file whose singly indirect block 20 lists 21, 0 and 22; `mark_block(30)`
marks the root 20 and the entry 21 and leaves the non-zero entry 22, which
sits after the zero entry, unmarked. -/
theorem mark_block_stops_at_zero_entry :
    i_mode (read_bytes img_hole (get_inode_addr ctx_ex ((30 : Nat) : Int))) = 0x81A4
    ∧ i_block (read_bytes img_hole (get_inode_addr ctx_ex ((30 : Nat) : Int))) 12 = 20
    ∧ rd32 (read_bytes img_hole (blk_addr ctx_ex 20)) 0 = 21
    ∧ rd32 (read_bytes img_hole (blk_addr ctx_ex 20)) 4 = 0
    ∧ rd32 (read_bytes img_hole (blk_addr ctx_ex 20)) 8 = 22
    ∧ mark_block ctx_ex img_hole 30 (fun _ => 0) 20 = 1
    ∧ mark_block ctx_ex img_hole 30 (fun _ => 0) 21 = 1
    ∧ mark_block ctx_ex img_hole 30 (fun _ => 0) 22 = 0 := by
  decide

/-- Claim C20: fast symlinks own no blocks.  For every inode whose type is
symlink and whose `i_size` is below 60, `mark_block` leaves `block_expected`
unchanged, and it does so on every image that agrees on the eight bytes of
`i_mode` .. `i_size` of the inode record: nothing else is read, whatever bytes
`i_block` contains. -/
theorem mark_block_fast_symlink (c : Ctx) (d : Disk) (n : Nat) (bm : Nat → Nat)
    (hl : EXT2_S_ISLNK (i_mode (read_bytes d (get_inode_addr c (n : Int)))) = true)
    (hs : i_size (read_bytes d (get_inode_addr c (n : Int))) < 60) :
    mark_block c d n bm = bm
    ∧ ∀ d1 : Disk, (∀ i, i < 8 → d1 (get_inode_addr c (n : Int) + i)
          = d (get_inode_addr c (n : Int) + i)) →
        mark_block c d1 n bm = bm := by
  have key : ∀ d1 : Disk, (∀ i, i < 8 → d1 (get_inode_addr c (n : Int) + i)
      = d (get_inode_addr c (n : Int) + i)) → mark_block c d1 n bm = bm := by
    intro d1 hag
    have hm : i_mode (read_bytes d1 (get_inode_addr c (n : Int)))
        = i_mode (read_bytes d (get_inode_addr c (n : Int))) := by
      unfold i_mode OFF_I_MODE
      apply rd16_congr <;> simp only [read_bytes] <;> exact hag _ (by omega)
    have hz : i_size (read_bytes d1 (get_inode_addr c (n : Int)))
        = i_size (read_bytes d (get_inode_addr c (n : Int))) := by
      unfold i_size OFF_I_SIZE
      apply rd32_congr <;> simp only [read_bytes] <;> exact hag _ (by omega)
    unfold mark_block
    simp only [hm, hz, hl, hs, decide_True, Bool.and_self, if_true]
  exact ⟨key d (fun _ _ => rfl), key⟩

/-- Witness for `mark_block_fast_symlink`: inode 31 of `img_symlink` is a
symbolic link of 10 bytes whose `i_block[0]` holds the bytes `/etc`, a
non-zero number; `mark_block(31)` marks nothing. -/
theorem mark_block_fast_symlink_witness :
    i_block (read_bytes img_symlink (get_inode_addr ctx_ex ((31 : Nat) : Int))) 0 = 1668572463
    ∧ (mark_block ctx_ex img_symlink 31 (fun _ => 0) = fun _ => 0)
    ∧ ∀ d1 : Disk, (∀ i, i < 8 → d1 (get_inode_addr ctx_ex ((31 : Nat) : Int) + i)
          = img_symlink (get_inode_addr ctx_ex ((31 : Nat) : Int) + i)) →
        mark_block ctx_ex d1 31 (fun _ => 0) = fun _ => 0 :=
  ⟨by decide,
   mark_block_fast_symlink ctx_ex img_symlink 31 (fun _ => 0) (by decide) (by decide)⟩

/-! ## The traced walk computes the state of the walk -/

theorem traverse_direct_block_tr_state (walk : Nat → Nat → State → Option State)
    (walkt : Nat → Nat → Traced → Option Traced) (c : Ctx) (bo bn cur par : Nat)
    (hw : ∀ i p t, (walkt i p t).map Prod.fst = walk i p t.1) :
    ∀ (fuel base cnt : Nat) (buf name : Disk) (t : Traced),
      (traverse_direct_block_tr walkt c bo bn cur par fuel base cnt buf name t).map Prod.fst
        = traverse_direct_block walk c bo bn cur par fuel base cnt buf name t.1 := by
  intro fuel
  induction fuel with
  | zero => intro base cnt buf name t; rfl
  | succ fuel ih =>
    intro base cnt0 buf name t
    rw [traverse_direct_block_tr, traverse_direct_block]
    split
    · simp only
      generalize cnt_after_name (rd8 buf (base + 6)) cnt0 = cnt
      split
      · have h := hw (rd32 (check_entry c bo bn cur par base cnt buf name t.1).1 base) cur
          ((check_entry c bo bn cur par base cnt buf name t.1).2.2,
            t.2 ++ [WalkEvent.entry (rd32 (check_entry c bo bn cur par base cnt buf name t.1).1
              base)])
        simp only at h
        rw [← h]
        cases hx : walkt (rd32 (check_entry c bo bn cur par base cnt buf name t.1).1 base) cur
            ((check_entry c bo bn cur par base cnt buf name t.1).2.2,
              t.2 ++ [WalkEvent.entry (rd32 (check_entry c bo bn cur par base cnt buf name t.1).1
                base)]) with
        | none => rfl
        | some t4 => exact ih _ _ _ _ t4
      · exact ih _ _ _ _ _
    · rfl

theorem for_each_tr_state (f : Nat → State → Option State) (ft : Nat → Traced → Option Traced)
    (l : List Nat) (hf : ∀ i t, (ft i t).map Prod.fst = f i t.1) :
    ∀ t : Traced, (for_each_tr ft l t).map Prod.fst = for_each f l t.1 := by
  induction l with
  | nil => intro t; rfl
  | cons i l ih =>
    intro t
    rw [for_each_tr, for_each, ← hf i t]
    cases hx : ft i t with
    | none => rfl
    | some t1 => exact ih t1

theorem indirect_loop_tr_state (f : Nat → State → Option State)
    (ft : Nat → Traced → Option Traced) (buf : Disk)
    (hf : ∀ b t, (ft b t).map Prod.fst = f b t.1) :
    ∀ (n i : Nat) (t : Traced),
      (indirect_loop_tr ft buf n i t).map Prod.fst = indirect_loop f buf n i t.1 := by
  intro n
  induction n with
  | zero => intro i t; rfl
  | succ n ih =>
    intro i t
    rw [indirect_loop_tr, indirect_loop]
    split
    · rfl
    · rw [← hf _ t]
      cases hx : ft (rd32 buf (4 * i)) t with
      | none => rfl
      | some t1 => exact ih _ t1

theorem traverse_singly_tr_state (walk : Nat → Nat → State → Option State)
    (walkt : Nat → Nat → Traced → Option Traced) (c : Ctx) (stk : Stale) (fuel : Nat)
    (hw : ∀ i p t, (walkt i p t).map Prod.fst = walk i p t.1)
    (buf : Disk) (cur par : Nat) (t : Traced) :
    (traverse_singly_tr walkt c stk fuel buf cur par t).map Prod.fst
      = traverse_singly walk c stk fuel buf cur par t.1 := by
  unfold traverse_singly_tr traverse_singly
  refine indirect_loop_tr_state _ _ buf ?_ _ _ t
  intro b t1
  exact traverse_direct_block_tr_state walk walkt c _ 1 cur par hw _ _ _ _ _ t1

theorem traverse_doubly_tr_state (walk : Nat → Nat → State → Option State)
    (walkt : Nat → Nat → Traced → Option Traced) (c : Ctx) (stk : Stale) (fuel : Nat)
    (hw : ∀ i p t, (walkt i p t).map Prod.fst = walk i p t.1)
    (buf : Disk) (cur par : Nat) (t : Traced) :
    (traverse_doubly_tr walkt c stk fuel buf cur par t).map Prod.fst
      = traverse_doubly walk c stk fuel buf cur par t.1 := by
  unfold traverse_doubly_tr traverse_doubly
  refine indirect_loop_tr_state _ _ buf ?_ _ _ t
  intro b t1
  exact traverse_singly_tr_state walk walkt c stk fuel hw _ cur par t1

theorem traverse_triply_tr_state (walk : Nat → Nat → State → Option State)
    (walkt : Nat → Nat → Traced → Option Traced) (c : Ctx) (stk : Stale) (fuel : Nat)
    (hw : ∀ i p t, (walkt i p t).map Prod.fst = walk i p t.1)
    (buf : Disk) (cur par : Nat) (t : Traced) :
    (traverse_triply_tr walkt c stk fuel buf cur par t).map Prod.fst
      = traverse_triply walk c stk fuel buf cur par t.1 := by
  unfold traverse_triply_tr traverse_triply
  refine indirect_loop_tr_state _ _ buf ?_ _ _ t
  intro b t1
  exact traverse_singly_tr_state walk walkt c stk fuel hw _ cur par t1

theorem traverse_dir_tr_state (c : Ctx) (stk : Stale) :
    ∀ (fuel n p : Nat) (t : Traced),
      (traverse_dir_tr c stk fuel n p t).map Prod.fst = traverse_dir c stk fuel n p t.1 := by
  intro fuel
  induction fuel with
  | zero => intro n p t; rfl
  | succ fuel ih =>
    intro n p t
    rw [traverse_dir_tr, traverse_dir]
    split
    · rfl
    · have h1 := for_each_tr_state
        (fun i s1 =>
          if i_block (read_bytes t.1.disk (get_inode_addr c (toInt32 n))) i = 0 then some s1
          else
            traverse_direct_block (traverse_dir c stk fuel) c
              (blk_addr c (i_block (read_bytes t.1.disk (get_inode_addr c (toInt32 n))) i)) i
              n p fuel 0 1
              (read_bytes s1.disk
                (blk_addr c (i_block (read_bytes t.1.disk (get_inode_addr c (toInt32 n))) i)))
              (stk s1 (blk_addr c (i_block (read_bytes t.1.disk (get_inode_addr c (toInt32 n))) i))) s1)
        (fun i t1 =>
          if i_block (read_bytes t.1.disk (get_inode_addr c (toInt32 n))) i = 0 then some t1
          else
            traverse_direct_block_tr (traverse_dir_tr c stk fuel) c
              (blk_addr c (i_block (read_bytes t.1.disk (get_inode_addr c (toInt32 n))) i)) i
              n p fuel 0 1
              (read_bytes t1.1.disk
                (blk_addr c (i_block (read_bytes t.1.disk (get_inode_addr c (toInt32 n))) i)))
              (stk t1.1 (blk_addr c (i_block (read_bytes t.1.disk (get_inode_addr c (toInt32 n))) i))) t1)
        (List.range EXT2_NDIR_BLOCKS)
        (by
          intro i t1
          dsimp only
          split
          · rfl
          · exact traverse_direct_block_tr_state _ _ c _ i n p ih _ _ _ _ _ t1)
        (t.1, t.2 ++ [WalkEvent.enter n])
      simp only at h1
      rw [← h1]
      cases hx : for_each_tr
        (fun i t1 =>
          if i_block (read_bytes t.1.disk (get_inode_addr c (toInt32 n))) i = 0 then some t1
          else
            traverse_direct_block_tr (traverse_dir_tr c stk fuel) c
              (blk_addr c (i_block (read_bytes t.1.disk (get_inode_addr c (toInt32 n))) i)) i
              n p fuel 0 1
              (read_bytes t1.1.disk
                (blk_addr c (i_block (read_bytes t.1.disk (get_inode_addr c (toInt32 n))) i)))
              (stk t1.1 (blk_addr c (i_block (read_bytes t.1.disk (get_inode_addr c (toInt32 n))) i))) t1)
        (List.range EXT2_NDIR_BLOCKS) (t.1, t.2 ++ [WalkEvent.enter n]) with
      | none => rfl
      | some t1 =>
        simp only [Option.map_some']
        have h2 := traverse_singly_tr_state (traverse_dir c stk fuel) (traverse_dir_tr c stk fuel)
          c stk fuel ih
          (read_bytes t1.1.disk
            (blk_addr c (i_block (read_bytes t.1.disk (get_inode_addr c (toInt32 n))) 12)))
          n p t1
        rw [← h2]
        cases hy : traverse_singly_tr (traverse_dir_tr c stk fuel) c stk fuel
          (read_bytes t1.1.disk
            (blk_addr c (i_block (read_bytes t.1.disk (get_inode_addr c (toInt32 n))) 12)))
          n p t1 with
        | none => rfl
        | some t2 =>
          simp only [Option.map_some']
          have h3 := traverse_doubly_tr_state (traverse_dir c stk fuel)
            (traverse_dir_tr c stk fuel) c stk fuel ih
            (read_bytes t2.1.disk
              (blk_addr c (i_block (read_bytes t.1.disk (get_inode_addr c (toInt32 n))) 13)))
            n p t2
          rw [← h3]
          cases hz : traverse_doubly_tr (traverse_dir_tr c stk fuel) c stk fuel
            (read_bytes t2.1.disk
              (blk_addr c (i_block (read_bytes t.1.disk (get_inode_addr c (toInt32 n))) 13)))
            n p t2 with
          | none => rfl
          | some t3 =>
            simp only [Option.map_some']
            exact traverse_triply_tr_state (traverse_dir c stk fuel)
              (traverse_dir_tr c stk fuel) c stk fuel ih _ n p t3

/-! ## The trace of a walk: tally and single entry -/

theorem WalkTrace_refl (c : Ctx) (t : Traced) : WalkTrace c t t :=
  ⟨[], by simp, fun k _ => by simp, fun i _ => ⟨by simp, fun h => by simp at h⟩⟩

theorem WalkTrace_trans {c : Ctx} {t t1 t2 : Traced} (h1 : WalkTrace c t t1)
    (h2 : WalkTrace c t1 t2) : WalkTrace c t t2 := by
  obtain ⟨e1, hl1, ht1, ho1⟩ := h1
  obtain ⟨e2, hl2, ht2, ho2⟩ := h2
  refine ⟨e1 ++ e2, by rw [hl2, hl1, List.append_assoc], ?_, ?_⟩
  · intro k hk
    rw [ht2 k hk, ht1 k hk, List.count_append]
    omega
  · intro i hi
    have a1 := ho1 i hi
    have a2 := ho2 i hi
    have b1 := ht1 i hi
    have b2 := ht2 i hi
    rw [List.count_append]
    refine ⟨?_, ?_⟩
    · by_cases hc : List.count (WalkEvent.enter i) e1 = 1
      · have := (a1.2 hc).2
        by_cases hd : List.count (WalkEvent.enter i) e2 = 1
        · have := (a2.2 hd).1
          omega
        · omega
      · omega
    · intro hs
      by_cases hc : List.count (WalkEvent.enter i) e1 = 1
      · exact ⟨(a1.2 hc).1, by omega⟩
      · have hd : List.count (WalkEvent.enter i) e2 = 1 := by omega
        have := a2.2 hd
        exact ⟨by omega, this.2⟩

theorem check_entry_map (c : Ctx) (bo bn cur par base cnt : Nat) (buf name : Disk) (s : State)
    (k : Nat) :
    (check_entry c bo bn cur par base cnt buf name s).2.2.inode_map k
      = s.inode_map k
        + (if k = rd32 (check_entry c bo bn cur par base cnt buf name s).1 base
              ∧ rd32 (check_entry c bo bn cur par base cnt buf name s).1 base ≤ c.num_inodes
           then 1 else 0) := by
  unfold check_entry
  dsimp only
  split_ifs <;> simp_all

theorem check_entry_trace (c : Ctx) (bo bn cur par base cnt : Nat) (buf name : Disk)
    (t : Traced) :
    WalkTrace c t ((check_entry c bo bn cur par base cnt buf name t.1).2.2,
      t.2 ++ [WalkEvent.entry (rd32 (check_entry c bo bn cur par base cnt buf name t.1).1 base)])
    := by
  refine ⟨[WalkEvent.entry (rd32 (check_entry c bo bn cur par base cnt buf name t.1).1 base)],
    rfl, ?_, ?_⟩
  · intro k hk
    show (check_entry c bo bn cur par base cnt buf name t.1).2.2.inode_map k = _
    rw [check_entry_map]
    by_cases h : k = rd32 (check_entry c bo bn cur par base cnt buf name t.1).1 base
    · rw [← h]
      simp [hk]
    · have h' : ¬ rd32 (check_entry c bo bn cur par base cnt buf name t.1).1 base = k :=
        fun e => h e.symm
      simp [h, h']
  · intro i _
    simp

theorem call_trace (c : Ctx) (t1 t4 : Traced) (ino : Nat)
    (hg : ino ≤ c.num_inodes → t1.1.inode_map ino = 1)
    (hw : WalkTrace c (t1.1, t1.2 ++ [WalkEvent.enter ino]) t4) :
    ∃ ev : List WalkEvent, t4.2 = t1.2 ++ ev
      ∧ (∀ k, k ≤ c.num_inodes →
          t4.1.inode_map k = t1.1.inode_map k + ev.count (WalkEvent.entry k))
      ∧ (∀ i, i ≤ c.num_inodes → (ev.count (WalkEvent.enter i) ≤ 1
          ∧ (ev.count (WalkEvent.enter i) = 1 →
              (i = ino ∨ t1.1.inode_map i = 0) ∧ 1 ≤ t4.1.inode_map i))) := by
  obtain ⟨ev, hl, ht, ho⟩ := hw
  refine ⟨WalkEvent.enter ino :: ev, ?_, ?_, ?_⟩
  · rw [hl]; simp
  · intro k hk
    have := ht k hk
    simp only at this
    rw [this]
    simp
  · intro i hi
    have a := ho i hi
    have b := ht i hi
    simp only at a b
    by_cases h : i = ino
    · subst h
      have h1 := hg hi
      have h0 : List.count (WalkEvent.enter i) ev = 0 := by
        by_cases hc : List.count (WalkEvent.enter i) ev = 1
        · have := (a.2 hc).1
          omega
        · omega
      rw [List.count_cons_self, h0]
      exact ⟨by omega, fun _ => ⟨Or.inl rfl, by omega⟩⟩
    · have hne : ¬ ino = i := fun e => h e.symm
      have hcnt : List.count (WalkEvent.enter i) (WalkEvent.enter ino :: ev)
          = List.count (WalkEvent.enter i) ev := by
        simp [List.count_cons, hne]
      rw [hcnt]
      exact ⟨a.1, fun hc => ⟨Or.inr (a.2 hc).1, (a.2 hc).2⟩⟩

theorem entry_call_trace (c : Ctx) (bo bn cur par base cnt : Nat) (buf name : Disk)
    (t t4 : Traced)
    (hg : (check_entry c bo bn cur par base cnt buf name t.1).2.2.inode_map
        (rd32 (check_entry c bo bn cur par base cnt buf name t.1).1 base) ≤ 1)
    (hw : WalkTrace c
      ((check_entry c bo bn cur par base cnt buf name t.1).2.2,
        (t.2 ++ [WalkEvent.entry (rd32 (check_entry c bo bn cur par base cnt buf name t.1).1
          base)])
        ++ [WalkEvent.enter (rd32 (check_entry c bo bn cur par base cnt buf name t.1).1 base)])
      t4) :
    WalkTrace c t t4 := by
  have hce := check_entry_trace c bo bn cur par base cnt buf name t
  have hmap := check_entry_map c bo bn cur par base cnt buf name t.1
  generalize hino : rd32 (check_entry c bo bn cur par base cnt buf name t.1).1 base = ino at *
  generalize hs1 : (check_entry c bo bn cur par base cnt buf name t.1).2.2 = s1 at *
  have hone : ino ≤ c.num_inodes → s1.inode_map ino = 1 := by
    intro hi
    have := hmap ino
    simp only [hi, and_self, if_true] at this
    omega
  obtain ⟨ev, hl, ht, ho⟩ := call_trace c (s1, t.2 ++ [WalkEvent.entry ino]) t4 ino hone hw
  obtain ⟨ev0, hl0, ht0, _⟩ := hce
  simp only at hl ht ho hl0 ht0
  have hev0 : ev0 = [WalkEvent.entry ino] := List.append_cancel_left hl0.symm
  subst hev0
  refine ⟨WalkEvent.entry ino :: ev, ?_, ?_, ?_⟩
  · rw [hl]; simp
  · intro k hk
    rw [ht k hk, ht0 k hk]
    simp [List.count_cons]
    omega
  · intro i hi
    have a := ho i hi
    have b := ht0 i hi
    have hcnt : List.count (WalkEvent.enter i) (WalkEvent.entry ino :: ev)
        = List.count (WalkEvent.enter i) ev := by
      simp [List.count_cons]
    rw [hcnt]
    refine ⟨a.1, fun hc => ⟨?_, (a.2 hc).2⟩⟩
    rcases (a.2 hc).1 with h | h
    · subst h
      have := hone hi
      simp at b
      omega
    · omega

theorem traverse_direct_block_tr_trace (walkt : Nat → Nat → Traced → Option Traced) (c : Ctx)
    (bo bn cur par : Nat)
    (hw : ∀ i p t t1, walkt i p t = some t1 →
      WalkTrace c (t.1, t.2 ++ [WalkEvent.enter i]) t1) :
    ∀ (fuel base cnt : Nat) (buf name : Disk) (t t1 : Traced),
      traverse_direct_block_tr walkt c bo bn cur par fuel base cnt buf name t = some t1 →
      WalkTrace c t t1 := by
  intro fuel
  induction fuel with
  | zero => intro base cnt buf name t t1 h; simp [traverse_direct_block_tr] at h
  | succ fuel ih =>
    intro base cnt0 buf name t t1 h
    rw [traverse_direct_block_tr] at h
    split at h
    · simp only at h
      generalize cnt_after_name (rd8 buf (base + 6)) cnt0 = cnt at h
      split at h
      · rename_i hguard
        split at h
        · exact absurd h (by simp)
        · rename_i t4 h4
          have hg : (check_entry c bo bn cur par base cnt buf name t.1).2.2.inode_map
              (rd32 (check_entry c bo bn cur par base cnt buf name t.1).1 base) ≤ 1 := by
            simp only [Bool.and_eq_true, decide_eq_true_eq] at hguard
            exact hguard.1.2
          exact WalkTrace_trans
            (entry_call_trace c bo bn cur par base cnt buf name t t4 hg (hw _ _ _ _ h4))
            (ih _ _ _ _ _ _ h)
      · exact WalkTrace_trans (check_entry_trace c bo bn cur par base cnt buf name t)
          (ih _ _ _ _ _ _ h)
    · simp only [Option.some.injEq] at h
      subst h
      exact WalkTrace_refl c _

theorem for_each_tr_trace (c : Ctx) (f : Nat → Traced → Option Traced) (l : List Nat)
    (hf : ∀ i t t1, f i t = some t1 → WalkTrace c t t1) :
    ∀ (t t1 : Traced), for_each_tr f l t = some t1 → WalkTrace c t t1 := by
  induction l with
  | nil =>
    intro t t1 h
    simp only [for_each_tr, Option.some.injEq] at h
    subst h
    exact WalkTrace_refl c _
  | cons i l ih =>
    intro t t1 h
    rw [for_each_tr] at h
    split at h
    · exact absurd h (by simp)
    · rename_i t2 h2
      exact WalkTrace_trans (hf _ _ _ h2) (ih _ _ h)

theorem indirect_loop_tr_trace (c : Ctx) (f : Nat → Traced → Option Traced) (buf : Disk)
    (hf : ∀ b t t1, f b t = some t1 → WalkTrace c t t1) :
    ∀ (n i : Nat) (t t1 : Traced), indirect_loop_tr f buf n i t = some t1 →
      WalkTrace c t t1 := by
  intro n
  induction n with
  | zero =>
    intro i t t1 h
    simp only [indirect_loop_tr, Option.some.injEq] at h
    subst h
    exact WalkTrace_refl c _
  | succ n ih =>
    intro i t t1 h
    rw [indirect_loop_tr] at h
    split at h
    · simp only [Option.some.injEq] at h
      subst h
      exact WalkTrace_refl c _
    · split at h
      · exact absurd h (by simp)
      · rename_i t2 h2
        exact WalkTrace_trans (hf _ _ _ h2) (ih _ _ _ h)

theorem traverse_singly_tr_trace (walkt : Nat → Nat → Traced → Option Traced) (c : Ctx)
    (stk : Stale) (fuel : Nat)
    (hw : ∀ i p t t1, walkt i p t = some t1 →
      WalkTrace c (t.1, t.2 ++ [WalkEvent.enter i]) t1)
    (buf : Disk) (cur par : Nat) (t t1 : Traced)
    (h : traverse_singly_tr walkt c stk fuel buf cur par t = some t1) : WalkTrace c t t1 := by
  unfold traverse_singly_tr at h
  refine indirect_loop_tr_trace c _ buf ?_ _ _ _ _ h
  intro b u u1 hu
  exact traverse_direct_block_tr_trace walkt c _ 1 cur par hw _ _ _ _ _ _ _ hu

theorem traverse_doubly_tr_trace (walkt : Nat → Nat → Traced → Option Traced) (c : Ctx)
    (stk : Stale) (fuel : Nat)
    (hw : ∀ i p t t1, walkt i p t = some t1 →
      WalkTrace c (t.1, t.2 ++ [WalkEvent.enter i]) t1)
    (buf : Disk) (cur par : Nat) (t t1 : Traced)
    (h : traverse_doubly_tr walkt c stk fuel buf cur par t = some t1) : WalkTrace c t t1 := by
  unfold traverse_doubly_tr at h
  refine indirect_loop_tr_trace c _ buf ?_ _ _ _ _ h
  intro b u u1 hu
  exact traverse_singly_tr_trace walkt c stk fuel hw _ cur par _ _ hu

theorem traverse_triply_tr_trace (walkt : Nat → Nat → Traced → Option Traced) (c : Ctx)
    (stk : Stale) (fuel : Nat)
    (hw : ∀ i p t t1, walkt i p t = some t1 →
      WalkTrace c (t.1, t.2 ++ [WalkEvent.enter i]) t1)
    (buf : Disk) (cur par : Nat) (t t1 : Traced)
    (h : traverse_triply_tr walkt c stk fuel buf cur par t = some t1) : WalkTrace c t t1 := by
  unfold traverse_triply_tr at h
  refine indirect_loop_tr_trace c _ buf ?_ _ _ _ _ h
  intro b u u1 hu
  exact traverse_singly_tr_trace walkt c stk fuel hw _ cur par _ _ hu

theorem traverse_dir_tr_trace (c : Ctx) (stk : Stale) :
    ∀ (fuel n p : Nat) (t t1 : Traced), traverse_dir_tr c stk fuel n p t = some t1 →
      WalkTrace c (t.1, t.2 ++ [WalkEvent.enter n]) t1 := by
  intro fuel
  induction fuel with
  | zero => intro n p t t1 h; simp [traverse_dir_tr] at h
  | succ fuel ih =>
    intro n p t t1 h
    rw [traverse_dir_tr] at h
    split at h
    · simp only [Option.some.injEq] at h
      subst h
      exact WalkTrace_refl c _
    · split at h
      · exact absurd h (by simp)
      · rename_i u1 h1
        have w1 : WalkTrace c (t.1, t.2 ++ [WalkEvent.enter n]) u1 := by
          refine for_each_tr_trace c _ _ ?_ _ _ h1
          intro i u u' hu
          split at hu
          · simp only [Option.some.injEq] at hu
            subst hu
            exact WalkTrace_refl c _
          · exact traverse_direct_block_tr_trace _ c _ i n p ih _ _ _ _ _ _ _ hu
        split at h
        · exact absurd h (by simp)
        · rename_i u2 h2
          split at h
          · exact absurd h (by simp)
          · rename_i u3 h3
            exact WalkTrace_trans w1
              (WalkTrace_trans (traverse_singly_tr_trace _ c stk fuel ih _ n p _ _ h2)
                (WalkTrace_trans (traverse_doubly_tr_trace _ c stk fuel ih _ n p _ _ h3)
                  (traverse_triply_tr_trace _ c stk fuel ih _ n p _ _ h)))

theorem traverse_dir_traced (c : Ctx) (stk : Stale) (fuel n p : Nat) (s s1 : State)
    (h : traverse_dir c stk fuel n p s = some s1) :
    ∃ ev, traverse_dir_tr c stk fuel n p (s, []) = some (s1, WalkEvent.enter n :: ev)
      ∧ (∀ k, k ≤ c.num_inodes →
          s1.inode_map k = s.inode_map k + ev.count (WalkEvent.entry k))
      ∧ (∀ i, i ≤ c.num_inodes → ev.count (WalkEvent.enter i) ≤ 1
          ∧ (ev.count (WalkEvent.enter i) = 1 → s.inode_map i = 0 ∧ 1 ≤ s1.inode_map i)) := by
  have hs := traverse_dir_tr_state c stk fuel n p (s, [])
  simp only at hs
  rw [h] at hs
  cases ht : traverse_dir_tr c stk fuel n p (s, []) with
  | none => rw [ht] at hs; simp at hs
  | some t1 =>
    rw [ht] at hs
    simp only [Option.map_some', Option.some.injEq] at hs
    obtain ⟨ev, hl, htal, honce⟩ := traverse_dir_tr_trace c stk fuel n p (s, []) t1 ht
    simp only [List.nil_append, List.singleton_append] at hl htal honce
    refine ⟨ev, ?_, ?_, ?_⟩
    · rw [← hs, ← hl]
    · intro k hk; rw [← hs]; exact htal k hk
    · intro i hi; rw [← hs]; exact honce i hi

theorem fix_link_counts_inode_map (c : Ctx) (s : State) :
    (fix_link_counts c s).inode_map = s.inode_map := by
  unfold fix_link_counts
  generalize List.range' 1 c.num_inodes = l
  induction l generalizing s with
  | nil => rfl
  | cons i l ih => rw [List.foldl_cons, ih, fix_link_count_inode_map]

/-- Claim C12: after a walk `traverse_dir(root, root)` that starts with a zeroed
reference map and returns, for every inode number `k ≤ num_inodes` the map holds
at `k` the number of directory entries encountered in the walk whose inode
field, after the `.`/`..` repair, is `k`.  And in `fix_fs` both walks start from
a map that is zero at every index `0 .. num_inodes`, pass 3 leaves the map as
the second walk built it, and passes 3 and 4 run on the state of the second
walk, whose counts are those of the entries of the second walk alone. -/
theorem walk_tallies_entries (c : Ctx) (fuel : Nat) :
    (∀ (stk : Stale) (s s1 : State), (∀ k, k ≤ c.num_inodes → s.inode_map k = 0) →
      traverse_dir c stk fuel EXT2_ROOT_INO EXT2_ROOT_INO s = some s1 →
      ∃ ev, traverse_dir_tr c stk fuel EXT2_ROOT_INO EXT2_ROOT_INO (s, [])
          = some (s1, WalkEvent.enter EXT2_ROOT_INO :: ev)
        ∧ ∀ k, k ≤ c.num_inodes → s1.inode_map k = ev.count (WalkEvent.entry k))
    ∧ (∀ (j : Junk) (d : Disk) (s4 : State), run_passes c fuel j d = some s4 →
      ∃ (s1 s2 s3 : State) (ev : List WalkEvent),
        (∀ k, k ≤ c.num_inodes → zero_map c j.inode_heap k = 0)
        ∧ traverse_dir c j.walk_stk fuel EXT2_ROOT_INO EXT2_ROOT_INO
            { disk := d, inode_map := zero_map c j.inode_heap, log := [] } = some s1
        ∧ fix_unreferenced_inode c fuel j.stk s1 = some s2
        ∧ (∀ k, k ≤ c.num_inodes → zero_map c s2.inode_map k = 0)
        ∧ traverse_dir_tr c j.walk_stk fuel EXT2_ROOT_INO EXT2_ROOT_INO
            ({ s2 with inode_map := zero_map c s2.inode_map }, [])
            = some (s3, WalkEvent.enter EXT2_ROOT_INO :: ev)
        ∧ (∀ k, k ≤ c.num_inodes → s3.inode_map k = ev.count (WalkEvent.entry k))
        ∧ (∀ k, k ≤ c.num_inodes →
            (fix_link_counts c s3).inode_map k = ev.count (WalkEvent.entry k))
        ∧ fix_block_map c fuel j.block_heap (fix_link_counts c s3) = some s4) := by
  have hzero : ∀ (m : Nat → Nat) (k : Nat), k ≤ c.num_inodes → zero_map c m k = 0 := by
    intro m k hk
    simp only [zero_map, if_pos hk]
  refine ⟨?_, ?_⟩
  · intro stk s s1 hz h
    obtain ⟨ev, ht, htal, _⟩ :=
      traverse_dir_traced c stk fuel EXT2_ROOT_INO EXT2_ROOT_INO s s1 h
    refine ⟨ev, ht, fun k hk => ?_⟩
    rw [htal k hk, hz k hk, Nat.zero_add]
  · intro j d s4 h
    unfold run_passes at h
    split at h
    · exact absurd h (by simp)
    · rename_i s1 h1
      split at h
      · exact absurd h (by simp)
      · rename_i s2 h2
        split at h
        · exact absurd h (by simp)
        · rename_i s3 h3
          obtain ⟨ev, ht, htal, _⟩ :=
            traverse_dir_traced c j.walk_stk fuel EXT2_ROOT_INO EXT2_ROOT_INO _ s3 h3
          have hcount : ∀ k, k ≤ c.num_inodes →
              s3.inode_map k = ev.count (WalkEvent.entry k) := by
            intro k hk
            rw [htal k hk]
            simp only [hzero s2.inode_map k hk, Nat.zero_add]
          refine ⟨s1, s2, s3, ev, hzero _, h1, h2, hzero _, ht, hcount, ?_, h⟩
          intro k hk
          rw [fix_link_counts_inode_map]
          exact hcount k hk

set_option maxRecDepth 100000 in
set_option maxHeartbeats 4000000 in
/-- Witness for `walk_tallies_entries`: the first walk and the whole run of the
passes on `img_orphan`. -/
theorem walk_tallies_entries_witness :
    (∃ ev, traverse_dir_tr ctx_ex (fun _ _ _ => 0) 64 EXT2_ROOT_INO EXT2_ROOT_INO
        ({ disk := img_orphan, inode_map := fun _ => 0, log := [] }, [])
        = some (after_walk ctx_ex img_orphan, WalkEvent.enter EXT2_ROOT_INO :: ev)
      ∧ ∀ k, k ≤ ctx_ex.num_inodes →
          (after_walk ctx_ex img_orphan).inode_map k = ev.count (WalkEvent.entry k))
    ∧ ∃ (s1 s2 s3 : State) (ev : List WalkEvent),
        (∀ k, k ≤ ctx_ex.num_inodes → zero_map ctx_ex junk0.inode_heap k = 0)
        ∧ traverse_dir ctx_ex junk0.walk_stk 64 EXT2_ROOT_INO EXT2_ROOT_INO
            { disk := img_orphan, inode_map := zero_map ctx_ex junk0.inode_heap, log := [] }
            = some s1
        ∧ fix_unreferenced_inode ctx_ex 64 junk0.stk s1 = some s2
        ∧ (∀ k, k ≤ ctx_ex.num_inodes → zero_map ctx_ex s2.inode_map k = 0)
        ∧ traverse_dir_tr ctx_ex junk0.walk_stk 64 EXT2_ROOT_INO EXT2_ROOT_INO
            ({ s2 with inode_map := zero_map ctx_ex s2.inode_map }, [])
            = some (s3, WalkEvent.enter EXT2_ROOT_INO :: ev)
        ∧ (∀ k, k ≤ ctx_ex.num_inodes → s3.inode_map k = ev.count (WalkEvent.entry k))
        ∧ (∀ k, k ≤ ctx_ex.num_inodes →
            (fix_link_counts ctx_ex s3).inode_map k = ev.count (WalkEvent.entry k))
        ∧ fix_block_map ctx_ex 64 junk0.block_heap (fix_link_counts ctx_ex s3)
            = some (passes_end img_orphan) := by
  have h1 : traverse_dir ctx_ex (fun _ _ _ => 0) 64 EXT2_ROOT_INO EXT2_ROOT_INO
      { disk := img_orphan, inode_map := fun _ => 0, log := [] }
      = some (after_walk ctx_ex img_orphan) := by rfl
  have h2 : run_passes ctx_ex 64 junk0 img_orphan = some (passes_end img_orphan) := by rfl
  exact ⟨(walk_tallies_entries ctx_ex 64).1 (fun _ => 0)
      { disk := img_orphan, inode_map := fun _ => 0, log := [] } (after_walk ctx_ex img_orphan)
      (fun _ _ => rfl) h1,
    (walk_tallies_entries ctx_ex 64).2 junk0 img_orphan (passes_end img_orphan) h2⟩


/-! ## Pass 4: the power test -/

theorem ispowerof_loop_total (a : Int) (ha : 2 ≤ a) :
    ∀ (fuel : Nat) (s : Int), s < 2 ^ (fuel + 1) → ∃ r, ispowerof_loop a (fuel + 1) s = some r := by
  intro fuel
  induction fuel with
  | zero =>
    intro s hs
    refine ⟨s, ?_⟩
    simp only [ispowerof_loop]
    rw [if_pos (by norm_num at hs; omega)]
  | succ fuel ih =>
    intro s hs
    rw [ispowerof_loop]
    by_cases h : s ≤ a
    · exact ⟨s, by rw [if_pos h]⟩
    · rw [if_neg h]
      apply ih
      have hs0 : 0 ≤ s := by omega
      have ha0 : 0 ≤ a := by omega
      rw [Int.tdiv_eq_ediv hs0 ha0]
      apply Int.ediv_lt_of_lt_mul (by omega)
      have hp : (0 : Int) < 2 ^ (fuel + 1) := by positivity
      have h2 : (2 : Int) ^ (fuel + 1 + 1) = 2 ^ (fuel + 1) * 2 := pow_succ _ _
      have h3 : (2 : Int) ^ (fuel + 1) * 2 ≤ 2 ^ (fuel + 1) * a :=
        Int.mul_le_mul_of_nonneg_left ha (le_of_lt hp)
      omega

theorem ispowerof_total (fuel : Nat) (s a : Int) (ha : 2 ≤ a) (hs : s < 2 ^ (fuel + 1)) :
    ∃ b, ispowerof (fuel + 1) s a = some b := by
  unfold ispowerof
  split
  · exact ⟨false, rfl⟩
  · obtain ⟨r, hr⟩ := ispowerof_loop_total a ha fuel s hs
    rw [hr]
    exact ⟨_, rfl⟩

theorem ispowerof_loop_pow (a : Nat) (ha : 2 ≤ a) :
    ∀ (fuel k : Nat) (r : Int), 1 ≤ k →
      ispowerof_loop (a : Int) fuel ((a ^ k : Nat) : Int) = some r → r = (a : Int) := by
  intro fuel
  induction fuel with
  | zero => intro k r _ h; simp [ispowerof_loop] at h
  | succ fuel ih =>
    intro k r hk h
    rw [ispowerof_loop] at h
    by_cases hle : ((a ^ k : Nat) : Int) ≤ (a : Int)
    · rw [if_pos hle] at h
      have hle' : a ^ k ≤ a ^ 1 := by rw [pow_one]; exact_mod_cast hle
      have hk1 : k ≤ 1 := (Nat.pow_le_pow_iff_right (by omega)).1 hle'
      have hk' : k = 1 := by omega
      subst hk'
      simp only [pow_one, Option.some.injEq] at h
      exact h.symm
    · rw [if_neg hle] at h
      have hk2 : 2 ≤ k := by
        by_contra hc
        have hk' : k = 1 := by omega
        subst hk'
        simp at hle
      obtain ⟨j, rfl⟩ : ∃ j, k = j + 1 := ⟨k - 1, by omega⟩
      have hdiv : Int.tdiv ((a ^ (j + 1) : Nat) : Int) (a : Int) = ((a ^ j : Nat) : Int) := by
        rw [Int.tdiv_eq_ediv (by positivity) (by positivity), pow_succ]
        push_cast
        exact Int.mul_ediv_cancel _ (by omega)
      rw [hdiv] at h
      exact ih j r (by omega) h

theorem ispowerof_pow (a : Nat) (ha : 2 ≤ a) (fuel k : Nat) (b : Bool) (hk : 1 ≤ k)
    (h : ispowerof fuel ((a ^ k : Nat) : Int) (a : Int) = some b) : b = true := by
  unfold ispowerof at h
  have hpos : ¬ (((a ^ k : Nat) : Int) ≤ 0 ∨ (a : Int) ≤ 0) := by
    have : 0 < a ^ k := Nat.pow_pos (by omega)
    omega
  rw [if_neg hpos] at h
  cases hl : ispowerof_loop (a : Int) fuel ((a ^ k : Nat) : Int) with
  | none => rw [hl] at h; simp at h
  | some r =>
    rw [hl] at h
    have hr := ispowerof_loop_pow a ha fuel k r hk hl
    subst hr
    simp only [Option.some.injEq] at h
    rw [← h]
    simp [Int.tmod_self]

/-- Claim C29, the code at the failing input: `ispowerof(10, 3)` returns 1,
because `10 / 3 = 3` in integer division and `3 % 3 = 0`, while 10 is no power
of 3; likewise `ispowerof(26, 5)` and `ispowerof(50, 7)` return 1.  In
`fix_block_map` the backup rule therefore fires for group 10: `mark_group`
marks the block `s_fst_db + 10 * blocks_per_group`. -/
theorem ispowerof_accepts_non_power :
    ispowerof 32 10 3 = some true
    ∧ (∀ k : Nat, 3 ^ k ≠ 10)
    ∧ ispowerof 32 26 5 = some true
    ∧ ispowerof 32 50 7 = some true
    ∧ (mark_group ctx_ex 32 10 (fun _ => 0)).map
        (fun bm => bm (s_fst_db ctx_ex + 10 * ctx_ex.blocks_per_group)) = some 1 := by
  refine ⟨by decide, ?_, by decide, by decide, by decide⟩
  intro k h
  have hk : k < 3 := by
    by_contra hc
    have := Nat.pow_le_pow_right (by norm_num : 0 < 3) (not_lt.mp hc)
    omega
  interval_cases k <;> simp at h

/-! ## Pass 4: what the expected map marks -/

theorem mark_keeps (bm : Nat → Nat) (blk x : Nat) (h : bm x = 1) : mark bm blk x = 1 := by
  unfold mark
  split
  · rfl
  · exact h

theorem mark_self (bm : Nat → Nat) (blk : Nat) : mark bm blk blk = 1 := by
  simp [mark]

theorem mark_loop_keeps (f : Nat → (Nat → Nat) → (Nat → Nat)) (buf : Disk)
    (hf : ∀ blk bm x, bm x = 1 → f blk bm x = 1) :
    ∀ (n k : Nat) (bm : Nat → Nat) (x : Nat), bm x = 1 → mark_loop f buf n k bm x = 1 := by
  intro n
  induction n with
  | zero => intro k bm x h; exact h
  | succ n ih =>
    intro k bm x h
    rw [mark_loop]
    split
    · exact h
    · exact ih _ _ _ (hf _ _ _ h)

theorem mark_block_singly_keeps (c : Ctx) (buf : Disk) (bm : Nat → Nat) (x : Nat)
    (h : bm x = 1) : mark_block_singly c buf bm x = 1 :=
  mark_loop_keeps _ buf (fun blk b y hy => mark_keeps b blk y hy) _ _ bm x h

theorem mark_block_doubly_keeps (c : Ctx) (d buf : Disk) (bm : Nat → Nat) (x : Nat)
    (h : bm x = 1) : mark_block_doubly c d buf bm x = 1 :=
  mark_loop_keeps _ buf
    (fun blk b y hy => mark_block_singly_keeps c _ _ y (mark_keeps b blk y hy)) _ _ bm x h

theorem mark_block_triply_keeps (c : Ctx) (d buf : Disk) (bm : Nat → Nat) (x : Nat)
    (h : bm x = 1) : mark_block_triply c d buf bm x = 1 :=
  mark_loop_keeps _ buf
    (fun blk b y hy => mark_block_doubly_keeps c d _ _ y (mark_keeps b blk y hy)) _ _ bm x h

theorem foldl_keeps {α : Type} (f : (Nat → Nat) → α → (Nat → Nat))
    (hf : ∀ bm a x, bm x = 1 → f bm a x = 1) (l : List α) :
    ∀ (bm : Nat → Nat) (x : Nat), bm x = 1 → l.foldl f bm x = 1 := by
  induction l with
  | nil => intro bm x h; exact h
  | cons a l ih => intro bm x h; exact ih _ _ (hf _ _ _ h)

theorem mark_block_keeps (c : Ctx) (d : Disk) (n : Nat) (bm : Nat → Nat) (x : Nat)
    (h : bm x = 1) : mark_block c d n bm x = 1 := by
  unfold mark_block
  simp only
  split
  · exact h
  · have h1 : (List.range EXT2_NDIR_BLOCKS).foldl
        (fun b i =>
          if i_block (read_bytes d (get_inode_addr c n)) i = 0 then b
          else mark b (i_block (read_bytes d (get_inode_addr c n)) i)) bm x = 1 := by
      apply foldl_keeps _ _ _ _ _ h
      intro b a y hy
      split
      · exact hy
      · exact mark_keeps _ _ _ hy
    generalize (List.range EXT2_NDIR_BLOCKS).foldl
        (fun b i =>
          if i_block (read_bytes d (get_inode_addr c n)) i = 0 then b
          else mark b (i_block (read_bytes d (get_inode_addr c n)) i)) bm = b1 at h1 ⊢
    have h2 : (if i_block (read_bytes d (get_inode_addr c n)) 12 > 0 then
          mark_block_singly c
            (read_bytes d (blk_addr c (i_block (read_bytes d (get_inode_addr c n)) 12)))
            (mark b1 (i_block (read_bytes d (get_inode_addr c n)) 12))
        else b1) x = 1 := by
      split
      · exact mark_block_singly_keeps c _ _ _ (mark_keeps _ _ _ h1)
      · exact h1
    generalize (if i_block (read_bytes d (get_inode_addr c n)) 12 > 0 then
          mark_block_singly c
            (read_bytes d (blk_addr c (i_block (read_bytes d (get_inode_addr c n)) 12)))
            (mark b1 (i_block (read_bytes d (get_inode_addr c n)) 12))
        else b1) = b2 at h2 ⊢
    have h3 : (if i_block (read_bytes d (get_inode_addr c n)) 13 > 0 then
          mark_block_doubly c d
            (read_bytes d (blk_addr c (i_block (read_bytes d (get_inode_addr c n)) 13)))
            (mark b2 (i_block (read_bytes d (get_inode_addr c n)) 13))
        else b2) x = 1 := by
      split
      · exact mark_block_doubly_keeps c d _ _ _ (mark_keeps _ _ _ h2)
      · exact h2
    generalize (if i_block (read_bytes d (get_inode_addr c n)) 13 > 0 then
          mark_block_doubly c d
            (read_bytes d (blk_addr c (i_block (read_bytes d (get_inode_addr c n)) 13)))
            (mark b2 (i_block (read_bytes d (get_inode_addr c n)) 13))
        else b2) = b3 at h3 ⊢
    split
    · exact mark_block_triply_keeps c d _ _ _ (mark_keeps _ _ _ h3)
    · exact h3

theorem foldl_mark_range (n : Nat) :
    ∀ (addr : Nat) (bm : Nat → Nat) (j : Nat), j < n →
      (List.range' addr n).foldl mark bm (addr + j) = 1 := by
  induction n with
  | zero => intro addr bm j hj; omega
  | succ n ih =>
    intro addr bm j hj
    rw [List.range'_succ, List.foldl_cons]
    cases j with
    | zero =>
      exact foldl_keeps mark (fun b a y hy => mark_keeps b a y hy) _ _ _ (mark_self _ _)
    | succ j =>
      have := ih (addr + 1) (mark bm addr) j (by omega)
      rw [Nat.add_assoc, Nat.add_comm 1 j] at this
      exact this

theorem le_blocks_for (size bs : Nat) (hbs : 0 < bs) :
    (size + bs - 1) / bs ≤ blocks_for size bs := by
  unfold blocks_for
  rcases Nat.eq_zero_or_pos size with h0 | hpos
  · subst h0
    have : (0 + bs - 1) / bs = 0 := Nat.div_eq_of_lt (by omega)
    rw [this]
    exact Nat.zero_le _
  · have e1 : ((size : Int) - 1) = ((size - 1 : Nat) : Int) := by omega
    have e2 : (((size - 1) / bs : Nat) : Int) + 1 = (((size - 1) / bs + 1 : Nat) : Int) := by
      norm_cast
    rw [e1, Int.tdiv_eq_ediv (by positivity) (by positivity), ← Int.natCast_div, e2,
      Int.toNat_ofNat]
    have e3 : size + bs - 1 = size - 1 + bs := by omega
    rw [e3, Nat.add_div_right _ hbs]

theorem mark_group_keeps (c : Ctx) (fuel g : Nat) (bm bm1 : Nat → Nat)
    (h : mark_group c fuel g bm = some bm1) (x : Nat) (hx : bm x = 1) : bm1 x = 1 := by
  unfold mark_group at h
  split at h
  · simp only [Option.some.injEq] at h
    rw [← h]
    apply foldl_keeps mark (fun b a y hy => mark_keeps b a y hy)
    apply mark_keeps
    apply mark_keeps
    split
    · exact mark_keeps _ _ _ (mark_keeps _ _ _ hx)
    · exact hx
  · exact absurd h (by simp)

theorem mark_group_marks (c : Ctx) (fuel g : Nat) (bm bm1 : Nat → Nat)
    (h : mark_group c fuel g bm = some bm1) :
    bm1 (c.bg_desc_table g).bg_block_bitmap = 1
    ∧ bm1 (c.bg_desc_table g).bg_inode_bitmap = 1
    ∧ (∀ j, j < blocks_for (c.inodes_per_group * c.inode_size) c.block_size →
        bm1 ((c.bg_desc_table g).bg_inode_table + j) = 1)
    ∧ ((g = 1 ∨ ∃ k, 1 ≤ k ∧ (g = 3 ^ k ∨ g = 5 ^ k ∨ g = 7 ^ k)) →
        bm1 (s_fst_db c + g * c.blocks_per_group) = 1
        ∧ bm1 (s_fst_db c + g * c.blocks_per_group + 1) = 1) := by
  unfold mark_group at h
  split at h
  · rename_i p3 p5 p7 h3 h5 h7
    simp only [Option.some.injEq] at h
    rw [← h]
    refine ⟨?_, ?_, ?_, ?_⟩
    · apply foldl_keeps mark (fun b a y hy => mark_keeps b a y hy)
      exact mark_keeps _ _ _ (mark_self _ _)
    · apply foldl_keeps mark (fun b a y hy => mark_keeps b a y hy)
      exact mark_self _ _
    · intro j hj
      exact foldl_mark_range _ _ _ _ hj
    · intro hg
      have hcond : (g == 1 || p3 || p5 || p7) = true := by
        rcases hg with h1 | ⟨k, hk, hk3 | hk5 | hk7⟩
        · subst h1; simp
        · subst hk3
          have := ispowerof_pow 3 (by decide) fuel k p3 hk (by exact_mod_cast h3)
          simp [this]
        · subst hk5
          have := ispowerof_pow 5 (by decide) fuel k p5 hk (by exact_mod_cast h5)
          simp [this]
        · subst hk7
          have := ispowerof_pow 7 (by decide) fuel k p7 hk (by exact_mod_cast h7)
          simp [this]
      rw [if_pos hcond]
      constructor
      · apply foldl_keeps mark (fun b a y hy => mark_keeps b a y hy)
        exact mark_keeps _ _ _ (mark_keeps _ _ _ (mark_keeps _ _ _ (mark_self _ _)))
      · apply foldl_keeps mark (fun b a y hy => mark_keeps b a y hy)
        exact mark_keeps _ _ _ (mark_keeps _ _ _ (mark_self _ _))
  · exact absurd h (by simp)

theorem mark_group_total (c : Ctx) (fuel g : Nat) (bm : Nat → Nat) (hg : g < 2 ^ (fuel + 1)) :
    ∃ bm1, mark_group c (fuel + 1) g bm = some bm1 := by
  have hg' : ((g : Nat) : Int) < 2 ^ (fuel + 1) := by exact_mod_cast hg
  obtain ⟨p3, h3⟩ := ispowerof_total fuel g 3 (by decide) hg'
  obtain ⟨p5, h5⟩ := ispowerof_total fuel g 5 (by decide) hg'
  obtain ⟨p7, h7⟩ := ispowerof_total fuel g 7 (by decide) hg'
  unfold mark_group
  rw [h3, h5, h7]
  exact ⟨_, rfl⟩

theorem mark_groups_keeps (c : Ctx) (fuel : Nat) (l : List Nat) :
    ∀ (bm bm1 : Nat → Nat), mark_groups c fuel l bm = some bm1 →
      ∀ x, bm x = 1 → bm1 x = 1 := by
  induction l with
  | nil =>
    intro bm bm1 h x hx
    simp only [mark_groups, Option.some.injEq] at h
    rw [← h]; exact hx
  | cons g l ih =>
    intro bm bm1 h x hx
    rw [mark_groups] at h
    split at h
    · exact absurd h (by simp)
    · rename_i b1 h1
      exact ih _ _ h x (mark_group_keeps c fuel g bm b1 h1 x hx)

theorem mark_groups_mem (c : Ctx) (fuel : Nat) (l : List Nat) :
    ∀ (bm bm1 : Nat → Nat), mark_groups c fuel l bm = some bm1 → ∀ g, g ∈ l →
      ∃ b0 b1, mark_group c fuel g b0 = some b1 ∧ ∀ x, b1 x = 1 → bm1 x = 1 := by
  induction l with
  | nil => intro bm bm1 _ g hg; simp at hg
  | cons g0 l ih =>
    intro bm bm1 h g hg
    rw [mark_groups] at h
    split at h
    · exact absurd h (by simp)
    · rename_i b1 h1
      rcases List.mem_cons.1 hg with rfl | hmem
      · exact ⟨bm, b1, h1, fun x hx => mark_groups_keeps c fuel l _ _ h x hx⟩
      · exact ih _ _ h g hmem

theorem mark_groups_total (c : Ctx) (fuel : Nat) (l : List Nat)
    (hl : ∀ g ∈ l, g < 2 ^ (fuel + 1)) :
    ∀ bm : Nat → Nat, ∃ bm1, mark_groups c (fuel + 1) l bm = some bm1 := by
  induction l with
  | nil => intro bm; exact ⟨bm, rfl⟩
  | cons g l ih =>
    intro bm
    obtain ⟨b1, h1⟩ := mark_group_total c fuel g bm (hl g (List.mem_cons_self _ _))
    rw [mark_groups, h1]
    exact ih (fun g' hg' => hl g' (List.mem_cons_of_mem _ hg')) b1

theorem build_block_map_parts (c : Ctx) (fuel : Nat) (heap : Nat → Nat) (s : State)
    (bm : Nat → Nat) (h : build_block_map c fuel heap s = some bm) :
    (∀ i, i < blocks_for (2048 + GROUP_DESC_SIZE * c.num_groups) c.block_size → bm i = 1)
    ∧ ∀ g, g < c.num_groups →
        ∃ b0 b1, mark_group c fuel g b0 = some b1 ∧ ∀ x, b1 x = 1 → bm x = 1 := by
  unfold build_block_map at h
  simp only at h
  split at h
  · exact absurd h (by simp)
  · rename_i bm2 h2
    simp only [Option.some.injEq] at h
    have hfold : ∀ x, bm2 x = 1 → bm x = 1 := by
      intro x hx
      rw [← h]
      apply foldl_keeps _ _ _ _ _ hx
      intro b a y hy
      split
      · exact hy
      · exact mark_block_keeps c s.disk a b y hy
    refine ⟨?_, ?_⟩
    · intro i hi
      apply hfold
      apply mark_groups_keeps c fuel _ _ _ h2
      simp only [if_pos hi]
    · intro g hg
      obtain ⟨b0, b1, hb, hk⟩ := mark_groups_mem c fuel _ _ _ h2 g (List.mem_range.2 hg)
      exact ⟨b0, b1, hb, fun x hx => hfold x (hk x hx)⟩

theorem build_block_map_total (c : Ctx) (fuel : Nat) (heap : Nat → Nat) (s : State)
    (hfuel : c.num_groups ≤ 2 ^ (fuel + 1)) :
    ∃ bm, build_block_map c (fuel + 1) heap s = some bm := by
  unfold build_block_map
  simp only
  obtain ⟨b2, h2⟩ := mark_groups_total c fuel (List.range c.num_groups)
    (fun g hg => Nat.lt_of_lt_of_le (List.mem_range.1 hg) hfuel)
    (fun i =>
      if i < blocks_for (2048 + GROUP_DESC_SIZE * c.num_groups) c.block_size then 1
      else if i < c.num_groups * c.blocks_per_group then 0 else heap i)
  rw [h2]
  exact ⟨_, rfl⟩

/-- Claim C21, the code at the failing input: for `ctx_4k` (blocks of 4 KiB, one group, so
`first_data = 0` and `⌈(2048 + 32) / 4096⌉ = 1`) the map is built, block 0 is
marked and block `first_data + 0 * blocks_per_group + 1 = 1` of group 0 is
not. -/
theorem backup_of_group_zero_unmarked :
    ¬ (∀ bm, build_block_map ctx_4k 8 (fun _ => 0)
          { disk := fun _ => 0, inode_map := fun _ => 0, log := [] } = some bm →
        ∀ g, g < ctx_4k.num_groups →
          (g = 0 ∨ g = 1 ∨ ∃ k, 1 ≤ k ∧ (g = 3 ^ k ∨ g = 5 ^ k ∨ g = 7 ^ k)) →
          bm (1024 / ctx_4k.block_size + g * ctx_4k.blocks_per_group) = 1
          ∧ bm (1024 / ctx_4k.block_size + g * ctx_4k.blocks_per_group + 1) = 1) := by
  intro h
  have hb : build_block_map ctx_4k 8 (fun _ => 0)
      { disk := fun _ => 0, inode_map := fun _ => 0, log := [] } = some expected_4k := by rfl
  have h1 : expected_4k (1024 / ctx_4k.block_size + 0 * ctx_4k.blocks_per_group + 1) = 1 :=
    (h expected_4k hb 0 (by decide) (Or.inl rfl)).2
  revert h1
  decide

/-- The backup blocks that are marked: with fuel for the power test,
`fix_block_map` builds `block_expected`, and in it, for every group `g < num_groups` that is 1 or a
power of 3, 5 or 7, the blocks `first_data + g * blocks_per_group` and
`first_data + g * blocks_per_group + 1` are marked, `first_data = 1024 /
block_size`, whatever the block size.  For group 0 the two blocks are marked
when the block size is 1024 or 2048; when it is 4096 block `first_data` is
marked, and the block after it is marked when there are more than 64 groups. -/
theorem build_block_map_backups (c : Ctx) (fuel : Nat) (heap : Nat → Nat) (s : State)
    (hfuel : c.num_groups ≤ 2 ^ (fuel + 1)) :
    ∃ bm, build_block_map c (fuel + 1) heap s = some bm
      ∧ (∀ g, g < c.num_groups →
          (g = 1 ∨ ∃ k, 1 ≤ k ∧ (g = 3 ^ k ∨ g = 5 ^ k ∨ g = 7 ^ k)) →
          bm (s_fst_db c + g * c.blocks_per_group) = 1
          ∧ bm (s_fst_db c + g * c.blocks_per_group + 1) = 1)
      ∧ (0 < c.num_groups → c.block_size = 1024 ∨ c.block_size = 2048 →
          bm (s_fst_db c + 0 * c.blocks_per_group) = 1
          ∧ bm (s_fst_db c + 0 * c.blocks_per_group + 1) = 1)
      ∧ (0 < c.num_groups → c.block_size = 4096 →
          bm (s_fst_db c + 0 * c.blocks_per_group) = 1
          ∧ (64 < c.num_groups → bm (s_fst_db c + 0 * c.blocks_per_group + 1) = 1)) := by
  obtain ⟨bm, hbm⟩ := build_block_map_total c fuel heap s hfuel
  obtain ⟨hfirst, hgroups⟩ := build_block_map_parts c (fuel + 1) heap s bm hbm
  have hk : ∀ bs, 0 < bs → (2048 + GROUP_DESC_SIZE * c.num_groups + bs - 1) / bs
      ≤ blocks_for (2048 + GROUP_DESC_SIZE * c.num_groups) bs :=
    fun bs hbs => le_blocks_for _ bs hbs
  refine ⟨bm, hbm, ?_, ?_, ?_⟩
  · intro g hg hpow
    obtain ⟨b0, b1, hb, hkeep⟩ := hgroups g hg
    obtain ⟨_, _, _, hback⟩ := mark_group_marks c (fuel + 1) g b0 b1 hb
    exact ⟨hkeep _ (hback hpow).1, hkeep _ (hback hpow).2⟩
  · intro hn hbs
    simp only [s_fst_db, GROUP_DESC_SIZE, Nat.zero_mul, Nat.add_zero] at *
    rcases hbs with h | h
    · rw [h] at hfirst ⊢
      have := hk 1024 (by decide)
      exact ⟨hfirst _ (by omega), hfirst _ (by omega)⟩
    · rw [h] at hfirst ⊢
      have := hk 2048 (by decide)
      exact ⟨hfirst _ (by omega), hfirst _ (by omega)⟩
  · intro hn hbs
    simp only [s_fst_db, GROUP_DESC_SIZE, Nat.zero_mul, Nat.add_zero] at *
    rw [hbs] at hfirst ⊢
    have := hk 4096 (by decide)
    exact ⟨hfirst _ (by omega), fun h64 => hfirst _ (by omega)⟩

/-- Witness for `build_block_map_backups`: the map of the walked image
`img_orphan` (one group, blocks of 1 KiB). -/
theorem build_block_map_backups_witness :
    ctx_ex.num_groups ≤ 2 ^ (7 + 1)
    ∧ ∃ bm, build_block_map ctx_ex (7 + 1) (fun _ => 0) (after_walk ctx_ex img_orphan) = some bm
      ∧ (∀ g, g < ctx_ex.num_groups →
          (g = 1 ∨ ∃ k, 1 ≤ k ∧ (g = 3 ^ k ∨ g = 5 ^ k ∨ g = 7 ^ k)) →
          bm (s_fst_db ctx_ex + g * ctx_ex.blocks_per_group) = 1
          ∧ bm (s_fst_db ctx_ex + g * ctx_ex.blocks_per_group + 1) = 1)
      ∧ (0 < ctx_ex.num_groups → ctx_ex.block_size = 1024 ∨ ctx_ex.block_size = 2048 →
          bm (s_fst_db ctx_ex + 0 * ctx_ex.blocks_per_group) = 1
          ∧ bm (s_fst_db ctx_ex + 0 * ctx_ex.blocks_per_group + 1) = 1)
      ∧ (0 < ctx_ex.num_groups → ctx_ex.block_size = 4096 →
          bm (s_fst_db ctx_ex + 0 * ctx_ex.blocks_per_group) = 1
          ∧ (64 < ctx_ex.num_groups →
              bm (s_fst_db ctx_ex + 0 * ctx_ex.blocks_per_group + 1) = 1)) :=
  ⟨by decide,
   build_block_map_backups ctx_ex 7 (fun _ => 0) (after_walk ctx_ex img_orphan) (by decide)⟩

/-- Claim C26: with fuel for the power test and a block size above 0,
`fix_block_map` builds `block_expected`, and in it the first `⌈(2048 +
num_groups * sizeof(descriptor)) / block_size⌉` block indices are marked, and
for every group `g < num_groups` the block `bg_block_bitmap`, the block
`bg_inode_bitmap` and the `⌈inodes_per_group * inode_size / block_size⌉`
consecutive blocks from `bg_inode_table` on are marked. -/
theorem build_block_map_metadata (c : Ctx) (fuel : Nat) (heap : Nat → Nat) (s : State)
    (hbs : 0 < c.block_size) (hfuel : c.num_groups ≤ 2 ^ (fuel + 1)) :
    ∃ bm, build_block_map c (fuel + 1) heap s = some bm
      ∧ (∀ i, i < (2048 + GROUP_DESC_SIZE * c.num_groups + c.block_size - 1) / c.block_size →
          bm i = 1)
      ∧ ∀ g, g < c.num_groups →
          bm (c.bg_desc_table g).bg_block_bitmap = 1
          ∧ bm (c.bg_desc_table g).bg_inode_bitmap = 1
          ∧ ∀ j, j < (c.inodes_per_group * c.inode_size + c.block_size - 1) / c.block_size →
              bm ((c.bg_desc_table g).bg_inode_table + j) = 1 := by
  obtain ⟨bm, hbm⟩ := build_block_map_total c fuel heap s hfuel
  obtain ⟨hfirst, hgroups⟩ := build_block_map_parts c (fuel + 1) heap s bm hbm
  refine ⟨bm, hbm, ?_, ?_⟩
  · intro i hi
    exact hfirst i (Nat.lt_of_lt_of_le hi (le_blocks_for _ _ hbs))
  · intro g hg
    obtain ⟨b0, b1, hb, hkeep⟩ := hgroups g hg
    obtain ⟨h1, h2, h3, _⟩ := mark_group_marks c (fuel + 1) g b0 b1 hb
    exact ⟨hkeep _ h1, hkeep _ h2,
      fun j hj => hkeep _ (h3 j (Nat.lt_of_lt_of_le hj (le_blocks_for _ _ hbs)))⟩

/-- Witness for `build_block_map_metadata`: the map of the walked image
`img_orphan`, where the first 3 blocks, the bitmaps (blocks 3 and 4) and the 4
blocks of the inode table (from block 5) are marked. -/
theorem build_block_map_metadata_witness :
    (2048 + GROUP_DESC_SIZE * ctx_ex.num_groups + ctx_ex.block_size - 1) / ctx_ex.block_size = 3
    ∧ (ctx_ex.inodes_per_group * ctx_ex.inode_size + ctx_ex.block_size - 1)
        / ctx_ex.block_size = 4
    ∧ ∃ bm, build_block_map ctx_ex (7 + 1) (fun _ => 0) (after_walk ctx_ex img_orphan) = some bm
      ∧ (∀ i, i < (2048 + GROUP_DESC_SIZE * ctx_ex.num_groups + ctx_ex.block_size - 1)
            / ctx_ex.block_size → bm i = 1)
      ∧ ∀ g, g < ctx_ex.num_groups →
          bm (ctx_ex.bg_desc_table g).bg_block_bitmap = 1
          ∧ bm (ctx_ex.bg_desc_table g).bg_inode_bitmap = 1
          ∧ ∀ j, j < (ctx_ex.inodes_per_group * ctx_ex.inode_size + ctx_ex.block_size - 1)
                / ctx_ex.block_size →
              bm ((ctx_ex.bg_desc_table g).bg_inode_table + j) = 1 :=
  ⟨by decide, by decide,
   build_block_map_metadata ctx_ex 7 (fun _ => 0) (after_walk ctx_ex img_orphan)
     (by decide) (by decide)⟩

/-! ## Pass 4: the entries of an indirect block up to the first zero -/

theorem mark_loop_marks (f : Nat → (Nat → Nat) → (Nat → Nat)) (buf : Disk)
    (hf : ∀ blk bm x, bm x = 1 → f blk bm x = 1) (x : Nat) :
    ∀ (n i : Nat) (bm : Nat → Nat) (k : Nat), k < n →
      (∀ j, j ≤ k → rd32 buf (4 * (i + j)) ≠ 0) →
      (∀ b, f (rd32 buf (4 * (i + k))) b x = 1) → mark_loop f buf n i bm x = 1 := by
  intro n
  induction n with
  | zero => intro i bm k hk; omega
  | succ n ih =>
    intro i bm k hk hrun hx
    rw [mark_loop]
    have h0 := hrun 0 (Nat.zero_le _)
    rw [Nat.add_zero] at h0
    rw [if_neg h0]
    cases k with
    | zero =>
      rw [Nat.add_zero] at hx
      exact mark_loop_keeps f buf hf _ _ _ _ (hx _)
    | succ k =>
      apply ih (i + 1) _ k (by omega)
      · intro j hj
        have := hrun (j + 1) (by omega)
        rw [show i + 1 + j = i + (j + 1) by omega]
        exact this
      · intro b
        rw [show i + 1 + k = i + (k + 1) by omega]
        exact hx b

theorem mark_block_singly_marks (c : Ctx) (d : Disk) (blk k : Nat) (bm : Nat → Nat)
    (hk : in_run c d blk k) :
    mark_block_singly c (read_bytes d (blk_addr c blk)) bm (ind_entry c d blk k) = 1 := by
  unfold mark_block_singly
  apply mark_loop_marks _ _ (fun blk b y hy => mark_keeps b blk y hy) _ _ 0 bm k hk.1
  · intro j hj
    rw [Nat.zero_add]
    exact hk.2 j hj
  · intro b
    rw [Nat.zero_add]
    exact mark_self _ _

theorem mark_block_doubly_marks (c : Ctx) (d : Disk) (blk k : Nat) (bm : Nat → Nat)
    (hk : in_run c d blk k) :
    mark_block_doubly c d (read_bytes d (blk_addr c blk)) bm (ind_entry c d blk k) = 1
    ∧ ∀ k2, in_run c d (ind_entry c d blk k) k2 →
        mark_block_doubly c d (read_bytes d (blk_addr c blk)) bm
          (ind_entry c d (ind_entry c d blk k) k2) = 1 := by
  have hf : ∀ (b : Nat) (m : Nat → Nat) (y : Nat), m y = 1 →
      mark_block_singly c (read_bytes d (blk_addr c b)) (mark m b) y = 1 :=
    fun b m y hy => mark_block_singly_keeps c _ _ y (mark_keeps m b y hy)
  have hrun : ∀ j, j ≤ k → rd32 (read_bytes d (blk_addr c blk)) (4 * (0 + j)) ≠ 0 := by
    intro j hj
    rw [Nat.zero_add]
    exact hk.2 j hj
  refine ⟨?_, ?_⟩
  · unfold mark_block_doubly
    apply mark_loop_marks _ _ hf _ _ 0 bm k hk.1 hrun
    intro b
    rw [Nat.zero_add]
    exact mark_block_singly_keeps c _ _ _ (mark_self _ _)
  · intro k2 hk2
    unfold mark_block_doubly
    apply mark_loop_marks _ _ hf _ _ 0 bm k hk.1 hrun
    intro b
    rw [Nat.zero_add]
    exact mark_block_singly_marks c d _ k2 _ hk2

theorem mark_block_triply_marks (c : Ctx) (d : Disk) (blk k : Nat) (bm : Nat → Nat)
    (hk : in_run c d blk k) :
    mark_block_triply c d (read_bytes d (blk_addr c blk)) bm (ind_entry c d blk k) = 1
    ∧ ∀ k2, in_run c d (ind_entry c d blk k) k2 →
        mark_block_triply c d (read_bytes d (blk_addr c blk)) bm
          (ind_entry c d (ind_entry c d blk k) k2) = 1
        ∧ ∀ k3, in_run c d (ind_entry c d (ind_entry c d blk k) k2) k3 →
          mark_block_triply c d (read_bytes d (blk_addr c blk)) bm
            (ind_entry c d (ind_entry c d (ind_entry c d blk k) k2) k3) = 1 := by
  have hf : ∀ (b : Nat) (m : Nat → Nat) (y : Nat), m y = 1 →
      mark_block_doubly c d (read_bytes d (blk_addr c b)) (mark m b) y = 1 :=
    fun b m y hy => mark_block_doubly_keeps c d _ _ y (mark_keeps m b y hy)
  have hrun : ∀ j, j ≤ k → rd32 (read_bytes d (blk_addr c blk)) (4 * (0 + j)) ≠ 0 := by
    intro j hj
    rw [Nat.zero_add]
    exact hk.2 j hj
  refine ⟨?_, ?_⟩
  · unfold mark_block_triply
    apply mark_loop_marks _ _ hf _ _ 0 bm k hk.1 hrun
    intro b
    rw [Nat.zero_add]
    exact mark_block_doubly_keeps c d _ _ _ (mark_self _ _)
  · intro k2 hk2
    refine ⟨?_, ?_⟩
    · unfold mark_block_triply
      apply mark_loop_marks _ _ hf _ _ 0 bm k hk.1 hrun
      intro b
      rw [Nat.zero_add]
      exact (mark_block_doubly_marks c d _ k2 _ hk2).1
    · intro k3 hk3
      unfold mark_block_triply
      apply mark_loop_marks _ _ hf _ _ 0 bm k hk.1 hrun
      intro b
      rw [Nat.zero_add]
      exact (mark_block_doubly_marks c d _ k2 _ hk2).2 k3 hk3

theorem foldl_marks_direct (inode : Disk) (x : Nat) :
    ∀ (l : List Nat) (bm : Nat → Nat), (∃ i ∈ l, i_block inode i = x) → x ≠ 0 →
      l.foldl (fun b i => if i_block inode i = 0 then b else mark b (i_block inode i)) bm x
        = 1 := by
  intro l
  induction l with
  | nil => intro bm h; obtain ⟨i, hi, _⟩ := h; simp at hi
  | cons a l ih =>
    intro bm h hx
    rw [List.foldl_cons]
    obtain ⟨i, hi, hix⟩ := h
    rcases List.mem_cons.mp hi with rfl | hl
    · apply foldl_keeps _ _ _ _ _ _
      · intro b a y hy
        split
        · exact hy
        · exact mark_keeps _ _ _ hy
      · rw [if_neg (by rw [hix]; exact hx), hix]
        exact mark_self _ _
    · exact ih _ ⟨i, hl, hix⟩ hx

/-- Claim C19, amended: block-tree coverage up to the first zero entry.  For
every inode that is not a fast symlink, `mark_block` marks every non-zero
direct pointer `i_block[0..11]`, every non-zero indirect root `i_block[12..14]`
itself, and, in every indirect block it reads at every level, every entry that
comes before the first zero entry of that block (`in_run`): the entries of
the singly indirect root, those of the doubly indirect root and of the blocks
these name, those of the triply indirect root, of the blocks these name and of
the blocks named there. -/
theorem mark_block_marks_runs (c : Ctx) (d : Disk) (n : Nat) (bm : Nat → Nat)
    (hn : ¬ (EXT2_S_ISLNK (i_mode (read_bytes d (get_inode_addr c (n : Int)))) = true
      ∧ i_size (read_bytes d (get_inode_addr c (n : Int))) < 60)) :
    (∀ i, i < 12 → i_block (read_bytes d (get_inode_addr c (n : Int))) i ≠ 0 →
      mark_block c d n bm (i_block (read_bytes d (get_inode_addr c (n : Int))) i) = 1)
    ∧ (∀ i, 12 ≤ i → i ≤ 14 → i_block (read_bytes d (get_inode_addr c (n : Int))) i ≠ 0 →
      mark_block c d n bm (i_block (read_bytes d (get_inode_addr c (n : Int))) i) = 1)
    ∧ (i_block (read_bytes d (get_inode_addr c (n : Int))) 12 ≠ 0 →
      ∀ k, in_run c d (i_block (read_bytes d (get_inode_addr c (n : Int))) 12) k →
        mark_block c d n bm
          (ind_entry c d (i_block (read_bytes d (get_inode_addr c (n : Int))) 12) k) = 1)
    ∧ (i_block (read_bytes d (get_inode_addr c (n : Int))) 13 ≠ 0 →
      ∀ k, in_run c d (i_block (read_bytes d (get_inode_addr c (n : Int))) 13) k →
        mark_block c d n bm
          (ind_entry c d (i_block (read_bytes d (get_inode_addr c (n : Int))) 13) k) = 1
        ∧ ∀ k2, in_run c d
            (ind_entry c d (i_block (read_bytes d (get_inode_addr c (n : Int))) 13) k) k2 →
          mark_block c d n bm (ind_entry c d
            (ind_entry c d (i_block (read_bytes d (get_inode_addr c (n : Int))) 13) k) k2) = 1)
    ∧ (i_block (read_bytes d (get_inode_addr c (n : Int))) 14 ≠ 0 →
      ∀ k, in_run c d (i_block (read_bytes d (get_inode_addr c (n : Int))) 14) k →
        mark_block c d n bm
          (ind_entry c d (i_block (read_bytes d (get_inode_addr c (n : Int))) 14) k) = 1
        ∧ ∀ k2, in_run c d
            (ind_entry c d (i_block (read_bytes d (get_inode_addr c (n : Int))) 14) k) k2 →
          mark_block c d n bm (ind_entry c d
            (ind_entry c d (i_block (read_bytes d (get_inode_addr c (n : Int))) 14) k) k2) = 1
          ∧ ∀ k3, in_run c d (ind_entry c d
              (ind_entry c d (i_block (read_bytes d (get_inode_addr c (n : Int))) 14) k) k2) k3 →
            mark_block c d n bm (ind_entry c d (ind_entry c d
              (ind_entry c d (i_block (read_bytes d (get_inode_addr c (n : Int))) 14) k) k2) k3)
              = 1) := by
  generalize hino : read_bytes d (get_inode_addr c (n : Int)) = inode at hn ⊢
  have hfast : (EXT2_S_ISLNK (i_mode inode) && decide (i_size inode < 60)) = false := by
    rcases Bool.eq_false_or_eq_true (EXT2_S_ISLNK (i_mode inode)) with h | h
    · have : ¬ (i_size inode < 60) := fun h2 => hn ⟨h, h2⟩
      simp [h, this]
    · simp [h]
  -- the four stages of `mark_block`
  have hdef : mark_block c d n bm =
      (if i_block inode 14 > 0 then
        mark_block_triply c d (read_bytes d (blk_addr c (i_block inode 14)))
          (mark (if i_block inode 13 > 0 then
            mark_block_doubly c d (read_bytes d (blk_addr c (i_block inode 13)))
              (mark (if i_block inode 12 > 0 then
                mark_block_singly c (read_bytes d (blk_addr c (i_block inode 12)))
                  (mark ((List.range EXT2_NDIR_BLOCKS).foldl
                    (fun b i => if i_block inode i = 0 then b else mark b (i_block inode i)) bm)
                    (i_block inode 12))
              else (List.range EXT2_NDIR_BLOCKS).foldl
                (fun b i => if i_block inode i = 0 then b else mark b (i_block inode i)) bm)
                (i_block inode 13))
          else (if i_block inode 12 > 0 then
                mark_block_singly c (read_bytes d (blk_addr c (i_block inode 12)))
                  (mark ((List.range EXT2_NDIR_BLOCKS).foldl
                    (fun b i => if i_block inode i = 0 then b else mark b (i_block inode i)) bm)
                    (i_block inode 12))
              else (List.range EXT2_NDIR_BLOCKS).foldl
                (fun b i => if i_block inode i = 0 then b else mark b (i_block inode i)) bm))
            (i_block inode 14))
      else (if i_block inode 13 > 0 then
            mark_block_doubly c d (read_bytes d (blk_addr c (i_block inode 13)))
              (mark (if i_block inode 12 > 0 then
                mark_block_singly c (read_bytes d (blk_addr c (i_block inode 12)))
                  (mark ((List.range EXT2_NDIR_BLOCKS).foldl
                    (fun b i => if i_block inode i = 0 then b else mark b (i_block inode i)) bm)
                    (i_block inode 12))
              else (List.range EXT2_NDIR_BLOCKS).foldl
                (fun b i => if i_block inode i = 0 then b else mark b (i_block inode i)) bm)
                (i_block inode 13))
          else (if i_block inode 12 > 0 then
                mark_block_singly c (read_bytes d (blk_addr c (i_block inode 12)))
                  (mark ((List.range EXT2_NDIR_BLOCKS).foldl
                    (fun b i => if i_block inode i = 0 then b else mark b (i_block inode i)) bm)
                    (i_block inode 12))
              else (List.range EXT2_NDIR_BLOCKS).foldl
                (fun b i => if i_block inode i = 0 then b else mark b (i_block inode i)) bm))) := by
    unfold mark_block
    simp only [hino, hfast]
    rfl
  rw [hdef]
  generalize hb1 : (List.range EXT2_NDIR_BLOCKS).foldl
    (fun b i => if i_block inode i = 0 then b else mark b (i_block inode i)) bm = b1
  have h1 : ∀ i, i < 12 → i_block inode i ≠ 0 → b1 (i_block inode i) = 1 := by
    intro i hi hz
    rw [← hb1]
    exact foldl_marks_direct inode _ _ bm ⟨i, by simp [EXT2_NDIR_BLOCKS, hi], rfl⟩ hz
  generalize hb2 : (if i_block inode 12 > 0 then
      mark_block_singly c (read_bytes d (blk_addr c (i_block inode 12)))
        (mark b1 (i_block inode 12)) else b1) = b2
  have k2 : ∀ x, b1 x = 1 → b2 x = 1 := by
    intro x hx
    rw [← hb2]
    split
    · exact mark_block_singly_keeps c _ _ _ (mark_keeps _ _ _ hx)
    · exact hx
  generalize hb3 : (if i_block inode 13 > 0 then
      mark_block_doubly c d (read_bytes d (blk_addr c (i_block inode 13)))
        (mark b2 (i_block inode 13)) else b2) = b3
  have k3 : ∀ x, b2 x = 1 → b3 x = 1 := by
    intro x hx
    rw [← hb3]
    split
    · exact mark_block_doubly_keeps c d _ _ _ (mark_keeps _ _ _ hx)
    · exact hx
  generalize hb4 : (if i_block inode 14 > 0 then
      mark_block_triply c d (read_bytes d (blk_addr c (i_block inode 14)))
        (mark b3 (i_block inode 14)) else b3) = b4
  have k4 : ∀ x, b3 x = 1 → b4 x = 1 := by
    intro x hx
    rw [← hb4]
    split
    · exact mark_block_triply_keeps c d _ _ _ (mark_keeps _ _ _ hx)
    · exact hx
  have r12 : i_block inode 12 ≠ 0 → b2 (i_block inode 12) = 1 := by
    intro hz
    rw [← hb2, if_pos (Nat.pos_of_ne_zero hz)]
    exact mark_block_singly_keeps c _ _ _ (mark_self _ _)
  have r13 : i_block inode 13 ≠ 0 → b3 (i_block inode 13) = 1 := by
    intro hz
    rw [← hb3, if_pos (Nat.pos_of_ne_zero hz)]
    exact mark_block_doubly_keeps c d _ _ _ (mark_self _ _)
  have r14 : i_block inode 14 ≠ 0 → b4 (i_block inode 14) = 1 := by
    intro hz
    rw [← hb4, if_pos (Nat.pos_of_ne_zero hz)]
    exact mark_block_triply_keeps c d _ _ _ (mark_self _ _)
  refine ⟨fun i hi hz => k4 _ (k3 _ (k2 _ (h1 i hi hz))), ?_, ?_, ?_, ?_⟩
  · intro i h12 h14 hz
    have : i = 12 ∨ i = 13 ∨ i = 14 := by omega
    rcases this with rfl | rfl | rfl
    · exact k4 _ (k3 _ (r12 hz))
    · exact k4 _ (r13 hz)
    · exact r14 hz
  · intro hz k hk
    apply k4 _ (k3 _ _)
    rw [← hb2, if_pos (Nat.pos_of_ne_zero hz)]
    exact mark_block_singly_marks c d _ k _ hk
  · intro hz k hk
    have := mark_block_doubly_marks c d _ k (mark b2 (i_block inode 13)) hk
    refine ⟨k4 _ ?_, fun k2 hk2 => k4 _ ?_⟩
    · rw [← hb3, if_pos (Nat.pos_of_ne_zero hz)]
      exact this.1
    · rw [← hb3, if_pos (Nat.pos_of_ne_zero hz)]
      exact this.2 k2 hk2
  · intro hz k hk
    have := mark_block_triply_marks c d _ k (mark b3 (i_block inode 14)) hk
    rw [← hb4, if_pos (Nat.pos_of_ne_zero hz)]
    exact ⟨this.1, fun k2 hk2 => ⟨(this.2 k2 hk2).1, (this.2 k2 hk2).2⟩⟩

set_option maxRecDepth 100000 in
/-- Witness for `mark_block_marks_runs`: inode 30 of `img_hole` is a regular
file whose singly indirect block 20 lists 21, 0 and 22; entry 0 comes before
the first zero entry and block 21 is marked, entry 2 comes after it. -/
theorem mark_block_marks_runs_witness :
    i_block (read_bytes img_hole (get_inode_addr ctx_ex ((30 : Nat) : Int))) 12 = 20
    ∧ in_run ctx_ex img_hole 20 0
    ∧ ¬ in_run ctx_ex img_hole 20 2
    ∧ ind_entry ctx_ex img_hole 20 0 = 21
    ∧ mark_block ctx_ex img_hole 30 (fun _ => 0) (ind_entry ctx_ex img_hole 20 0) = 1 := by
  have h12 : i_block (read_bytes img_hole (get_inode_addr ctx_ex ((30 : Nat) : Int))) 12 = 20 := by
    decide
  have hrun : in_run ctx_ex img_hole 20 0 := by
    refine ⟨by decide, fun j hj => ?_⟩
    have hj0 : j = 0 := by omega
    subst hj0
    decide
  have hnot : ¬ in_run ctx_ex img_hole 20 2 := by
    intro h
    exact h.2 1 (by omega) (by decide)
  have hn : ¬ (EXT2_S_ISLNK (i_mode (read_bytes img_hole
        (get_inode_addr ctx_ex ((30 : Nat) : Int)))) = true
      ∧ i_size (read_bytes img_hole (get_inode_addr ctx_ex ((30 : Nat) : Int))) < 60) := by
    decide
  have key := (mark_block_marks_runs ctx_ex img_hole 30 (fun _ => 0) hn).2.2.1
  rw [h12] at key
  exact ⟨h12, hrun, hnot, by decide, key (by decide) 0 hrun⟩

/-! ## Pass 4: the bits that are written back as they were -/

theorem bit_step_high (b0 v k m : Nat) (hv : v ≤ 1) (hm : k < m) :
    (((b0 &&& (255 ^^^ (1 <<< k))) ||| (v <<< k)) % 256).testBit m = (b0 % 256).testBit m := by
  have h256 : (256 : Nat) = 2 ^ 8 := by norm_num
  have h255 : (255 : Nat) = 2 ^ 8 - 1 := by norm_num
  rw [h256, Nat.testBit_mod_two_pow, Nat.testBit_mod_two_pow, Nat.testBit_lor,
    Nat.testBit_land, Nat.testBit_xor, Nat.one_shiftLeft, Nat.testBit_two_pow,
    Nat.testBit_shiftLeft, h255, Nat.testBit_two_pow_sub_one]
  have h2 : decide (k = m) = false := by simp; omega
  have h3 : decide (m ≥ k) = true := by simp; omega
  have h4 : v.testBit (m - k) = false := by
    have hv' : v = 0 ∨ v = 1 := by omega
    obtain ⟨j, hj⟩ : ∃ j, m - k = j + 1 := ⟨m - k - 1, by omega⟩
    rcases hv' with h | h <;> subst h <;> rw [hj]
    · simp
    · simp [Nat.testBit_succ]
  rw [h2, h3, h4]
  by_cases h8 : m < 8 <;> simp [h8]

theorem compare_bits_one_high (c : Ctx) (bm : Nat → Nat) (g n : Nat) (bitmap : Disk)
    (log : List Report) (hv : bm (g * c.blocks_per_group + n + s_fst_db c) ≤ 1) (m : Nat)
    (hm : n % 8 < m) :
    (rd8 (compare_bits c bm g [n] (bitmap, log)).1 (n / 8)).testBit m
      = (rd8 bitmap (n / 8)).testBit m := by
  simp only [compare_bits]
  split
  · simp only [compare_bits]
    have : rd8 (wr8 bitmap (n / 8)
        (rd8 bitmap (n / 8) &&& (255 ^^^ 1 <<< (n % 8))
          ||| bm (g * c.blocks_per_group + n + s_fst_db c) <<< (n % 8))) (n / 8)
        = ((rd8 bitmap (n / 8) &&& (255 ^^^ 1 <<< (n % 8))
          ||| bm (g * c.blocks_per_group + n + s_fst_db c) <<< (n % 8))) % 256 := by
      simp [rd8, wr8]
    rw [this, bit_step_high _ _ _ _ hv hm]
    simp [rd8]
  · rfl

theorem compare_bits_beyond (c : Ctx) (bm : Nat → Nat) (g : Nat) (bitmap : Disk)
    (log : List Report) (b : Nat) :
    ∀ (n : Nat), n ≤ b →
      (∀ i, i < n → i / 8 = b / 8 → bm (g * c.blocks_per_group + i + s_fst_db c) ≤ 1) →
        (rd8 (compare_bits c bm g (List.range n) (bitmap, log)).1 (b / 8)).testBit (b % 8)
          = (rd8 bitmap (b / 8)).testBit (b % 8) := by
  intro n
  induction n with
  | zero => intro _ _; rfl
  | succ n ih =>
    intro hb hv
    rw [List.range_succ, compare_bits_append]
    have ih' := ih (by omega) (fun i hi h8 => hv i (by omega) h8)
    generalize hr : compare_bits c bm g (List.range n) (bitmap, log) = r at ih' ⊢
    obtain ⟨B, lg⟩ := r
    obtain ⟨h1, _, _⟩ := compare_bits_one c bm g n B lg
    rw [← ih']
    by_cases hbyte : b / 8 = n / 8
    · rw [hbyte]
      exact compare_bits_one_high c bm g n B lg (hv n (by omega) hbyte.symm) _ (by omega)
    · simp only [rd8]
      rw [h1 _ hbyte]

theorem compare_bits_kept (c : Ctx) (bm : Nat → Nat) (g : Nat) (bitmap : Disk)
    (log : List Report) (n b : Nat)
    (hv : ∀ i, i < n → i / 8 = b / 8 → i ≤ b →
      bm (g * c.blocks_per_group + i + s_fst_db c) ≤ 1)
    (hkeep : n ≤ b ∨ (rd8 bitmap (b / 8)).testBit (b % 8)
      = decide (bm (g * c.blocks_per_group + b + s_fst_db c) ≠ 0)) :
    (rd8 (compare_bits c bm g (List.range n) (bitmap, log)).1 (b / 8)).testBit (b % 8)
      = (rd8 bitmap (b / 8)).testBit (b % 8) := by
  by_cases hb : n ≤ b
  · exact compare_bits_beyond c bm g bitmap log b n hb
      (fun i hi h8 => hv i hi h8 (by omega))
  · rcases hkeep with h | h
    · exact absurd h hb
    · rw [h]
      exact compare_bits_range c bm g bitmap log n b (by omega)
        (hv b (by omega) rfl (Nat.le_refl _))

theorem compare_groups_kept (c : Ctx) (bm : Nat → Nat) :
    ∀ (fuel num g0 : Nat) (s s' : State), compare_groups c bm fuel num g0 s = some s' →
      ∀ t b, t * c.blocks_per_group < num → b / 8 < c.block_size →
        (∀ i, i < bits_compared c (num - t * c.blocks_per_group) → i / 8 = b / 8 → i ≤ b →
          bm ((g0 + t) * c.blocks_per_group + i + s_fst_db c) ≤ 1) →
        (∀ t', t' * c.blocks_per_group < num → t' ≠ t →
          bitmap_addr c (g0 + t) + c.block_size ≤ bitmap_addr c (g0 + t')
            ∨ bitmap_addr c (g0 + t') + c.block_size ≤ bitmap_addr c (g0 + t)) →
        (bits_compared c (num - t * c.blocks_per_group) ≤ b
          ∨ (rd8 s.disk (bitmap_addr c (g0 + t) + b / 8)).testBit (b % 8)
              = decide (bm ((g0 + t) * c.blocks_per_group + b + s_fst_db c) ≠ 0)) →
        (rd8 s'.disk (bitmap_addr c (g0 + t) + b / 8)).testBit (b % 8)
          = (rd8 s.disk (bitmap_addr c (g0 + t) + b / 8)).testBit (b % 8) := by
  intro fuel
  induction fuel with
  | zero => intro num g0 s s' h; simp [compare_groups] at h
  | succ fuel ih =>
    intro num g0 s s' h t b ht hb8 hv hsep hkeep
    rw [compare_groups] at h
    split at h
    · rename_i hnum
      cases t with
      | zero =>
        simp only [Nat.zero_mul, Nat.sub_zero, Nat.add_zero] at *
        have hfr := compare_groups_frame c bm _ _ _ _ _ h (bitmap_addr c g0 + b / 8) (by
          intro t' ht'
          have := hsep (t' + 1) (by rw [Nat.succ_mul]; omega) (by omega)
          rw [Nat.add_right_comm, Nat.add_assoc]
          omega)
        have hcb := compare_bits_kept c bm g0 (read_bytes s.disk (bitmap_addr c g0)) s.log
          (bits_compared c num) b hv (by
            rcases hkeep with hk | hk
            · exact Or.inl hk
            · exact Or.inr (by simpa only [rd8, read_bytes] using hk))
        simp only [rd8, bits_compared, bitmap_addr, read_bytes] at hcb hfr ⊢
        rw [hfr, ← hcb]
        have hw : ∀ (B : Disk) (a : Nat),
            write_bytes s.disk a B c.block_size (a + b / 8) = B (b / 8) := by
          intro B a
          simp only [write_bytes]
          rw [if_pos (by omega)]
          congr 1
          omega
        rw [hw]
      | succ t =>
        have hbpg : t * c.blocks_per_group + c.blocks_per_group < num := by
          rw [Nat.succ_mul] at ht; exact ht
        have e1 : num - (t + 1) * c.blocks_per_group
            = num - c.blocks_per_group - t * c.blocks_per_group := by
          rw [Nat.succ_mul]; omega
        have e2 : g0 + (t + 1) = g0 + 1 + t := by omega
        have hsame : (write_bytes s.disk (blk_addr c (c.bg_desc_table g0).bg_block_bitmap)
              (compare_bits c bm g0
                (List.range (if num ≥ c.blocks_per_group then c.blocks_per_group
                  else num - s_fst_db c))
                (read_bytes s.disk (blk_addr c (c.bg_desc_table g0).bg_block_bitmap),
                  s.log)).1 c.block_size) (bitmap_addr c (g0 + 1 + t) + b / 8)
            = s.disk (bitmap_addr c (g0 + 1 + t) + b / 8) := by
          have := hsep 0 (by omega) (by omega)
          simp only [Nat.add_zero, e2] at this
          simp only [write_bytes]
          rw [if_neg ?_]
          simp only [bitmap_addr] at this ⊢
          omega
        rw [e1] at hv hkeep
        rw [e2] at hv hkeep ⊢
        have hres := ih _ _ _ _ h t b (by omega) hb8 hv (by
          intro t' ht' hne
          have := hsep (t' + 1) (by rw [Nat.succ_mul]; omega) (by omega)
          rw [e2] at this
          have e3 : g0 + (t' + 1) = g0 + 1 + t' := by omega
          rw [e3] at this
          exact this) (by
          rcases hkeep with hk | hk
          · exact Or.inl hk
          · refine Or.inr ?_
            simp only [rd8] at hk ⊢
            rw [hsame]
            exact hk)
        rw [hres]
        simp only [rd8]
        rw [hsame]
    · omega

theorem fix_link_count_same (c : Ctx) (i : Nat) (s : State)
    (h : i_links_count (read_bytes s.disk (get_inode_addr c i)) = s.inode_map i) :
    fix_link_count c i s = s := by
  unfold fix_link_count
  simp only
  rw [if_neg (by rw [h]; simp)]

theorem fix_link_count_log (c : Ctx) (i : Nat) (s : State)
    (h : i_links_count (read_bytes s.disk (get_inode_addr c i)) ≠ s.inode_map i) :
    (fix_link_count c i s).log
      = s.log ++ [Report.link_err i (s.inode_map i)
          (i_links_count (read_bytes s.disk (get_inode_addr c i)))] := by
  unfold fix_link_count
  simp only
  rw [if_pos (fun e => h e.symm)]

theorem fix_link_count_other (c : Ctx) (k j : Nat) (s : State)
    (hsep : get_inode_addr c k + INODE_REC_SIZE ≤ get_inode_addr c j
      ∨ get_inode_addr c j + INODE_REC_SIZE ≤ get_inode_addr c k) :
    i_links_count (read_bytes (fix_link_count c k s).disk (get_inode_addr c j))
      = i_links_count (read_bytes s.disk (get_inode_addr c j)) := by
  unfold i_links_count
  apply rd16_congr
  · simp only [read_bytes]
    apply fix_link_count_frame
    simp only [INODE_REC_SIZE, OFF_I_LINKS] at *
    omega
  · simp only [read_bytes]
    apply fix_link_count_frame
    simp only [INODE_REC_SIZE, OFF_I_LINKS] at *
    omega

theorem fix_link_counts_frame_aux (c : Ctx) (l : List Nat) :
    ∀ (s : State), l.Nodup →
      (∀ i ∈ l, ∀ j ∈ l, i ≠ j →
        get_inode_addr c i + INODE_REC_SIZE ≤ get_inode_addr c j
          ∨ get_inode_addr c j + INODE_REC_SIZE ≤ get_inode_addr c i) →
      (∀ x, (∀ i ∈ l, i_links_count (read_bytes s.disk (get_inode_addr c i)) ≠ s.inode_map i →
              x < get_inode_addr c i + OFF_I_LINKS ∨ get_inode_addr c i + OFF_I_LINKS + 2 ≤ x) →
          (l.foldl (fun s1 i => fix_link_count c i s1) s).disk x = s.disk x)
      ∧ ∃ rs, (l.foldl (fun s1 i => fix_link_count c i s1) s).log = s.log ++ rs
          ∧ ∀ r ∈ rs, ∃ i ∈ l,
              i_links_count (read_bytes s.disk (get_inode_addr c i)) ≠ s.inode_map i
              ∧ r = Report.link_err i (s.inode_map i)
                  (i_links_count (read_bytes s.disk (get_inode_addr c i))) := by
  induction l with
  | nil => intro s _ _; exact ⟨fun _ _ => rfl, [], by simp, by simp⟩
  | cons k l ih =>
    intro s hnd hsep
    have hnd' := List.nodup_cons.1 hnd
    obtain ⟨ihd, rs, ihl, ihr⟩ := ih (fix_link_count c k s) hnd'.2
      (fun i hi j hj hij => hsep i (List.mem_cons_of_mem _ hi) j (List.mem_cons_of_mem _ hj) hij)
    have hst : ∀ j ∈ l,
        i_links_count (read_bytes (fix_link_count c k s).disk (get_inode_addr c j))
          = i_links_count (read_bytes s.disk (get_inode_addr c j)) := by
      intro j hj
      have hne : k ≠ j := fun h => hnd'.1 (h ▸ hj)
      exact fix_link_count_other c k j s
        (hsep k (List.mem_cons_self _ _) j (List.mem_cons_of_mem _ hj) hne)
    simp only [List.foldl_cons]
    refine ⟨?_, ?_⟩
    · intro x hx
      rw [ihd x ?_]
      · by_cases hk : i_links_count (read_bytes s.disk (get_inode_addr c k)) = s.inode_map k
        · rw [fix_link_count_same c k s hk]
        · exact fix_link_count_frame c k s x (hx k (List.mem_cons_self _ _) hk)
      · intro i hi hdiff
        rw [hst i hi, fix_link_count_inode_map] at hdiff
        exact hx i (List.mem_cons_of_mem _ hi) hdiff
    · by_cases hk : i_links_count (read_bytes s.disk (get_inode_addr c k)) = s.inode_map k
      · rw [fix_link_count_same c k s hk] at ihl ihr ⊢
        refine ⟨rs, ihl, ?_⟩
        intro r hr
        obtain ⟨i, hi, h1, h2⟩ := ihr r hr
        exact ⟨i, List.mem_cons_of_mem _ hi, h1, h2⟩
      · refine ⟨Report.link_err k (s.inode_map k)
            (i_links_count (read_bytes s.disk (get_inode_addr c k))) :: rs, ?_, ?_⟩
        · rw [ihl, fix_link_count_log c k s hk]
          simp
        · intro r hr
          rcases List.mem_cons.1 hr with rfl | hr'
          · exact ⟨k, List.mem_cons_self _ _, hk, rfl⟩
          · obtain ⟨i, hi, h1, h2⟩ := ihr r hr'
            rw [hst i hi, fix_link_count_inode_map] at h1 h2
            exact ⟨i, List.mem_cons_of_mem _ hi, h1, h2⟩

/-- Claim C25: frame of pass 3.  With the records of distinct inodes not
overlapping, `fix_link_counts` leaves every byte of the image as it was except
the two bytes of `i_links_count` of the inodes `i` in `1 .. num_inodes` whose
stored count differs from `my_inode_map[i]`.  So every other field of a
rewritten inode record keeps its value, the record of an inode whose count
already matches (both zero included) is untouched, and every write the pass
does (each is reported) is for an inode whose stored count differs. -/
theorem fix_link_counts_frame (c : Ctx) (s : State)
    (hsep : ∀ i j, 1 ≤ i → i ≤ c.num_inodes → 1 ≤ j → j ≤ c.num_inodes → i ≠ j →
      get_inode_addr c i + INODE_REC_SIZE ≤ get_inode_addr c j
        ∨ get_inode_addr c j + INODE_REC_SIZE ≤ get_inode_addr c i) :
    (∀ x, (∀ i, 1 ≤ i → i ≤ c.num_inodes →
            i_links_count (read_bytes s.disk (get_inode_addr c i)) ≠ s.inode_map i →
            x < get_inode_addr c i + OFF_I_LINKS ∨ get_inode_addr c i + OFF_I_LINKS + 2 ≤ x) →
        (fix_link_counts c s).disk x = s.disk x)
    ∧ (∀ i k, 1 ≤ i → i ≤ c.num_inodes → k < INODE_REC_SIZE →
        k < OFF_I_LINKS ∨ OFF_I_LINKS + 2 ≤ k →
        (fix_link_counts c s).disk (get_inode_addr c i + k) = s.disk (get_inode_addr c i + k))
    ∧ (∀ i k, 1 ≤ i → i ≤ c.num_inodes →
        i_links_count (read_bytes s.disk (get_inode_addr c i)) = s.inode_map i →
        k < INODE_REC_SIZE →
        (fix_link_counts c s).disk (get_inode_addr c i + k) = s.disk (get_inode_addr c i + k))
    ∧ ∃ rs, (fix_link_counts c s).log = s.log ++ rs
        ∧ ∀ r ∈ rs, ∃ i, 1 ≤ i ∧ i ≤ c.num_inodes
            ∧ i_links_count (read_bytes s.disk (get_inode_addr c i)) ≠ s.inode_map i
            ∧ r = Report.link_err i (s.inode_map i)
                (i_links_count (read_bytes s.disk (get_inode_addr c i))) := by
  have hmem : ∀ k, k ∈ List.range' 1 c.num_inodes ↔ 1 ≤ k ∧ k ≤ c.num_inodes := by
    intro k
    rw [List.mem_range'_1]
    omega
  obtain ⟨hd, rs, hl, hr⟩ := fix_link_counts_frame_aux c (List.range' 1 c.num_inodes) s
    (List.nodup_range' 1 c.num_inodes)
    (fun a ha b hb hab => hsep a b ((hmem a).1 ha).1 ((hmem a).1 ha).2
      ((hmem b).1 hb).1 ((hmem b).1 hb).2 hab)
  have hframe : ∀ x, (∀ i, 1 ≤ i → i ≤ c.num_inodes →
        i_links_count (read_bytes s.disk (get_inode_addr c i)) ≠ s.inode_map i →
        x < get_inode_addr c i + OFF_I_LINKS ∨ get_inode_addr c i + OFF_I_LINKS + 2 ≤ x) →
      (fix_link_counts c s).disk x = s.disk x :=
    fun x hx => hd x (fun i hi hdiff => hx i ((hmem i).1 hi).1 ((hmem i).1 hi).2 hdiff)
  refine ⟨hframe, ?_, ?_, rs, hl, ?_⟩
  · intro i k h1 h2 hk hk'
    apply hframe
    intro j hj1 hj2 _
    by_cases hij : i = j
    · subst hij
      simp only [INODE_REC_SIZE, OFF_I_LINKS] at *
      omega
    · have := hsep i j h1 h2 hj1 hj2 hij
      simp only [INODE_REC_SIZE, OFF_I_LINKS] at *
      omega
  · intro i k h1 h2 hsame hk
    apply hframe
    intro j hj1 hj2 hdiff
    by_cases hij : i = j
    · subst hij
      exact absurd hsame hdiff
    · have := hsep i j h1 h2 hj1 hj2 hij
      simp only [INODE_REC_SIZE, OFF_I_LINKS] at *
      omega
  · intro r hr'
    obtain ⟨i, hi, h1, h2⟩ := hr r hr'
    exact ⟨i, ((hmem i).1 hi).1, ((hmem i).1 hi).2, h1, h2⟩

/-- Witness for `fix_link_counts_frame`: on `refs_orphan` inode 30 stores the
count 1 against 3 references and is rewritten; the first byte of its `i_mode`
keeps its value. -/
theorem fix_link_counts_frame_witness :
    i_links_count (read_bytes refs_orphan.disk (get_inode_addr ctx_ex ((30 : Nat) : Int))) = 1
    ∧ refs_orphan.inode_map 30 = 3
    ∧ (fix_link_counts ctx_ex refs_orphan).disk (get_inode_addr ctx_ex ((30 : Nat) : Int) + 0)
        = refs_orphan.disk (get_inode_addr ctx_ex ((30 : Nat) : Int) + 0) := by
  have h1 : i_links_count (read_bytes refs_orphan.disk
      (get_inode_addr ctx_ex ((30 : Nat) : Int))) = 1 := by decide
  have h2 : refs_orphan.inode_map 30 = 3 := by decide
  have hsep : ∀ i j, 1 ≤ i → i ≤ ctx_ex.num_inodes → 1 ≤ j → j ≤ ctx_ex.num_inodes → i ≠ j →
      get_inode_addr ctx_ex i + INODE_REC_SIZE ≤ get_inode_addr ctx_ex j
        ∨ get_inode_addr ctx_ex j + INODE_REC_SIZE ≤ get_inode_addr ctx_ex i := by
    intro i j h1 h2 h3 h4 h5
    have hn : ctx_ex.num_inodes = 32 := rfl
    rw [get_inode_addr_nat _ i h1, get_inode_addr_nat _ j h3]
    simp only [ctx_ex, SECTOR_SIZE, INODE_REC_SIZE] at *
    omega
  exact ⟨h1, h2, (fix_link_counts_frame ctx_ex refs_orphan hsep).2.1 30 0 (by decide)
    (by decide) (by decide) (Or.inl (by decide))⟩

/-! ## The driver: which partitions are repaired -/

theorem fix_all_calls (fuel : Nat) (j : Int → Junk) :
    ∀ (rounds a : Nat) (d : Disk) (calls : List Int) (d1 : Disk),
      fix_all fuel j rounds (a : Int) d = some (calls, d1) →
      ∃ (m : Nat) (ds : Nat → Disk), a ≤ m ∧ ds a = d ∧ ds m = d1
        ∧ read_partition_info (ds m) (m : Int) = none
        ∧ (∀ i, a ≤ i → i < m → ∃ pt, read_partition_info (ds i) (i : Int) = some pt
            ∧ (pt.type = 0x83 →
                ∃ s, fix_fs fuel (j (i : Int)) (ds i) (i : Int) = some s ∧ ds (i + 1) = s.disk)
            ∧ (pt.type ≠ 0x83 → ds (i + 1) = ds i))
        ∧ calls = ((List.range' a (m - a)).filter
            (fun i => (read_partition_info (ds i) (i : Int)).any
              (fun pt => decide (pt.type = 0x83)))).map (fun (i : Nat) => (i : Int)) := by
  intro rounds
  induction rounds with
  | zero => intro a d calls d1 h; simp [fix_all] at h
  | succ rounds ih =>
    intro a d calls d1 h
    rw [fix_all] at h
    have hcast : ((a : Nat) : Int) + 1 = ((a + 1 : Nat) : Int) := by push_cast; rfl
    cases hr : read_partition_info d (a : Int) with
    | none =>
      rw [hr] at h
      simp only [Option.some.injEq, Prod.mk.injEq] at h
      obtain ⟨hc, hd⟩ := h
      subst hc; subst hd
      exact ⟨a, fun _ => d, Nat.le_refl _, rfl, rfl, hr, fun i h1 h2 => by omega, by simp⟩
    | some pt =>
      rw [hr] at h
      simp only at h
      have key : ∀ (d2 : Disk) (calls2 : List Int),
          fix_all fuel j rounds ((a + 1 : Nat) : Int) d2 = some (calls2, d1) →
          ((pt.type = 0x83 →
              ∃ s, fix_fs fuel (j (a : Int)) d (a : Int) = some s ∧ d2 = s.disk)
            ∧ (pt.type ≠ 0x83 → d2 = d)) →
          calls = (if pt.type = 0x83 then (a : Int) :: calls2 else calls2) →
          ∃ (m : Nat) (ds : Nat → Disk), a ≤ m ∧ ds a = d ∧ ds m = d1
            ∧ read_partition_info (ds m) (m : Int) = none
            ∧ (∀ i, a ≤ i → i < m → ∃ pt, read_partition_info (ds i) (i : Int) = some pt
                ∧ (pt.type = 0x83 →
                    ∃ s, fix_fs fuel (j (i : Int)) (ds i) (i : Int) = some s
                      ∧ ds (i + 1) = s.disk)
                ∧ (pt.type ≠ 0x83 → ds (i + 1) = ds i))
            ∧ calls = ((List.range' a (m - a)).filter
                (fun i => (read_partition_info (ds i) (i : Int)).any
                  (fun pt => decide (pt.type = 0x83)))).map (fun (i : Nat) => (i : Int)) := by
        intro d2 calls2 hrec hd2 hcalls
        obtain ⟨m, ds, hm, hds, hdm, hnone, hall, hcs⟩ := ih (a + 1) d2 calls2 d1 hrec
        have hne : m ≠ a := by omega
        refine ⟨m, fun i => if i = a then d else ds i, by omega, by simp, ?_, ?_, ?_, ?_⟩
        · simp only [if_neg hne]; exact hdm
        · simp only [if_neg hne]; exact hnone
        · intro i hi1 hi2
          by_cases hia : i = a
          · subst hia
            simp only [if_true, if_neg (Nat.succ_ne_self i)]
            refine ⟨pt, hr, ?_, ?_⟩
            · intro ht
              obtain ⟨s, hs, hd2s⟩ := hd2.1 ht
              exact ⟨s, hs, by rw [hds, hd2s]⟩
            · intro ht
              rw [hds]
              exact hd2.2 ht
          · have hi3 : i + 1 ≠ a := by omega
            simp only [if_neg hia, if_neg hi3]
            exact hall i (by omega) hi2
        · have hsplit : List.range' a (m - a) = a :: List.range' (a + 1) (m - (a + 1)) := by
            have : m - a = (m - (a + 1)) + 1 := by omega
            rw [this, List.range'_succ]
          rw [hcalls, hcs, hsplit, List.filter_cons]
          have htail : (List.range' (a + 1) (m - (a + 1))).filter
              (fun i => (read_partition_info (if i = a then d else ds i) (i : Int)).any
                (fun pt => decide (pt.type = 0x83)))
              = (List.range' (a + 1) (m - (a + 1))).filter
                (fun i => (read_partition_info (ds i) (i : Int)).any
                  (fun pt => decide (pt.type = 0x83))) := by
            apply List.filter_congr
            intro i hi
            have : i ≠ a := by
              have := (List.mem_range'_1.1 hi).1
              omega
            simp only [if_neg this]
          simp only [htail]
          by_cases ht : pt.type = 0x83
          · simp [ht, hr]
          · simp [ht, hr]
      by_cases ht : pt.type = 0x83
      · rw [if_pos ht] at h
        cases hf : fix_fs fuel (j (a : Int)) d (a : Int) with
        | none => rw [hf] at h; simp at h
        | some s =>
          rw [hf] at h
          simp only at h
          rw [hcast] at h
          cases hrec : fix_all fuel j rounds ((a + 1 : Nat) : Int) s.disk with
          | none => rw [hrec] at h; simp at h
          | some r =>
            rw [hrec] at h
            simp only [Option.some.injEq, Prod.mk.injEq] at h
            obtain ⟨hc, hd⟩ := h
            refine key s.disk r.1 (by rw [hrec, ← hd]) ⟨fun _ => ⟨s, hf, rfl⟩,
              fun hn => absurd ht hn⟩ (by rw [if_pos ht]; exact hc.symm)
      · rw [if_neg ht, hcast] at h
        exact key d calls h ⟨fun hy => absurd hy ht, fun _ => rfl⟩ (by rw [if_neg ht])

/-- Claim C23: the repair-all driver.  Let `main` run with `-f 0` to its end,
the `-p` block not having ended the program.  Then there is a first index `m ≥
1` at which the resolver fails, on the image `ds m` as it is when index `m` is
examined; for every index `i` with `1 ≤ i < m` the resolver succeeds on the
image `ds i` of that moment, `fix_fs(i)` runs on it when the type is `0x83` and
the image is left alone otherwise; and the indices on which `fix_fs` was
called are, in the order of the calls, exactly the `i` in `1 .. m - 1` whose
type is `0x83`, in ascending order. -/
theorem main_repairs_all (fuel rounds : Nat) (j : Int → Junk) (d : Disk)
    (prt_partition_num : Int) (r : Run)
    (hp : (print_partition d prt_partition_num).2 = none)
    (h : main fuel rounds j d prt_partition_num 0 = some r) :
    ∃ (m : Nat) (ds : Nat → Disk), 1 ≤ m ∧ ds 1 = d ∧ ds m = r.disk
      ∧ read_partition_info (ds m) (m : Int) = none
      ∧ (∀ i, 1 ≤ i → i < m → ∃ pt, read_partition_info (ds i) (i : Int) = some pt
          ∧ (pt.type = 0x83 →
              ∃ s, fix_fs fuel (j (i : Int)) (ds i) (i : Int) = some s ∧ ds (i + 1) = s.disk)
          ∧ (pt.type ≠ 0x83 → ds (i + 1) = ds i))
      ∧ r.fixed = ((List.range' 1 (m - 1)).filter
          (fun i => (read_partition_info (ds i) (i : Int)).any
            (fun pt => decide (pt.type = 0x83)))).map (fun (i : Nat) => (i : Int)) := by
  unfold main at h
  generalize hpp : print_partition d prt_partition_num = pp at h hp
  obtain ⟨out, st⟩ := pp
  simp only at hp
  subst hp
  simp only [ge_iff_le, le_refl, if_true, gt_iff_lt, lt_irrefl, if_false] at h
  cases hf : fix_all fuel j rounds 1 d with
  | none => rw [hf] at h; simp at h
  | some res =>
    rw [hf] at h
    simp only [Option.some.injEq] at h
    have hf' : fix_all fuel j rounds ((1 : Nat) : Int) d = some (res.1, res.2) := hf
    obtain ⟨m, ds, hm, hds, hdm, hnone, hall, hcs⟩ := fix_all_calls fuel j rounds 1 d _ _ hf'
    refine ⟨m, ds, hm, hds, ?_, hnone, hall, ?_⟩
    · rw [hdm, ← h]
    · rw [← h]
      exact hcs

set_option maxRecDepth 100000 in
set_option maxHeartbeats 4000000 in
/-- Witness for `main_repairs_all`: on `img_orphan`, whose partition 1 has type
`0x83`, partitions 2 to 4 have type 0 and partition 5 does not exist, `myfsck -f
0` calls `fix_fs` on index 1 alone. -/
theorem main_repairs_all_witness :
    (repair_all_run img_orphan).fixed = [1]
    ∧ ∃ (m : Nat) (ds : Nat → Disk), 1 ≤ m ∧ ds 1 = img_orphan
      ∧ ds m = (repair_all_run img_orphan).disk
      ∧ read_partition_info (ds m) (m : Int) = none
      ∧ (∀ i, 1 ≤ i → i < m → ∃ pt, read_partition_info (ds i) (i : Int) = some pt
          ∧ (pt.type = 0x83 →
              ∃ s, fix_fs 64 junk0 (ds i) (i : Int) = some s ∧ ds (i + 1) = s.disk)
          ∧ (pt.type ≠ 0x83 → ds (i + 1) = ds i))
      ∧ (repair_all_run img_orphan).fixed = ((List.range' 1 (m - 1)).filter
          (fun i => (read_partition_info (ds i) (i : Int)).any
            (fun pt => decide (pt.type = 0x83)))).map (fun (i : Nat) => (i : Int)) := by
  have h1 : (repair_all_run img_orphan).fixed = [1] := by decide
  have hp : (print_partition img_orphan (-1)).2 = none := by decide
  have h : main 64 8 (fun _ => junk0) img_orphan (-1) 0 = some (repair_all_run img_orphan) := by
    rfl
  exact ⟨h1, main_repairs_all 64 8 (fun _ => junk0) img_orphan (-1) (repair_all_run img_orphan)
    hp h⟩

/-! ## The driver: the print command -/

/-- Claim C24, counterexample: with `-p 0` on `img_orphan` the resolver finds
no partition 0, yet `main` prints nothing and ends with status 0, not with the
text `-1` and a nonzero status. -/
theorem print_of_index_zero_is_silent :
    read_partition_info img_orphan 0 = none
    ∧ ¬ (∀ r, main 64 8 (fun _ => junk0) img_orphan 0 (-1) = some r →
          r.out = [45, 49, 10] ∧ r.status ≠ 0) := by
  refine ⟨by decide, ?_⟩
  intro h
  have hm : main 64 8 (fun _ => junk0) img_orphan 0 (-1)
      = some { out := [], status := 0, fixed := [], disk := img_orphan } := by rfl
  have h1 := (h _ hm).2
  exact h1 rfl

set_option maxRecDepth 100000 in
theorem fmt_02X_byte :
    ∀ t, t < 256 → fmt_02X t
      = [(if t / 16 < 10 then 48 + t / 16 else 55 + t / 16),
         (if t % 16 < 10 then 48 + t % 16 else 55 + t % 16)] := by
  decide

theorem read_partition_info_type_lt (d : Disk) (n : Int) (pt : Partition)
    (h : read_partition_info d n = some pt) : pt.type < 256 := by
  unfold read_partition_info at h
  split at h
  · exact absurd h (by simp)
  · simp only at h
    split at h
    · simp only [Option.some.injEq] at h
      rw [← h]
      exact rd8_lt _ _
    · split at h
      · exact absurd h (by simp)
      · split at h
        · exact absurd h (by simp)
        · simp only [Option.some.injEq] at h
          rw [← h]
          exact rd8_lt _ _

theorem fmt_d_small (x : Nat) (h : x < 2147483648) : fmt_d (toInt32 x) = decimal x := by
  have hx : toInt32 x = (x : Int) := by
    unfold toInt32
    rw [Nat.mod_eq_of_lt (by omega), if_pos h]
  rw [hx]
  unfold fmt_d
  rw [if_neg (by omega), Int.toNat_ofNat]

/-- Claim C24, amended: for every `-p` argument `n > 0` at which the resolver
fails, `main` prints `-1` and a newline and exits with status 255 before any
repair; for `n ≤ 0` the `-p` block prints nothing and does not end the
program (with no `-f` the run ends with status 0).  For every `n` at which the
resolver succeeds it prints `0x`, the type as two upper-case hexadecimal
digits, a blank, the start sector, a blank, the length, both as the decimal
text of the `int` field, and a newline, and does not end the program. -/
theorem main_prints_partition (fuel rounds : Nat) (j : Int → Junk) (d : Disk)
    (n fix_partition_num : Int) :
    (0 < n → read_partition_info d n = none →
      main fuel rounds j d n fix_partition_num
        = some { out := [45, 49, 10], status := 255, fixed := [], disk := d })
    ∧ (n ≤ 0 → print_partition d n = ([], none)
        ∧ main fuel rounds j d n (-1) = some { out := [], status := 0, fixed := [], disk := d })
    ∧ (∀ pt, read_partition_info d n = some pt →
        print_partition d n
          = ([48, 120] ++ fmt_02X pt.type ++ [32] ++ fmt_d (toInt32 pt.start_sec) ++ [32]
              ++ fmt_d (toInt32 pt.length) ++ [10], none)
        ∧ fmt_02X pt.type
          = [(if pt.type / 16 < 10 then 48 + pt.type / 16 else 55 + pt.type / 16),
             (if pt.type % 16 < 10 then 48 + pt.type % 16 else 55 + pt.type % 16)]
        ∧ (pt.start_sec < 2147483648 → fmt_d (toInt32 pt.start_sec) = decimal pt.start_sec)
        ∧ (pt.length < 2147483648 → fmt_d (toInt32 pt.length) = decimal pt.length)
        ∧ main fuel rounds j d n (-1)
          = some { out := partition_line pt, status := 0, fixed := [], disk := d }
        ∧ ∀ r, main fuel rounds j d n fix_partition_num = some r →
            r.out = partition_line pt ∧ r.status = 0) := by
  refine ⟨?_, ?_, ?_⟩
  · intro hn hr
    unfold main print_partition
    rw [if_pos hn, hr]
  · intro hn
    have hp : print_partition d n = ([], none) := by
      unfold print_partition
      rw [if_neg (by omega)]
    refine ⟨hp, ?_⟩
    unfold main
    rw [hp]
    rfl
  · intro pt hr
    have hp : print_partition d n = (partition_line pt, none) := by
      unfold print_partition
      have hn : n > 0 := by
        by_contra hc
        unfold read_partition_info at hr
        rw [if_pos (by omega)] at hr
        exact absurd hr (by simp)
      rw [if_pos hn, hr]
    refine ⟨hp, fmt_02X_byte _ (read_partition_info_type_lt d n pt hr),
      fmt_d_small _, fmt_d_small _, ?_, ?_⟩
    · unfold main
      rw [hp]
      rfl
    · intro r hm
      unfold main at hm
      rw [hp] at hm
      simp only at hm
      split at hm
      · split at hm
        · split at hm
          · exact absurd hm (by simp)
          · simp only [Option.some.injEq] at hm
            rw [← hm]
            exact ⟨rfl, rfl⟩
        · split at hm
          · exact absurd hm (by simp)
          · simp only [Option.some.injEq] at hm
            rw [← hm]
            exact ⟨rfl, rfl⟩
      · simp only [Option.some.injEq] at hm
        rw [← hm]
        exact ⟨rfl, rfl⟩

set_option maxRecDepth 100000 in
/-- Witness for `main_prints_partition`: on `img_orphan`, `-p 1` prints `0x83 2
64` and a newline, and `-p 5` prints `-1` and exits with status 255. -/
theorem main_prints_partition_witness :
    (read_partition_info img_orphan 5 = none
      ∧ main 64 8 (fun _ => junk0) img_orphan 5 (-1)
        = some { out := [45, 49, 10], status := 255, fixed := [], disk := img_orphan })
    ∧ read_partition_info img_orphan 1 = some ⟨1, 131, 2, 1024, 64⟩
    ∧ partition_line ⟨1, 131, 2, 1024, 64⟩ = [48, 120, 56, 51, 32, 50, 32, 54, 52, 10]
    ∧ main 64 8 (fun _ => junk0) img_orphan 1 (-1)
        = some { out := partition_line ⟨1, 131, 2, 1024, 64⟩, status := 0, fixed := [],
                 disk := img_orphan } := by
  have h5 : read_partition_info img_orphan 5 = none := by decide
  have h1 : read_partition_info img_orphan 1 = some ⟨1, 131, 2, 1024, 64⟩ := by decide
  have hl : partition_line ⟨1, 131, 2, 1024, 64⟩ = [48, 120, 56, 51, 32, 50, 32, 54, 52, 10] := by
    decide
  exact ⟨⟨h5, (main_prints_partition 64 8 (fun _ => junk0) img_orphan 5 (-1)).1 (by decide) h5⟩,
    h1, hl,
    ((main_prints_partition 64 8 (fun _ => junk0) img_orphan 1 (-1)).2.2 _ h1).2.2.2.2.1⟩

/-! ## The walk and the lookup at the indirect pointers -/

set_option maxRecDepth 100000 in
set_option maxHeartbeats 4000000 in
/-- Claim C27, the code at the failing input: `img_spare` and `img_boot` differ
in partition block 0 alone, and in both the directories, inodes 2 and 11, have
`i_block[12]`, `i_block[13]` and `i_block[14]` zero.  On `img_spare` the walk
from the root counts no entry for inode 30; on `img_boot` it counts 2, because
for each directory `traverse_dir` reads block 0 as its singly indirect block and
walks block 20, which the boot block lists, as a directory block. -/
theorem traverse_dir_reads_block_zero :
    (∀ a, a < blk_addr ctx_ex 0 ∨ blk_addr ctx_ex 0 + ctx_ex.block_size ≤ a →
      img_boot a = img_spare a)
    ∧ (∀ k, k ∈ [12, 13, 14] →
        i_block (read_bytes img_boot (get_inode_addr ctx_ex ((2 : Nat) : Int))) k = 0
        ∧ i_block (read_bytes img_boot (get_inode_addr ctx_ex ((11 : Nat) : Int))) k = 0)
    ∧ walk_map ctx_ex img_spare
        = some [(2, 3), (11, 2)]
    ∧ walk_map ctx_ex img_boot
        = some [(0, 10), (2, 3), (11, 2), (30, 2)] := by
  have h1 : ∀ a, a < blk_addr ctx_ex 0 ∨ blk_addr ctx_ex 0 + ctx_ex.block_size ≤ a →
      img_boot a = img_spare a := by
    intro a ha
    have hb : blk_addr ctx_ex 0 = 1024 := by decide
    have hs : ctx_ex.block_size = 1024 := rfl
    rw [hb, hs] at ha
    simp only [img_boot, bytes_at, List.length_singleton]
    rw [if_neg (by omega)]
  have h2 : ∀ k, k ∈ [12, 13, 14] →
      i_block (read_bytes img_boot (get_inode_addr ctx_ex ((2 : Nat) : Int))) k = 0
      ∧ i_block (read_bytes img_boot (get_inode_addr ctx_ex ((11 : Nat) : Int))) k = 0 := by
    decide
  have h3 : walk_map ctx_ex img_spare
      = some [(2, 3), (11, 2)] := by decide
  have h4 : walk_map ctx_ex img_boot
      = some [(0, 10), (2, 3), (11, 2), (30, 2)] := by decide
  exact ⟨h1, h2, h3, h4⟩

set_option maxRecDepth 100000 in
set_option maxHeartbeats 4000000 in
/-- Claim C28, the code at the failing input: on `img_triply` the root directory
has the triply indirect root 20 and `mark_block_triply` marks the blocks 21, 22
and, three levels below the root, the data blocks 23 and 1024.  The walk
instead takes block 22, two levels below the root, for a directory block: it
counts an entry for inode 23, the first word of block 22, and counts none for
inode 30, whose entry `f` is in the data block 23. -/
theorem traverse_triply_stops_one_level_short :
    i_block (read_bytes img_triply (get_inode_addr ctx_2k ((2 : Nat) : Int))) 14 = 20
    ∧ (List.range 1030).filter
        (fun b => mark_block_triply ctx_2k img_triply
          (read_bytes img_triply (blk_addr ctx_2k 20)) (fun _ => 0) b = 1)
        = [21, 22, 23, 1024]
    ∧ rd32 (read_bytes img_triply (blk_addr ctx_2k 23)) 0 = 30
    ∧ rd32 (read_bytes img_triply (blk_addr ctx_2k 22)) 0 = 23
    ∧ walk_map ctx_2k img_triply
        = some [(2, 3), (11, 2), (23, 1)] := by
  have h1 : i_block (read_bytes img_triply (get_inode_addr ctx_2k ((2 : Nat) : Int))) 14 = 20 := by
    decide
  have h2 : (List.range 1030).filter
      (fun b => mark_block_triply ctx_2k img_triply
        (read_bytes img_triply (blk_addr ctx_2k 20)) (fun _ => 0) b = 1)
      = [21, 22, 23, 1024] := by decide
  have h3 : rd32 (read_bytes img_triply (blk_addr ctx_2k 23)) 0 = 30 := by decide
  have h4 : rd32 (read_bytes img_triply (blk_addr ctx_2k 22)) 0 = 23 := by decide
  have h5 : walk_map ctx_2k img_triply
      = some [(2, 3), (11, 2), (23, 1)] := by decide
  exact ⟨h1, h2, h3, h4, h5⟩

set_option maxRecDepth 100000 in
set_option maxHeartbeats 4000000 in
/-- Claim C30, the code at the failing input: on `img_indirect` the root
directory has the entry `f` for inode 30 in block 21, which its singly indirect
block 20 lists, and `search_filename_in_singly` finds it; yet
`get_inode_by_filepath("/f")` returns 2, the inode of the root, and
`get_inode_by_filepath("/f/x")` returns 2 as well, though inode 30 is no
directory and has no entry `x`.  The entry `lost+found` of the direct block is
resolved to 11. -/
theorem get_inode_by_filepath_indirect_returns_directory :
    i_block (read_bytes img_indirect (get_inode_addr ctx_ex ((2 : Nat) : Int))) 12 = 20
    ∧ search_filename_in_singly ctx_ex 64 img_indirect
        (read_bytes img_indirect (blk_addr ctx_ex 20)) [102] = some 30
    ∧ get_inode_by_filepath ctx_ex 64 img_indirect [47, 102] = some 2
    ∧ get_inode_by_filepath ctx_ex 64 img_indirect [47, 102, 47, 120] = some 2
    ∧ get_inode_by_filepath ctx_ex 64 img_indirect LOST_FOUND_PATH = some 11 := by
  have h1 : i_block (read_bytes img_indirect (get_inode_addr ctx_ex ((2 : Nat) : Int))) 12
      = 20 := by decide
  have h2 : search_filename_in_singly ctx_ex 64 img_indirect
      (read_bytes img_indirect (blk_addr ctx_ex 20)) [102] = some 30 := by decide
  have h3 : get_inode_by_filepath ctx_ex 64 img_indirect [47, 102] = some 2 := by decide
  have h4 : get_inode_by_filepath ctx_ex 64 img_indirect [47, 102, 47, 120] = some 2 := by
    decide
  have h5 : get_inode_by_filepath ctx_ex 64 img_indirect LOST_FOUND_PATH = some 11 := by decide
  exact ⟨h1, h2, h3, h4, h5⟩


/-! ## The watching walk computes the state of the walk -/

theorem traverse_direct_block_ck_real (walk : Nat → Nat → State → Option State)
    (walkc : Nat → Nat → State → Option (Option State)) (c : Ctx) (bo bn cur par : Nat)
    (hw : ∀ i p s s1, walkc i p s = some (some s1) → walk i p s = some s1) :
    ∀ (fuel base cnt : Nat) (buf name : Disk) (s s1 : State),
      traverse_direct_block_ck walkc c bo bn cur par fuel base cnt buf name s = some (some s1) →
      traverse_direct_block walk c bo bn cur par fuel base cnt buf name s = some s1 := by
  intro fuel
  induction fuel with
  | zero => intro base cnt buf name s s1 h; simp [traverse_direct_block_ck] at h
  | succ fuel ih =>
    intro base cnt buf name s s1 h
    rw [traverse_direct_block_ck] at h
    rw [traverse_direct_block]
    split at h
    · rename_i hb
      rw [if_pos hb]
      simp only at h ⊢
      split at h
      · exact absurd h (by simp)
      · split at h
        · rename_i hg
          rw [if_pos hg]
          split at h
          · exact absurd h (by simp)
          · exact absurd h (by simp)
          · rename_i s4 h4
            rw [hw _ _ _ _ h4]
            exact ih _ _ _ _ _ _ h
        · rename_i hg
          rw [if_neg hg]
          exact ih _ _ _ _ _ _ h
    · rename_i hb
      rw [if_neg hb]
      simp only [Option.some.injEq] at h
      rw [h]

theorem for_each_ck_real (f : Nat → State → Option State)
    (fc : Nat → State → Option (Option State)) (l : List Nat)
    (hf : ∀ i s s1, fc i s = some (some s1) → f i s = some s1) :
    ∀ (s s1 : State), for_each_ck fc l s = some (some s1) → for_each f l s = some s1 := by
  induction l with
  | nil =>
    intro s s1 h
    simp only [for_each_ck, Option.some.injEq] at h
    simp only [for_each, h]
  | cons i l ih =>
    intro s s1 h
    rw [for_each_ck] at h
    rw [for_each]
    split at h
    · exact absurd h (by simp)
    · exact absurd h (by simp)
    · rename_i s2 h2
      rw [hf _ _ _ h2]
      exact ih _ _ h

theorem indirect_loop_ck_real (f : Nat → State → Option State)
    (fc : Nat → State → Option (Option State)) (buf : Disk)
    (hf : ∀ b s s1, fc b s = some (some s1) → f b s = some s1) :
    ∀ (n i : Nat) (s s1 : State), indirect_loop_ck fc buf n i s = some (some s1) →
      indirect_loop f buf n i s = some s1 := by
  intro n
  induction n with
  | zero =>
    intro i s s1 h
    simp only [indirect_loop_ck, Option.some.injEq] at h
    simp only [indirect_loop, h]
  | succ n ih =>
    intro i s s1 h
    rw [indirect_loop_ck] at h
    rw [indirect_loop]
    split at h
    · rename_i hz
      rw [if_pos hz]
      simp only [Option.some.injEq] at h
      rw [h]
    · rename_i hz
      rw [if_neg hz]
      split at h
      · exact absurd h (by simp)
      · exact absurd h (by simp)
      · rename_i s2 h2
        rw [hf _ _ _ h2]
        exact ih _ _ _ h

theorem traverse_singly_ck_real (walk : Nat → Nat → State → Option State)
    (walkc : Nat → Nat → State → Option (Option State)) (c : Ctx) (stk : Stale) (fuel : Nat)
    (hw : ∀ i p s s1, walkc i p s = some (some s1) → walk i p s = some s1)
    (buf : Disk) (cur par : Nat) (s s1 : State)
    (h : traverse_singly_ck walkc c stk fuel buf cur par s = some (some s1)) :
    traverse_singly walk c stk fuel buf cur par s = some s1 := by
  unfold traverse_singly_ck at h
  unfold traverse_singly
  refine indirect_loop_ck_real _ _ buf ?_ _ _ _ _ h
  intro b u u1 hu
  exact traverse_direct_block_ck_real walk walkc c _ 1 cur par hw _ _ _ _ _ _ _ hu

theorem traverse_doubly_ck_real (walk : Nat → Nat → State → Option State)
    (walkc : Nat → Nat → State → Option (Option State)) (c : Ctx) (stk : Stale) (fuel : Nat)
    (hw : ∀ i p s s1, walkc i p s = some (some s1) → walk i p s = some s1)
    (buf : Disk) (cur par : Nat) (s s1 : State)
    (h : traverse_doubly_ck walkc c stk fuel buf cur par s = some (some s1)) :
    traverse_doubly walk c stk fuel buf cur par s = some s1 := by
  unfold traverse_doubly_ck at h
  unfold traverse_doubly
  refine indirect_loop_ck_real _ _ buf ?_ _ _ _ _ h
  intro b u u1 hu
  exact traverse_singly_ck_real walk walkc c stk fuel hw _ cur par _ _ hu

theorem traverse_triply_ck_real (walk : Nat → Nat → State → Option State)
    (walkc : Nat → Nat → State → Option (Option State)) (c : Ctx) (stk : Stale) (fuel : Nat)
    (hw : ∀ i p s s1, walkc i p s = some (some s1) → walk i p s = some s1)
    (buf : Disk) (cur par : Nat) (s s1 : State)
    (h : traverse_triply_ck walkc c stk fuel buf cur par s = some (some s1)) :
    traverse_triply walk c stk fuel buf cur par s = some s1 := by
  unfold traverse_triply_ck at h
  unfold traverse_triply
  refine indirect_loop_ck_real _ _ buf ?_ _ _ _ _ h
  intro b u u1 hu
  exact traverse_singly_ck_real walk walkc c stk fuel hw _ cur par _ _ hu

theorem traverse_dir_ck_real (c : Ctx) (stk : Stale) :
    ∀ (fuel n p : Nat) (s s1 : State), traverse_dir_ck c stk fuel n p s = some (some s1) →
      traverse_dir c stk fuel n p s = some s1 := by
  intro fuel
  induction fuel with
  | zero => intro n p s s1 h; simp [traverse_dir_ck] at h
  | succ fuel ih =>
    intro n p s s1 h
    rw [traverse_dir_ck] at h
    rw [traverse_dir]
    split at h
    · rename_i hd
      rw [if_pos hd]
      simp only [Option.some.injEq] at h
      rw [h]
    · rename_i hd
      rw [if_neg hd]
      split at h
      · exact absurd h (by simp)
      · exact absurd h (by simp)
      · rename_i u1 h1
        have e1 := for_each_ck_real
          (fun i s1 =>
            if i_block (read_bytes s.disk (get_inode_addr c (toInt32 n))) i = 0 then some s1
            else
              traverse_direct_block (traverse_dir c stk fuel) c
                (blk_addr c (i_block (read_bytes s.disk (get_inode_addr c (toInt32 n))) i)) i
                n p fuel 0 1
                (read_bytes s1.disk
                  (blk_addr c (i_block (read_bytes s.disk (get_inode_addr c (toInt32 n))) i)))
                (stk s1 (blk_addr c (i_block (read_bytes s.disk (get_inode_addr c (toInt32 n))) i))) s1) _ _ (by
            intro i u u' hu
            simp only at hu ⊢
            split at hu
            · rename_i hz
              rw [if_pos hz]
              simp only [Option.some.injEq] at hu
              rw [hu]
            · rename_i hz
              rw [if_neg hz]
              exact traverse_direct_block_ck_real _ _ c _ i n p ih _ _ _ _ _ _ _ hu) _ _ h1
        rw [e1]
        simp only
        split at h
        · exact absurd h (by simp)
        · exact absurd h (by simp)
        · rename_i u2 h2
          rw [traverse_singly_ck_real _ _ c stk fuel ih _ n p _ _ h2]
          simp only
          split at h
          · exact absurd h (by simp)
          · exact absurd h (by simp)
          · rename_i u3 h3
            rw [traverse_doubly_ck_real _ _ c stk fuel ih _ n p _ _ h3]
            simp only
            exact traverse_triply_ck_real _ _ c stk fuel ih _ n p _ _ h

/-! ## The walk ends -/

theorem unseen_mono (c : Ctx) (s s1 : State) (h : MapGrows s s1) :
    (unseen c s1).card ≤ (unseen c s).card := by
  apply Finset.card_le_card
  intro k hk
  simp only [unseen, Finset.mem_filter, Finset.mem_range] at hk ⊢
  have := h k
  exact ⟨hk.1, by omega⟩

theorem unseen_drop (c : Ctx) (s s1 : State) (h : MapGrows s s1) (k : Nat)
    (hk : k ≤ c.num_inodes) (h0 : s.inode_map k = 0) (h1 : s1.inode_map k ≠ 0) :
    (unseen c s1).card + 1 ≤ (unseen c s).card := by
  apply Finset.card_lt_card
  refine ⟨?_, ?_⟩
  · intro j hj
    simp only [unseen, Finset.mem_filter, Finset.mem_range] at hj ⊢
    have := h j
    exact ⟨hj.1, by omega⟩
  · intro hsub
    have hin : k ∈ unseen c s := by
      simp only [unseen, Finset.mem_filter, Finset.mem_range]
      exact ⟨by omega, h0⟩
    have := hsub hin
    simp only [unseen, Finset.mem_filter, Finset.mem_range] at this
    exact h1 this.2

theorem unseen_le (c : Ctx) (s : State) : (unseen c s).card ≤ c.num_inodes + 1 := by
  have := Finset.card_filter_le (Finset.range (c.num_inodes + 1)) (fun k => s.inode_map k = 0)
  simpa [unseen] using this

theorem traverse_direct_block_ck_ends (walk : Nat → Nat → State → Option State)
    (walkc : Nat → Nat → State → Option (Option State)) (c : Ctx) (bo bn cur par Z0 : Nat)
    (hw : ∀ i p s s1, walkc i p s = some (some s1) → walk i p s = some s1)
    (hwalk : ∀ i p t t1, walk i p t = some t1 → MapGrows t t1)
    (hne : ∀ i p s, (unseen c s).card + 1 ≤ Z0 → walkc i p s ≠ none) :
    ∀ (fuel base cnt : Nat) (buf name : Disk) (s : State), 0 < fuel →
      c.block_size < fuel + base → (unseen c s).card ≤ Z0 →
      traverse_direct_block_ck walkc c bo bn cur par fuel base cnt buf name s ≠ none := by
  intro fuel
  induction fuel with
  | zero => intro base cnt buf name s h; omega
  | succ fuel ih =>
    intro base cnt0 buf name s _ hb hZ
    rw [traverse_direct_block_ck]
    split
    · rename_i hlt
      simp only
      generalize cnt_after_name (rd8 buf (base + 6)) cnt0 = cnt
      split
      · simp
      · rename_i hgood
        have hrec : 0 < rd16 buf (base + 4) := by
          by_contra hc
          exact hgood (Or.inl (by omega))
        have hin : rd32 (check_entry c bo bn cur par base cnt buf name s).1 base
            ≤ c.num_inodes := by
          by_contra hc
          exact hgood (Or.inr (by omega))
        have hgrow := check_entry_grows c bo bn cur par base cnt buf name s
        have hZ1 := unseen_mono c _ _ hgrow
        split
        · rename_i hguard
          have hle : (check_entry c bo bn cur par base cnt buf name s).2.2.inode_map
              (rd32 (check_entry c bo bn cur par base cnt buf name s).1 base) ≤ 1 := by
            simp only [Bool.and_eq_true, decide_eq_true_eq] at hguard
            exact hguard.1.2
          have hmap := check_entry_map c bo bn cur par base cnt buf name s
            (rd32 (check_entry c bo bn cur par base cnt buf name s).1 base)
          rw [if_pos ⟨rfl, hin⟩] at hmap
          have hdrop := unseen_drop c _ _ hgrow _ hin (by omega) (by omega)
          split
          · rename_i hnone
            exact absurd hnone (hne _ _ _ (by omega))
          · simp
          · rename_i s4 h4
            have hg4 := hwalk _ _ _ _ (hw _ _ _ _ h4)
            have hZ4 := unseen_mono c _ _ hg4
            exact ih _ _ _ _ _ (by omega) (by omega) (by omega)
        · exact ih _ _ _ _ _ (by omega) (by omega) (by omega)
    · simp

theorem for_each_ck_ends (c : Ctx) (f : Nat → State → Option State)
    (fc : Nat → State → Option (Option State)) (l : List Nat) (Z0 : Nat)
    (hf : ∀ i s s1, fc i s = some (some s1) → f i s = some s1)
    (hfg : ∀ i t t1, f i t = some t1 → MapGrows t t1)
    (hne : ∀ i s, (unseen c s).card ≤ Z0 → fc i s ≠ none) :
    ∀ (s : State), (unseen c s).card ≤ Z0 → for_each_ck fc l s ≠ none := by
  induction l with
  | nil => intro s _; simp [for_each_ck]
  | cons i l ih =>
    intro s hZ
    rw [for_each_ck]
    split
    · rename_i hnone
      exact absurd hnone (hne _ _ hZ)
    · simp
    · rename_i s1 h1
      have := unseen_mono c _ _ (hfg _ _ _ (hf _ _ _ h1))
      exact ih _ (by omega)

theorem indirect_loop_ck_ends (c : Ctx) (f : Nat → State → Option State)
    (fc : Nat → State → Option (Option State)) (buf : Disk) (Z0 : Nat)
    (hf : ∀ b s s1, fc b s = some (some s1) → f b s = some s1)
    (hfg : ∀ b t t1, f b t = some t1 → MapGrows t t1)
    (hne : ∀ b s, (unseen c s).card ≤ Z0 → fc b s ≠ none) :
    ∀ (n i : Nat) (s : State), (unseen c s).card ≤ Z0 → indirect_loop_ck fc buf n i s ≠ none := by
  intro n
  induction n with
  | zero => intro i s _; simp [indirect_loop_ck]
  | succ n ih =>
    intro i s hZ
    rw [indirect_loop_ck]
    split
    · simp
    · split
      · rename_i hnone
        exact absurd hnone (hne _ _ hZ)
      · simp
      · rename_i s1 h1
        have := unseen_mono c _ _ (hfg _ _ _ (hf _ _ _ h1))
        exact ih _ _ (by omega)

theorem traverse_singly_ck_ends (walk : Nat → Nat → State → Option State)
    (walkc : Nat → Nat → State → Option (Option State)) (c : Ctx) (stk : Stale)
    (fuel Z0 : Nat)
    (hw : ∀ i p s s1, walkc i p s = some (some s1) → walk i p s = some s1)
    (hwalk : ∀ i p t t1, walk i p t = some t1 → MapGrows t t1)
    (hne : ∀ i p s, (unseen c s).card + 1 ≤ Z0 → walkc i p s ≠ none)
    (hfuel : c.block_size < fuel)
    (buf : Disk) (cur par : Nat) (s : State) (hZ : (unseen c s).card ≤ Z0) :
    traverse_singly_ck walkc c stk fuel buf cur par s ≠ none := by
  unfold traverse_singly_ck
  refine indirect_loop_ck_ends c
    (fun blk s1 =>
      traverse_direct_block walk c (blk_addr c blk) 1 cur par
        fuel 0 1 (read_bytes s1.disk (blk_addr c blk)) (stk s1 (blk_addr c blk)) s1)
    _ buf Z0 ?_ ?_ ?_ _ _ s hZ
  · intro b u u1 hu
    exact traverse_direct_block_ck_real walk walkc c _ 1 cur par hw _ _ _ _ _ _ _ hu
  · intro b t t1 ht
    exact traverse_direct_block_grows walk c _ 1 cur par hwalk _ _ _ _ _ _ _ ht
  · intro b u hu
    exact traverse_direct_block_ck_ends walk walkc c _ 1 cur par Z0 hw hwalk hne _ _ _ _ _ _
      (by omega) (by omega) hu

theorem traverse_doubly_ck_ends (walk : Nat → Nat → State → Option State)
    (walkc : Nat → Nat → State → Option (Option State)) (c : Ctx) (stk : Stale)
    (fuel Z0 : Nat)
    (hw : ∀ i p s s1, walkc i p s = some (some s1) → walk i p s = some s1)
    (hwalk : ∀ i p t t1, walk i p t = some t1 → MapGrows t t1)
    (hne : ∀ i p s, (unseen c s).card + 1 ≤ Z0 → walkc i p s ≠ none)
    (hfuel : c.block_size < fuel)
    (buf : Disk) (cur par : Nat) (s : State) (hZ : (unseen c s).card ≤ Z0) :
    traverse_doubly_ck walkc c stk fuel buf cur par s ≠ none := by
  unfold traverse_doubly_ck
  refine indirect_loop_ck_ends c
    (fun blk s1 =>
      traverse_singly walk c stk fuel (read_bytes s1.disk (blk_addr c blk)) cur par s1)
    _ buf Z0 ?_ ?_ ?_ _ _ s hZ
  · intro b u u1 hu
    exact traverse_singly_ck_real walk walkc c stk fuel hw _ cur par _ _ hu
  · intro b t t1 ht
    exact traverse_singly_grows walk c stk fuel hwalk _ cur par _ _ ht
  · intro b u hu
    exact traverse_singly_ck_ends walk walkc c stk fuel Z0 hw hwalk hne hfuel _ cur par u hu

theorem traverse_triply_ck_ends (walk : Nat → Nat → State → Option State)
    (walkc : Nat → Nat → State → Option (Option State)) (c : Ctx) (stk : Stale)
    (fuel Z0 : Nat)
    (hw : ∀ i p s s1, walkc i p s = some (some s1) → walk i p s = some s1)
    (hwalk : ∀ i p t t1, walk i p t = some t1 → MapGrows t t1)
    (hne : ∀ i p s, (unseen c s).card + 1 ≤ Z0 → walkc i p s ≠ none)
    (hfuel : c.block_size < fuel)
    (buf : Disk) (cur par : Nat) (s : State) (hZ : (unseen c s).card ≤ Z0) :
    traverse_triply_ck walkc c stk fuel buf cur par s ≠ none := by
  unfold traverse_triply_ck
  refine indirect_loop_ck_ends c
    (fun blk s1 =>
      traverse_singly walk c stk fuel (read_bytes s1.disk (blk_addr c blk)) cur par s1)
    _ buf Z0 ?_ ?_ ?_ _ _ s hZ
  · intro b u u1 hu
    exact traverse_singly_ck_real walk walkc c stk fuel hw _ cur par _ _ hu
  · intro b t t1 ht
    exact traverse_singly_grows walk c stk fuel hwalk _ cur par _ _ ht
  · intro b u hu
    exact traverse_singly_ck_ends walk walkc c stk fuel Z0 hw hwalk hne hfuel _ cur par u hu

theorem traverse_dir_ck_ends (c : Ctx) (stk : Stale) :
    ∀ (fuel n p : Nat) (s : State), (unseen c s).card + c.block_size + 2 ≤ fuel →
      traverse_dir_ck c stk fuel n p s ≠ none := by
  intro fuel
  induction fuel with
  | zero => intro n p s h; omega
  | succ fuel ih =>
    intro n p s hfuel
    have hw : ∀ i q t t1, traverse_dir_ck c stk fuel i q t = some (some t1) →
        traverse_dir c stk fuel i q t = some t1 := traverse_dir_ck_real c stk fuel
    have hwalk : ∀ i q t t1, traverse_dir c stk fuel i q t = some t1 → MapGrows t t1 :=
      traverse_dir_grows c stk fuel
    have hne : ∀ i q t, (unseen c t).card + 1 ≤ (unseen c s).card →
        traverse_dir_ck c stk fuel i q t ≠ none :=
      fun i q t ht => ih i q t (by omega)
    have hbs : c.block_size < fuel := by omega
    rw [traverse_dir_ck]
    split
    · simp
    · have hfe : ∀ u, (unseen c u).card ≤ (unseen c s).card →
          for_each_ck
            (fun i s1 =>
              if i_block (read_bytes s.disk (get_inode_addr c (toInt32 n))) i = 0 then
                some (some s1)
              else
                traverse_direct_block_ck (traverse_dir_ck c stk fuel) c
                  (blk_addr c (i_block (read_bytes s.disk (get_inode_addr c (toInt32 n))) i)) i
                  n p fuel 0 1
                  (read_bytes s1.disk
                    (blk_addr c (i_block (read_bytes s.disk (get_inode_addr c (toInt32 n))) i)))
                  (stk s1 (blk_addr c (i_block (read_bytes s.disk (get_inode_addr c (toInt32 n))) i))) s1)
            (List.range EXT2_NDIR_BLOCKS) u ≠ none := by
        refine for_each_ck_ends c
          (fun i s1 =>
            if i_block (read_bytes s.disk (get_inode_addr c (toInt32 n))) i = 0 then some s1
            else
              traverse_direct_block (traverse_dir c stk fuel) c
                (blk_addr c (i_block (read_bytes s.disk (get_inode_addr c (toInt32 n))) i)) i
                n p fuel 0 1
                (read_bytes s1.disk
                  (blk_addr c (i_block (read_bytes s.disk (get_inode_addr c (toInt32 n))) i)))
                (stk s1 (blk_addr c (i_block (read_bytes s.disk (get_inode_addr c (toInt32 n))) i))) s1) _ _ _ ?_ ?_ ?_
        · intro i u u1 hu
          simp only at hu ⊢
          split at hu
          · rename_i hz
            rw [if_pos hz]
            simp only [Option.some.injEq] at hu
            rw [hu]
          · rename_i hz
            rw [if_neg hz]
            exact traverse_direct_block_ck_real _ _ c _ i n p hw _ _ _ _ _ _ _ hu
        · intro i t t1 ht
          simp only at ht
          split at ht
          · simp only [Option.some.injEq] at ht
            rw [← ht]
            exact MapGrows_refl _
          · exact traverse_direct_block_grows _ c _ i n p hwalk _ _ _ _ _ _ _ ht
        · intro i u hu
          split
          · simp
          · exact traverse_direct_block_ck_ends _ _ c _ i n p _ hw hwalk hne _ _ _ _ _ _
              (by omega) (by omega) hu
      split
      · rename_i hnone
        exact absurd hnone (hfe s (Nat.le_refl _))
      · simp
      · rename_i u1 h1
        have hg1 : MapGrows s u1 := by
          have := for_each_ck_real
            (fun i s1 =>
              if i_block (read_bytes s.disk (get_inode_addr c (toInt32 n))) i = 0 then some s1
              else
                traverse_direct_block (traverse_dir c stk fuel) c
                  (blk_addr c (i_block (read_bytes s.disk (get_inode_addr c (toInt32 n))) i)) i
                  n p fuel 0 1
                  (read_bytes s1.disk
                    (blk_addr c (i_block (read_bytes s.disk (get_inode_addr c (toInt32 n))) i)))
                  (stk s1 (blk_addr c (i_block (read_bytes s.disk (get_inode_addr c (toInt32 n))) i))) s1) _ _ (by
              intro i u u' hu
              simp only at hu ⊢
              split at hu
              · rename_i hz
                rw [if_pos hz]
                simp only [Option.some.injEq] at hu
                rw [hu]
              · rename_i hz
                rw [if_neg hz]
                exact traverse_direct_block_ck_real _ _ c _ i n p hw _ _ _ _ _ _ _ hu) _ _ h1
          refine for_each_grows _ _ ?_ _ _ this
          intro i t t1 ht
          simp only at ht
          split at ht
          · simp only [Option.some.injEq] at ht
            rw [← ht]
            exact MapGrows_refl _
          · exact traverse_direct_block_grows _ c _ i n p hwalk _ _ _ _ _ _ _ ht
        have hZ1 := unseen_mono c _ _ hg1
        split
        · rename_i hnone
          exact absurd hnone
            (traverse_singly_ck_ends _ _ c stk fuel _ hw hwalk hne hbs _ n p u1 hZ1)
        · simp
        · rename_i u2 h2
          have hg2 := traverse_singly_grows _ c stk fuel hwalk _ n p _ _
            (traverse_singly_ck_real _ _ c stk fuel hw _ n p _ _ h2)
          have hZ2 := unseen_mono c _ _ hg2
          split
          · rename_i hnone
            exact absurd hnone
              (traverse_doubly_ck_ends _ _ c stk fuel _ hw hwalk hne hbs _ n p u2 (by omega))
          · simp
          · rename_i u3 h3
            have hg3 := traverse_doubly_grows _ c stk fuel hwalk _ n p _ _
              (traverse_doubly_ck_real _ _ c stk fuel hw _ n p _ _ h3)
            have hZ3 := unseen_mono c _ _ hg3
            exact traverse_triply_ck_ends _ _ c stk fuel _ hw hwalk hne hbs _ n p u3
              (by omega)

/-- Claim C32: walk termination.  With fuel of at least `num_inodes +
block_size + 3` the walk `traverse_dir(root, root)`, from a zeroed reference map
or any other, does not run out of fuel: either it reads a directory entry whose
`rec_len` is 0 or whose inode number is above `num_inodes`, or it returns, and
then the walk of traverse.c returns the same state.  Cycles among the
directory entries and wrong `.`/`..` entries do not matter: a recursion needs an
inode whose count was 0 before the entry, and counts never decrease. -/
theorem traverse_dir_terminates (c : Ctx) (stk : Stale) (fuel : Nat) (s : State)
    (hfuel : c.num_inodes + c.block_size + 3 ≤ fuel) :
    traverse_dir_ck c stk fuel EXT2_ROOT_INO EXT2_ROOT_INO s = some none
    ∨ ∃ s1, traverse_dir_ck c stk fuel EXT2_ROOT_INO EXT2_ROOT_INO s = some (some s1)
        ∧ traverse_dir c stk fuel EXT2_ROOT_INO EXT2_ROOT_INO s = some s1 := by
  have hZ := unseen_le c s
  have hne := traverse_dir_ck_ends c stk fuel EXT2_ROOT_INO EXT2_ROOT_INO s (by omega)
  cases hr : traverse_dir_ck c stk fuel EXT2_ROOT_INO EXT2_ROOT_INO s with
  | none => exact absurd hr hne
  | some o =>
    cases o with
    | none => exact Or.inl rfl
    | some s1 =>
      exact Or.inr ⟨s1, rfl, traverse_dir_ck_real c stk fuel _ _ s s1 hr⟩

set_option maxRecDepth 100000 in
/-- Witness for `traverse_dir_terminates`: on `img_cycle`, where the directory
`/d/e` has an entry for its parent `/d`, the walk with fuel 1059 reads no entry
with `rec_len` 0 or an inode number above 32, and returns. -/
theorem traverse_dir_terminates_witness :
    (traverse_dir_ck ctx_ex (fun _ _ _ => 0) 1059 EXT2_ROOT_INO EXT2_ROOT_INO
        { disk := img_cycle, inode_map := fun _ => 0, log := [] }).map
      (fun o => o.map (fun s => s.inode_map 12)) = some (some 4)
    ∧ (traverse_dir_ck ctx_ex (fun _ _ _ => 0) 1059 EXT2_ROOT_INO EXT2_ROOT_INO
          { disk := img_cycle, inode_map := fun _ => 0, log := [] } = some none
      ∨ ∃ s1, traverse_dir_ck ctx_ex (fun _ _ _ => 0) 1059 EXT2_ROOT_INO EXT2_ROOT_INO
            { disk := img_cycle, inode_map := fun _ => 0, log := [] } = some (some s1)
          ∧ traverse_dir ctx_ex (fun _ _ _ => 0) 1059 EXT2_ROOT_INO EXT2_ROOT_INO
            { disk := img_cycle, inode_map := fun _ => 0, log := [] } = some s1) := by
  have h1 : (traverse_dir_ck ctx_ex (fun _ _ _ => 0) 1059 EXT2_ROOT_INO EXT2_ROOT_INO
        { disk := img_cycle, inode_map := fun _ => 0, log := [] }).map
      (fun o => o.map (fun s => s.inode_map 12)) = some (some 4) := by decide
  exact ⟨h1, traverse_dir_terminates ctx_ex (fun _ _ _ => 0) 1059
    { disk := img_cycle, inode_map := fun _ => 0, log := [] } (by decide)⟩

/-! ## The code at the failing inputs of the last claims -/

set_option maxRecDepth 100000 in
/-- Claim C31, the code at the failing input: in block 10 of `img_emptytail` the
final entry, at offset 24, has `name_len` 0; for a new entry of 9 bytes there is
room, and `find_dir_end_in_direct` rewrites the `rec_len` of the final entry to
12 and returns the address 12 bytes after its start, where `8 + ⌈0 / 4⌉ * 4` is
8: `(name_len - 1) / 4 * 4 + 4` is 4 for `name_len = 0`. -/
theorem find_dir_end_in_direct_empty_name :
    (find_last_entry ctx_ex (read_bytes img_emptytail (blk_addr ctx_ex 10)) 64 0
        (fun _ => 0)).map Prod.fst = some 24
    ∧ rd8 (read_bytes img_emptytail (blk_addr ctx_ex 10)) (24 + 6) = 0
    ∧ name_size 0 = 4
    ∧ (find_dir_end_in_direct ctx_ex 64 (fun _ => 0) img_emptytail (blk_addr ctx_ex 10)
        (read_bytes img_emptytail (blk_addr ctx_ex 10)) 9).map
        (fun r => (r.1, rd16 r.2 (blk_addr ctx_ex 10 + 24 + 4)))
        = some (blk_addr ctx_ex 10 + 24 + 12, 12) := by
  decide

set_option maxRecDepth 100000 in
/-- Claim C33, the code at the failing input: for `ctx_fullgroup` (blocks of 1
KiB, `num_blocks = blocks_per_group = 8192`, so `num_groups = 1` and
`first_data = 1`) the loop compares 8192 bits of group 0, and for bit 8191 it
reads `block_expected[0 * 8192 + 8191 + 1]`, the index 8192, which is the length
of the map.  The cell read is memory behind the allocation: what the heap holds
there reaches the comparison and is reported. -/
theorem compare_reads_behind_block_expected :
    ctx_fullgroup.num_groups
        = (Int.tdiv ((ctx_fullgroup.num_blocks : Int) - 1) ctx_fullgroup.blocks_per_group
            + 1).toNat
    ∧ 8191 < bits_compared ctx_fullgroup
        (ctx_fullgroup.num_blocks - 0 * ctx_fullgroup.blocks_per_group)
    ∧ 0 * ctx_fullgroup.blocks_per_group + 8191 + s_fst_db ctx_fullgroup
        = ctx_fullgroup.num_groups * ctx_fullgroup.blocks_per_group
    ∧ (build_block_map ctx_fullgroup 8 (fun i => if i = 8192 then 7 else 0)
        { disk := fun _ => 0, inode_map := fun _ => 0, log := [] }).map
        (fun bm => (bm 8191, bm 8192)) = some (0, 7)
    ∧ (compare_bits ctx_fullgroup (fun i => if i = 8192 then 1 else 0) 0 [8191]
        (fun _ => 0, [])).2 = [Report.bitmap_err 8191 0 0] := by
  decide

set_option maxRecDepth 100000 in
set_option maxHeartbeats 4000000 in
/-- Claim C34, the code at the failing input: on `img_outrange` the root entry
`d` has file type "directory" and the inode number 100, above `num_inodes =
32`.  No count changes for it, but the test `my_inode_map[inode] <= 1` reads
the memory behind the map: when that memory holds 0 the walk enters
`traverse_dir` for inode 100, when it holds 5 it does not. -/
theorem out_of_range_entry_is_walked :
    rd32 img_outrange (dir_block0 ctx_ex img_outrange EXT2_ROOT_INO + 44) = 100
    ∧ rd8 img_outrange (dir_block0 ctx_ex img_outrange EXT2_ROOT_INO + 44 + 7) = EXT2_FT_DIR
    ∧ walk_map ctx_ex img_outrange = some [(2, 3), (11, 2)]
    ∧ walk_events_junk ctx_ex img_outrange 0
        = [WalkEvent.enter 2, WalkEvent.entry 2, WalkEvent.entry 2, WalkEvent.entry 11,
           WalkEvent.enter 11, WalkEvent.entry 11, WalkEvent.entry 2, WalkEvent.entry 100,
           WalkEvent.enter 100]
    ∧ walk_events_junk ctx_ex img_outrange 5
        = [WalkEvent.enter 2, WalkEvent.entry 2, WalkEvent.entry 2, WalkEvent.entry 11,
           WalkEvent.enter 11, WalkEvent.entry 11, WalkEvent.entry 2, WalkEvent.entry 100] := by
  have h1 : rd32 img_outrange (dir_block0 ctx_ex img_outrange EXT2_ROOT_INO + 44) = 100 := by
    decide
  have h2 : rd8 img_outrange (dir_block0 ctx_ex img_outrange EXT2_ROOT_INO + 44 + 7)
      = EXT2_FT_DIR := by decide
  have h3 : walk_map ctx_ex img_outrange = some [(2, 3), (11, 2)] := by decide
  have h4 : walk_events_junk ctx_ex img_outrange 0
      = [WalkEvent.enter 2, WalkEvent.entry 2, WalkEvent.entry 2, WalkEvent.entry 11,
         WalkEvent.enter 11, WalkEvent.entry 11, WalkEvent.entry 2, WalkEvent.entry 100,
         WalkEvent.enter 100] := by decide
  have h5 : walk_events_junk ctx_ex img_outrange 5
      = [WalkEvent.enter 2, WalkEvent.entry 2, WalkEvent.entry 2, WalkEvent.entry 11,
         WalkEvent.enter 11, WalkEvent.entry 11, WalkEvent.entry 2, WalkEvent.entry 100] := by
    decide
  exact ⟨h1, h2, h3, h4, h5⟩

set_option maxRecDepth 100000 in
set_option maxHeartbeats 4000000 in
/-- Claim C35, the code at the failing input: on `img_fullind` the direct block
of `/lost+found` has no room and its singly indirect block lists block 21, whose
final entry, the only one, has `rec_len` 1024.  `find_dir_end_in_direct` on
block 21 shrinks the entry to `rec_len` 12 and returns the address after it,
but `get_dir_entry_end(11, 9)` returns `-1` and leaves the entry shrunk on
disk. -/
theorem get_dir_entry_end_fails_after_shrinking :
    i_block (read_bytes img_fullind (get_inode_addr ctx_ex ((11 : Nat) : Int))) 12 = 20
    ∧ rd32 (read_bytes img_fullind (blk_addr ctx_ex 20)) 0 = 21
    ∧ rd16 img_fullind (blk_addr ctx_ex 21 + 4) = 1024
    ∧ (find_dir_end_in_direct ctx_ex 64 (fun _ => 0) img_fullind (blk_addr ctx_ex 21)
        (read_bytes img_fullind (blk_addr ctx_ex 21)) 9).map
        (fun r => (r.1, rd16 r.2 (blk_addr ctx_ex 21 + 4)))
        = some (blk_addr ctx_ex 21 + 12, 12)
    ∧ (get_dir_entry_end ctx_ex 64 (fun _ => 0) img_fullind 11 9).map
        (fun r => (r.1, rd16 r.2 (blk_addr ctx_ex 21 + 4))) = some (4294967295, 12) := by
  have h1 : i_block (read_bytes img_fullind (get_inode_addr ctx_ex ((11 : Nat) : Int))) 12
      = 20 := by decide
  have h2 : rd32 (read_bytes img_fullind (blk_addr ctx_ex 20)) 0 = 21 := by decide
  have h3 : rd16 img_fullind (blk_addr ctx_ex 21 + 4) = 1024 := by decide
  have h4 : (find_dir_end_in_direct ctx_ex 64 (fun _ => 0) img_fullind (blk_addr ctx_ex 21)
      (read_bytes img_fullind (blk_addr ctx_ex 21)) 9).map
      (fun r => (r.1, rd16 r.2 (blk_addr ctx_ex 21 + 4)))
      = some (blk_addr ctx_ex 21 + 12, 12) := by decide
  have h5 : (get_dir_entry_end ctx_ex 64 (fun _ => 0) img_fullind 11 9).map
      (fun r => (r.1, rd16 r.2 (blk_addr ctx_ex 21 + 4))) = some (4294967295, 12) := by decide
  exact ⟨h1, h2, h3, h4, h5⟩

end FSCK
